import Mathlib

/-!
# Value encryption for etcd clients (`clientwrap/encwrapper`)

A shallow embedding of the Go packages `encconfig` (AES-CBC and one-time-pad
ciphers), `skeysapi` (wrapper around the hierarchical v2 `KeysAPI`) and
`skeysapiv3` (wrapper around the flat v3 `KV`), with the properties of the
design document proved about the embedded code.

Conventions of the embedding:

* a Go `byte` is a `Fin 256`; conversions that truncate are written with an
  explicit `% 256` / `% 65536`;
* a Go `[]byte` is a `Slice`, which keeps the nil slice apart from an empty
  non-nil one; a Go `string` is a list of bytes;
* a Go call either returns or panics (`Outcome`); a returned `(value, error)`
  pair is a Lean pair whose second component is `none` for a nil error;
* pieces of the Go standard library the code calls (the AES block primitive,
  the random reader, the base64 codec) and the underlying store client are
  parameters;
* for the properties about which memory a call writes, `encconfig` is embedded
  a second time over an explicit heap of backing arrays (`encconfig.mem`), and
  that embedding is proved to return the values of the first;
* where a statement depends on which strings the decoder rejects, the codec is
  `Go.StdEncoding`, `base64.StdEncoding` as the library documents it;
* for the properties about goroutines sharing a cipher, a goroutine is a state
  machine over the heap that makes one step for every access to the heap, and
  run alone its steps compute the methods of `encconfig.mem`.
-/

namespace Go

/-- A Go `byte`. -/
abbrev Byte := Fin 256

/-- Go conversion `byte(n)` of a non-negative integer: truncation to 8 bits. -/
def byte (n : Nat) : Byte := ⟨n % 256, Nat.mod_lt n (by decide)⟩

/-- Go conversion `uint16(x)` of an `int`: truncation to 16 bits. -/
def uint16 (x : Int) : Nat := (x % 65536).toNat

/-- A Go `string`: an immutable sequence of bytes. -/
abbrev Str := List Byte

/-- A Go `[]byte`. The nil slice is kept apart from an empty non-nil slice. -/
inductive Slice where
  | nil
  | mk (bs : List Byte)
  deriving DecidableEq, Repr

/-- The bytes held by a slice; the nil slice holds none. -/
def Slice.bytes : Slice → List Byte
  | .nil => []
  | .mk bs => bs

/-- Go `len(s)`. -/
def Slice.len (s : Slice) : Nat := s.bytes.length

/-- Go `append(s, t...)`: appending nothing to the nil slice leaves it nil. -/
def Slice.append : Slice → List Byte → Slice
  | .nil, [] => .nil
  | s, t => .mk (s.bytes ++ t)

/-- Go `string(b)` for a `[]byte`. -/
def Slice.toStr (s : Slice) : Str := s.bytes

/-- Go `[]byte(s)` for a `string`: always a non-nil slice. -/
def Slice.ofStr (s : Str) : Slice := .mk s

/-- The outcome of a Go call: a normal return or a run-time panic. -/
inductive Outcome (α : Type) where
  | ret (a : α)
  | panic
  deriving DecidableEq, Repr

/-- Go error values that occur in the packages. Values created by separate
`errors.New` calls are distinct even when their messages coincide. -/
inductive Err where
  /-- Package `encconfig`, file aes.go. -/
  | ErrInvalidKeyLength
  | ErrPKCS7PaddingLengthInvalid
  | ErrPKCS7PaddingInvalid
  | ErrPKCS7PaddingBytesInsufficient
  | ErrAESCipherBlockSizeNotMultiple
  | ErrAESCipherTooShort
  /-- Package `encconfig`, file otp.go. -/
  | ErrKeyInvalidLength
  /-- The `aes.KeySizeError(n)` of `crypto/aes`. -/
  | KeySizeError (n : Nat)
  /-- Any error value created outside the packages (random reader, base64
  decoder, store client), identified by a code. -/
  | external (code : Nat)
  deriving DecidableEq, Repr

/-- The outcome of `io.ReadFull(rand.Reader, buf)`: an error, or a supply of
bytes that fills every position of the buffer. -/
abbrev RandReader := Except Err (Nat → Byte)

/-- The call `io.ReadFull(rand.Reader, buf)` for a buffer of `n` bytes: on
success the buffer holds exactly `n` bytes of the reader. -/
def readFull (rnd : RandReader) (n : Nat) : Except Err (List Byte) :=
  match rnd with
  | .error e => .error e
  | .ok f => .ok ((List.range n).map f)

/-- One cipher block of `aes.BlockSize` bytes. -/
structure Block where
  bytes : List Byte
  size_eq : bytes.length = 16
  deriving DecidableEq

/-- The constant `aes.BlockSize`. -/
def BlockSize : Nat := 16

/-- The 16-byte window at the start of a buffer that holds at least 16 bytes
(`buf[:16]`); shorter buffers never reach this function. -/
def mkBlock (l : List Byte) : Block :=
  ⟨(l ++ List.replicate 16 0).take 16, by simp⟩

/-- Byte-wise exclusive or of two blocks (`subtle.XORBytes`). -/
def Block.xor (a b : Block) : Block :=
  ⟨List.zipWith (fun x y => x ^^^ y) a.bytes b.bytes, by simp [a.size_eq, b.size_eq]⟩

/-- The AES block primitive of `crypto/aes`: for a key, a permutation of
blocks and the function the library documents as its inverse. -/
structure AES where
  encrypt : List Byte → Block → Block
  decrypt : List Byte → Block → Block

/-- The check of `aes.NewCipher(key)`: it fails with `KeySizeError` unless the
key has 16, 24 or 32 bytes; `none` is the nil error. -/
def NewCipher (key : Slice) : Option Err :=
  if key.len = 16 ∨ key.len = 24 ∨ key.len = 32 then none
  else some (.KeySizeError key.len)

/-- Splits the first `16 * n` bytes of a buffer into `n` blocks. -/
def toBlocks : Nat → List Byte → List Block
  | 0, _ => []
  | n + 1, l => mkBlock (l.take 16) :: toBlocks n (l.drop 16)

/-- Concatenates blocks into a buffer. -/
def joinBlocks : List Block → List Byte
  | [] => []
  | b :: bs => b.bytes ++ joinBlocks bs

/-- CBC encryption of a sequence of blocks: each plaintext block is xored with
the previous ciphertext block (the IV for the first) and then encrypted. -/
def cbcEncrypt (E : Block → Block) : Block → List Block → List Block
  | _, [] => []
  | prev, p :: ps =>
    let c := E (p.xor prev)
    c :: cbcEncrypt E c ps

/-- CBC decryption of a sequence of blocks: each ciphertext block is decrypted
and then xored with the previous ciphertext block (the IV for the first). -/
def cbcDecrypt (D : Block → Block) : Block → List Block → List Block
  | _, [] => []
  | prev, c :: cs => (D c).xor prev :: cbcDecrypt D c cs

/-- The call `cipher.NewCBCEncrypter(block, iv).CryptBlocks(dst, src)` with
`len(dst) = len(src)`; returns the bytes written to `dst`. It panics when the
input is not made of full blocks. -/
def CBCEncrypter.CryptBlocks (E : Block → Block) (iv : Block) (src : List Byte) :
    Outcome (List Byte) :=
  if src.length % BlockSize ≠ 0 then .panic
  else .ret (joinBlocks (cbcEncrypt E iv (toBlocks (src.length / BlockSize) src)))

/-- The call `cipher.NewCBCDecrypter(block, iv).CryptBlocks(dst, src)` with
`len(dst) = len(src)`; returns the bytes written to `dst`. It panics when the
input is not made of full blocks. -/
def CBCDecrypter.CryptBlocks (D : Block → Block) (iv : Block) (src : List Byte) :
    Outcome (List Byte) :=
  if src.length % BlockSize ≠ 0 then .panic
  else .ret (joinBlocks (cbcDecrypt D iv (toBlocks (src.length / BlockSize) src)))

/-- The codec `base64.StdEncoding` of `encoding/base64`. `DecodeString`
returns the bytes decoded so far (a non-nil slice) and an error. -/
structure Base64 where
  EncodeToString : List Byte → Str
  DecodeString : Str → List Byte × Option Err

end Go

namespace encconfig

open Go

/-- Constant `AES_128_KEY_LEN = 128 / 8`. -/
def AES_128_KEY_LEN : Nat := 128 / 8
/-- Constant `AES_192_KEY_LEN = 192 / 8`. -/
def AES_192_KEY_LEN : Nat := 192 / 8
/-- Constant `AES_256_KEY_LEN = 256 / 8`. -/
def AES_256_KEY_LEN : Nat := 256 / 8

/-- The struct `aesCBCEncConfig`. -/
structure aesCBCEncConfig where
  key : Slice
  blockSize : Int
  deriving DecidableEq, Repr

/-- Function `NewAESCBCEncConfig`: returns the pair `(config, error)`; a nil
config is `none`. The key is copied into a fresh non-nil buffer. -/
def NewAESCBCEncConfig (key : Slice) : Option aesCBCEncConfig × Option Err :=
  if key.len ≠ AES_128_KEY_LEN ∧ key.len ≠ AES_192_KEY_LEN ∧ key.len ≠ AES_256_KEY_LEN then
    (none, some .ErrInvalidKeyLength)
  else
    (some { key := .mk key.bytes, blockSize := (BlockSize : Int) }, none)

/-- Function `pkcs7pad`. `bsize` is the `uint16` argument. The modulo panics
for a zero block size (integer division by zero). -/
def pkcs7pad (m : Slice) (bsize : Nat) : Outcome Slice :=
  let dataSize := m.len
  let blockSize := bsize
  if blockSize = 0 then .panic
  else
    let numPad := blockSize - (dataSize % blockSize)
    let padding := List.replicate numPad (byte numPad)
    .ret (m.append padding)

/-- Function `pkcs7unpad`. `bsize` is the `uint16` argument. -/
def pkcs7unpad (m : Slice) (bsize : Nat) : Slice × Option Err :=
  let size := m.len
  let blockSize := bsize
  if size = 0 then (.nil, some .ErrPKCS7PaddingLengthInvalid)
  else
    -- `m[size-1]` is in range because `size ≠ 0`
    let numPad := (m.bytes.getD (size - 1) 0).val
    if numPad = 0 then (.nil, some .ErrPKCS7PaddingInvalid)
    else if numPad > size ∨ numPad > blockSize then (.nil, some .ErrPKCS7PaddingInvalid)
    else
      let padding := m.bytes.drop (size - numPad)
      if padding.any (fun k => k != byte numPad) then (.nil, some .ErrPKCS7PaddingInvalid)
      else (.mk (m.bytes.take (size - numPad)), none)

/-- Method `(*aesCBCEncConfig).Encrypt`. `aes` is the block primitive of
`crypto/aes` and `rnd` what `rand.Reader` delivers for the IV. -/
def aesCBCEncConfig.Encrypt (aes : AES) (e : aesCBCEncConfig) (rnd : RandReader)
    (plaintext : Slice) : Outcome (Slice × Option Err) :=
  match pkcs7pad plaintext (uint16 e.blockSize) with
  | .panic => .panic
  | .ret plaintext =>
    match NewCipher e.key with
    | some encErr => .ret (.nil, some encErr)
    | none =>
      -- ciphertext := make([]byte, aes.BlockSize+len(plaintext)); iv := ciphertext[:aes.BlockSize]
      match readFull rnd BlockSize with
      | .error encErr => .ret (.nil, some encErr)
      | .ok iv =>
        match CBCEncrypter.CryptBlocks (aes.encrypt e.key.bytes) (mkBlock iv) plaintext.bytes with
        | .panic => .panic
        | .ret body => .ret (.mk (iv ++ body), none)

/-- Method `(*aesCBCEncConfig).Decrypt`. -/
def aesCBCEncConfig.Decrypt (aes : AES) (e : aesCBCEncConfig) (ciphertext : Slice) :
    Outcome (Slice × Option Err) :=
  match NewCipher e.key with
  | some decErr => .ret (.nil, some decErr)
  | none =>
    if ciphertext.len < BlockSize then .ret (.nil, some .ErrAESCipherTooShort)
    else
      let iv := ciphertext.bytes.take BlockSize
      let ciphertext := ciphertext.bytes.drop BlockSize
      if ciphertext.length % BlockSize ≠ 0 then .ret (.nil, some .ErrAESCipherBlockSizeNotMultiple)
      else
        match CBCDecrypter.CryptBlocks (aes.decrypt e.key.bytes) (mkBlock iv) ciphertext with
        | .panic => .panic
        | .ret plaintext =>
          match pkcs7unpad (.mk plaintext) (uint16 e.blockSize) with
          | (_, some _) => .ret (.nil, none)
          | (plaintext, none) => .ret (plaintext, none)

/-- The struct `otpEncConfig`. -/
structure otpEncConfig where
  key : Slice
  deriving DecidableEq, Repr

/-- Function `NewOTPEncConfig`: returns the pair `(config, error)`; a nil
config is `none`. The key is copied into a fresh non-nil buffer. -/
def NewOTPEncConfig (key : Slice) : Option otpEncConfig × Option Err :=
  if key.len ≤ 0 then (none, some .ErrKeyInvalidLength)
  else (some { key := .mk key.bytes }, none)

/-- The loop of `(*otpEncConfig).Encrypt` from index `i` on: the bytes
`out[i], out[i+1], ...` for the remaining input `m[i:]`. The modulo panics for
an empty key. -/
def otpLoop (key : List Byte) : Nat → List Byte → Outcome (List Byte)
  | _, [] => .ret []
  | i, b :: rest =>
    if key.length = 0 then .panic
    else
      match key[i % key.length]? with
      | none => .panic
      | some k =>
        match otpLoop key (i + 1) rest with
        | .panic => .panic
        | .ret out => .ret ((b ^^^ k) :: out)

/-- Method `(*otpEncConfig).Encrypt`. The output buffer is made non-nil. -/
def otpEncConfig.Encrypt (e : otpEncConfig) (m : Slice) : Outcome (Slice × Option Err) :=
  match otpLoop e.key.bytes 0 m.bytes with
  | .panic => .panic
  | .ret out => .ret (.mk out, none)

/-- Method `(*otpEncConfig).Decrypt`. -/
def otpEncConfig.Decrypt (e : otpEncConfig) (m : Slice) : Outcome (Slice × Option Err) :=
  e.Encrypt m

/-- The interface `EncConfig`: `Encrypt` may draw from the random reader. -/
structure EncConfig where
  Encrypt : RandReader → Slice → Outcome (Slice × Option Err)
  Decrypt : Slice → Outcome (Slice × Option Err)

/-- An `*aesCBCEncConfig` seen as an `EncConfig`. -/
def aesCBCEncConfig.toEncConfig (aes : AES) (e : aesCBCEncConfig) : EncConfig :=
  { Encrypt := fun rnd p => e.Encrypt aes rnd p, Decrypt := fun c => e.Decrypt aes c }

/-- An `*otpEncConfig` seen as an `EncConfig`; it draws no randomness. -/
def otpEncConfig.toEncConfig (e : otpEncConfig) : EncConfig :=
  { Encrypt := fun _ p => e.Encrypt p, Decrypt := fun c => e.Decrypt c }

/-! ### Closed forms used in the statements -/

/-- The plaintext of `Encrypt` after PKCS#7 padding at block size 16. -/
def padded (p : Slice) : List Byte :=
  p.bytes ++ List.replicate (16 - p.len % 16) (byte (16 - p.len % 16))

/-- The ciphertext `Encrypt` builds from the IV `iv` for the plaintext `p`:
the IV followed by the CBC encryption of the padded plaintext. -/
def cipherOf (aes : AES) (key : List Byte) (iv : List Byte) (p : Slice) : List Byte :=
  iv ++ joinBlocks (cbcEncrypt (aes.encrypt key) (mkBlock iv) (toBlocks (p.len / 16 + 1) (padded p)))

end encconfig

namespace skeysapi

open Go encconfig

/-- Type `ValueGetWrapFunc`; the random reader is what the cipher may draw
from during the call. -/
abbrev ValueGetWrapFunc := RandReader → Str → Outcome (Str × Option Err)

/-- Type `ValueSetUnwrapFunc`. -/
abbrev ValueSetUnwrapFunc := Str → Outcome (Str × Option Err)

mutual
/-- A `*Node` of the v2 client: nil, or a node with the fields the wrapper
reads or writes (`Key`, `Dir`, `Value`, `Nodes`). -/
inductive NodePtr where
  | null
  | node (Key : Str) (Dir : Bool) (Value : Str) (Nodes : NodeList)
/-- A `[]*Node`. -/
inductive NodeList where
  | nil
  | cons (head : NodePtr) (tail : NodeList)
end

/-- A `Response` of the v2 client. -/
structure Response where
  Action : Str
  Node : NodePtr
  PrevNode : NodePtr

/-- The interface `KeysAPI` of the v2 client over a store with states `σ`.
Every call returns the next state of the store with its `(*Response, error)`
pair. Contexts, option structs and watchers are passed through untouched and
are abstract (`Ctx`, `Opts`, `W`). -/
structure KeysAPI (σ Ctx Opts W : Type) where
  Get : σ → Ctx → Str → Opts → σ × Option Response × Option Err
  Set : σ → Ctx → Str → Str → Opts → σ × Option Response × Option Err
  Delete : σ → Ctx → Str → Opts → σ × Option Response × Option Err
  Create : σ → Ctx → Str → Str → σ × Option Response × Option Err
  CreateInOrder : σ → Ctx → Str → Str → Opts → σ × Option Response × Option Err
  Update : σ → Ctx → Str → Str → σ × Option Response × Option Err
  Watcher : Str → Opts → W

/-- The struct `secureKeysAPI`; a nil function field is `none`. -/
structure secureKeysAPI (σ Ctx Opts W : Type) where
  k : KeysAPI σ Ctx Opts W
  valueSetWrap : Option ValueGetWrapFunc
  valueGetUnwrap : Option ValueSetUnwrapFunc

/-- Function `GetWrappers`. -/
def GetWrappers (b64 : Base64) (encConf : EncConfig) : ValueGetWrapFunc × ValueSetUnwrapFunc :=
  let wrapper : ValueGetWrapFunc := fun rnd m =>
    let plainBytes := Slice.ofStr m
    match encConf.Encrypt rnd plainBytes with
    | .panic => .panic
    | .ret (_, some wrapErr) => .ret ([], some wrapErr)
    | .ret (encBytes, none) =>
      let bytesStored := encBytes
      let encoded := b64.EncodeToString bytesStored.bytes
      .ret (encoded, none)
  let unwrapper : ValueSetUnwrapFunc := fun m =>
    match b64.DecodeString m with
    | (_, some unwrapErr) => .ret ([], some unwrapErr)
    | (bytesStored, none) =>
      let encBytes := Slice.mk bytesStored
      match encConf.Decrypt encBytes with
      | .panic => .panic
      | .ret (_, some unwrapErr) => .ret ([], some unwrapErr)
      | .ret (plainBytes, none) => .ret (plainBytes.toStr, none)
  (wrapper, unwrapper)

/-- Function `NewSecureKeysAPI`. The returned `KeysAPI` is either the
underlying client itself (`inl`, for a nil `encConf`) or a `*secureKeysAPI`
(`inr`). -/
def NewSecureKeysAPI {σ Ctx Opts W : Type} (b64 : Base64) (k : KeysAPI σ Ctx Opts W)
    (encConf : Option EncConfig) :
    (KeysAPI σ Ctx Opts W ⊕ secureKeysAPI σ Ctx Opts W) × Option Err :=
  match encConf with
  | none => (.inl k, none)
  | some encConf =>
    let (wrapper, unwrapper) := GetWrappers b64 encConf
    (.inr { k := k, valueSetWrap := some wrapper, valueGetUnwrap := some unwrapper }, none)

mutual
/-- The body of `unwrapNode` with `s.valueGetUnwrap = unwrap`: returns the node
as the call leaves it (values are replaced in place) with the error. -/
def unwrapNode (unwrap : ValueSetUnwrapFunc) : NodePtr → Outcome (NodePtr × Option Err)
  | .null => .ret (.null, none)
  | .node key dir value nodes =>
    match unwrapNodes unwrap nodes with
    | .panic => .panic
    | .ret (nodes, some err) => .ret (.node key dir value nodes, some err)
    | .ret (nodes, none) =>
      if value ≠ [] then
        match unwrap value with
        | .panic => .panic
        | .ret (_, some err) => .ret (.node key dir value nodes, some err)
        | .ret (val, none) => .ret (.node key dir val nodes, none)
      else .ret (.node key dir value nodes, none)
/-- The loop `for _, nc := range n.Nodes` of `unwrapNode`. -/
def unwrapNodes (unwrap : ValueSetUnwrapFunc) : NodeList → Outcome (NodeList × Option Err)
  | .nil => .ret (.nil, none)
  | .cons nc rest =>
    match unwrapNode unwrap nc with
    | .panic => .panic
    | .ret (nc, some err) => .ret (.cons nc rest, some err)
    | .ret (nc, none) =>
      match unwrapNodes unwrap rest with
      | .panic => .panic
      | .ret (rest, err) => .ret (.cons nc rest, err)
end

variable {σ Ctx Opts W : Type}

/-- Method `(*secureKeysAPI).unwrapNode`. Calling the nil function panics. -/
def secureKeysAPI.unwrapNode (s : secureKeysAPI σ Ctx Opts W) (n : NodePtr) :
    Outcome (NodePtr × Option Err) :=
  match s.valueGetUnwrap with
  | some unwrap => skeysapi.unwrapNode unwrap n
  | none => skeysapi.unwrapNode (fun _ => .panic) n

/-- Method `(*secureKeysAPI).unwrapResponse`: returns the response as the call
leaves it with the error. Reading a field of a nil response panics. -/
def secureKeysAPI.unwrapResponse (s : secureKeysAPI σ Ctx Opts W) (r : Option Response) :
    Outcome (Option Response × Option Err) :=
  if s.valueGetUnwrap.isSome then
    match r with
    | none => .panic
    | some r =>
      match s.unwrapNode r.Node with
      | .panic => .panic
      | .ret (node, some err) => .ret (some { r with Node := node }, some err)
      | .ret (node, none) =>
        match s.unwrapNode r.PrevNode with
        | .panic => .panic
        | .ret (prev, some err) => .ret (some { r with Node := node, PrevNode := prev }, some err)
        | .ret (prev, none) => .ret (some { r with Node := node, PrevNode := prev }, none)
  else .ret (r, none)

/-- The common tail of the methods: after a successful store call the response
is unwrapped and returned with the unwrap error. -/
def secureKeysAPI.finish (s : secureKeysAPI σ Ctx Opts W)
    (res : σ × Option Response × Option Err) : Outcome (σ × Option Response × Option Err) :=
  match res with
  | (st, _, some err) => .ret (st, none, some err)
  | (st, r, none) =>
    match s.unwrapResponse r with
    | .panic => .panic
    | .ret (r, err) => .ret (st, r, err)

/-- The common head of the value-accepting methods: the value is wrapped
unless the wrap function is nil. -/
def secureKeysAPI.wrapValue (s : secureKeysAPI σ Ctx Opts W) (rnd : RandReader) (value : Str) :
    Outcome (Str × Option Err) :=
  match s.valueSetWrap with
  | none => .ret (value, none)
  | some wrap => wrap rnd value

/-- Method `(*secureKeysAPI).Get`. -/
def secureKeysAPI.Get (s : secureKeysAPI σ Ctx Opts W) (st : σ) (ctx : Ctx) (key : Str)
    (opts : Opts) : Outcome (σ × Option Response × Option Err) :=
  s.finish (s.k.Get st ctx key opts)

/-- Method `(*secureKeysAPI).Set`. -/
def secureKeysAPI.Set (s : secureKeysAPI σ Ctx Opts W) (rnd : RandReader) (st : σ) (ctx : Ctx)
    (key value : Str) (opts : Opts) : Outcome (σ × Option Response × Option Err) :=
  match s.wrapValue rnd value with
  | .panic => .panic
  | .ret (_, some err) => .ret (st, none, some err)
  | .ret (value, none) => s.finish (s.k.Set st ctx key value opts)

/-- Method `(*secureKeysAPI).Delete`. -/
def secureKeysAPI.Delete (s : secureKeysAPI σ Ctx Opts W) (st : σ) (ctx : Ctx) (key : Str)
    (opts : Opts) : Outcome (σ × Option Response × Option Err) :=
  s.finish (s.k.Delete st ctx key opts)

/-- Method `(*secureKeysAPI).Create`. -/
def secureKeysAPI.Create (s : secureKeysAPI σ Ctx Opts W) (rnd : RandReader) (st : σ) (ctx : Ctx)
    (key value : Str) : Outcome (σ × Option Response × Option Err) :=
  match s.wrapValue rnd value with
  | .panic => .panic
  | .ret (_, some err) => .ret (st, none, some err)
  | .ret (value, none) => s.finish (s.k.Create st ctx key value)

/-- Method `(*secureKeysAPI).CreateInOrder`. -/
def secureKeysAPI.CreateInOrder (s : secureKeysAPI σ Ctx Opts W) (rnd : RandReader) (st : σ)
    (ctx : Ctx) (dir value : Str) (opts : Opts) : Outcome (σ × Option Response × Option Err) :=
  match s.wrapValue rnd value with
  | .panic => .panic
  | .ret (_, some err) => .ret (st, none, some err)
  | .ret (value, none) => s.finish (s.k.CreateInOrder st ctx dir value opts)

/-- Method `(*secureKeysAPI).Update`. -/
def secureKeysAPI.Update (s : secureKeysAPI σ Ctx Opts W) (rnd : RandReader) (st : σ) (ctx : Ctx)
    (key value : Str) : Outcome (σ × Option Response × Option Err) :=
  match s.wrapValue rnd value with
  | .panic => .panic
  | .ret (_, some err) => .ret (st, none, some err)
  | .ret (value, none) => s.finish (s.k.Update st ctx key value)

/-- Method `(*secureKeysAPI).Watcher`. -/
def secureKeysAPI.Watcher (s : secureKeysAPI σ Ctx Opts W) (key : Str) (opts : Opts) : W :=
  s.k.Watcher key opts

end skeysapi

namespace skeysapiv3

open Go encconfig

/-- Type `ValueGetWrapFunc`; the random reader is what the cipher may draw
from during the call. -/
abbrev ValueGetWrapFunc := RandReader → Str → Outcome (Str × Option Err)

/-- Type `ValueSetUnwrapFunc`. -/
abbrev ValueSetUnwrapFunc := Str → Outcome (Str × Option Err)

/-- A `mvccpb.KeyValue` with the fields the wrapper reads or writes. -/
structure KeyValue where
  Key : Slice
  Value : Slice
  deriving DecidableEq, Repr

/-- A `GetResponse` of the v3 client; `Kvs` is a `[]*KeyValue`. -/
structure GetResponse where
  Kvs : List (Option KeyValue)
  deriving DecidableEq, Repr

/-- A `PutResponse` of the v3 client; `PrevKv` is a `*KeyValue`. -/
structure PutResponse where
  PrevKv : Option KeyValue
  deriving DecidableEq, Repr

/-- A `DeleteResponse` of the v3 client; `PrevKvs` is a `[]*KeyValue`. -/
structure DeleteResponse where
  Deleted : Int
  PrevKvs : List (Option KeyValue)
  deriving DecidableEq, Repr

/-- An `OpResponse` of the v3 client: the results of `r.Put()`, `r.Get()` and
`r.Del()`. -/
structure OpResponse where
  put : Option PutResponse
  get : Option GetResponse
  del : Option DeleteResponse
  deriving DecidableEq, Repr

/-- An `Op` of the v3 client as built by `OpGet`, `OpPut` and `OpDelete`;
`zero` is the zero value `Op{}`. -/
inductive Op (Opts : Type) where
  | zero
  | OpGet (key : Str) (opts : Opts)
  | OpPut (key val : Str) (opts : Opts)
  | OpDelete (key : Str) (opts : Opts)

/-- The interface `KV` of the v3 client over a store with states `σ`. Every
call returns the next state of the store with its `(response, error)` pair.
Contexts, options, compaction responses and transactions are passed through
untouched and are abstract. -/
structure KV (σ Ctx Opts CR T : Type) where
  Put : σ → Ctx → Str → Str → Opts → σ × Option PutResponse × Option Err
  Get : σ → Ctx → Str → Opts → σ × Option GetResponse × Option Err
  Delete : σ → Ctx → Str → Opts → σ × Option DeleteResponse × Option Err
  Compact : σ → Ctx → Int → Opts → σ × Option CR × Option Err
  Do : σ → Ctx → Op Opts → σ × OpResponse × Option Err
  Txn : Ctx → T

/-- The struct `secureKV`; a nil function field is `none`. -/
structure secureKV (σ Ctx Opts CR T : Type) where
  k : KV σ Ctx Opts CR T
  valueSetWrap : Option ValueGetWrapFunc
  valueGetUnwrap : Option ValueSetUnwrapFunc

/-- Function `GetWrappers`. -/
def GetWrappers (b64 : Base64) (encConf : EncConfig) : ValueGetWrapFunc × ValueSetUnwrapFunc :=
  let wrapper : ValueGetWrapFunc := fun rnd m =>
    let plainBytes := Slice.ofStr m
    match encConf.Encrypt rnd plainBytes with
    | .panic => .panic
    | .ret (_, some wrapErr) => .ret ([], some wrapErr)
    | .ret (encBytes, none) =>
      let bytesStored := encBytes
      let encoded := b64.EncodeToString bytesStored.bytes
      .ret (encoded, none)
  let unwrapper : ValueSetUnwrapFunc := fun m =>
    match b64.DecodeString m with
    | (_, some unwrapErr) => .ret ([], some unwrapErr)
    | (bytesStored, none) =>
      let encBytes := Slice.mk bytesStored
      match encConf.Decrypt encBytes with
      | .panic => .panic
      | .ret (_, some unwrapErr) => .ret ([], some unwrapErr)
      | .ret (plainBytes, none) => .ret (plainBytes.toStr, none)
  (wrapper, unwrapper)

variable {σ Ctx Opts CR T : Type}

/-- Function `NewSecureKeysAPI`: returns the pair `(SecureKV, error)`. -/
def NewSecureKeysAPI (b64 : Base64) (k : KV σ Ctx Opts CR T) (encConf : Option EncConfig) :
    Option (secureKV σ Ctx Opts CR T) × Option Err :=
  match encConf with
  | none =>
    let identity : Str → Outcome (Str × Option Err) := fun m => .ret (m, none)
    (some { k := k, valueSetWrap := some (fun _ m => identity m), valueGetUnwrap := some identity },
      none)
  | some encConf =>
    let (wrapper, unwrapper) := GetWrappers b64 encConf
    (some { k := k, valueSetWrap := some wrapper, valueGetUnwrap := some unwrapper }, none)

/-- Method `(*secureKV).unwrapKeyValue`: returns the record as the call leaves
it with the error. A nil record and a nil unwrap function panic. -/
def secureKV.unwrapKeyValue (s : secureKV σ Ctx Opts CR T) (m : Option KeyValue) :
    Outcome (Option KeyValue × Option Err) :=
  match m with
  | none => .panic
  | some m =>
    if m.Value ≠ .nil then
      let valString := m.Value.toStr
      match s.valueGetUnwrap with
      | none => .panic
      | some unwrap =>
        match unwrap valString with
        | .panic => .panic
        | .ret (_, some err) => .ret (some m, some err)
        | .ret (val, none) => .ret (some { m with Value := Slice.ofStr val }, none)
    else .ret (some m, none)

/-- A loop `for _, kv := range kvs` that unwraps each record and returns at the
first error (`Get`, the get branch of `Do`). -/
def secureKV.unwrapUntilError (s : secureKV σ Ctx Opts CR T) :
    List (Option KeyValue) → Outcome (List (Option KeyValue) × Option Err)
  | [] => .ret ([], none)
  | kv :: rest =>
    match s.unwrapKeyValue kv with
    | .panic => .panic
    | .ret (kv, some err) => .ret (kv :: rest, some err)
    | .ret (kv, none) =>
      match s.unwrapUntilError rest with
      | .panic => .panic
      | .ret (rest, err) => .ret (kv :: rest, err)

/-- A loop `for _, kv := range kvs` that unwraps each record and drops the
error (`Delete`, the delete branch of `Do`). -/
def secureKV.unwrapIgnoringErrors (s : secureKV σ Ctx Opts CR T) :
    List (Option KeyValue) → Outcome (List (Option KeyValue))
  | [] => .ret []
  | kv :: rest =>
    match s.unwrapKeyValue kv with
    | .panic => .panic
    | .ret (kv, _) =>
      match s.unwrapIgnoringErrors rest with
      | .panic => .panic
      | .ret rest => .ret (kv :: rest)

/-- The statement `if res.PrevKv != nil { s.unwrapKeyValue(res.PrevKv) }`: the
error is dropped. -/
def secureKV.unwrapPrevKv (s : secureKV σ Ctx Opts CR T) (res : PutResponse) :
    Outcome PutResponse :=
  match res.PrevKv with
  | none => .ret res
  | some kv =>
    match s.unwrapKeyValue (some kv) with
    | .panic => .panic
    | .ret (kv, _) => .ret { res with PrevKv := kv }

/-- Method `(*secureKV).Get`. Reading `r.Kvs` of a nil response panics. -/
def secureKV.Get (s : secureKV σ Ctx Opts CR T) (st : σ) (ctx : Ctx) (key : Str) (opts : Opts) :
    Outcome (σ × Option GetResponse × Option Err) :=
  match s.k.Get st ctx key opts with
  | (st, _, some err) => .ret (st, none, some err)
  | (_, none, none) => .panic
  | (st, some r, none) =>
    match s.unwrapUntilError r.Kvs with
    | .panic => .panic
    | .ret (kvs, err) => .ret (st, some { r with Kvs := kvs }, err)

/-- Method `(*secureKV).Put`. Reading `res.PrevKv` of a nil response panics. -/
def secureKV.Put (s : secureKV σ Ctx Opts CR T) (rnd : RandReader) (st : σ) (ctx : Ctx)
    (key val : Str) (opts : Opts) : Outcome (σ × Option PutResponse × Option Err) :=
  let wrapped : Outcome (Str × Option Err) :=
    match s.valueSetWrap with
    | none => .ret (val, none)
    | some wrap => wrap rnd val
  match wrapped with
  | .panic => .panic
  | .ret (_, some err) => .ret (st, none, some err)
  | .ret (val, none) =>
    match s.k.Put st ctx key val opts with
    | (st, _, some err) => .ret (st, none, some err)
    | (_, none, none) => .panic
    | (st, some res, none) =>
      match s.unwrapPrevKv res with
      | .panic => .panic
      | .ret res => .ret (st, some res, none)

/-- Method `(*secureKV).Delete`. Reading `r.PrevKvs` of a nil response
panics. -/
def secureKV.Delete (s : secureKV σ Ctx Opts CR T) (st : σ) (ctx : Ctx) (key : Str)
    (opts : Opts) : Outcome (σ × Option DeleteResponse × Option Err) :=
  match s.k.Delete st ctx key opts with
  | (st, _, some err) => .ret (st, none, some err)
  | (_, none, none) => .panic
  | (st, some r, none) =>
    match s.unwrapIgnoringErrors r.PrevKvs with
    | .panic => .panic
    | .ret kvs => .ret (st, some { r with PrevKvs := kvs }, none)

/-- Method `(*secureKV).Compact`. -/
def secureKV.Compact (s : secureKV σ Ctx Opts CR T) (st : σ) (ctx : Ctx) (rev : Int)
    (opts : Opts) : σ × Option CR × Option Err :=
  s.k.Compact st ctx rev opts

/-- Method `(*secureKV).Do`. The error of the store call is read only to be
overwritten by the get branch; the final `return r, nil` drops it. -/
def secureKV.Do (s : secureKV σ Ctx Opts CR T) (st : σ) (ctx : Ctx) (op : Op Opts) :
    Outcome (σ × OpResponse × Option Err) :=
  match s.k.Do st ctx op with
  | (st, r, _) =>
    let afterPut : Outcome (Option PutResponse) :=
      match r.put with
      | none => .ret none
      | some putResponse =>
        match s.unwrapPrevKv putResponse with
        | .panic => .panic
        | .ret res => .ret (some res)
    match afterPut with
    | .panic => .panic
    | .ret put =>
      let afterGet : Outcome (Option GetResponse × Option Err) :=
        match r.get with
        | none => .ret (none, none)
        | some getResponse =>
          match s.unwrapUntilError getResponse.Kvs with
          | .panic => .panic
          | .ret (kvs, err) => .ret (some { getResponse with Kvs := kvs }, err)
      match afterGet with
      | .panic => .panic
      | .ret (get, some err) => .ret (st, { r with put := put, get := get }, some err)
      | .ret (get, none) =>
        match r.del with
        | none => .ret (st, { r with put := put, get := get }, none)
        | some delResponse =>
          match s.unwrapIgnoringErrors delResponse.PrevKvs with
          | .panic => .panic
          | .ret kvs =>
            .ret (st, { put := put, get := get, del := some { delResponse with PrevKvs := kvs } },
              none)

/-- Method `(*secureKV).Txn`. -/
def secureKV.Txn (s : secureKV σ Ctx Opts CR T) (ctx : Ctx) : T :=
  s.k.Txn ctx

/-- Method `(*secureKV).OpGet` (file sop.go). -/
def secureKV.OpGet (_s : secureKV σ Ctx Opts CR T) (key : Str) (opts : Opts) : Op Opts :=
  .OpGet key opts

/-- Method `(*secureKV).OpDelete` (file sop.go). -/
def secureKV.OpDelete (_s : secureKV σ Ctx Opts CR T) (key : Str) (opts : Opts) : Op Opts :=
  .OpDelete key opts

/-- Method `(*secureKV).OpPut` (file sop.go). -/
def secureKV.OpPut (s : secureKV σ Ctx Opts CR T) (rnd : RandReader) (key val : Str)
    (opts : Opts) : Outcome (Op Opts × Option Err) :=
  let wrapped : Outcome (Str × Option Err) :=
    match s.valueSetWrap with
    | none => .ret (val, none)
    | some wrap => wrap rnd val
  match wrapped with
  | .panic => .panic
  | .ret (_, some err) => .ret (.zero, some err)
  | .ret (val, none) => .ret (.OpPut key val opts, none)

/-- Method `(*secureKV).OpValue` (file sop.go). -/
def secureKV.OpValue (s : secureKV σ Ctx Opts CR T) (rnd : RandReader) (val : Str) :
    Outcome (Str × Option Err) :=
  let wrapped : Outcome (Str × Option Err) :=
    match s.valueSetWrap with
    | none => .ret (val, none)
    | some wrap => wrap rnd val
  match wrapped with
  | .panic => .panic
  | .ret (_, some err) => .ret ([], some err)
  | .ret (val, none) => .ret (val, none)

end skeysapiv3

/-! ## Assumptions on the collaborators, as predicates -/

namespace encconfig

open Go

/-- The `Decrypt` of `d` inverts the `Encrypt` of `e`: whatever `e.Encrypt`
returns with a nil error, `d.Decrypt` maps it to the bytes of the plaintext
with a nil error. -/
def Inverts (d e : EncConfig) : Prop :=
  ∀ rnd p c, e.Encrypt rnd p = .ret (c, none) →
    ∃ q, d.Decrypt (.mk c.bytes) = .ret (q, none) ∧ q.bytes = p.bytes

/-- The ciphers `e1` and `e2` are built by the same constructor of the package
from keys holding the same bytes: both by `NewAESCBCEncConfig` (over a block
primitive whose decryption inverts its encryption under that key) or both by
`NewOTPEncConfig`. -/
def SameKeyCiphers (aes : AES) (e1 e2 : EncConfig) : Prop :=
  (∃ key1 key2 c1 c2, key1.bytes = key2.bytes ∧
      NewAESCBCEncConfig key1 = (some c1, none) ∧ NewAESCBCEncConfig key2 = (some c2, none) ∧
      (∀ b, aes.decrypt key1.bytes (aes.encrypt key1.bytes b) = b) ∧
      e1 = c1.toEncConfig aes ∧ e2 = c2.toEncConfig aes) ∨
  (∃ key1 key2 c1 c2, key1.bytes = key2.bytes ∧
      NewOTPEncConfig key1 = (some c1, none) ∧ NewOTPEncConfig key2 = (some c2, none) ∧
      e1 = c1.toEncConfig ∧ e2 = c2.toEncConfig)

end encconfig

namespace Go

/-- Decoding undoes encoding, with a nil error. -/
def Base64.RoundTrips (b64 : Base64) : Prop :=
  ∀ b, b64.DecodeString (b64.EncodeToString b) = (b, none)

/-- The empty string decodes to no bytes, with a nil error. -/
def Base64.DecodesEmpty (b64 : Base64) : Prop :=
  b64.DecodeString [] = ([], none)

end Go

namespace skeysapi

open Go

/-- The store returns for a key the value last written to it: after a `Set`
that the store accepted, a `Get` of the same key answers with a leaf node
holding the key and the value written, and no previous node. -/
def ReturnsLastWritten {σ Ctx Opts W : Type} (k : KeysAPI σ Ctx Opts W) : Prop :=
  ∀ st ctx key val opts st1 r, k.Set st ctx key val opts = (st1, some r, none) →
    ∀ ctx2 opts2, ∃ st2 action,
      k.Get st1 ctx2 key opts2 =
        (st2, some { Action := action, Node := .node key false val .nil, PrevNode := .null }, none)

end skeysapi

namespace skeysapiv3

open Go

/-- The store returns for a key the value last written to it: after a `Put`
that the store accepted, a `Get` of the same key answers with one record
holding the bytes of the key and of the value written. -/
def ReturnsLastWritten {σ Ctx Opts CR T : Type} (k : KV σ Ctx Opts CR T) : Prop :=
  ∀ st ctx key val opts st1 res, k.Put st ctx key val opts = (st1, some res, none) →
    ∀ ctx2 opts2, ∃ st2 kv,
      k.Get st1 ctx2 key opts2 = (st2, some { Kvs := [some kv] }, none) ∧
        kv.Key.bytes = key ∧ kv.Value.bytes = val

end skeysapiv3

namespace Go

/-- Encoding never shortens: the encoding of `b` has at least `len(b)`
characters (base64 writes four characters for every three bytes). -/
def Base64.Expands (b64 : Base64) : Prop :=
  ∀ b, b.length ≤ (b64.EncodeToString b).length

end Go

/-! ## Vocabulary for statements about responses -/

namespace skeysapi

open Go

mutual
/-- `UnwrapsTo unwrap n n'`: the tree `n'` is the tree `n` in which every node,
at every depth, keeps its key, its directory flag and the shape of its
children, keeps an empty value, and holds in place of a non-empty value `v` the
string `unwrap` returns for `v` with a nil error. -/
inductive UnwrapsTo (unwrap : ValueSetUnwrapFunc) : NodePtr → NodePtr → Prop where
  | null : UnwrapsTo unwrap .null .null
  | empty (key : Str) (dir : Bool) {ns ns' : NodeList} :
      UnwrapsListTo unwrap ns ns' →
      UnwrapsTo unwrap (.node key dir [] ns) (.node key dir [] ns')
  | value (key : Str) (dir : Bool) {v v' : Str} {ns ns' : NodeList} :
      v ≠ [] → unwrap v = .ret (v', none) → UnwrapsListTo unwrap ns ns' →
      UnwrapsTo unwrap (.node key dir v ns) (.node key dir v' ns')
/-- The same, child by child, for a list of children. -/
inductive UnwrapsListTo (unwrap : ValueSetUnwrapFunc) : NodeList → NodeList → Prop where
  | nil : UnwrapsListTo unwrap .nil .nil
  | cons {n n' : NodePtr} {ns ns' : NodeList} :
      UnwrapsTo unwrap n n' → UnwrapsListTo unwrap ns ns' →
      UnwrapsListTo unwrap (.cons n ns) (.cons n' ns')
end

mutual
/-- The tree with every value blanked: what is left is every node's key and
directory flag and the number and order of children at every node. -/
def NodePtr.eraseValues : NodePtr → NodePtr
  | .null => .null
  | .node key dir _ nodes => .node key dir [] nodes.eraseValues
/-- The list of children with every value blanked. -/
def NodeList.eraseValues : NodeList → NodeList
  | .nil => .nil
  | .cons head tail => .cons head.eraseValues tail.eraseValues
end

end skeysapi

/-! ## The byte heap: slices as windows into backing arrays

The definitions above take a `[]byte` for the bytes it holds. To say which
memory a call writes, the functions of `encconfig` are embedded a second time
over an explicit heap: a `[]byte` is a window into a backing array, `make` and
`bytes.Repeat` allocate, `append` writes into spare capacity or reallocates,
`copy` and `CryptBlocks` write into their destination. -/

namespace Go

/-- The byte arrays of the Go heap: the backing arrays allocated so far; the
address of an array is its index. -/
abbrev Heap := List (List Byte)

/-- A `[]byte` value as the run time holds it: the nil slice, or the window of
`len` bytes at offset `off` of the backing array `arr`, which `append` may
extend in place up to `cap` bytes. -/
inductive Buf where
  | nil
  | ref (arr off len cap : Nat)
  deriving DecidableEq, Repr

/-- Go `len(b)`. -/
def Buf.len : Buf → Nat
  | .nil => 0
  | .ref _ _ len _ => len

/-- Go `b[:j]`, for `j` within the capacity. -/
def Buf.sliceTo : Buf → Nat → Buf
  | .nil, _ => .nil
  | .ref arr off _ cap, j => .ref arr off j cap

/-- Go `b[i:]`, for `i` within the length. -/
def Buf.sliceFrom : Buf → Nat → Buf
  | .nil, _ => .nil
  | .ref arr off len cap, i => .ref arr (off + i) (len - i) (cap - i)

/-- The backing array at an address; no array, no bytes. -/
def Heap.array (h : Heap) (a : Nat) : List Byte := h.getD a []

/-- The bytes a slice holds in a heap: positions `0 .. len-1` of its window. -/
def Heap.read (h : Heap) : Buf → List Byte
  | .nil => []
  | .ref arr off len _ => ((h.array arr).drop off).take len

/-- The slice value of the first embedding that a window holds in a heap. -/
def Heap.view (h : Heap) : Buf → Slice
  | .nil => .nil
  | .ref arr off len cap => .mk (h.read (.ref arr off len cap))

/-- A slice value is well formed in a heap: its array is allocated and holds
the whole capacity of the window. -/
def Heap.Valid (h : Heap) : Buf → Prop
  | .nil => True
  | .ref arr off len cap => arr < h.length ∧ len ≤ cap ∧ off + cap ≤ (h.array arr).length

instance (h : Heap) (b : Buf) : Decidable (h.Valid b) := by
  cases b <;> unfold Heap.Valid <;> infer_instance

/-- Allocation of a fresh array holding `bs`, as by `bytes.Repeat`. -/
def Heap.alloc (h : Heap) (bs : List Byte) : Heap × Buf :=
  (h ++ [bs], .ref h.length 0 bs.length bs.length)

/-- Go `make([]byte, len, cap)`: a fresh zeroed array. -/
def Heap.make (h : Heap) (len cap : Nat) : Heap × Buf :=
  (h ++ [List.replicate cap 0], .ref h.length 0 len cap)

/-- Overwrites the bytes of array `arr` from position `pos` on with `bs`; the
callers stay within the array. -/
def Heap.store (h : Heap) (arr pos : Nat) (bs : List Byte) : Heap :=
  h.set arr ((h.array arr).take pos ++ bs ++ (h.array arr).drop (pos + bs.length))

/-- Writes `bs` to the start of the window `dst`; the callers pass at most
`len(dst)` bytes. -/
def Heap.write (h : Heap) (dst : Buf) (bs : List Byte) : Heap :=
  match dst with
  | .nil => h
  | .ref arr off _ _ => h.store arr off bs

/-- Go `copy(dst, src)`: the first `min(len(dst), len(src))` bytes. -/
def Heap.copy (h : Heap) (dst src : Buf) : Heap :=
  h.write dst ((h.read src).take dst.len)

/-- Go `append(b, t...)`: within the capacity the bytes are written behind the
window, in the same array; otherwise the window moves to a fresh array (whose
capacity, chosen by the run time, is taken to be the new length). Appending
nothing to the nil slice leaves it nil. -/
def Heap.append (h : Heap) (b : Buf) (t : List Byte) : Heap × Buf :=
  match b with
  | .nil => if t = [] then (h, .nil) else h.alloc t
  | .ref arr off len cap =>
    if len + t.length ≤ cap then (h.store arr (off + len) t, .ref arr off (len + t.length) cap)
    else h.alloc (h.read b ++ t)

/-- Applies a function to the value a call returns. -/
def Outcome.map {α β : Type} (f : α → β) : Outcome α → Outcome β
  | .ret a => .ret (f a)
  | .panic => .panic

/-- What a caller sees of a returned `(heap, []byte, error)`: the slice value
and the error. -/
def Heap.result (r : Heap × Buf × Option Err) : Slice × Option Err :=
  (r.1.view r.2.1, r.2.2)

/-- The window `b` lies outside the spare capacity of `p`: in another array, or
not beyond the end of the window of `p`. -/
def Buf.Outside : Buf → Buf → Prop
  | .ref a o l _, .ref a' o' l' _ => a ≠ a' ∨ o + l ≤ o' + l'
  | _, _ => True

/-- From heap `h` to heap `g` nothing was freed, and every well-formed window
outside the spare capacity of `p` is still well formed and holds the same
bytes. -/
def Heap.Frame (h g : Heap) (p : Buf) : Prop :=
  h.length ≤ g.length ∧ ∀ b, h.Valid b → b.Outside p → g.Valid b ∧ g.read b = h.read b

/-- The address `x` is that of the backing array of `b`. -/
def Buf.InArray : Buf → Nat → Prop
  | .nil, _ => False
  | .ref arr _ _ _, x => arr = x

/-- The heap `g` is the heap `h` after writes into the backing array of `b`:
the same arrays of the same sizes, with the same contents except possibly in
that array. -/
def Heap.SameExcept (h g : Heap) (b : Buf) : Prop :=
  g.length = h.length ∧
    ∀ x, (g.array x).length = (h.array x).length ∧ (¬ b.InArray x → g.array x = h.array x)

end Go

namespace encconfig.mem

open Go

/-- The struct `aesCBCEncConfig`, its key a window into the heap. -/
structure aesCBCEncConfig where
  key : Buf
  blockSize : Int
  deriving DecidableEq, Repr

/-- Function `NewAESCBCEncConfig`: `make` allocates the key array of the
configuration, `copy` fills it. -/
def NewAESCBCEncConfig (h : Heap) (key : Buf) : Heap × Option aesCBCEncConfig × Option Err :=
  if key.len ≠ AES_128_KEY_LEN ∧ key.len ≠ AES_192_KEY_LEN ∧ key.len ≠ AES_256_KEY_LEN then
    (h, none, some .ErrInvalidKeyLength)
  else
    let m := h.make key.len key.len
    (m.1.copy m.2 key, some { key := m.2, blockSize := (BlockSize : Int) }, none)

/-- Function `pkcs7pad`: `bytes.Repeat` allocates the padding, `append` adds it
to `m`, in place when the capacity of `m` allows. -/
def pkcs7pad (h : Heap) (m : Buf) (bsize : Nat) : Outcome (Heap × Buf) :=
  let dataSize := m.len
  let blockSize := bsize
  if blockSize = 0 then .panic
  else
    let numPad := blockSize - (dataSize % blockSize)
    let padding := h.alloc (List.replicate numPad (byte numPad))
    .ret (padding.1.append m (padding.1.read padding.2))

/-- Function `pkcs7unpad`: it reads `m` and returns a window of it. -/
def pkcs7unpad (h : Heap) (m : Buf) (bsize : Nat) : Buf × Option Err :=
  let size := m.len
  let blockSize := bsize
  if size = 0 then (.nil, some .ErrPKCS7PaddingLengthInvalid)
  else
    let numPad := ((h.read m).getD (size - 1) 0).val
    if numPad = 0 then (.nil, some .ErrPKCS7PaddingInvalid)
    else if numPad > size ∨ numPad > blockSize then (.nil, some .ErrPKCS7PaddingInvalid)
    else
      let padding := m.sliceFrom (size - numPad)
      if (h.read padding).any (fun k => k != byte numPad) then (.nil, some .ErrPKCS7PaddingInvalid)
      else (m.sliceTo (size - numPad), none)

/-- Method `(*aesCBCEncConfig).Encrypt`. `aes.NewCipher` and
`cipher.NewCBCEncrypter` keep their own copies of the key and of the IV;
`CryptBlocks` writes `len(src)` bytes to `dst`. What a failed read of the IV
leaves in the fresh ciphertext array is not kept: the array is dropped. -/
def aesCBCEncConfig.Encrypt (aes : AES) (e : aesCBCEncConfig) (rnd : RandReader) (h : Heap)
    (plaintext : Buf) : Outcome (Heap × Buf × Option Err) :=
  match pkcs7pad h plaintext (uint16 e.blockSize) with
  | .panic => .panic
  | .ret (h1, plaintext) =>
    match NewCipher (h1.view e.key) with
    | some encErr => .ret (h1, .nil, some encErr)
    | none =>
      let block := aes.encrypt (h1.read e.key)
      let ciphertext := h1.make (BlockSize + plaintext.len) (BlockSize + plaintext.len)
      let iv := ciphertext.2.sliceTo BlockSize
      match readFull rnd BlockSize with
      | .error encErr => .ret (ciphertext.1, .nil, some encErr)
      | .ok ivBytes =>
        let h2 := ciphertext.1.write iv ivBytes
        match CBCEncrypter.CryptBlocks block (mkBlock (h2.read iv)) (h2.read plaintext) with
        | .panic => .panic
        | .ret body => .ret (h2.write (ciphertext.2.sliceFrom BlockSize) body, ciphertext.2, none)

/-- Method `(*aesCBCEncConfig).Decrypt`. -/
def aesCBCEncConfig.Decrypt (aes : AES) (e : aesCBCEncConfig) (h : Heap) (ciphertext : Buf) :
    Outcome (Heap × Buf × Option Err) :=
  match NewCipher (h.view e.key) with
  | some decErr => .ret (h, .nil, some decErr)
  | none =>
    let block := aes.decrypt (h.read e.key)
    if ciphertext.len < BlockSize then .ret (h, .nil, some .ErrAESCipherTooShort)
    else
      let iv := ciphertext.sliceTo BlockSize
      let ciphertext := ciphertext.sliceFrom BlockSize
      if ciphertext.len % BlockSize ≠ 0 then .ret (h, .nil, some .ErrAESCipherBlockSizeNotMultiple)
      else
        let ivBlock := mkBlock (h.read iv)
        let plaintext := h.make ciphertext.len ciphertext.len
        match CBCDecrypter.CryptBlocks block ivBlock (plaintext.1.read ciphertext) with
        | .panic => .panic
        | .ret body =>
          let h2 := plaintext.1.write plaintext.2 body
          match pkcs7unpad h2 plaintext.2 (uint16 e.blockSize) with
          | (_, some _) => .ret (h2, .nil, none)
          | (plaintext, none) => .ret (h2, plaintext, none)

/-- The struct `otpEncConfig`, its key a window into the heap. -/
structure otpEncConfig where
  key : Buf
  deriving DecidableEq, Repr

/-- Function `NewOTPEncConfig`: `make` allocates the key array of the
configuration, `copy` fills it. -/
def NewOTPEncConfig (h : Heap) (key : Buf) : Heap × Option otpEncConfig × Option Err :=
  if key.len ≤ 0 then (h, none, some .ErrKeyInvalidLength)
  else
    let m := h.make key.len key.len
    (m.1.copy m.2 key, some { key := m.2 }, none)

/-- The loop of `(*otpEncConfig).Encrypt`: `n` more rounds from index `i` on,
each reading `m[i]` and `e.key[i%keyLen]` and writing `out[i]`. An index out of
range and the modulo by an empty key panic. -/
def otpLoop (key m out : Buf) : Nat → Nat → Heap → Outcome Heap
  | 0, _, h => .ret h
  | n + 1, i, h =>
    if key.len = 0 then .panic
    else
      match (h.read m)[i]?, (h.read key)[i % key.len]? with
      | some b, some k => otpLoop key m out n (i + 1) (h.write (out.sliceFrom i) [b ^^^ k])
      | _, _ => .panic

/-- Method `(*otpEncConfig).Encrypt`. -/
def otpEncConfig.Encrypt (e : otpEncConfig) (h : Heap) (m : Buf) :
    Outcome (Heap × Buf × Option Err) :=
  let out := h.make m.len m.len
  match otpLoop e.key m out.2 m.len 0 out.1 with
  | .panic => .panic
  | .ret h1 => .ret (h1, out.2, none)

/-- Method `(*otpEncConfig).Decrypt`. -/
def otpEncConfig.Decrypt (e : otpEncConfig) (h : Heap) (m : Buf) :
    Outcome (Heap × Buf × Option Err) :=
  e.Encrypt h m

end encconfig.mem

namespace skeysapiv3

open Go

/-- The record `m'` is the record `m` after its value was unwrapped: a record
whose value is nil is left as it is; a non-nil value `v` is replaced by the
string that `unwrap` returns for `v` with a nil error. The key is kept. -/
inductive UnwrapsKv (unwrap : ValueSetUnwrapFunc) : Option KeyValue → Option KeyValue → Prop where
  | absent (m : KeyValue) : m.Value = .nil → UnwrapsKv unwrap (some m) (some m)
  | value (m : KeyValue) (v : Str) : m.Value ≠ .nil → unwrap m.Value.toStr = .ret (v, none) →
      UnwrapsKv unwrap (some m) (some { Key := m.Key, Value := Slice.ofStr v })

end skeysapiv3

/-! ## Vocabulary for statements about unwrap failures -/

namespace skeysapi

open Go

mutual
/-- The relation `UnwrapStops unwrap n n' e`: somewhere in the tree `n` there is a
non-empty value that `unwrap` rejects with the error `e`, and every non-empty
value that comes before it is accepted by `unwrap`. Values are taken in the
order children first, from the first child to the last, then the node itself.
The tree `n'` is `n` with the values before the rejected one replaced by what
`unwrap` returned for them; the rejected value and the values after it are as
in `n`. -/
inductive UnwrapStops (unwrap : ValueSetUnwrapFunc) : NodePtr → NodePtr → Err → Prop where
  | child (key : Str) (dir : Bool) (v : Str) {ns ns' : NodeList} {e : Err} :
      UnwrapListStops unwrap ns ns' e →
      UnwrapStops unwrap (.node key dir v ns) (.node key dir v ns') e
  | value (key : Str) (dir : Bool) {v x : Str} {ns ns' : NodeList} {e : Err} :
      UnwrapsListTo unwrap ns ns' → v ≠ [] → unwrap v = .ret (x, some e) →
      UnwrapStops unwrap (.node key dir v ns) (.node key dir v ns') e
/-- The same for a list of children: the rejected value is in the first child,
or the first child is accepted as a whole and the rejected value is in a later
one. -/
inductive UnwrapListStops (unwrap : ValueSetUnwrapFunc) : NodeList → NodeList → Err → Prop where
  | head {n n' : NodePtr} (ns : NodeList) {e : Err} :
      UnwrapStops unwrap n n' e → UnwrapListStops unwrap (.cons n ns) (.cons n' ns) e
  | tail {n n' : NodePtr} {ns ns' : NodeList} {e : Err} :
      UnwrapsTo unwrap n n' → UnwrapListStops unwrap ns ns' e →
      UnwrapListStops unwrap (.cons n ns) (.cons n' ns') e
end

/-- The same for a response: the rejected value is in the node tree, or the
node tree is accepted as a whole and the rejected value is in the previous-node
tree. The second response is the first with the values before the rejected one
replaced. -/
inductive UnwrapStopsIn (unwrap : ValueSetUnwrapFunc) : Response → Response → Err → Prop where
  | node (r : Response) {n' : NodePtr} {e : Err} :
      UnwrapStops unwrap r.Node n' e →
      UnwrapStopsIn unwrap r { Action := r.Action, Node := n', PrevNode := r.PrevNode } e
  | prev (r : Response) {n' p' : NodePtr} {e : Err} :
      UnwrapsTo unwrap r.Node n' → UnwrapStops unwrap r.PrevNode p' e →
      UnwrapStopsIn unwrap r { Action := r.Action, Node := n', PrevNode := p' } e

end skeysapi

/-! ## The codec `base64.StdEncoding`

The codec of the library as `encoding/base64` documents it: the alphabet of
RFC 4648 with the padding character `'='`, four characters for every three
bytes; the decoder ignores the characters `'\r'` and `'\n'` and, as the
encoding is not strict, the unused low bits of the last character before the
padding. A `CorruptInputError` carries the offset of the offending character;
the offset is not kept here. -/

namespace Go

/-- The error `base64.CorruptInputError(n)`, whatever the offset `n`. -/
def CorruptInputError : Err := .external 64

/-- The character of the alphabet of `StdEncoding` for a value below 64:
`A`-`Z`, `a`-`z`, `0`-`9`, `+`, `/`. -/
def StdEncoding.encodeChar (n : Nat) : Byte :=
  if n < 26 then byte (65 + n)
  else if n < 52 then byte (71 + n)
  else if n < 62 then byte (n - 4)
  else if n = 62 then 43
  else 47

/-- The table `decodeMap` of `StdEncoding`: the value of a character of the
alphabet, `none` (`0xFF` in the table) for every other character. -/
def StdEncoding.decodeMap (c : Byte) : Option Nat :=
  if 65 ≤ c.val ∧ c.val ≤ 90 then some (c.val - 65)
  else if 97 ≤ c.val ∧ c.val ≤ 122 then some (c.val - 71)
  else if 48 ≤ c.val ∧ c.val ≤ 57 then some (c.val + 4)
  else if c.val = 43 then some 62
  else if c.val = 47 then some 63
  else none

/-- The characters `'\n'` and `'\r'`, which the decoder skips. -/
def StdEncoding.isNewline (c : Byte) : Bool := c = 10 || c = 13

/-- Method `EncodeToString` of `StdEncoding`. -/
def StdEncoding.EncodeToString : List Byte → Str
  | [] => []
  | [a] => [encodeChar (a.val / 4), encodeChar (a.val % 4 * 16), 61, 61]
  | [a, b] =>
    [encodeChar (a.val / 4), encodeChar (a.val % 4 * 16 + b.val / 16),
     encodeChar (b.val % 16 * 4), 61]
  | a :: b :: c :: rest =>
    encodeChar (a.val / 4) :: encodeChar (a.val % 4 * 16 + b.val / 16) ::
      encodeChar (b.val % 16 * 4 + c.val / 64) :: encodeChar (c.val % 64) ::
      StdEncoding.EncodeToString rest

/-- The decoder of `StdEncoding` on the characters that are left, `dbuf`
holding the values of the characters of the current group of four read so far.
Line breaks are skipped wherever they stand. A character outside the alphabet
is an error, and so are an input that ends inside a group, a padding character
in the first half of a group, a single padding character where two are due, and
anything but line breaks after the padding. Returns the bytes decoded so far
with the error. -/
def StdEncoding.decode : Str → List Nat → List Byte × Option Err
  | [], [] => ([], none)
  | [], _ :: _ => ([], some CorruptInputError)
  | c :: rest, dbuf =>
    match decodeMap c with
    | some v =>
      match dbuf with
      | [x, y, z] =>
        let (bs, err) := StdEncoding.decode rest []
        (byte (x * 4 + y / 16) :: byte (y % 16 * 16 + z / 4) :: byte (z % 4 * 64 + v) :: bs, err)
      | _ => StdEncoding.decode rest (dbuf ++ [v])
    | none =>
      if isNewline c then StdEncoding.decode rest dbuf
      else if c ≠ 61 then ([], some CorruptInputError)
      else
        match dbuf with
        | [x, y] =>
          match rest.dropWhile isNewline with
          | [] => ([], some CorruptInputError)
          | d :: rest2 =>
            if d ≠ 61 then ([], some CorruptInputError)
            else
              ([byte (x * 4 + y / 16)],
                if rest2.dropWhile isNewline = [] then none else some CorruptInputError)
        | [x, y, z] =>
          ([byte (x * 4 + y / 16), byte (y % 16 * 16 + z / 4)],
            if rest.dropWhile isNewline = [] then none else some CorruptInputError)
        | _ => ([], some CorruptInputError)

/-- The codec `base64.StdEncoding`. -/
def StdEncoding : Base64 :=
  { EncodeToString := StdEncoding.EncodeToString
    DecodeString := fun s => StdEncoding.decode s [] }

end Go

/-! ## The concurrency scenario: goroutines sharing one cipher

The tests `TestAESCBCConcurrency` and `TestOTPConcurrency` start goroutines
that all run the closure `enc_test`: a loop of `e.Encrypt(p)`, `e.Decrypt(c)`
and `bytes.Compare(pres, p)` on one cipher `e`. Here a goroutine is a state
machine over the shared heap. A state is a point of the code of `enc_test`, of
`Encrypt`, of `Decrypt` or of the padding helpers, with the local variables
alive there; one step runs the goroutine from one access to the heap through
the next one: a statement of the packages or one call of the library (`make`,
`append`, `bytes.Repeat`, `aes.NewCipher`, `io.ReadFull`,
`cipher.NewCBCEncrypter`, `CryptBlocks`, `bytes.Compare`), the loop of the
one-time pad taking one step for every byte. A schedule names, step by step,
the goroutine that moves, so that the steps of different goroutines interleave
inside their calls. A library call is one step; the reads of `pkcs7unpad`, all
of an array of the call itself, are one step. -/

namespace Go

/-- The window `b` is well formed in `h` and holds the bytes `bs`. -/
def Heap.Holds (h : Heap) (b : Buf) (bs : List Byte) : Prop :=
  h.Valid b ∧ h.read b = bs

/-- The windows `b` and `p` lie in different backing arrays; the nil slice lies
in none. -/
def Buf.Apart : Buf → Buf → Prop
  | .ref a _ _ _, .ref a' _ _ _ => a ≠ a'
  | _, _ => True

instance (b p : Buf) : Decidable (b.Apart p) := by
  cases b <;> cases p <;> unfold Buf.Apart <;> infer_instance

end Go

namespace encconfig.mem

open Go

/-- A goroutine `enc_test`: its plaintext `p`, the point `pc` at which it
stands, the loop counter `i` of `enc_test` (the number `rounds` of round trips
completed), and whether it has reported an error (`t.Error`). -/
structure Worker (Pc : Type) where
  p : Buf
  pc : Pc
  rounds : Nat
  failed : Bool
  deriving DecidableEq, Repr

/-- The points of a goroutine of `TestAESCBCConcurrency`, each named after the
statement that was executed last, with the local variables alive behind it;
`block` stands for the `cipher.Block` that `aes.NewCipher` returns and holds the
bytes the key had when it was made, `iv` for the copy of the IV that
`cipher.NewCBCEncrypter` and `cipher.NewCBCDecrypter` keep. -/
inductive AesPc where
  /-- At the head of the loop of `enc_test`, before `e.Encrypt(p)`. -/
  | loop
  /-- In `pkcs7pad`, behind `bytes.Repeat` (aes.go:59). -/
  | padRepeat (padding : Buf)
  /-- In `Encrypt`, behind `pkcs7pad` and its `append` (aes.go:61, 109). -/
  | padded (plaintext : Buf)
  /-- Behind `aes.NewCipher(e.key)` (aes.go:111). -/
  | encKeyed (plaintext : Buf) (block : List Byte)
  /-- Behind `make` (aes.go:118). -/
  | encMade (plaintext : Buf) (block : List Byte) (ciphertext : Buf)
  /-- Behind `io.ReadFull(rand.Reader, iv)` (aes.go:120). -/
  | encIv (plaintext : Buf) (block : List Byte) (ciphertext : Buf)
  /-- Behind `cipher.NewCBCEncrypter(block, iv)` (aes.go:124). -/
  | encMode (plaintext : Buf) (block : List Byte) (ciphertext : Buf) (iv : List Byte)
  /-- In `enc_test`, behind `e.Encrypt(p)`, which returned `c`; before
  `e.Decrypt(c)`. -/
  | decrypt (c : Buf)
  /-- In `Decrypt`, behind `aes.NewCipher(e.key)` (aes.go:130). -/
  | decKeyed (c : Buf) (block : List Byte)
  /-- Behind `cipher.NewCBCDecrypter(block, iv)` (aes.go:149); `ciphertext` is
  `ciphertext[aes.BlockSize:]`. -/
  | decMode (ciphertext : Buf) (block : List Byte) (iv : List Byte)
  /-- Behind `make` (aes.go:151). -/
  | decMade (ciphertext : Buf) (block : List Byte) (iv : List Byte) (plaintext : Buf)
  /-- Behind `mode.CryptBlocks(plaintext, ciphertext)` (aes.go:152). -/
  | decCrypted (plaintext : Buf)
  /-- In `enc_test`, behind `e.Decrypt(c)`, which returned `pres`; before
  `bytes.Compare(pres, p)`. -/
  | compare (pres : Buf)
  deriving DecidableEq, Repr

/-- A goroutine of `TestAESCBCConcurrency` before its first step. -/
def Worker.startAes (p : Buf) : Worker AesPc :=
  { p := p, pc := .loop, rounds := 0, failed := false }

/-- One step of a goroutine of `TestAESCBCConcurrency` on the shared heap.
`iterations` is the bound of the loop of `enc_test`; a goroutine that has left
the loop makes no step. An error returned by `Encrypt` or `Decrypt` is reported
(`t.Error`) and the goroutine goes on with the nil slice the call returned, as
the test does. -/
def Worker.stepAes (aes : AES) (e : aesCBCEncConfig) (iterations : Nat) (rnd : RandReader)
    (h : Heap) (w : Worker AesPc) : Outcome (Heap × Worker AesPc) :=
  match w.pc with
  | .loop =>
    if iterations ≤ w.rounds then .ret (h, w)
    else
      let dataSize := w.p.len
      let blockSize := uint16 e.blockSize
      if blockSize = 0 then .panic
      else
        let numPad := blockSize - (dataSize % blockSize)
        let padding := h.alloc (List.replicate numPad (byte numPad))
        .ret (padding.1, { w with pc := .padRepeat padding.2 })
  | .padRepeat padding =>
    let plaintext := h.append w.p (h.read padding)
    .ret (plaintext.1, { w with pc := .padded plaintext.2 })
  | .padded plaintext =>
    match NewCipher (h.view e.key) with
    | some _ => .ret (h, { w with pc := .decrypt .nil, failed := true })
    | none => .ret (h, { w with pc := .encKeyed plaintext (h.read e.key) })
  | .encKeyed plaintext block =>
    let ciphertext := h.make (BlockSize + plaintext.len) (BlockSize + plaintext.len)
    .ret (ciphertext.1, { w with pc := .encMade plaintext block ciphertext.2 })
  | .encMade plaintext block ciphertext =>
    let iv := ciphertext.sliceTo BlockSize
    match readFull rnd BlockSize with
    | .error _ => .ret (h, { w with pc := .decrypt .nil, failed := true })
    | .ok ivBytes => .ret (h.write iv ivBytes, { w with pc := .encIv plaintext block ciphertext })
  | .encIv plaintext block ciphertext =>
    let iv := ciphertext.sliceTo BlockSize
    .ret (h, { w with pc := .encMode plaintext block ciphertext (h.read iv) })
  | .encMode plaintext block ciphertext iv =>
    match CBCEncrypter.CryptBlocks (aes.encrypt block) (mkBlock iv) (h.read plaintext) with
    | .panic => .panic
    | .ret body =>
      .ret (h.write (ciphertext.sliceFrom BlockSize) body, { w with pc := .decrypt ciphertext })
  | .decrypt c =>
    match NewCipher (h.view e.key) with
    | some _ => .ret (h, { w with pc := .compare .nil, failed := true })
    | none => .ret (h, { w with pc := .decKeyed c (h.read e.key) })
  | .decKeyed c block =>
    if c.len < BlockSize then .ret (h, { w with pc := .compare .nil, failed := true })
    else
      let iv := c.sliceTo BlockSize
      let ciphertext := c.sliceFrom BlockSize
      if ciphertext.len % BlockSize ≠ 0 then
        .ret (h, { w with pc := .compare .nil, failed := true })
      else .ret (h, { w with pc := .decMode ciphertext block (h.read iv) })
  | .decMode ciphertext block iv =>
    let plaintext := h.make ciphertext.len ciphertext.len
    .ret (plaintext.1, { w with pc := .decMade ciphertext block iv plaintext.2 })
  | .decMade ciphertext block iv plaintext =>
    match CBCDecrypter.CryptBlocks (aes.decrypt block) (mkBlock iv) (h.read ciphertext) with
    | .panic => .panic
    | .ret body => .ret (h.write plaintext body, { w with pc := .decCrypted plaintext })
  | .decCrypted plaintext =>
    match pkcs7unpad h plaintext (uint16 e.blockSize) with
    | (_, some _) => .ret (h, { w with pc := .compare .nil })
    | (plaintext, none) => .ret (h, { w with pc := .compare plaintext })
  | .compare pres =>
    if h.read pres = h.read w.p then .ret (h, { w with pc := .loop, rounds := w.rounds + 1 })
    else .ret (h, { w with pc := .loop, rounds := w.rounds + 1, failed := true })

/-- The points of a goroutine of `TestOTPConcurrency`; `i` is the index of the
loop of `Encrypt`. -/
inductive OtpPc where
  /-- At the head of the loop of `enc_test`, before `e.Encrypt(p)`. -/
  | loop
  /-- In `Encrypt`, behind `make` (otp.go:32) and `i` rounds of the loop. -/
  | encLoop (out : Buf) (i : Nat)
  /-- In `enc_test`, behind `e.Encrypt(p)`, which returned `c`; before
  `e.Decrypt(c)`. -/
  | decrypt (c : Buf)
  /-- In `Encrypt`, called by `Decrypt` on `m`, behind `make` and `i` rounds of
  the loop. -/
  | decLoop (m : Buf) (out : Buf) (i : Nat)
  /-- In `enc_test`, behind `e.Decrypt(c)`, which returned `pres`; before
  `bytes.Compare(pres, p)`. -/
  | compare (pres : Buf)
  deriving DecidableEq, Repr

/-- A goroutine of `TestOTPConcurrency` before its first step. -/
def Worker.startOtp (p : Buf) : Worker OtpPc :=
  { p := p, pc := .loop, rounds := 0, failed := false }

/-- One round of the loop of `(*otpEncConfig).Encrypt` at index `i`:
`out[i] = m[i] ^ e.key[i%keyLen]` (otp.go:34). An index out of range and the
modulo by an empty key panic. -/
def otpRound (e : otpEncConfig) (h : Heap) (m out : Buf) (i : Nat) : Outcome Heap :=
  if e.key.len = 0 then .panic
  else
    match (h.read m)[i]?, (h.read e.key)[i % e.key.len]? with
    | some b, some k => .ret (h.write (out.sliceFrom i) [b ^^^ k])
    | _, _ => .panic

/-- One step of a goroutine of `TestOTPConcurrency` on the shared heap.
`iterations` is the bound of the loop of `enc_test`. A goroutine that has left
the loop, or has returned after reporting a plaintext that does not match,
makes no step. `Encrypt` and `Decrypt` return a nil error. -/
def Worker.stepOtp (e : otpEncConfig) (iterations : Nat) (h : Heap) (w : Worker OtpPc) :
    Outcome (Heap × Worker OtpPc) :=
  match w.pc with
  | .loop =>
    if w.failed ∨ iterations ≤ w.rounds then .ret (h, w)
    else
      let out := h.make w.p.len w.p.len
      .ret (out.1, { w with pc := .encLoop out.2 0 })
  | .encLoop out i =>
    if i < w.p.len then
      match otpRound e h w.p out i with
      | .panic => .panic
      | .ret h1 => .ret (h1, { w with pc := .encLoop out (i + 1) })
    else .ret (h, { w with pc := .decrypt out })
  | .decrypt c =>
    let out := h.make c.len c.len
    .ret (out.1, { w with pc := .decLoop c out.2 0 })
  | .decLoop m out i =>
    if i < m.len then
      match otpRound e h m out i with
      | .panic => .panic
      | .ret h1 => .ret (h1, { w with pc := .decLoop m out (i + 1) })
    else .ret (h, { w with pc := .compare out })
  | .compare pres =>
    if h.read pres = h.read w.p then .ret (h, { w with pc := .loop, rounds := w.rounds + 1 })
    else .ret (h, { w with pc := .loop, failed := true })

/-- A run of goroutines: the schedule names, step by step, the goroutine that
moves (a name that is no goroutine's is skipped); `n` counts the steps so far
and is passed to the step, which selects by it what the random reader
delivers. A panic in any goroutine ends the run. -/
def run {W : Type} (step : Nat → Heap → W → Outcome (Heap × W)) :
    List Nat → Nat → Heap → List W → Outcome (Heap × List W)
  | [], _, h, ws => .ret (h, ws)
  | i :: rest, n, h, ws =>
    match ws[i]? with
    | none => run step rest (n + 1) h ws
    | some w =>
      match step n h w with
      | .panic => .panic
      | .ret (h1, w1) => run step rest (n + 1) h1 (ws.set i w1)

/-- The number of steps a goroutine of `TestAESCBCConcurrency` at the point
`pc` has made in its current round trip. -/
def AesPc.index : AesPc → Nat
  | .loop => 0
  | .padRepeat _ => 1
  | .padded _ => 2
  | .encKeyed _ _ => 3
  | .encMade _ _ _ => 4
  | .encIv _ _ _ => 5
  | .encMode _ _ _ _ => 6
  | .decrypt _ => 7
  | .decKeyed _ _ => 8
  | .decMode _ _ _ => 9
  | .decMade _ _ _ _ => 10
  | .decCrypted _ => 11
  | .compare _ => 12

/-- The number of steps a goroutine of `TestAESCBCConcurrency` has made when
every call returned without error: thirteen for every round trip. -/
def Worker.stepsAes (w : Worker AesPc) : Nat := 13 * w.rounds + w.pc.index

/-- The number of steps a goroutine of `TestOTPConcurrency` with a plaintext of
`len` bytes has made in its current round trip: each of the two calls takes one
step for `make`, one for every byte and one to leave the loop. -/
def OtpPc.index (len : Nat) : OtpPc → Nat
  | .loop => 0
  | .encLoop _ i => 1 + i
  | .decrypt _ => len + 2
  | .decLoop _ _ i => len + 3 + i
  | .compare _ => 2 * len + 4

/-- The number of steps a goroutine of `TestOTPConcurrency` has made. -/
def Worker.stepsOtp (w : Worker OtpPc) : Nat :=
  (2 * w.p.len + 5) * w.rounds + w.pc.index w.p.len

/-- The arrays a goroutine of `TestAESCBCConcurrency` holds at a point: those
of its local slices. -/
def AesPc.Owns : AesPc → Nat → Prop
  | .loop, _ => False
  | .padRepeat padding, x => padding.InArray x
  | .padded plaintext, x => plaintext.InArray x
  | .encKeyed plaintext _, x => plaintext.InArray x
  | .encMade plaintext _ ciphertext, x => plaintext.InArray x ∨ ciphertext.InArray x
  | .encIv plaintext _ ciphertext, x => plaintext.InArray x ∨ ciphertext.InArray x
  | .encMode plaintext _ ciphertext _, x => plaintext.InArray x ∨ ciphertext.InArray x
  | .decrypt c, x => c.InArray x
  | .decKeyed c _, x => c.InArray x
  | .decMode ciphertext _ _, x => ciphertext.InArray x
  | .decMade ciphertext _ _ plaintext, x => ciphertext.InArray x ∨ plaintext.InArray x
  | .decCrypted plaintext, x => plaintext.InArray x
  | .compare pres, x => pres.InArray x

/-- The arrays a goroutine of `TestAESCBCConcurrency` may write: that of its
plaintext, into whose spare capacity `append` writes, and those of its local
slices. -/
def Worker.OwnsAes (w : Worker AesPc) (x : Nat) : Prop := w.p.InArray x ∨ w.pc.Owns x

/-- The arrays a goroutine of `TestOTPConcurrency` may write: those of its
local slices. Its plaintext is only read. -/
def Worker.OwnsOtp (w : Worker OtpPc) (x : Nat) : Prop :=
  match w.pc with
  | .loop => False
  | .encLoop out _ => out.InArray x
  | .decrypt c => c.InArray x
  | .decLoop m out _ => m.InArray x ∨ out.InArray x
  | .compare pres => pres.InArray x

/-- The CBC encryption of the padded plaintext `P` under the key bytes `kb` and
the IV `iv`: what `CryptBlocks` writes behind the IV. -/
def bodyOf (aes : AES) (kb iv P : List Byte) : List Byte :=
  joinBlocks (cbcEncrypt (aes.encrypt kb) (mkBlock iv) (toBlocks (P.length / 16 + 1)
    (encconfig.padded (Slice.mk P))))

/-- What holds of the local slices of a goroutine of `TestAESCBCConcurrency`
at a point of a round trip on the plaintext bytes `P` under the key bytes `kb`,
when no other goroutine has written to its arrays. -/
def AesPc.Ok (aes : AES) (kb P : List Byte) (p : Buf) (h : Heap) : AesPc → Prop
  | .loop => True
  | .padRepeat padding =>
    h.Holds padding (List.replicate (16 - P.length % 16) (byte (16 - P.length % 16)))
  | .padded plaintext => h.Holds plaintext (encconfig.padded (Slice.mk P))
  | .encKeyed plaintext block => h.Holds plaintext (encconfig.padded (Slice.mk P)) ∧ block = kb
  | .encMade plaintext block ciphertext =>
    h.Holds plaintext (encconfig.padded (Slice.mk P)) ∧ block = kb ∧ h.Valid ciphertext ∧
    ∃ a, ciphertext = .ref a 0 (16 + plaintext.len) (16 + plaintext.len) ∧
      ¬ plaintext.InArray a ∧ ¬ p.InArray a
  | .encIv plaintext block ciphertext =>
    h.Holds plaintext (encconfig.padded (Slice.mk P)) ∧ block = kb ∧ h.Valid ciphertext ∧
    ∃ a, ciphertext = .ref a 0 (16 + plaintext.len) (16 + plaintext.len) ∧
      ¬ plaintext.InArray a ∧ ¬ p.InArray a
  | .encMode plaintext block ciphertext iv =>
    h.Holds plaintext (encconfig.padded (Slice.mk P)) ∧ block = kb ∧ h.Valid ciphertext ∧
    h.read (ciphertext.sliceTo 16) = iv ∧
    ∃ a, ciphertext = .ref a 0 (16 + plaintext.len) (16 + plaintext.len) ∧
      ¬ plaintext.InArray a ∧ ¬ p.InArray a
  | .decrypt c => h.Valid c ∧ ∃ iv, iv.length = 16 ∧ h.read c = iv ++ bodyOf aes kb iv P
  | .decKeyed c block =>
    h.Valid c ∧ block = kb ∧ ∃ iv, iv.length = 16 ∧ h.read c = iv ++ bodyOf aes kb iv P
  | .decMode ciphertext block iv =>
    block = kb ∧ iv.length = 16 ∧ h.Holds ciphertext (bodyOf aes kb iv P)
  | .decMade ciphertext block iv plaintext =>
    block = kb ∧ iv.length = 16 ∧ h.Holds ciphertext (bodyOf aes kb iv P) ∧ h.Valid plaintext ∧
    ∃ a, plaintext = .ref a 0 ciphertext.len ciphertext.len ∧ ¬ p.InArray a
  | .decCrypted plaintext => h.Holds plaintext (encconfig.padded (Slice.mk P))
  | .compare pres => h.Holds pres P

/-- What holds of a goroutine of `TestAESCBCConcurrency` with the plaintext
window `p` of bytes `P`, as long as no other goroutine has written to its
arrays: it has reported no error, its plaintext holds `P`, its local slices
hold what the round trip has computed so far, and its loop counter is within
the bound. -/
def Worker.OkAes (aes : AES) (kb P : List Byte) (p : Buf) (iterations : Nat)
    (w : Worker AesPc) (h : Heap) : Prop :=
  w.p = p ∧ w.failed = false ∧ h.Holds p P ∧ w.pc.Ok aes kb P p h ∧
  w.rounds ≤ iterations ∧ (w.pc ≠ .loop → w.rounds < iterations)

/-- What holds of the local slices of a goroutine of `TestOTPConcurrency` at a
point of a round trip on the plaintext bytes `P` under the key bytes `kb`: the
output of a loop holds, at every index the loop has passed, the byte of its
input xored with the byte of the key. -/
def OtpPc.Ok (kb P : List Byte) (h : Heap) : OtpPc → Prop
  | .loop => True
  | .encLoop out i =>
    h.Valid out ∧ out.len = P.length ∧ out ≠ .nil ∧ i ≤ P.length ∧
    ∀ j, j < i → (h.read out).getD j 0 = P.getD j 0 ^^^ kb.getD (j % kb.length) 0
  | .decrypt c =>
    h.Valid c ∧ c.len = P.length ∧
    ∀ j, j < P.length → (h.read c).getD j 0 = P.getD j 0 ^^^ kb.getD (j % kb.length) 0
  | .decLoop m out i =>
    (h.Valid m ∧ m.len = P.length ∧
      ∀ j, j < P.length → (h.read m).getD j 0 = P.getD j 0 ^^^ kb.getD (j % kb.length) 0) ∧
    h.Valid out ∧ out.len = P.length ∧ out ≠ .nil ∧ i ≤ P.length ∧
    (∀ x, out.InArray x → ¬ m.InArray x) ∧
    ∀ j, j < i → (h.read out).getD j 0 = P.getD j 0
  | .compare pres => h.Holds pres P

/-- What holds of a goroutine of `TestOTPConcurrency` with the plaintext window
`p` of bytes `P`, as long as no other goroutine has written to its arrays. -/
def Worker.OkOtp (kb P : List Byte) (p : Buf) (iterations : Nat) (w : Worker OtpPc)
    (h : Heap) : Prop :=
  w.p = p ∧ w.failed = false ∧ p.len = P.length ∧ w.pc.Ok kb P h ∧
  w.rounds ≤ iterations ∧ (w.pc ≠ .loop → w.rounds < iterations)

end encconfig.mem

/-! ## Concrete instances

Small concrete values on which the theorems below are exercised. -/

namespace Examples

open Go encconfig

/-- A stand-in for the AES block primitive: xor with the first 16 key bytes.
It is its own inverse. -/
def xorAES : AES :=
  { encrypt := fun key b => b.xor (mkBlock key), decrypt := fun key b => b.xor (mkBlock key) }

/-- The 16-byte key `"this is a key!!!"` of the tests. -/
def key16 : Slice :=
  .mk [116, 104, 105, 115, 32, 105, 115, 32, 97, 32, 107, 101, 121, 33, 33, 33]

/-- The 3-byte key `"key"`. -/
def key3 : Slice := .mk [107, 101, 121]

/-- The plaintext `"bar"`. -/
def bar : Str := [98, 97, 114]

/-- A random reader that delivers the bytes 0, 1, 2, ... -/
def countingReader : Nat → Byte := fun i => byte i

/-- The hexadecimal digit of a value below 16. -/
def hexDigit (n : Nat) : Byte := if n < 10 then byte (48 + n) else byte (87 + n)

/-- The value of a hexadecimal digit. -/
def hexValue (c : Byte) : Option Nat :=
  if 48 ≤ c.val ∧ c.val ≤ 57 then some (c.val - 48)
  else if 97 ≤ c.val ∧ c.val ≤ 102 then some (c.val - 87)
  else none

/-- Hexadecimal encoding of bytes. -/
def hexEncode : List Byte → Str
  | [] => []
  | b :: bs => hexDigit (b.val / 16) :: hexDigit (b.val % 16) :: hexEncode bs

/-- Hexadecimal decoding: the bytes decoded so far and an error for the first
malformed pair. -/
def hexDecode : Str → List Byte × Option Err
  | [] => ([], none)
  | [_] => ([], some (.external 1))
  | c :: d :: rest =>
    match hexValue c, hexValue d with
    | some hi, some lo =>
      let (bs, err) := hexDecode rest
      (byte (hi * 16 + lo) :: bs, err)
    | _, _ => ([], some (.external 1))

/-- A stand-in for `base64.StdEncoding`: the hexadecimal codec. -/
def hexCodec : Base64 := { EncodeToString := hexEncode, DecodeString := hexDecode }

/-- The key `"/foo"`. -/
def foo : Str := [47, 102, 111, 111]

/-- A v2 store kept as an association list, newest binding first. -/
def mapStore : skeysapi.KeysAPI (List (Str × Str)) Unit Unit Unit :=
  let write : List (Str × Str) → Str → Str → List (Str × Str) × Option skeysapi.Response × Option Err :=
    fun st key val =>
      ((key, val) :: st,
        some { Action := [], Node := .node key false val .nil,
               PrevNode := match st.lookup key with
                 | some old => .node key false old .nil
                 | none => .null },
        none)
  { Get := fun st _ key _ =>
      match st.lookup key with
      | some val => (st, some { Action := [], Node := .node key false val .nil, PrevNode := .null }, none)
      | none => (st, none, some (.external 100))
    Set := fun st _ key val _ => write st key val
    Delete := fun st _ key _ =>
      match st.lookup key with
      | some old =>
        (st.filter (fun kv => kv.1 != key),
          some { Action := [], Node := .node key false [] .nil, PrevNode := .node key false old .nil },
          none)
      | none => (st, none, some (.external 100))
    Create := fun st _ key val =>
      match st.lookup key with
      | some _ => (st, none, some (.external 105))
      | none => write st key val
    CreateInOrder := fun st _ dir val _ => write st (dir ++ [47, byte (48 + st.length)]) val
    Update := fun st _ key val =>
      match st.lookup key with
      | some _ => write st key val
      | none => (st, none, some (.external 100))
    Watcher := fun _ _ => () }

/-- A v3 store kept as an association list, newest binding first. -/
def mapKV : skeysapiv3.KV (List (Str × Str)) Unit Unit Unit Unit :=
  { Put := fun st _ key val _ => ((key, val) :: st, some { PrevKv := none }, none)
    Get := fun st _ key _ =>
      match st.lookup key with
      | some val => (st, some { Kvs := [some { Key := .mk key, Value := .mk val }] }, none)
      | none => (st, some { Kvs := [] }, none)
    Delete := fun st _ key _ =>
      (st.filter (fun kv => kv.1 != key), some { Deleted := 0, PrevKvs := [] }, none)
    Compact := fun st _ _ _ => (st, some (), none)
    Do := fun st _ op =>
      match op with
      | .OpPut key val _ => ((key, val) :: st, { put := some { PrevKv := none }, get := none, del := none }, none)
      | .OpGet key _ =>
        (st, { put := none,
               get := some { Kvs := match st.lookup key with
                 | some val => [some { Key := .mk key, Value := .mk val }]
                 | none => [] },
               del := none }, none)
      | .OpDelete key _ =>
        (st.filter (fun kv => kv.1 != key),
          { put := none, get := none, del := some { Deleted := 0, PrevKvs := [] } }, none)
      | .zero => (st, { put := none, get := none, del := none }, some (.external 3))
    Txn := fun _ => () }

/-- The AES-CBC configuration `NewAESCBCEncConfig` builds from `key16`. -/
def cfg16 : aesCBCEncConfig := { key := key16, blockSize := 16 }

/-- The configuration `cfg16` over the stand-in block primitive, as an
`EncConfig`. -/
def enc16 : EncConfig := cfg16.toEncConfig xorAES

/-- The 16-byte plaintext `"jfowaie3920ejqoi"` of the tests. -/
def jfowaie : Str := [106, 102, 111, 119, 97, 105, 101, 51, 57, 50, 48, 101, 106, 113, 111, 105]

/-- What `cfg16` encrypts `"bar"` to under the IV 0, 1, ..., 15. -/
def barCipher : List Byte :=
  [0, 1, 2, 3, 4, 5, 6, 7, 8, 9, 10, 11, 12, 13, 14, 15,
   22, 8, 25, 125, 41, 97, 120, 42, 100, 36, 108, 99, 120, 33, 34, 35]

/-- A v2 store that is unreachable: every call fails with the same error and
leaves the store as it is. -/
def downStore : skeysapi.KeysAPI (List (Str × Str)) Unit Unit Unit :=
  { Get := fun st _ _ _ => (st, none, some (.external 14))
    Set := fun st _ _ _ _ => (st, none, some (.external 14))
    Delete := fun st _ _ _ => (st, none, some (.external 14))
    Create := fun st _ _ _ => (st, none, some (.external 14))
    CreateInOrder := fun st _ _ _ _ => (st, none, some (.external 14))
    Update := fun st _ _ _ => (st, none, some (.external 14))
    Watcher := fun _ _ => () }

/-- A v3 store that is unreachable: every call fails with the same error and
leaves the store as it is; `Do` answers with an empty `OpResponse`. -/
def downKV : skeysapiv3.KV (List (Str × Str)) Unit Unit Unit Unit :=
  { Put := fun st _ _ _ _ => (st, none, some (.external 14))
    Get := fun st _ _ _ => (st, none, some (.external 14))
    Delete := fun st _ _ _ => (st, none, some (.external 14))
    Compact := fun st _ _ _ => (st, none, some (.external 14))
    Do := fun st _ _ => (st, { put := none, get := none, del := none }, some (.external 14))
    Txn := fun _ => () }

/-- The v2 wrapper `NewSecureKeysAPI` builds over a store from `enc16` and the
hexadecimal codec. -/
def skapi16 (k : skeysapi.KeysAPI (List (Str × Str)) Unit Unit Unit) :
    skeysapi.secureKeysAPI (List (Str × Str)) Unit Unit Unit :=
  { k := k, valueSetWrap := some (skeysapi.GetWrappers hexCodec enc16).1,
    valueGetUnwrap := some (skeysapi.GetWrappers hexCodec enc16).2 }

/-- The v3 wrapper `NewSecureKeysAPI` builds over a store from `enc16` and the
hexadecimal codec. -/
def skv16 (k : skeysapiv3.KV (List (Str × Str)) Unit Unit Unit Unit) :
    skeysapiv3.secureKV (List (Str × Str)) Unit Unit Unit Unit :=
  { k := k, valueSetWrap := some (skeysapiv3.GetWrappers hexCodec enc16).1,
    valueGetUnwrap := some (skeysapiv3.GetWrappers hexCodec enc16).2 }

/-- The string `"zz"`, which is not a hexadecimal encoding. -/
def zz : Str := [122, 122]

/-- The encoding under which the wrappers of `enc16` store `"bar"` when the IV
is 0, 1, ..., 15. -/
def barStored : Str := hexEncode barCipher

/-- A v2 response for a directory `"/dir"` with two children holding stored
values, and a previous node holding a stored value. -/
def dirResponse : skeysapi.Response :=
  { Action := [],
    Node := .node [47, 100] true []
      (.cons (.node [47, 100, 47, 49] false barStored .nil)
        (.cons (.node [47, 100, 47, 50] false barStored .nil) .nil)),
    PrevNode := .node [47, 100] false barStored .nil }

/-- The response `dirResponse` with every stored value replaced by `"bar"`. -/
def dirResponsePlain : skeysapi.Response :=
  { Action := [],
    Node := .node [47, 100] true []
      (.cons (.node [47, 100, 47, 49] false bar .nil)
        (.cons (.node [47, 100, 47, 50] false bar .nil) .nil)),
    PrevNode := .node [47, 100] false bar .nil }

/-- A v3 store kept as an association list that answers `Put` and `Delete`
with the previous record of the key. -/
def prevKV : skeysapiv3.KV (List (Str × Str)) Unit Unit Unit Unit :=
  let prev : List (Str × Str) → Str → Option skeysapiv3.KeyValue := fun st key =>
    match st.lookup key with
    | some old => some { Key := .mk key, Value := .mk old }
    | none => none
  { Put := fun st _ key val _ => ((key, val) :: st, some { PrevKv := prev st key }, none)
    Get := fun st _ key _ =>
      match st.lookup key with
      | some val => (st, some { Kvs := [some { Key := .mk key, Value := .mk val }] }, none)
      | none => (st, some { Kvs := [] }, none)
    Delete := fun st _ key _ =>
      (st.filter (fun kv => kv.1 != key),
        some { Deleted := 1,
               PrevKvs := match prev st key with
                 | some kv => [some kv]
                 | none => [] }, none)
    Compact := fun st _ _ _ => (st, some (), none)
    Do := fun st _ op =>
      match op with
      | .OpPut key val _ =>
        ((key, val) :: st, { put := some { PrevKv := prev st key }, get := none, del := none },
          none)
      | .OpGet key _ =>
        (st, { put := none,
               get := some { Kvs := match prev st key with
                 | some kv => [some kv]
                 | none => [] },
               del := none }, none)
      | .OpDelete key _ =>
        (st.filter (fun kv => kv.1 != key),
          { put := none, get := none,
            del := some { Deleted := 1,
                          PrevKvs := match prev st key with
                            | some kv => [some kv]
                            | none => [] } }, none)
      | .zero => (st, { put := none, get := none, del := none }, some (.external 3))
    Txn := fun _ => () }


/-- A heap with two arrays: the caller's 16-byte key `"this is a key!!!"` at
address 0 and, at address 1, a 20-byte array that starts with `"bar"` and goes
on with bytes of value 255. -/
def heap0 : Heap := [key16.bytes, bar ++ List.replicate 17 255]

/-- The caller's key in `heap0`. -/
def keyBuf : Buf := .ref 0 0 16 16

/-- The caller's plaintext in `heap0`: the first three bytes of array 1, with
the rest of the array for capacity. -/
def barBuf : Buf := .ref 1 0 3 20

/-- A window on the bytes behind the plaintext in array 1. -/
def tailBuf : Buf := .ref 1 3 13 17

/-- The configuration `NewAESCBCEncConfig` builds in `heap0`: its key is the
array at address 2. -/
def memCfg16 : mem.aesCBCEncConfig := { key := .ref 2 0 16 16, blockSize := 16 }

/-- The heap after the construction of `memCfg16` in `heap0`. -/
def heap1 : Heap := heap0 ++ [key16.bytes]

/-- The heap after `memCfg16` has encrypted `barBuf` in `heap1` with the IV
`0, 1, .., 15`: the padding was appended to `"bar"` in place, in array 1; array
3 is the padding made by `bytes.Repeat`, array 4 the ciphertext. -/
def heap2 : Heap :=
  [key16.bytes, bar ++ List.replicate 13 13 ++ List.replicate 4 255, key16.bytes,
   List.replicate 13 13, barCipher]

/-- The ciphertext returned by that call. -/
def cipherBuf : Buf := .ref 4 0 32 32

/-- The heap `heap2` after the caller has zeroed the key array at address 0. -/
def heap2Zeroed : Heap := heap2.store 0 0 (List.replicate 16 0)

/-- The children a directory listing shows for the bindings of a store, in the
order of the bindings. -/
def listing : List (Str × Str) → skeysapi.NodeList
  | [] => .nil
  | (key, val) :: rest => .cons (.node key false val .nil) (listing rest)

/-- The v2 store `mapStore` with a `Get` that answers with a directory whose
children are all bindings of the store. -/
def dirStore : skeysapi.KeysAPI (List (Str × Str)) Unit Unit Unit :=
  { mapStore with
    Get := fun st _ key _ =>
      (st, some { Action := [], Node := .node key true [] (listing st), PrevNode := .null },
        none) }

/-- The v3 store `mapKV` with a `Get` that answers with the records of all
bindings of the store, in the order of the bindings. -/
def rangeKV : skeysapiv3.KV (List (Str × Str)) Unit Unit Unit Unit :=
  { mapKV with
    Get := fun st _ _ _ =>
      (st, some { Kvs := st.map fun kv => some { Key := .mk kv.1, Value := .mk kv.2 } }, none) }

/-- A store with two bindings: `"/foo"` holds the stored form of `"bar"`, and
`"/foo/2"`, which comes after it, holds `"zz"`, which is not an encoding. -/
def goodThenBad : List (Str × Str) := [(foo, barStored), (foo ++ [47, 50], zz)]

/-- The string under which the wrappers of `enc16` store `"bar"` over
`base64.StdEncoding` when the IV is 0, 1, ..., 15:
`"AAECAwQFBgcICQoLDA0ODxYIGX0pYXgqZCRsY3ghIiM="`. -/
def barStored64 : Str := StdEncoding.EncodeToString barCipher

/-- The string `barStored64` with a line break `'\n'` after its fourth
character. -/
def barBroken : Str := barStored64.take 4 ++ [10] ++ barStored64.drop 4

/-- A heap with three arrays: at address 0 the key `"this is a key!!!"` of a
cipher, at address 1 an array of 48 bytes that starts with
`"jfowaie3920ejqoi"`, at address 2 an array of 16 bytes holding
`"jfowaie3920ejqoi"`. -/
def heap3 : Heap :=
  [key16.bytes, jfowaie ++ List.replicate 32 0, jfowaie]

/-- The cipher whose key is the array at address 0. -/
def memCfg0 : mem.aesCBCEncConfig := { key := .ref 0 0 16 16, blockSize := 16 }

/-- The one-time pad whose key is the array at address 0. -/
def memOtp0 : mem.otpEncConfig := { key := .ref 0 0 16 16 }

/-- The window `buf[0:16]` of array 1, with capacity 48. -/
def bufA : Buf := .ref 1 0 16 48

/-- The window `buf[8:16]` of array 1, with capacity 40: it shares the spare
capacity of `bufA`. -/
def bufB : Buf := .ref 1 8 8 40

/-- The whole of array 2. -/
def bufC : Buf := .ref 2 0 16 16

/-- Goroutine 0 runs `bytes.Repeat` and `append` of its `pkcs7pad`, then
goroutine 1 does the same, then goroutine 0 runs the other eleven steps of its
round trip. -/
def raceSchedule : List Nat := [0, 0, 1, 1, 0, 0, 0, 0, 0, 0, 0, 0, 0, 0, 0]

/-- Goroutine 0 runs its `Encrypt` (seven steps), goroutine 1 its `Encrypt`,
goroutine 0 its `Decrypt` and comparison (six steps), goroutine 1 its
`Decrypt` and comparison. -/
def callSchedule : List Nat :=
  List.replicate 7 0 ++ List.replicate 7 1 ++ List.replicate 6 0 ++ List.replicate 6 1

/-- What a run leaves of its goroutines: for each the point at which it
stands, its loop counter and whether it has reported an error. -/
def outcomeOf {Pc : Type} (r : Outcome (Heap × List (mem.Worker Pc))) :
    Outcome (List (Pc × Nat × Bool)) :=
  r.map fun x => x.2.map fun w => (w.pc, w.rounds, w.failed)
end Examples

/-! # Theorems -/

/-! ## Helper lemmas -/

namespace Go

theorem byte_xor_cancel (a b : Byte) : (a ^^^ b) ^^^ b = a := by
  apply Fin.ext
  have h1 : a.val ^^^ b.val < 256 := Nat.xor_lt_two_pow (n := 8) a.isLt b.isLt
  show ((a.val ^^^ b.val) % 256 ^^^ b.val) % 256 = a.val
  rw [Nat.mod_eq_of_lt h1, Nat.xor_assoc, Nat.xor_self, Nat.xor_zero]
  exact Nat.mod_eq_of_lt a.isLt

theorem Block.ext_bytes {a b : Block} (h : a.bytes = b.bytes) : a = b := by
  cases a; cases b; simp_all

theorem zipWith_xor_cancel : ∀ (l r : List Byte), l.length = r.length →
    List.zipWith (fun x y => x ^^^ y) (List.zipWith (fun x y => x ^^^ y) l r) r = l
  | [], [], _ => rfl
  | [], _ :: _, h => by simp at h
  | _ :: _, [], h => by simp at h
  | a :: l, b :: r, h => by
    simp only [List.zipWith_cons_cons, byte_xor_cancel]
    rw [zipWith_xor_cancel l r (by simpa using h)]

theorem zipWith_xor_self : ∀ (l : List Byte),
    List.zipWith (fun x y => x ^^^ y) l l = List.replicate l.length 0
  | [] => rfl
  | a :: l => by
    have h : a ^^^ a = 0 := by
      apply Fin.ext
      show (a.val ^^^ a.val) % 256 = 0
      simp
    simp only [List.zipWith_cons_cons, List.length_cons, List.replicate_succ, h]
    rw [zipWith_xor_self l]

theorem Block.xor_cancel (a b : Block) : (a.xor b).xor b = a := by
  apply Block.ext_bytes
  show List.zipWith _ (List.zipWith _ a.bytes b.bytes) b.bytes = a.bytes
  exact zipWith_xor_cancel _ _ (by rw [a.size_eq, b.size_eq])

theorem mkBlock_bytes (l : List Byte) (h : l.length = 16) : (mkBlock l).bytes = l := by
  show (l ++ List.replicate 16 0).take 16 = l
  rw [List.take_append_of_le_length (by omega), List.take_of_length_le (by omega)]

theorem mkBlock_block (b : Block) : mkBlock b.bytes = b :=
  Block.ext_bytes (mkBlock_bytes _ b.size_eq)

theorem length_joinBlocks : ∀ bs : List Block, (joinBlocks bs).length = 16 * bs.length
  | [] => rfl
  | b :: bs => by
    simp only [joinBlocks, List.length_append, List.length_cons, b.size_eq, length_joinBlocks bs]
    omega

theorem toBlocks_joinBlocks : ∀ bs : List Block, toBlocks bs.length (joinBlocks bs) = bs
  | [] => rfl
  | b :: bs => by
    simp only [joinBlocks, List.length_cons, toBlocks]
    rw [List.take_append_of_le_length (by rw [b.size_eq]), List.take_of_length_le (by rw [b.size_eq]),
      List.drop_append_of_le_length (by rw [b.size_eq]), List.drop_of_length_le (by rw [b.size_eq]),
      List.nil_append, mkBlock_block, toBlocks_joinBlocks bs]

theorem joinBlocks_toBlocks : ∀ (n : Nat) (l : List Byte), l.length = 16 * n →
    joinBlocks (toBlocks n l) = l
  | 0, l, h => by
    have : l = [] := List.length_eq_zero.mp (by omega)
    subst this; rfl
  | n + 1, l, h => by
    simp only [toBlocks, joinBlocks]
    rw [mkBlock_bytes _ (by simp; omega), joinBlocks_toBlocks n (l.drop 16) (by simp; omega),
      List.take_append_drop]

theorem length_toBlocks : ∀ (n : Nat) (l : List Byte), (toBlocks n l).length = n
  | 0, _ => rfl
  | n + 1, l => by simp [toBlocks, length_toBlocks n]

theorem length_cbcEncrypt (E : Block → Block) : ∀ (bs : List Block) (iv : Block),
    (cbcEncrypt E iv bs).length = bs.length
  | [], _ => rfl
  | b :: bs, iv => by simp [cbcEncrypt, length_cbcEncrypt E bs]

theorem length_cbcDecrypt (D : Block → Block) : ∀ (bs : List Block) (iv : Block),
    (cbcDecrypt D iv bs).length = bs.length
  | [], _ => rfl
  | b :: bs, iv => by simp [cbcDecrypt, length_cbcDecrypt D bs]

theorem cbcDecrypt_cbcEncrypt (E D : Block → Block) (h : ∀ b, D (E b) = b) :
    ∀ (bs : List Block) (iv : Block), cbcDecrypt D iv (cbcEncrypt E iv bs) = bs
  | [], _ => rfl
  | b :: bs, iv => by
    simp only [cbcEncrypt, cbcDecrypt, h, Block.xor_cancel, cbcDecrypt_cbcEncrypt E D h bs]

end Go

namespace encconfig

open Go

theorem Slice_append_bytes (s : Slice) (t : List Byte) : (s.append t).bytes = s.bytes ++ t := by
  cases s <;> cases t <;> simp [Slice.append, Slice.bytes]

theorem Slice_append_of_ne_nil (s : Slice) (t : List Byte) (h : t ≠ []) :
    s.append t = .mk (s.bytes ++ t) := by
  cases s <;> cases t <;> simp_all [Slice.append, Slice.bytes]

theorem byte_val_of_lt (n : Nat) (h : n < 256) : (byte n).val = n := Nat.mod_eq_of_lt h

/-- The padding count computed by `pkcs7pad` lies in `[1, b]`. -/
theorem numPad_bounds (len b : Nat) (hb : 0 < b) : 1 ≤ b - len % b ∧ b - len % b ≤ b := by
  have := Nat.mod_lt len hb
  omega

theorem pkcs7pad_eq (m : Slice) (b : Nat) (hb : 0 < b) :
    pkcs7pad m b = .ret (.mk (m.bytes ++ List.replicate (b - m.len % b) (byte (b - m.len % b)))) := by
  have hn := numPad_bounds m.len b hb
  unfold pkcs7pad
  simp only [Nat.pos_iff_ne_zero.mp hb, if_false]
  rw [Slice_append_of_ne_nil]
  intro h
  have := congrArg List.length h
  simp at this
  omega

/-- Unpadding removes a well-formed padding of `n` bytes of value `n`. -/
theorem pkcs7unpad_append_replicate (m : List Byte) (n b : Nat) (h1 : 1 ≤ n) (h2 : n < 256)
    (h3 : n ≤ b) :
    pkcs7unpad (.mk (m ++ List.replicate n (byte n))) b = (.mk m, none) := by
  have hlast : (m ++ List.replicate n (byte n)).getD (m.length + n - 1) 0 = byte n := by
    rw [List.getD_eq_getElem _ _ (by simp; omega)]
    rw [List.getElem_append_right (by omega)]
    simp
  have hv := byte_val_of_lt n h2
  unfold pkcs7unpad
  simp only [Slice.len, Slice.bytes, List.length_append, List.length_replicate]
  rw [hlast, hv]
  have e1 : m.length + n - n = m.length := by omega
  simp only [e1, List.drop_left, List.take_left]
  have e2 : ¬ (m.length + n = 0) := by omega
  have e3 : ¬ (n = 0) := by omega
  have e4 : ¬ (n > m.length + n ∨ n > b) := by omega
  simp [e2, e3, h3]

end encconfig

namespace encconfig

open Go

theorem Slice_bytes_mk (l : List Byte) : (Slice.mk l).bytes = l := rfl

theorem Slice_len_mk (l : List Byte) : (Slice.mk l).len = l.length := rfl

theorem BlockSize_eq : BlockSize = 16 := rfl

theorem uint16_blockSize : uint16 (BlockSize : Int) = 16 := by decide

theorem length_readIV (f : Nat → Byte) : ((List.range 16).map f).length = 16 := by simp

theorem length_padded (p : Slice) : (padded p).length = 16 * (p.len / 16 + 1) := by
  simp only [padded, List.length_append, List.length_replicate, Slice.len]
  omega

theorem cbc_encrypt_blocks (E : Block → Block) (iv : Block) (src : List Byte) (n : Nat)
    (h : src.length = 16 * n) :
    CBCEncrypter.CryptBlocks E iv src = .ret (joinBlocks (cbcEncrypt E iv (toBlocks n src))) := by
  have h1 : src.length % BlockSize = 0 := by simp [BlockSize, h]
  have h2 : src.length / BlockSize = n := by simp [BlockSize, h]
  simp [CBCEncrypter.CryptBlocks, h1, h2]

theorem cbc_decrypt_blocks (D : Block → Block) (iv : Block) (src : List Byte) (n : Nat)
    (h : src.length = 16 * n) :
    CBCDecrypter.CryptBlocks D iv src = .ret (joinBlocks (cbcDecrypt D iv (toBlocks n src))) := by
  have h1 : src.length % BlockSize = 0 := by simp [BlockSize, h]
  have h2 : src.length / BlockSize = n := by simp [BlockSize, h]
  simp [CBCDecrypter.CryptBlocks, h1, h2]

/-- CBC decryption undoes CBC encryption under the same IV when the block
decryption undoes the block encryption. -/
theorem cbc_roundtrip (E D : Block → Block) (h : ∀ b, D (E b) = b) (iv : Block)
    (src : List Byte) (n : Nat) (hs : src.length = 16 * n) :
    CBCDecrypter.CryptBlocks D iv (joinBlocks (cbcEncrypt E iv (toBlocks n src))) = .ret src := by
  have hl : (cbcEncrypt E iv (toBlocks n src)).length = n := by
    rw [length_cbcEncrypt, length_toBlocks]
  have hj := toBlocks_joinBlocks (cbcEncrypt E iv (toBlocks n src))
  rw [hl] at hj
  rw [cbc_decrypt_blocks D iv _ n (by rw [length_joinBlocks, hl]), hj,
    cbcDecrypt_cbcEncrypt E D h, joinBlocks_toBlocks n src hs]

theorem length_cipherOf (aes : AES) (key iv : List Byte) (p : Slice) :
    (cipherOf aes key iv p).length = iv.length + 16 * (p.len / 16 + 1) := by
  simp only [cipherOf, List.length_append, length_joinBlocks, length_cbcEncrypt, length_toBlocks]

/-- What `Encrypt` returns for a well-formed configuration when the random
reader delivers. -/
theorem aes_Encrypt_eq (aes : AES) (e : aesCBCEncConfig) (hk : NewCipher e.key = none)
    (hb : e.blockSize = (BlockSize : Int)) (f : Nat → Byte) (p : Slice) :
    e.Encrypt aes (.ok f) p =
      .ret (.mk (cipherOf aes e.key.bytes ((List.range 16).map f) p), none) := by
  unfold aesCBCEncConfig.Encrypt
  rw [hb, uint16_blockSize, pkcs7pad_eq p 16 (by decide)]
  simp only [hk, readFull, Slice_bytes_mk, BlockSize_eq]
  have := cbc_encrypt_blocks (aes.encrypt e.key.bytes) (mkBlock ((List.range 16).map f))
    (padded p) (p.len / 16 + 1) (length_padded p)
  simp only [padded] at this
  rw [this]
  rfl

/-- Decrypting the ciphertext built from a 16-byte IV gives the plaintext
back when the block decryption undoes the block encryption. -/
theorem aes_Decrypt_cipherOf (aes : AES) (e : aesCBCEncConfig) (hk : NewCipher e.key = none)
    (hb : e.blockSize = (BlockSize : Int))
    (hinv : ∀ b, aes.decrypt e.key.bytes (aes.encrypt e.key.bytes b) = b)
    (iv : List Byte) (hiv : iv.length = 16) (p : Slice) :
    e.Decrypt aes (.mk (cipherOf aes e.key.bytes iv p)) = .ret (.mk p.bytes, none) := by
  unfold aesCBCEncConfig.Decrypt
  have hl := length_cipherOf aes e.key.bytes iv p
  have h1 : ¬ ((cipherOf aes e.key.bytes iv p).length < 16) := by omega
  have htake : (cipherOf aes e.key.bytes iv p).take 16 = iv := by
    have := List.take_left iv (joinBlocks (cbcEncrypt (aes.encrypt e.key.bytes) (mkBlock iv)
      (toBlocks (p.len / 16 + 1) (padded p))))
    rw [hiv] at this; exact this
  have hdrop : (cipherOf aes e.key.bytes iv p).drop 16 =
      joinBlocks (cbcEncrypt (aes.encrypt e.key.bytes) (mkBlock iv)
        (toBlocks (p.len / 16 + 1) (padded p))) := by
    have := List.drop_left iv (joinBlocks (cbcEncrypt (aes.encrypt e.key.bytes) (mkBlock iv)
      (toBlocks (p.len / 16 + 1) (padded p))))
    rw [hiv] at this; exact this
  have h2 : ¬ ((joinBlocks (cbcEncrypt (aes.encrypt e.key.bytes) (mkBlock iv)
      (toBlocks (p.len / 16 + 1) (padded p)))).length % 16 ≠ 0) := by
    rw [length_joinBlocks]; omega
  simp only [hk, Slice_len_mk, Slice_bytes_mk, BlockSize_eq, h1, if_false, htake, hdrop, h2]
  rw [cbc_roundtrip _ _ hinv _ _ _ (length_padded p)]
  simp only [hb, uint16_blockSize]
  have hp := numPad_bounds p.len 16 (by decide)
  have := pkcs7unpad_append_replicate p.bytes (16 - p.len % 16) 16 hp.1 (by omega) hp.2
  simp only [padded]
  rw [this]

end encconfig

namespace encconfig

open Go

theorem NewAESCBCEncConfig_some (key : Slice) (e : aesCBCEncConfig)
    (h : NewAESCBCEncConfig key = (some e, none)) :
    e = { key := .mk key.bytes, blockSize := (BlockSize : Int) } ∧
      (key.len = 16 ∨ key.len = 24 ∨ key.len = 32) := by
  unfold NewAESCBCEncConfig at h
  simp only [AES_128_KEY_LEN, AES_192_KEY_LEN, AES_256_KEY_LEN] at h
  split at h
  · simp at h
  · rename_i hn
    simp only [Prod.mk.injEq, Option.some.injEq, and_true] at h
    refine ⟨h.symm, ?_⟩
    omega

theorem NewAESCBCEncConfig_of_len (key : Slice)
    (h : key.len = 16 ∨ key.len = 24 ∨ key.len = 32) :
    NewAESCBCEncConfig key = (some { key := .mk key.bytes, blockSize := (BlockSize : Int) }, none) := by
  unfold NewAESCBCEncConfig
  simp only [AES_128_KEY_LEN, AES_192_KEY_LEN, AES_256_KEY_LEN]
  rw [if_neg (by omega)]

theorem NewCipher_of_len (key : Slice) (h : key.len = 16 ∨ key.len = 24 ∨ key.len = 32) :
    NewCipher (.mk key.bytes) = none := by
  unfold NewCipher
  rw [if_pos (by simpa [Slice.len] using h)]

theorem otpLoop_involutive (key : List Byte) :
    ∀ (m : List Byte) (i : Nat) (out : List Byte), otpLoop key i m = .ret out →
      otpLoop key i out = .ret m ∧ out.length = m.length
  | [], _, out, h => by
    simp only [otpLoop, Outcome.ret.injEq] at h
    subst h; exact ⟨rfl, rfl⟩
  | b :: rest, i, out, h => by
    simp only [otpLoop] at h
    split at h
    · cases h
    · rename_i hlen
      split at h
      · cases h
      · rename_i k hk
        split at h
        · cases h
        · rename_i out1 hrec
          simp only [Outcome.ret.injEq] at h
          subst h
          obtain ⟨h1, h2⟩ := otpLoop_involutive key rest (i + 1) out1 hrec
          refine ⟨?_, by simp [h2]⟩
          simp only [otpLoop, hlen, if_false, hk, h1, byte_xor_cancel]

theorem otpLoop_total (key : List Byte) (hk : key ≠ []) :
    ∀ (m : List Byte) (i : Nat), ∃ out, otpLoop key i m = .ret out
  | [], _ => ⟨[], rfl⟩
  | b :: rest, i => by
    obtain ⟨out, h1⟩ := otpLoop_total key hk rest (i + 1)
    have hlen : key.length ≠ 0 := by simpa using hk
    have hlt : i % key.length < key.length := Nat.mod_lt _ (Nat.pos_of_ne_zero hlen)
    exact ⟨(b ^^^ key[i % key.length]) :: out, by
      simp only [otpLoop, hlen, if_false, List.getElem?_eq_getElem hlt, h1]⟩

end encconfig

namespace Examples

open Go encconfig

theorem xorAES_inverts (key : List Byte) (b : Block) :
    xorAES.decrypt key (xorAES.encrypt key b) = b :=
  Block.xor_cancel b (mkBlock key)

end Examples

/-! ## Properties of the ciphers -/

namespace encconfig

open Go

/-- C1. AES-CBC round trip: for a key of 16, 24 or 32 bytes, whatever IV the
random reader delivers and whatever the plaintext `p` (empty and nil
included), `Encrypt` succeeds and `Decrypt` of its output returns the bytes of
`p` with a nil error, provided the AES block decryption inverts the AES block
encryption under that key. -/
theorem aes_cbc_round_trip (aes : AES) (key : Slice)
    (hlen : key.len = 16 ∨ key.len = 24 ∨ key.len = 32)
    (hinv : ∀ b, aes.decrypt key.bytes (aes.encrypt key.bytes b) = b)
    (iv : Nat → Byte) (p : Slice) :
    ∃ e c, NewAESCBCEncConfig key = (some e, none) ∧
      e.Encrypt aes (.ok iv) p = .ret (c, none) ∧
      e.Decrypt aes c = .ret (.mk p.bytes, none) := by
  refine ⟨{ key := .mk key.bytes, blockSize := (BlockSize : Int) }, _,
    NewAESCBCEncConfig_of_len key hlen,
    aes_Encrypt_eq aes _ (NewCipher_of_len key hlen) rfl iv p,
    aes_Decrypt_cipherOf aes _ (NewCipher_of_len key hlen) rfl hinv _ (length_readIV iv) p⟩

/-- Witness for C1: the key `"this is a key!!!"`, the plaintext `"bar"`. -/
theorem aes_cbc_round_trip_witness :
    (Examples.key16.len = 16 ∨ Examples.key16.len = 24 ∨ Examples.key16.len = 32) ∧
    (∀ b, Examples.xorAES.decrypt Examples.key16.bytes
      (Examples.xorAES.encrypt Examples.key16.bytes b) = b) ∧
    ∃ e c, NewAESCBCEncConfig Examples.key16 = (some e, none) ∧
      e.Encrypt Examples.xorAES (.ok Examples.countingReader) (.mk Examples.bar) = .ret (c, none) ∧
      e.Decrypt Examples.xorAES c = .ret (.mk (Slice.mk Examples.bar).bytes, none) :=
  ⟨by decide, Examples.xorAES_inverts _,
    aes_cbc_round_trip Examples.xorAES Examples.key16 (by decide) (Examples.xorAES_inverts _)
      Examples.countingReader (.mk Examples.bar)⟩

/-- C2. OTP round trip: for a non-empty key and any plaintext `p` (empty, nil,
shorter or longer than the key), `Encrypt` succeeds and `Decrypt` of its output
returns the bytes of `p` with a nil error. -/
theorem otp_round_trip (key : Slice) (hkey : 0 < key.len) (p : Slice) :
    ∃ e c, NewOTPEncConfig key = (some e, none) ∧
      e.Encrypt p = .ret (c, none) ∧
      e.Decrypt c = .ret (.mk p.bytes, none) := by
  have hne : key.bytes ≠ [] := by
    intro h; simp [Slice.len, h] at hkey
  obtain ⟨out, h1⟩ := otpLoop_total key.bytes hne p.bytes 0
  have h2 := (otpLoop_involutive key.bytes p.bytes 0 out h1).1
  refine ⟨{ key := .mk key.bytes }, .mk out, ?_, ?_, ?_⟩
  · unfold NewOTPEncConfig
    rw [if_neg (by omega)]
  · simp only [otpEncConfig.Encrypt, Slice_bytes_mk, h1]
  · simp only [otpEncConfig.Decrypt, otpEncConfig.Encrypt, Slice_bytes_mk, h2]

/-- Witness for C2: the key `"key"` and a plaintext longer than the key. -/
theorem otp_round_trip_witness :
    0 < Examples.key3.len ∧
    ∃ e c, NewOTPEncConfig Examples.key3 = (some e, none) ∧
      e.Encrypt (.mk [1, 2, 3, 4, 5]) = .ret (c, none) ∧
      e.Decrypt c = .ret (.mk (Slice.mk [1, 2, 3, 4, 5]).bytes, none) :=
  ⟨by decide, otp_round_trip Examples.key3 (by decide) (.mk [1, 2, 3, 4, 5])⟩

end encconfig

namespace encconfig

open Go

/-- C5 (what the code does instead). For every AES block primitive `aes` and
the key `"this is a key!!!"`: let the body be one block of zero bytes and the
IV be the AES decryption of that block. The CBC-decrypted body is then sixteen
zero bytes, which `pkcs7unpad` rejects with `ErrPKCS7PaddingInvalid` (last
byte 0), and yet `Decrypt` returns a nil plaintext with a nil error. -/
theorem aes_Decrypt_swallows_padding_error (aes : AES) :
    ∃ e, NewAESCBCEncConfig Examples.key16 = (some e, none) ∧
      CBCDecrypter.CryptBlocks (aes.decrypt e.key.bytes)
          (mkBlock (aes.decrypt e.key.bytes (mkBlock (List.replicate 16 0))).bytes)
          (List.replicate 16 0) = .ret (List.replicate 16 0) ∧
      pkcs7unpad (.mk (List.replicate 16 0)) (uint16 e.blockSize) =
        (.nil, some .ErrPKCS7PaddingInvalid) ∧
      e.Decrypt aes (.mk ((aes.decrypt e.key.bytes (mkBlock (List.replicate 16 0))).bytes ++
          List.replicate 16 0)) = .ret (.nil, none) := by
  have hcbc : ∀ k : List Byte, CBCDecrypter.CryptBlocks (aes.decrypt k)
      (mkBlock (aes.decrypt k (mkBlock (List.replicate 16 0))).bytes)
      (List.replicate 16 0) = .ret (List.replicate 16 0) := by
    intro k
    rw [cbc_decrypt_blocks _ _ _ 1 (by simp)]
    simp only [toBlocks, cbcDecrypt, joinBlocks, List.append_nil, mkBlock_block]
    have h16 : List.take 16 (List.replicate 16 (0 : Byte)) = List.replicate 16 0 := by decide
    have hself : ∀ b : Block, (b.xor b).bytes = List.replicate 16 0 := by
      intro b
      show List.zipWith _ b.bytes b.bytes = _
      rw [zipWith_xor_self, b.size_eq]
    rw [h16, hself]
  have hpad : pkcs7unpad (.mk (List.replicate 16 0)) (uint16 (BlockSize : Int)) =
      (.nil, some .ErrPKCS7PaddingInvalid) := by decide
  have hpad16 : pkcs7unpad (.mk (List.replicate 16 0)) (uint16 ((16 : Nat) : Int)) =
      (.nil, some .ErrPKCS7PaddingInvalid) := by decide
  refine ⟨{ key := .mk Examples.key16.bytes, blockSize := (BlockSize : Int) }, by decide,
    hcbc _, hpad, ?_⟩
  unfold aesCBCEncConfig.Decrypt
  have hk : NewCipher (.mk Examples.key16.bytes) = none := by decide
  have hb := (aes.decrypt Examples.key16.bytes (mkBlock (List.replicate 16 0))).size_eq
  have htake := List.take_left (aes.decrypt Examples.key16.bytes (mkBlock (List.replicate 16 0))).bytes
    (List.replicate 16 (0 : Byte))
  have hdrop := List.drop_left (aes.decrypt Examples.key16.bytes (mkBlock (List.replicate 16 0))).bytes
    (List.replicate 16 (0 : Byte))
  rw [hb] at htake hdrop
  simp only [hk, Slice_len_mk, Slice_bytes_mk, BlockSize_eq, List.length_append, hb,
    List.length_replicate, htake, hdrop]
  simp only [Nat.reduceAdd, Nat.reduceLT, if_false, Nat.reduceMod, ne_eq, not_true_eq_false]
  rw [hcbc]
  simp only [hpad16]

/-- C6. For every AES-CBC cipher and every input shorter than one block (the
empty and the nil input included), `Decrypt` returns a nil plaintext and
`ErrAESCipherTooShort`. -/
theorem aes_Decrypt_too_short (aes : AES) (key : Slice) (e : aesCBCEncConfig)
    (he : NewAESCBCEncConfig key = (some e, none)) (c : Slice) (hc : c.len < 16) :
    e.Decrypt aes c = .ret (.nil, some .ErrAESCipherTooShort) := by
  obtain ⟨rfl, hlen⟩ := NewAESCBCEncConfig_some key e he
  unfold aesCBCEncConfig.Decrypt
  simp only [NewCipher_of_len key hlen, BlockSize_eq, hc, if_true]

/-- Witness for C6: a 3-byte input under the key `"this is a key!!!"`. -/
theorem aes_Decrypt_too_short_witness :
    NewAESCBCEncConfig Examples.key16 =
      (some { key := Examples.key16, blockSize := 16 }, none) ∧
    (Slice.mk [1, 2, 3]).len < 16 ∧
    aesCBCEncConfig.Decrypt Examples.xorAES { key := Examples.key16, blockSize := 16 }
      (.mk [1, 2, 3]) = .ret (.nil, some .ErrAESCipherTooShort) :=
  ⟨by decide, by decide,
    aes_Decrypt_too_short Examples.xorAES Examples.key16 _ (by decide) (.mk [1, 2, 3]) (by decide)⟩

/-- C7. For every AES-CBC cipher and every input of at least 16 bytes whose
length after the IV is not a multiple of 16, `Decrypt` returns a nil plaintext
and `ErrAESCipherBlockSizeNotMultiple`. -/
theorem aes_Decrypt_not_block_multiple (aes : AES) (key : Slice) (e : aesCBCEncConfig)
    (he : NewAESCBCEncConfig key = (some e, none)) (c : Slice) (hc : 16 ≤ c.len)
    (hm : (c.len - 16) % 16 ≠ 0) :
    e.Decrypt aes c = .ret (.nil, some .ErrAESCipherBlockSizeNotMultiple) := by
  obtain ⟨rfl, hlen⟩ := NewAESCBCEncConfig_some key e he
  unfold aesCBCEncConfig.Decrypt
  have h1 : ¬ (c.len < 16) := by omega
  have h2 : (List.drop 16 c.bytes).length % 16 ≠ 0 := by
    rw [List.length_drop]; exact hm
  simp only [NewCipher_of_len key hlen, BlockSize_eq, h1, if_false]
  rw [if_pos h2]

/-- Witness for C7: a 17-byte input under the key `"this is a key!!!"`. -/
theorem aes_Decrypt_not_block_multiple_witness :
    NewAESCBCEncConfig Examples.key16 =
      (some { key := Examples.key16, blockSize := 16 }, none) ∧
    16 ≤ (Slice.mk (List.replicate 17 7)).len ∧
    ((Slice.mk (List.replicate 17 7)).len - 16) % 16 ≠ 0 ∧
    aesCBCEncConfig.Decrypt Examples.xorAES { key := Examples.key16, blockSize := 16 }
      (.mk (List.replicate 17 7)) = .ret (.nil, some .ErrAESCipherBlockSizeNotMultiple) :=
  ⟨by decide, by decide, by decide,
    aes_Decrypt_not_block_multiple Examples.xorAES Examples.key16 _ (by decide)
      (.mk (List.replicate 17 7)) (by decide) (by decide)⟩

/-- C8. `NewAESCBCEncConfig` returns a cipher (holding a copy of the key and
block size 16) and a nil error exactly when the key has 16, 24 or 32 bytes; for
every other length it returns no cipher and `ErrInvalidKeyLength`, in
particular for a nil key, an empty key and keys of 4, 17, 33 and 34 bytes. -/
theorem NewAESCBCEncConfig_spec (key : Slice) :
    NewAESCBCEncConfig key =
      (if key.len = 16 ∨ key.len = 24 ∨ key.len = 32 then
        (some { key := .mk key.bytes, blockSize := 16 }, none)
      else (none, some .ErrInvalidKeyLength)) ∧
    ((NewAESCBCEncConfig key).2 = none ↔ (key.len = 16 ∨ key.len = 24 ∨ key.len = 32)) ∧
    NewAESCBCEncConfig .nil = (none, some .ErrInvalidKeyLength) ∧
    NewAESCBCEncConfig (.mk []) = (none, some .ErrInvalidKeyLength) ∧
    NewAESCBCEncConfig (.mk (List.replicate 4 49)) = (none, some .ErrInvalidKeyLength) ∧
    NewAESCBCEncConfig (.mk (List.replicate 17 49)) = (none, some .ErrInvalidKeyLength) ∧
    NewAESCBCEncConfig (.mk (List.replicate 33 49)) = (none, some .ErrInvalidKeyLength) ∧
    NewAESCBCEncConfig (.mk (List.replicate 34 49)) = (none, some .ErrInvalidKeyLength) := by
  have main : NewAESCBCEncConfig key =
      (if key.len = 16 ∨ key.len = 24 ∨ key.len = 32 then
        (some { key := .mk key.bytes, blockSize := 16 }, none)
      else (none, some .ErrInvalidKeyLength)) := by
    by_cases h : key.len = 16 ∨ key.len = 24 ∨ key.len = 32
    · rw [if_pos h, NewAESCBCEncConfig_of_len key h]; rfl
    · rw [if_neg h]
      unfold NewAESCBCEncConfig
      simp only [AES_128_KEY_LEN, AES_192_KEY_LEN, AES_256_KEY_LEN]
      rw [if_pos (by omega)]
  refine ⟨main, ?_, by decide, by decide, by decide, by decide, by decide, by decide⟩
  rw [main]
  by_cases h : key.len = 16 ∨ key.len = 24 ∨ key.len = 32
  · simp [h]
  · simp [h]

/-- C9. `NewOTPEncConfig` returns a cipher (holding a copy of the key) and a
nil error exactly when the key is non-empty; for a nil or zero-length key it
returns no cipher and `ErrKeyInvalidLength`. -/
theorem NewOTPEncConfig_spec (key : Slice) :
    NewOTPEncConfig key =
      (if key.len = 0 then (none, some .ErrKeyInvalidLength)
      else (some { key := .mk key.bytes }, none)) ∧
    ((NewOTPEncConfig key).2 = none ↔ 0 < key.len) ∧
    NewOTPEncConfig .nil = (none, some .ErrKeyInvalidLength) ∧
    NewOTPEncConfig (.mk []) = (none, some .ErrKeyInvalidLength) := by
  have main : NewOTPEncConfig key =
      (if key.len = 0 then (none, some .ErrKeyInvalidLength)
      else (some { key := .mk key.bytes }, none)) := by
    unfold NewOTPEncConfig
    by_cases h : key.len = 0
    · rw [if_pos h, if_pos (by omega)]
    · rw [if_neg h, if_neg (by omega)]
  refine ⟨main, ?_, by decide, by decide⟩
  rw [main]
  by_cases h : key.len = 0
  · simp [h]
  · simp [h]; omega

/-- C10. PKCS#7 padding at block size 16: for every plaintext `m`,
`pkcs7pad(m, 16)` returns `m` followed by `pad` bytes of value `pad`, where
`pad = 16 - len(m) mod 16`; `pad` lies in `[1, 16]` and is the value of the pad
byte without truncation, the length of the result is a positive multiple of
16, and a plaintext whose length is a multiple of 16 gains sixteen bytes of
value 16. -/
theorem pkcs7pad_spec (m : Slice) :
    pkcs7pad m 16 =
        .ret (.mk (m.bytes ++ List.replicate (16 - m.len % 16) (byte (16 - m.len % 16)))) ∧
      1 ≤ 16 - m.len % 16 ∧ 16 - m.len % 16 ≤ 16 ∧
      (byte (16 - m.len % 16)).val = 16 - m.len % 16 ∧
      (m.bytes ++ List.replicate (16 - m.len % 16) (byte (16 - m.len % 16))).length % 16 = 0 ∧
      0 < (m.bytes ++ List.replicate (16 - m.len % 16) (byte (16 - m.len % 16))).length ∧
      (m.len % 16 = 0 → pkcs7pad m 16 = .ret (.mk (m.bytes ++ List.replicate 16 (16 : Byte)))) := by
  have hp := numPad_bounds m.len 16 (by decide)
  refine ⟨pkcs7pad_eq m 16 (by decide), hp.1, hp.2, byte_val_of_lt _ (by omega), ?_, ?_, ?_⟩
  · simp only [List.length_append, List.length_replicate, Slice.len]; omega
  · simp only [List.length_append, List.length_replicate, Slice.len]; omega
  · intro h
    rw [pkcs7pad_eq m 16 (by decide), h]
    rfl

end encconfig

/-! ## Properties of the wrappers -/

namespace encconfig

open Go

theorem aes_Encrypt_read_error (aes : AES) (e : aesCBCEncConfig) (hk : NewCipher e.key = none)
    (hb : e.blockSize = (BlockSize : Int)) (err : Err) (p : Slice) :
    e.Encrypt aes (.error err) p = .ret (.nil, some err) := by
  unfold aesCBCEncConfig.Encrypt
  rw [hb, uint16_blockSize, pkcs7pad_eq p 16 (by decide)]
  simp only [hk, readFull]

/-- A cipher built by `NewAESCBCEncConfig` decrypts what a cipher built from
the same key bytes encrypts, and its ciphertexts are never empty. -/
theorem aes_inverts (aes : AES) (key : Slice) (e : aesCBCEncConfig)
    (he : NewAESCBCEncConfig key = (some e, none))
    (hinv : ∀ b, aes.decrypt key.bytes (aes.encrypt key.bytes b) = b) :
    Inverts (e.toEncConfig aes) (e.toEncConfig aes) ∧
      ∀ rnd p c, (e.toEncConfig aes).Encrypt rnd p = .ret (c, none) → c.bytes ≠ [] := by
  obtain ⟨rfl, hlen⟩ := NewAESCBCEncConfig_some key e he
  have hk := NewCipher_of_len key hlen
  have key_fact : ∀ (rnd : RandReader) (p c : Slice),
      aesCBCEncConfig.Encrypt aes { key := .mk key.bytes, blockSize := (BlockSize : Int) } rnd p =
        .ret (c, none) →
      ∃ f : Nat → Byte, c = .mk (cipherOf aes key.bytes ((List.range 16).map f) p) := by
    intro rnd p c h
    cases rnd with
    | error err =>
      rw [aes_Encrypt_read_error aes _ hk rfl] at h
      simp at h
    | ok f =>
      rw [aes_Encrypt_eq aes _ hk rfl] at h
      simp only [Outcome.ret.injEq, Prod.mk.injEq, and_true, Slice_bytes_mk] at h
      exact ⟨f, h.symm⟩
  constructor
  · intro rnd p c h
    obtain ⟨f, rfl⟩ := key_fact rnd p c h
    exact ⟨.mk p.bytes, aes_Decrypt_cipherOf aes _ hk rfl hinv _ (length_readIV f) p, rfl⟩
  · intro rnd p c h
    obtain ⟨f, rfl⟩ := key_fact rnd p c h
    intro hnil
    have := congrArg List.length hnil
    rw [Slice_bytes_mk, length_cipherOf] at this
    simp at this

/-- A cipher built by `NewOTPEncConfig` decrypts what it encrypts, and its
ciphertext is as long as the plaintext. -/
theorem otp_inverts (e : otpEncConfig) :
    Inverts e.toEncConfig e.toEncConfig ∧
      ∀ rnd p c, e.toEncConfig.Encrypt rnd p = .ret (c, none) → c.bytes.length = p.bytes.length := by
  have key_fact : ∀ (p c : Slice), e.Encrypt p = .ret (c, none) →
      ∃ out, c = .mk out ∧ otpLoop e.key.bytes 0 p.bytes = .ret out := by
    intro p c h
    unfold otpEncConfig.Encrypt at h
    split at h
    · cases h
    · rename_i out hout
      simp only [Outcome.ret.injEq, Prod.mk.injEq, and_true] at h
      exact ⟨out, h.symm, hout⟩
  constructor
  · intro rnd p c h
    obtain ⟨out, rfl, hout⟩ := key_fact p c h
    refine ⟨.mk p.bytes, ?_, rfl⟩
    show e.Decrypt (.mk out) = _
    simp only [otpEncConfig.Decrypt, otpEncConfig.Encrypt, Slice_bytes_mk,
      (otpLoop_involutive e.key.bytes p.bytes 0 out hout).1]
  · intro rnd p c h
    obtain ⟨out, rfl, hout⟩ := key_fact p c h
    exact (otpLoop_involutive e.key.bytes p.bytes 0 out hout).2

/-- Ciphers built from the same key bytes by the same constructor decrypt each
other, and they encrypt only the empty plaintext to an empty ciphertext. -/
theorem sameKey_inverts (aes : AES) (e1 e2 : EncConfig) (h : SameKeyCiphers aes e1 e2) :
    Inverts e2 e1 ∧ ∀ rnd p c, e1.Encrypt rnd p = .ret (c, none) → c.bytes = [] → p.bytes = [] := by
  rcases h with ⟨key1, key2, c1, c2, hkey, h1, h2, hinv, rfl, rfl⟩ |
    ⟨key1, key2, c1, c2, hkey, h1, h2, rfl, rfl⟩
  · have hc1 := (NewAESCBCEncConfig_some key1 c1 h1).1
    have hc2 := (NewAESCBCEncConfig_some key2 c2 h2).1
    have : c2 = c1 := by rw [hc1, hc2, hkey]
    subst this
    obtain ⟨ha, hb⟩ := aes_inverts aes key1 c2 h1 hinv
    exact ⟨ha, fun rnd p c hc hnil => absurd hnil (hb rnd p c hc)⟩
  · have hc1 : c1 = { key := .mk key1.bytes } := by
      unfold NewOTPEncConfig at h1
      split at h1
      · simp at h1
      · simpa using h1.symm
    have hc2 : c2 = { key := .mk key2.bytes } := by
      unfold NewOTPEncConfig at h2
      split at h2
      · simp at h2
      · simpa using h2.symm
    have : c2 = c1 := by rw [hc1, hc2, hkey]
    subst this
    obtain ⟨ha, hb⟩ := otp_inverts c2
    refine ⟨ha, fun rnd p c hc hnil => ?_⟩
    have := hb rnd p c hc
    rw [hnil] at this
    exact List.length_eq_zero.mp this.symm

end encconfig

namespace skeysapi

open Go encconfig

/-- The wrapper encodes what the cipher encrypts, and the unwrapper of a cipher
that inverts it gives the value back. -/
theorem unwrapper_wrapper (b64 : Base64) (hrt : b64.RoundTrips) (d e : EncConfig)
    (hinv : Inverts d e) (rnd : RandReader) (v : Str) (c : Slice)
    (henc : e.Encrypt rnd (Slice.ofStr v) = .ret (c, none)) :
    (GetWrappers b64 e).1 rnd v = .ret (b64.EncodeToString c.bytes, none) ∧
      (GetWrappers b64 d).2 (b64.EncodeToString c.bytes) = .ret (v, none) := by
  obtain ⟨q, hq, hqb⟩ := hinv rnd (Slice.ofStr v) c henc
  constructor
  · simp only [GetWrappers, henc]
  · simp only [GetWrappers, hrt (c.bytes), hq, Slice.toStr, hqb, Slice.ofStr, Slice_bytes_mk]

end skeysapi

namespace skeysapiv3

open Go encconfig

theorem GetWrappers_eq (b64 : Base64) (e : EncConfig) :
    GetWrappers b64 e = skeysapi.GetWrappers b64 e := rfl

end skeysapiv3

namespace Examples

open Go encconfig

theorem hexValue_hexDigit : ∀ n : Fin 16, hexValue (hexDigit n.val) = some n.val := by decide

theorem hexCodec_roundTrips : hexCodec.RoundTrips := by
  intro b
  show hexDecode (hexEncode b) = (b, none)
  induction b with
  | nil => rfl
  | cons x xs ih =>
    have h1 := hexValue_hexDigit ⟨x.val / 16, by omega⟩
    have h2 := hexValue_hexDigit ⟨x.val % 16, by omega⟩
    simp only at h1 h2
    simp only [hexEncode, hexDecode, h1, h2, ih]
    have : byte (x.val / 16 * 16 + x.val % 16) = x := by
      apply Fin.ext
      show (x.val / 16 * 16 + x.val % 16) % 256 = x.val
      omega
    rw [this]

theorem hexCodec_decodesEmpty : hexCodec.DecodesEmpty := rfl

end Examples

/-- C3. Wrapper round trip, for both packages: over a codec whose decoding
undoes its encoding and a cipher whose `Decrypt` inverts its `Encrypt`, whenever
the cipher encrypts the bytes of the string `v` (the empty string included),
the wrapper returns a string `w` with a nil error and the unwrapper maps `w`
back to `v` with a nil error. -/
theorem wrappers_round_trip (b64 : Go.Base64) (hb64 : b64.RoundTrips)
    (encConf : encconfig.EncConfig) (hinv : encconfig.Inverts encConf encConf)
    (rnd : Go.RandReader) (v : Go.Str) (c : Go.Slice)
    (henc : encConf.Encrypt rnd (Go.Slice.ofStr v) = .ret (c, none)) :
    (∃ w, (skeysapi.GetWrappers b64 encConf).1 rnd v = .ret (w, none) ∧
        (skeysapi.GetWrappers b64 encConf).2 w = .ret (v, none)) ∧
    (∃ w, (skeysapiv3.GetWrappers b64 encConf).1 rnd v = .ret (w, none) ∧
        (skeysapiv3.GetWrappers b64 encConf).2 w = .ret (v, none)) := by
  have h := skeysapi.unwrapper_wrapper b64 hb64 encConf encConf hinv rnd v c henc
  exact ⟨⟨_, h.1, h.2⟩, ⟨_, h.1, h.2⟩⟩

namespace skeysapi

open Go encconfig

variable {σ Ctx Opts W : Type}

theorem unwrapNode_leaf (unwrap : ValueSetUnwrapFunc) (key : Str) (dir : Bool) (stored v : Str)
    (h : stored ≠ [] → unwrap stored = .ret (v, none)) (h0 : stored = [] → v = []) :
    unwrapNode unwrap (.node key dir stored .nil) = .ret (.node key dir v .nil, none) := by
  by_cases hs : stored = []
  · subst hs
    rw [h0 rfl]
    simp [unwrapNode, unwrapNodes]
  · simp [unwrapNode, unwrapNodes, hs, h hs]

/-- What a `Set` through the wrapper that returns a response has done: the
cipher encrypted the value and the store accepted its encoding. -/
theorem Set_returns (b64 : Base64) (e : EncConfig) (k : KeysAPI σ Ctx Opts W)
    (rnd : RandReader) (st : σ) (ctx : Ctx) (key v : Str) (opts : Opts) (st1 : σ) (r : Response)
    (err : Option Err)
    (h : secureKeysAPI.Set
        { k := k, valueSetWrap := some (GetWrappers b64 e).1,
          valueGetUnwrap := some (GetWrappers b64 e).2 } rnd st ctx key v opts =
        .ret (st1, some r, err)) :
    ∃ c r0, e.Encrypt rnd (Slice.ofStr v) = .ret (c, none) ∧
      k.Set st ctx key (b64.EncodeToString c.bytes) opts = (st1, some r0, none) := by
  unfold secureKeysAPI.Set secureKeysAPI.wrapValue at h
  simp only at h
  cases hE : e.Encrypt rnd (Slice.ofStr v) with
  | panic => simp [GetWrappers, hE] at h
  | ret a =>
    obtain ⟨c, oe⟩ := a
    cases oe with
    | some werr => simp [GetWrappers, hE] at h
    | none =>
      refine ⟨c, ?_⟩
      simp only [GetWrappers, hE] at h
      rcases hS : k.Set st ctx key (b64.EncodeToString c.bytes) opts with ⟨st', r', e'⟩
      rw [hS] at h
      cases e' with
      | some serr => simp [secureKeysAPI.finish] at h
      | none =>
        cases r' with
        | none => simp [secureKeysAPI.finish, secureKeysAPI.unwrapResponse] at h
        | some r0 =>
          simp only [secureKeysAPI.finish] at h
          split at h
          · cases h
          · simp only [Outcome.ret.injEq, Prod.mk.injEq] at h
            exact ⟨r0, rfl, by rw [h.1]⟩

end skeysapi

namespace skeysapi

open Go encconfig

variable {σ Ctx Opts W : Type}

/-- A `Get` through the wrapper of a leaf whose stored value the unwrapper maps
to `v` returns the leaf holding `v`. -/
theorem Get_leaf (k : KeysAPI σ Ctx Opts W) (wrap : Option ValueGetWrapFunc)
    (unwrap : ValueSetUnwrapFunc) (st st2 : σ) (ctx : Ctx) (key : Str) (opts : Opts)
    (action stored v : Str)
    (hget : k.Get st ctx key opts =
      (st2, some { Action := action, Node := .node key false stored .nil, PrevNode := .null }, none))
    (h : stored ≠ [] → unwrap stored = .ret (v, none)) (h0 : stored = [] → v = []) :
    secureKeysAPI.Get { k := k, valueSetWrap := wrap, valueGetUnwrap := some unwrap } st ctx key opts =
      .ret (st2, some { Action := action, Node := .node key false v .nil, PrevNode := .null }, none) := by
  unfold secureKeysAPI.Get
  simp only [hget, secureKeysAPI.finish, secureKeysAPI.unwrapResponse, secureKeysAPI.unwrapNode,
    Option.isSome_some, if_true, unwrapNode_leaf unwrap key false stored v h h0]
  simp [unwrapNode]

end skeysapi

namespace skeysapiv3

open Go encconfig

variable {σ Ctx Opts CR T : Type}

/-- What a `Put` through the wrapper that returns a response has done: the
cipher encrypted the value and the store accepted its encoding. -/
theorem Put_returns (b64 : Base64) (e : EncConfig) (k : KV σ Ctx Opts CR T)
    (rnd : RandReader) (st : σ) (ctx : Ctx) (key v : Str) (opts : Opts) (st1 : σ)
    (res : PutResponse) (err : Option Err)
    (h : secureKV.Put
        { k := k, valueSetWrap := some (GetWrappers b64 e).1,
          valueGetUnwrap := some (GetWrappers b64 e).2 } rnd st ctx key v opts =
        .ret (st1, some res, err)) :
    ∃ c res0, e.Encrypt rnd (Slice.ofStr v) = .ret (c, none) ∧
      k.Put st ctx key (b64.EncodeToString c.bytes) opts = (st1, some res0, none) := by
  unfold secureKV.Put at h
  simp only at h
  cases hE : e.Encrypt rnd (Slice.ofStr v) with
  | panic => simp [GetWrappers, hE] at h
  | ret a =>
    obtain ⟨c, oe⟩ := a
    cases oe with
    | some werr => simp [GetWrappers, hE] at h
    | none =>
      refine ⟨c, ?_⟩
      simp only [GetWrappers, hE] at h
      rcases hS : k.Put st ctx key (b64.EncodeToString c.bytes) opts with ⟨st', r', e'⟩
      rw [hS] at h
      cases e' with
      | some serr => simp at h
      | none =>
        cases r' with
        | none => simp at h
        | some res0 =>
          simp only at h
          split at h
          · cases h
          · simp only [Outcome.ret.injEq, Prod.mk.injEq] at h
            exact ⟨res0, rfl, by rw [h.1]⟩

/-- A `Get` through the wrapper of a single record whose stored value the
unwrapper maps to `v` returns a single record holding the bytes of `v`. -/
theorem Get_single (k : KV σ Ctx Opts CR T) (wrap : Option ValueGetWrapFunc)
    (unwrap : ValueSetUnwrapFunc) (st st2 : σ) (ctx : Ctx) (key : Str) (opts : Opts)
    (kv : KeyValue) (v : Str)
    (hget : k.Get st ctx key opts = (st2, some { Kvs := [some kv] }, none))
    (h : kv.Value ≠ .nil → unwrap kv.Value.toStr = .ret (v, none))
    (h0 : kv.Value = .nil → v = []) :
    ∃ kv2, secureKV.Get { k := k, valueSetWrap := wrap, valueGetUnwrap := some unwrap } st ctx key opts =
        .ret (st2, some { Kvs := [some kv2] }, none) ∧
      kv2.Key = kv.Key ∧ kv2.Value.bytes = v := by
  unfold secureKV.Get
  by_cases hv : kv.Value = .nil
  · refine ⟨kv, ?_, rfl, ?_⟩
    · simp [hget, secureKV.unwrapUntilError, secureKV.unwrapKeyValue, hv]
    · rw [hv, h0 hv]; rfl
  · refine ⟨{ kv with Value := Slice.ofStr v }, ?_, rfl, rfl⟩
    simp [hget, secureKV.unwrapUntilError, secureKV.unwrapKeyValue, hv, h hv]

end skeysapiv3

/-- C4. Write-then-read through the wrapper. Let the codec decode what it
encodes and decode the empty string to no bytes, and let the ciphers `e1` and
`e2` be built by the same constructor (AES-CBC or OTP) from the same key
bytes. Over a v2 store (resp. a v3 store) that returns for a key the value
last written to it: whenever `Set(k, v)` (resp. `Put`) through the wrapper of
`e1` returns a response, `Get(k)` through the wrapper of `e2` returns, with a
nil error, a response whose node (resp. single record) for `k` holds `v`. -/
theorem get_after_set (aes : Go.AES) (b64 : Go.Base64) (hrt : b64.RoundTrips)
    (hempty : b64.DecodesEmpty) (e1 e2 : encconfig.EncConfig)
    (hsame : encconfig.SameKeyCiphers aes e1 e2)
    {σ Ctx Opts W τ Ctx3 Opts3 CR T : Type}
    (k2 : skeysapi.KeysAPI σ Ctx Opts W) (hk2 : skeysapi.ReturnsLastWritten k2)
    (k3 : skeysapiv3.KV τ Ctx3 Opts3 CR T) (hk3 : skeysapiv3.ReturnsLastWritten k3) :
    (∀ w1 w2, skeysapi.NewSecureKeysAPI b64 k2 (some e1) = (.inr w1, none) →
      skeysapi.NewSecureKeysAPI b64 k2 (some e2) = (.inr w2, none) →
      ∀ rnd st ctx key v opts st1 r err,
        w1.Set rnd st ctx key v opts = .ret (st1, some r, err) →
        ∀ ctx2 opts2, ∃ st2 action,
          w2.Get st1 ctx2 key opts2 =
            .ret (st2, some { Action := action, Node := .node key false v .nil, PrevNode := .null },
              none)) ∧
    (∀ w1 w2, skeysapiv3.NewSecureKeysAPI b64 k3 (some e1) = (some w1, none) →
      skeysapiv3.NewSecureKeysAPI b64 k3 (some e2) = (some w2, none) →
      ∀ rnd st ctx key v opts st1 res err,
        w1.Put rnd st ctx key v opts = .ret (st1, some res, err) →
        ∀ ctx2 opts2, ∃ st2 kv,
          w2.Get st1 ctx2 key opts2 = .ret (st2, some { Kvs := [some kv] }, none) ∧
            kv.Key.bytes = key ∧ kv.Value.bytes = v) := by
  obtain ⟨hinv, hkeep⟩ := encconfig.sameKey_inverts aes e1 e2 hsame
  have hstored : ∀ (c : Go.Slice), b64.EncodeToString c.bytes = [] → c.bytes = [] := by
    intro c hc
    have h1 := hrt c.bytes
    rw [hc, hempty] at h1
    simp only [Prod.mk.injEq, and_true] at h1
    exact h1.symm
  constructor
  · intro w1 w2 hw1 hw2 rnd st ctx key v opts st1 r err hset ctx2 opts2
    simp only [skeysapi.NewSecureKeysAPI, Prod.mk.injEq, Sum.inr.injEq, and_true] at hw1 hw2
    subst hw1 hw2
    obtain ⟨c, r0, hE, hS⟩ := skeysapi.Set_returns b64 e1 k2 rnd st ctx key v opts st1 r err hset
    obtain ⟨st2, action, hG⟩ := hk2 st ctx key _ opts st1 r0 hS ctx2 opts2
    refine ⟨st2, action, skeysapi.Get_leaf k2 _ _ st1 st2 ctx2 key opts2 action _ v hG ?_ ?_⟩
    · intro _
      exact (skeysapi.unwrapper_wrapper b64 hrt e2 e1 hinv rnd v c hE).2
    · intro hnil
      exact hkeep rnd (Go.Slice.ofStr v) c hE (hstored c hnil)
  · intro w1 w2 hw1 hw2 rnd st ctx key v opts st1 res err hput ctx2 opts2
    simp only [skeysapiv3.NewSecureKeysAPI, Prod.mk.injEq, Option.some.injEq, and_true] at hw1 hw2
    subst hw1 hw2
    obtain ⟨c, res0, hE, hS⟩ :=
      skeysapiv3.Put_returns b64 e1 k3 rnd st ctx key v opts st1 res err hput
    obtain ⟨st2, kv, hG, hkey, hval⟩ := hk3 st ctx key _ opts st1 res0 hS ctx2 opts2
    have hA : kv.Value ≠ .nil →
        (skeysapiv3.GetWrappers b64 e2).2 kv.Value.toStr = .ret (v, none) := by
      intro _
      have := (skeysapi.unwrapper_wrapper b64 hrt e2 e1 hinv rnd v c hE).2
      rw [skeysapiv3.GetWrappers_eq, Go.Slice.toStr, hval]
      exact this
    have hB : kv.Value = .nil → v = [] := by
      intro hnil
      rw [hnil] at hval
      exact hkeep rnd (Go.Slice.ofStr v) c hE (hstored c hval.symm)
    obtain ⟨kv2, h1, h2, h3⟩ := skeysapiv3.Get_single k3 _ (skeysapiv3.GetWrappers b64 e2).2
      st1 st2 ctx2 key opts2 kv v hG hA hB
    exact ⟨st2, kv2, h1, by rw [h2, hkey], h3⟩

namespace Examples

open Go encconfig

theorem cfg16_built : NewAESCBCEncConfig key16 = (some cfg16, none) := by decide

theorem enc16_sameKey : SameKeyCiphers xorAES enc16 enc16 :=
  Or.inl ⟨key16, key16, cfg16, cfg16, rfl, cfg16_built, cfg16_built, xorAES_inverts _, rfl, rfl⟩

theorem enc16_inverts : Inverts enc16 enc16 :=
  (aes_inverts xorAES key16 cfg16 cfg16_built (xorAES_inverts _)).1

theorem mapStore_returnsLastWritten : skeysapi.ReturnsLastWritten mapStore := by
  intro st ctx key val opts st1 r h ctx2 opts2
  simp only [mapStore, Prod.mk.injEq, Option.some.injEq, and_true] at h
  obtain ⟨rfl, _⟩ := h
  refine ⟨(key, val) :: st, [], ?_⟩
  simp [mapStore, List.lookup]

theorem mapKV_returnsLastWritten : skeysapiv3.ReturnsLastWritten mapKV := by
  intro st ctx key val opts st1 res h ctx2 opts2
  simp only [mapKV, Prod.mk.injEq, Option.some.injEq, and_true] at h
  obtain ⟨rfl, _⟩ := h
  refine ⟨(key, val) :: st, { Key := .mk key, Value := .mk val }, ?_, rfl, rfl⟩
  simp [mapKV, List.lookup]

end Examples

/-- Witness for C3: the hexadecimal codec, the key `"this is a key!!!"` and the
value `"bar"`. -/
theorem wrappers_round_trip_witness :
    Examples.hexCodec.RoundTrips ∧ encconfig.Inverts Examples.enc16 Examples.enc16 ∧
    Examples.enc16.Encrypt (.ok Examples.countingReader) (Go.Slice.ofStr Examples.bar) =
      .ret (.mk Examples.barCipher, none) ∧
    (∃ w, (skeysapi.GetWrappers Examples.hexCodec Examples.enc16).1
          (.ok Examples.countingReader) Examples.bar = .ret (w, none) ∧
        (skeysapi.GetWrappers Examples.hexCodec Examples.enc16).2 w = .ret (Examples.bar, none)) ∧
    (∃ w, (skeysapiv3.GetWrappers Examples.hexCodec Examples.enc16).1
          (.ok Examples.countingReader) Examples.bar = .ret (w, none) ∧
        (skeysapiv3.GetWrappers Examples.hexCodec Examples.enc16).2 w = .ret (Examples.bar, none)) :=
  ⟨Examples.hexCodec_roundTrips, Examples.enc16_inverts, by decide,
    wrappers_round_trip Examples.hexCodec Examples.hexCodec_roundTrips Examples.enc16
      Examples.enc16_inverts (.ok Examples.countingReader) Examples.bar (.mk Examples.barCipher)
      (by decide)⟩

/-- Witness for C4: the association-list stores, the hexadecimal codec, the key
`"this is a key!!!"`; `"bar"` is written under `"/foo"` into the empty store
and read back. -/
theorem get_after_set_witness :
    Examples.hexCodec.RoundTrips ∧ Examples.hexCodec.DecodesEmpty ∧
    encconfig.SameKeyCiphers Examples.xorAES Examples.enc16 Examples.enc16 ∧
    skeysapi.ReturnsLastWritten Examples.mapStore ∧
    skeysapiv3.ReturnsLastWritten Examples.mapKV ∧
    (∃ st2 action,
      skeysapi.secureKeysAPI.Get
          { k := Examples.mapStore,
            valueSetWrap := some (skeysapi.GetWrappers Examples.hexCodec Examples.enc16).1,
            valueGetUnwrap := some (skeysapi.GetWrappers Examples.hexCodec Examples.enc16).2 }
          [(Examples.foo, Examples.hexEncode Examples.barCipher)] () Examples.foo () =
        .ret (st2, some { Action := action, Node := .node Examples.foo false Examples.bar .nil,
                          PrevNode := .null }, none)) ∧
    (∃ st2 kv,
      skeysapiv3.secureKV.Get
          { k := Examples.mapKV,
            valueSetWrap := some (skeysapiv3.GetWrappers Examples.hexCodec Examples.enc16).1,
            valueGetUnwrap := some (skeysapiv3.GetWrappers Examples.hexCodec Examples.enc16).2 }
          [(Examples.foo, Examples.hexEncode Examples.barCipher)] () Examples.foo () =
        .ret (st2, some { Kvs := [some kv] }, none) ∧
      kv.Key.bytes = Examples.foo ∧ kv.Value.bytes = Examples.bar) :=
  have h := get_after_set Examples.xorAES Examples.hexCodec Examples.hexCodec_roundTrips
    Examples.hexCodec_decodesEmpty Examples.enc16 Examples.enc16 Examples.enc16_sameKey
    Examples.mapStore Examples.mapStore_returnsLastWritten
    Examples.mapKV Examples.mapKV_returnsLastWritten
  ⟨Examples.hexCodec_roundTrips, Examples.hexCodec_decodesEmpty, Examples.enc16_sameKey,
    Examples.mapStore_returnsLastWritten, Examples.mapKV_returnsLastWritten,
    h.1 _ _ rfl rfl (.ok Examples.countingReader) [] () Examples.foo Examples.bar ()
      [(Examples.foo, Examples.hexEncode Examples.barCipher)]
      { Action := [], Node := .node Examples.foo false Examples.bar .nil, PrevNode := .null }
      none (by rfl) () (),
    h.2 _ _ rfl rfl (.ok Examples.countingReader) [] () Examples.foo Examples.bar ()
      [(Examples.foo, Examples.hexEncode Examples.barCipher)]
      { PrevKv := none } none (by rfl) () ()⟩

/-! ## Ciphertext length and wire format of AES-CBC -/

namespace encconfig

open Go

/-- What a successful `Encrypt` of a cipher built by `NewAESCBCEncConfig` has
returned: the random reader delivered, and the ciphertext is the closed form
`cipherOf` for the IV read. -/
theorem aes_Encrypt_ret (aes : AES) (key : Slice) (e : aesCBCEncConfig)
    (he : NewAESCBCEncConfig key = (some e, none)) (rnd : RandReader) (p c : Slice)
    (h : e.Encrypt aes rnd p = .ret (c, none)) :
    ∃ f : Nat → Byte, rnd = .ok f ∧
      c = .mk (cipherOf aes key.bytes ((List.range 16).map f) p) := by
  obtain ⟨rfl, hlen⟩ := NewAESCBCEncConfig_some key e he
  have hk := NewCipher_of_len key hlen
  cases rnd with
  | error err =>
    rw [aes_Encrypt_read_error aes _ hk rfl] at h
    simp at h
  | ok f =>
    rw [aes_Encrypt_eq aes _ hk rfl] at h
    simp only [Outcome.ret.injEq, Prod.mk.injEq, and_true, Slice_bytes_mk] at h
    exact ⟨f, rfl, h.symm⟩

/-- C11. AES ciphertext length: whenever `Encrypt` of an AES-CBC cipher
succeeds on a plaintext `p` of length `n`, the ciphertext has exactly
`16 + 16 * (n / 16 + 1)` bytes, which is the block size plus the length of the
padded plaintext `pkcs7pad(p, 16)`; it is a multiple of 16 and at least 32. -/
theorem aes_ciphertext_length (aes : AES) (key : Slice) (e : aesCBCEncConfig)
    (he : NewAESCBCEncConfig key = (some e, none)) (rnd : RandReader) (p c : Slice)
    (henc : e.Encrypt aes rnd p = .ret (c, none)) :
    c.len = 16 + 16 * (p.len / 16 + 1) ∧
      (∃ q, pkcs7pad p 16 = .ret q ∧ c.len = BlockSize + q.len) ∧
      c.len % 16 = 0 ∧ 32 ≤ c.len := by
  obtain ⟨f, _, rfl⟩ := aes_Encrypt_ret aes key e he rnd p c henc
  have hl : (Slice.mk (cipherOf aes key.bytes ((List.range 16).map f) p)).len =
      16 + 16 * (p.len / 16 + 1) := by
    rw [Slice_len_mk, length_cipherOf, length_readIV]
  refine ⟨hl, ⟨_, pkcs7pad_eq p 16 (by decide), ?_⟩, by omega, by omega⟩
  rw [hl, BlockSize_eq, Slice_len_mk]
  exact congrArg (16 + ·) (length_padded p).symm

/-- Witness for C11: `"bar"` under the key `"this is a key!!!"` and the IV
0, 1, ..., 15 gives 32 bytes. -/
theorem aes_ciphertext_length_witness :
    NewAESCBCEncConfig Examples.key16 = (some Examples.cfg16, none) ∧
    Examples.cfg16.Encrypt Examples.xorAES (.ok Examples.countingReader) (.mk Examples.bar) =
      .ret (.mk Examples.barCipher, none) ∧
    ((Slice.mk Examples.barCipher).len = 16 + 16 * ((Slice.mk Examples.bar).len / 16 + 1) ∧
      (∃ q, pkcs7pad (.mk Examples.bar) 16 = .ret q ∧
        (Slice.mk Examples.barCipher).len = BlockSize + q.len) ∧
      (Slice.mk Examples.barCipher).len % 16 = 0 ∧ 32 ≤ (Slice.mk Examples.barCipher).len) :=
  ⟨by decide, by decide,
    aes_ciphertext_length Examples.xorAES Examples.key16 Examples.cfg16 (by decide)
      (.ok Examples.countingReader) (.mk Examples.bar) (.mk Examples.barCipher) (by decide)⟩

/-- C12 as stated fails. For the key `"this is a key!!!"` and the 16-byte
plaintext `"jfowaie3920ejqoi"`, whatever the AES block primitive and the IV,
`Encrypt` returns a ciphertext of 48 bytes, not 32: the padding adds a full
block to a plaintext of exactly one block. -/
theorem aes_one_block_ciphertext_not_32 :
    NewAESCBCEncConfig Examples.key16 = (some Examples.cfg16, none) ∧
    Examples.key16.len = 16 ∧ (Slice.mk Examples.jfowaie).len = 16 ∧
    ∀ (aes : AES) (iv : Nat → Byte), ∃ c,
      Examples.cfg16.Encrypt aes (.ok iv) (.mk Examples.jfowaie) = .ret (c, none) ∧
        c.len = 48 ∧ c.len ≠ 32 := by
  refine ⟨by decide, by decide, by decide, fun aes iv => ?_⟩
  have hk : NewCipher Examples.cfg16.key = none := by decide
  refine ⟨_, aes_Encrypt_eq aes Examples.cfg16 hk rfl iv (.mk Examples.jfowaie), ?_⟩
  have hl : (Slice.mk (cipherOf aes Examples.cfg16.key.bytes ((List.range 16).map iv)
      (.mk Examples.jfowaie))).len = 48 := by
    rw [Slice_len_mk, length_cipherOf, length_readIV]
    rfl
  rw [hl]
  exact ⟨rfl, by decide⟩

/-- C12, amended. For a 16-byte key and a plaintext of exactly 16 bytes,
`Encrypt` returns a ciphertext of 48 bytes (the IV block and two blocks of
padded plaintext), and `Decrypt` of it returns the original 16 bytes with a nil
error, provided the AES block decryption inverts the AES block encryption. -/
theorem aes_one_block_round_trip (aes : AES) (key : Slice) (hlen : key.len = 16)
    (hinv : ∀ b, aes.decrypt key.bytes (aes.encrypt key.bytes b) = b)
    (iv : Nat → Byte) (p : Slice) (hp : p.len = 16) :
    ∃ e c, NewAESCBCEncConfig key = (some e, none) ∧
      e.Encrypt aes (.ok iv) p = .ret (c, none) ∧ c.len = 48 ∧
      e.Decrypt aes c = .ret (.mk p.bytes, none) := by
  have hl : key.len = 16 ∨ key.len = 24 ∨ key.len = 32 := Or.inl hlen
  refine ⟨{ key := .mk key.bytes, blockSize := (BlockSize : Int) }, _,
    NewAESCBCEncConfig_of_len key hl,
    aes_Encrypt_eq aes _ (NewCipher_of_len key hl) rfl iv p, ?_,
    aes_Decrypt_cipherOf aes _ (NewCipher_of_len key hl) rfl hinv _ (length_readIV iv) p⟩
  rw [Slice_len_mk, length_cipherOf, length_readIV, hp]

/-- Witness for amended C12: the key `"this is a key!!!"` and the plaintext
`"jfowaie3920ejqoi"` of the tests. -/
theorem aes_one_block_round_trip_witness :
    Examples.key16.len = 16 ∧
    (∀ b, Examples.xorAES.decrypt Examples.key16.bytes
      (Examples.xorAES.encrypt Examples.key16.bytes b) = b) ∧
    (Slice.mk Examples.jfowaie).len = 16 ∧
    ∃ e c, NewAESCBCEncConfig Examples.key16 = (some e, none) ∧
      e.Encrypt Examples.xorAES (.ok Examples.countingReader) (.mk Examples.jfowaie) =
        .ret (c, none) ∧ c.len = 48 ∧
      e.Decrypt Examples.xorAES c = .ret (.mk (Slice.mk Examples.jfowaie).bytes, none) :=
  ⟨by decide, Examples.xorAES_inverts _, by decide,
    aes_one_block_round_trip Examples.xorAES Examples.key16 (by decide)
      (Examples.xorAES_inverts _) Examples.countingReader (.mk Examples.jfowaie) (by decide)⟩

end encconfig

namespace encconfig

open Go

/-- C13. AES wire format. For a cipher built by `NewAESCBCEncConfig` and the
16 bytes `iv` the random reader delivers, `Encrypt` returns `iv ++ body`, where
`body` is what the CBC encrypter under the key and `iv` writes for
`pkcs7pad(p, 16)`. `Decrypt` of any input of at least 16 bytes with a
block-aligned remainder runs the CBC decrypter under the key with the first 16
bytes as IV on the remainder, and answers from the unpadding of that alone; so
it maps the output of `Encrypt` back to `p` when the AES block decryption
inverts the AES block encryption. -/
theorem aes_wire_format (aes : AES) (key : Slice) (e : aesCBCEncConfig)
    (he : NewAESCBCEncConfig key = (some e, none)) (f : Nat → Byte) (p : Slice) :
    ∃ q body,
      readFull (.ok f) BlockSize = .ok ((List.range 16).map f) ∧
      pkcs7pad p 16 = .ret q ∧
      CBCEncrypter.CryptBlocks (aes.encrypt key.bytes) (mkBlock ((List.range 16).map f)) q.bytes =
        .ret body ∧
      e.Encrypt aes (.ok f) p = .ret (.mk ((List.range 16).map f ++ body), none) ∧
      (∀ c : Slice, 16 ≤ c.len → (c.len - 16) % 16 = 0 →
        ∃ pt, CBCDecrypter.CryptBlocks (aes.decrypt key.bytes) (mkBlock (c.bytes.take 16))
            (c.bytes.drop 16) = .ret pt ∧
          e.Decrypt aes c =
            .ret (if (pkcs7unpad (.mk pt) 16).2 = none then ((pkcs7unpad (.mk pt) 16).1, none)
              else (.nil, none))) ∧
      ((∀ b, aes.decrypt key.bytes (aes.encrypt key.bytes b) = b) →
        e.Decrypt aes (.mk ((List.range 16).map f ++ body)) = .ret (.mk p.bytes, none)) := by
  obtain ⟨rfl, hlen⟩ := NewAESCBCEncConfig_some key e he
  have hk := NewCipher_of_len key hlen
  have hq := pkcs7pad_eq p 16 (by decide)
  have hbody := cbc_encrypt_blocks (aes.encrypt key.bytes) (mkBlock ((List.range 16).map f))
    (padded p) (p.len / 16 + 1) (length_padded p)
  refine ⟨_, _, rfl, hq, hbody, aes_Encrypt_eq aes _ hk rfl f p, ?_, ?_⟩
  · intro c h1 h2
    have hd : (c.bytes.drop 16).length = 16 * ((c.len - 16) / 16) := by
      rw [List.length_drop]
      show c.len - 16 = _
      omega
    refine ⟨_, cbc_decrypt_blocks (aes.decrypt key.bytes) _ _ _ hd, ?_⟩
    unfold aesCBCEncConfig.Decrypt
    have h3 : ¬ (c.len < 16) := by omega
    have h4 : ¬ ((List.drop 16 c.bytes).length % 16 ≠ 0) := by rw [hd]; omega
    simp only [hk, BlockSize_eq, h3, if_false, h4, Slice_bytes_mk]
    rw [cbc_decrypt_blocks (aes.decrypt key.bytes) _ _ _ hd]
    have hu16 : uint16 ((16 : Nat) : Int) = 16 := by decide
    simp only [hu16]
    rcases hu : pkcs7unpad (.mk (joinBlocks (cbcDecrypt (aes.decrypt key.bytes)
      (mkBlock (List.take 16 c.bytes)) (toBlocks ((c.len - 16) / 16) (List.drop 16 c.bytes))))) 16
      with ⟨pt, _ | err⟩
    · simp [hu]
    · simp [hu]
  · intro hinv
    exact aes_Decrypt_cipherOf aes _ hk rfl hinv _ (length_readIV f) p

/-- Witness for C13: the key `"this is a key!!!"`, the IV 0, 1, ..., 15 and the
plaintext `"bar"`. -/
theorem aes_wire_format_witness :
    NewAESCBCEncConfig Examples.key16 = (some Examples.cfg16, none) ∧
    ∃ q body,
      readFull (.ok Examples.countingReader) BlockSize =
        .ok ((List.range 16).map Examples.countingReader) ∧
      pkcs7pad (.mk Examples.bar) 16 = .ret q ∧
      CBCEncrypter.CryptBlocks (Examples.xorAES.encrypt Examples.key16.bytes)
        (mkBlock ((List.range 16).map Examples.countingReader)) q.bytes = .ret body ∧
      Examples.cfg16.Encrypt Examples.xorAES (.ok Examples.countingReader) (.mk Examples.bar) =
        .ret (.mk ((List.range 16).map Examples.countingReader ++ body), none) ∧
      (∀ c : Slice, 16 ≤ c.len → (c.len - 16) % 16 = 0 →
        ∃ pt, CBCDecrypter.CryptBlocks (Examples.xorAES.decrypt Examples.key16.bytes)
            (mkBlock (c.bytes.take 16)) (c.bytes.drop 16) = .ret pt ∧
          Examples.cfg16.Decrypt Examples.xorAES c =
            .ret (if (pkcs7unpad (.mk pt) 16).2 = none then ((pkcs7unpad (.mk pt) 16).1, none)
              else (.nil, none))) ∧
      ((∀ b, Examples.xorAES.decrypt Examples.key16.bytes
            (Examples.xorAES.encrypt Examples.key16.bytes b) = b) →
        Examples.cfg16.Decrypt Examples.xorAES
          (.mk ((List.range 16).map Examples.countingReader ++ body)) =
          .ret (.mk (Slice.mk Examples.bar).bytes, none)) :=
  ⟨by decide,
    aes_wire_format Examples.xorAES Examples.key16 Examples.cfg16 (by decide)
      Examples.countingReader (.mk Examples.bar)⟩

end encconfig

/-! ## The one-time-pad formula and the unpadding check -/

namespace encconfig

open Go

/-- Byte `i` of what the loop of `Encrypt` started at index `j` writes is byte
`i` of its input xored with the key byte at `(j + i) mod len(key)`. -/
theorem otpLoop_getElem (key : List Byte) :
    ∀ (m : List Byte) (j : Nat) (out : List Byte), otpLoop key j m = .ret out →
      ∀ i, i < m.length →
        ∃ a k, m[i]? = some a ∧ key[(j + i) % key.length]? = some k ∧ out[i]? = some (a ^^^ k)
  | [], _, _, _, i, hi => by simp at hi
  | b :: rest, j, out, h, i, hi => by
    simp only [otpLoop] at h
    split at h
    · cases h
    · split at h
      · cases h
      · rename_i k0 hk0
        split at h
        · cases h
        · rename_i out1 hrec
          simp only [Outcome.ret.injEq] at h
          subst h
          cases i with
          | zero => exact ⟨b, k0, by simp, by simpa using hk0, by simp⟩
          | succ i =>
            obtain ⟨a, k, h1, h2, h3⟩ :=
              otpLoop_getElem key rest (j + 1) out1 hrec i (by simpa using hi)
            refine ⟨a, k, by simpa using h1, ?_, by simpa using h3⟩
            rw [show j + (i + 1) = j + 1 + i by omega]
            exact h2

/-- C14. OTP encryption formula: for a non-empty key `k` and any plaintext
`p`, `Encrypt(p)` returns, with a nil error and without panicking, exactly
`len(p)` bytes whose byte `i` is `p[i] XOR k[i mod len(k)]` for every
`i < len(p)`; `Decrypt` is the same function as `Encrypt`. -/
theorem otp_Encrypt_formula (key : Slice) (hkey : 0 < key.len) (p : Slice) :
    ∃ e out, NewOTPEncConfig key = (some e, none) ∧
      e.Encrypt p = .ret (.mk out, none) ∧ out.length = p.len ∧
      (∀ i, i < p.len →
        ∃ a k, p.bytes[i]? = some a ∧ key.bytes[i % key.len]? = some k ∧
          out[i]? = some (a ^^^ k)) ∧
      (∀ m, e.Decrypt m = e.Encrypt m) := by
  have hne : key.bytes ≠ [] := by
    intro h; simp [Slice.len, h] at hkey
  obtain ⟨out, h1⟩ := otpLoop_total key.bytes hne p.bytes 0
  refine ⟨{ key := .mk key.bytes }, out, ?_, ?_,
    (otpLoop_involutive key.bytes p.bytes 0 out h1).2, ?_, fun _ => rfl⟩
  · unfold NewOTPEncConfig
    rw [if_neg (by omega)]
  · simp only [otpEncConfig.Encrypt, Slice_bytes_mk, h1]
  · intro i hi
    have := otpLoop_getElem key.bytes p.bytes 0 out h1 i hi
    simpa [Slice.len] using this

/-- Witness for C14: the key `"key"` and a plaintext longer than the key. -/
theorem otp_Encrypt_formula_witness :
    0 < Examples.key3.len ∧
    ∃ e out, NewOTPEncConfig Examples.key3 = (some e, none) ∧
      e.Encrypt (.mk [1, 2, 3, 4, 5]) = .ret (.mk out, none) ∧
      out.length = (Slice.mk [1, 2, 3, 4, 5]).len ∧
      (∀ i, i < (Slice.mk [1, 2, 3, 4, 5]).len →
        ∃ a k, (Slice.mk [1, 2, 3, 4, 5]).bytes[i]? = some a ∧
          Examples.key3.bytes[i % Examples.key3.len]? = some k ∧ out[i]? = some (a ^^^ k)) ∧
      (∀ m, e.Decrypt m = e.Encrypt m) :=
  ⟨by decide, otp_Encrypt_formula Examples.key3 (by decide) (.mk [1, 2, 3, 4, 5])⟩

end encconfig

namespace encconfig

open Go

theorem byte_val_self (b : Byte) : byte b.val = b :=
  Fin.ext (Nat.mod_eq_of_lt b.isLt)

/-- For a non-empty input with last byte `last`, `pkcs7unpad` is this chain of
checks on `last`. -/
theorem pkcs7unpad_of_last (m : Slice) (b : Nat) (last : Byte)
    (h : m.bytes.getLast? = some last) :
    pkcs7unpad m b =
      if last.val = 0 then (.nil, some .ErrPKCS7PaddingInvalid)
      else if last.val > m.len ∨ last.val > b then (.nil, some .ErrPKCS7PaddingInvalid)
      else if (m.bytes.drop (m.len - last.val)).any (fun k => k != last) then
        (.nil, some .ErrPKCS7PaddingInvalid)
      else (.mk (m.bytes.take (m.len - last.val)), none) := by
  have hne : m.len ≠ 0 := by
    intro h0
    have : m.bytes = [] := List.length_eq_zero.mp h0
    rw [this] at h
    simp at h
  have hget : m.bytes.getD (m.len - 1) 0 = last := by
    rw [List.getLast?_eq_getElem?] at h
    rw [List.getD_eq_getElem?_getD]
    show (m.bytes[m.bytes.length - 1]?).getD 0 = last
    rw [h]; rfl
  unfold pkcs7unpad
  simp only [hne, if_false, hget, byte_val_self]

/-- C15. PKCS#7 unpadding at block size 16. An empty input fails with
`ErrPKCS7PaddingLengthInvalid`. For a non-empty input `m` with last byte `n`:
if `1 ≤ n ≤ min(len(m), 16)` and the last `n` bytes of `m` all equal `n`, the
call succeeds and returns the first `len(m) - n` bytes of `m`; otherwise it
fails with `ErrPKCS7PaddingInvalid`. So it succeeds exactly when `m` is
non-empty and its last byte passes these checks. -/
theorem pkcs7unpad_spec (m : Slice) :
    (m.len = 0 → pkcs7unpad m 16 = (.nil, some .ErrPKCS7PaddingLengthInvalid)) ∧
    (∀ last, m.bytes.getLast? = some last →
      ((1 ≤ last.val ∧ last.val ≤ min m.len 16 ∧
          (∀ k ∈ m.bytes.drop (m.len - last.val), k = last)) →
        pkcs7unpad m 16 = (.mk (m.bytes.take (m.len - last.val)), none)) ∧
      (¬ (1 ≤ last.val ∧ last.val ≤ min m.len 16 ∧
          (∀ k ∈ m.bytes.drop (m.len - last.val), k = last)) →
        pkcs7unpad m 16 = (.nil, some .ErrPKCS7PaddingInvalid))) ∧
    ((pkcs7unpad m 16).2 = none ↔
      ∃ last, m.bytes.getLast? = some last ∧ 1 ≤ last.val ∧ last.val ≤ min m.len 16 ∧
        (∀ k ∈ m.bytes.drop (m.len - last.val), k = last)) := by
  have hempty : m.len = 0 → pkcs7unpad m 16 = (.nil, some .ErrPKCS7PaddingLengthInvalid) := by
    intro h0
    unfold pkcs7unpad
    simp only [h0, if_true]
  have hany : ∀ (l : List Byte) (last : Byte),
      l.any (fun k => k != last) = true ↔ ¬ ∀ k ∈ l, k = last := by
    intro l last
    simp [List.any_eq_true]
  have hgood : ∀ last, m.bytes.getLast? = some last →
      (1 ≤ last.val ∧ last.val ≤ min m.len 16 ∧
          (∀ k ∈ m.bytes.drop (m.len - last.val), k = last)) →
        pkcs7unpad m 16 = (.mk (m.bytes.take (m.len - last.val)), none) := by
    intro last hl ⟨h1, h2, h3⟩
    rw [pkcs7unpad_of_last m 16 last hl]
    have h2a : last.val ≤ m.len := le_trans h2 (Nat.min_le_left _ _)
    have h2b : last.val ≤ 16 := le_trans h2 (Nat.min_le_right _ _)
    have hn : ¬ ((m.bytes.drop (m.len - last.val)).any (fun k => k != last) = true) := by
      rw [hany]; exact fun hc => hc h3
    rw [if_neg (by omega), if_neg (by omega), if_neg hn]
  have hbad : ∀ last, m.bytes.getLast? = some last →
      ¬ (1 ≤ last.val ∧ last.val ≤ min m.len 16 ∧
          (∀ k ∈ m.bytes.drop (m.len - last.val), k = last)) →
        pkcs7unpad m 16 = (.nil, some .ErrPKCS7PaddingInvalid) := by
    intro last hl hnot
    rw [pkcs7unpad_of_last m 16 last hl]
    by_cases h0 : last.val = 0
    · rw [if_pos h0]
    · rw [if_neg h0]
      by_cases h1 : last.val > m.len ∨ last.val > 16
      · rw [if_pos h1]
      · rw [if_neg h1]
        have hx : (m.bytes.drop (m.len - last.val)).any (fun k => k != last) = true := by
          rw [hany]
          intro hall
          exact hnot ⟨by omega, by rw [Nat.le_min]; omega, hall⟩
        rw [if_pos hx]
  refine ⟨hempty, fun last hl => ⟨hgood last hl, hbad last hl⟩, ?_⟩
  constructor
  · intro hok
    cases hl : m.bytes.getLast? with
    | none =>
      have h0 : m.len = 0 := by
        have : m.bytes = [] := List.getLast?_eq_none_iff.mp hl
        simp [Slice.len, this]
      rw [hempty h0] at hok
      simp at hok
    | some last =>
      by_cases hc : 1 ≤ last.val ∧ last.val ≤ min m.len 16 ∧
          (∀ k ∈ m.bytes.drop (m.len - last.val), k = last)
      · exact ⟨last, rfl, hc⟩
      · rw [hbad last hl hc] at hok
        simp at hok
  · rintro ⟨last, hl, hc⟩
    rw [hgood last hl hc]

/-- C16 (what the code does instead). For every AES block primitive, the key
`"this is a key!!!"` and every input of exactly 16 bytes: the body after the IV
is empty, the CBC decrypter writes nothing, `pkcs7unpad` rejects the empty
padded plaintext with `ErrPKCS7PaddingLengthInvalid`, and yet `Decrypt` returns
a nil plaintext with a nil error. -/
theorem aes_Decrypt_empty_body_no_error (aes : AES) (iv : Block) :
    ∃ e, NewAESCBCEncConfig Examples.key16 = (some e, none) ∧
      (Slice.mk iv.bytes).len = 16 ∧
      CBCDecrypter.CryptBlocks (aes.decrypt e.key.bytes) (mkBlock (iv.bytes.take 16))
        (iv.bytes.drop 16) = .ret [] ∧
      pkcs7unpad (.mk []) (uint16 e.blockSize) = (.nil, some .ErrPKCS7PaddingLengthInvalid) ∧
      e.Decrypt aes (.mk iv.bytes) = .ret (.nil, none) := by
  have hdrop : iv.bytes.drop 16 = [] := List.drop_of_length_le (by rw [iv.size_eq])
  have hcbc : ∀ k : List Byte, CBCDecrypter.CryptBlocks (aes.decrypt k)
      (mkBlock (iv.bytes.take 16)) (iv.bytes.drop 16) = .ret [] := by
    intro k
    rw [hdrop]
    rfl
  have hpad : pkcs7unpad (.mk []) (uint16 (BlockSize : Int)) =
      (.nil, some .ErrPKCS7PaddingLengthInvalid) := by decide
  have hpad16 : pkcs7unpad (.mk []) (uint16 ((16 : Nat) : Int)) =
      (.nil, some .ErrPKCS7PaddingLengthInvalid) := by decide
  refine ⟨{ key := .mk Examples.key16.bytes, blockSize := (BlockSize : Int) }, by decide,
    iv.size_eq, hcbc _, hpad, ?_⟩
  unfold aesCBCEncConfig.Decrypt
  have hk : NewCipher (.mk Examples.key16.bytes) = none := by decide
  have hlen : ¬ ((Slice.mk iv.bytes).len < 16) := by
    rw [Slice_len_mk, iv.size_eq]; omega
  simp only [hk, BlockSize_eq, hlen, if_false, Slice_bytes_mk]
  rw [hcbc]
  simp only [hdrop, List.length_nil, Nat.zero_mod, ne_eq, not_true_eq_false, if_false, hpad16]

end encconfig

/-! ## Pass-through and failure behaviour of the wrappers -/

namespace skeysapiv3

open Go encconfig

variable {σ Ctx Opts CR T : Type}

/-- Under an unwrap function that returns its argument, `unwrapKeyValue` leaves
a non-nil record as it is. -/
theorem unwrapKeyValue_identity (s : secureKV σ Ctx Opts CR T) (unwrap : ValueSetUnwrapFunc)
    (hs : s.valueGetUnwrap = some unwrap) (hid : ∀ v, unwrap v = .ret (v, none))
    (kv : KeyValue) : s.unwrapKeyValue (some kv) = .ret (some kv, none) := by
  obtain ⟨key, value⟩ := kv
  cases value with
  | nil => simp [secureKV.unwrapKeyValue]
  | mk bs => simp [secureKV.unwrapKeyValue, hs, hid, Slice.toStr, Slice.ofStr, Slice.bytes]

theorem unwrapUntilError_identity (s : secureKV σ Ctx Opts CR T) (unwrap : ValueSetUnwrapFunc)
    (hs : s.valueGetUnwrap = some unwrap) (hid : ∀ v, unwrap v = .ret (v, none)) :
    ∀ kvs : List (Option KeyValue), (∀ kv ∈ kvs, kv ≠ none) →
      s.unwrapUntilError kvs = .ret (kvs, none)
  | [], _ => rfl
  | none :: _, h => absurd rfl (h none (List.mem_cons_self _ _))
  | some kv :: rest, h => by
    have ih := unwrapUntilError_identity s unwrap hs hid rest
      (fun x hx => h x (List.mem_cons_of_mem _ hx))
    simp only [secureKV.unwrapUntilError, unwrapKeyValue_identity s unwrap hs hid kv, ih]

theorem unwrapPrevKv_identity (s : secureKV σ Ctx Opts CR T) (unwrap : ValueSetUnwrapFunc)
    (hs : s.valueGetUnwrap = some unwrap) (hid : ∀ v, unwrap v = .ret (v, none))
    (res : PutResponse) : s.unwrapPrevKv res = .ret res := by
  obtain ⟨prev⟩ := res
  cases prev with
  | none => rfl
  | some kv => simp only [secureKV.unwrapPrevKv, unwrapKeyValue_identity s unwrap hs hid kv]

end skeysapiv3

/-- C17. No-cipher pass-through. The v2 `NewSecureKeysAPI(k, nil)` returns the
underlying client `k` itself with a nil error. The v3 `NewSecureKeysAPI(k, nil)`
returns a wrapper over `k` whose wrap and unwrap functions return their
argument with a nil error for every string; its `Put` calls the store with the
caller's value itself and hands back the response of the store, and its `Get`
hands back the response of the store with every record unmodified. -/
theorem no_cipher_pass_through {σ Ctx Opts W τ Ctx3 Opts3 CR T : Type} (b64 : Go.Base64)
    (k2 : skeysapi.KeysAPI σ Ctx Opts W) (k3 : skeysapiv3.KV τ Ctx3 Opts3 CR T) :
    skeysapi.NewSecureKeysAPI b64 k2 none = (.inl k2, none) ∧
    ∃ w wrap unwrap, skeysapiv3.NewSecureKeysAPI b64 k3 none = (some w, none) ∧ w.k = k3 ∧
      w.valueSetWrap = some wrap ∧ w.valueGetUnwrap = some unwrap ∧
      (∀ rnd v, wrap rnd v = .ret (v, none)) ∧ (∀ v, unwrap v = .ret (v, none)) ∧
      (∀ rnd st ctx key v opts, w.Put rnd st ctx key v opts =
        match k3.Put st ctx key v opts with
        | (st1, _, some err) => .ret (st1, none, some err)
        | (_, none, none) => .panic
        | (st1, some res, none) => .ret (st1, some res, none)) ∧
      (∀ st ctx key opts st1 r, k3.Get st ctx key opts = (st1, some r, none) →
        (∀ kv ∈ r.Kvs, kv ≠ none) → w.Get st ctx key opts = .ret (st1, some r, none)) := by
  have hprev := skeysapiv3.unwrapPrevKv_identity
    ({ k := k3, valueSetWrap := some (fun _ m => .ret (m, none)),
       valueGetUnwrap := some (fun m => .ret (m, none)) } : skeysapiv3.secureKV τ Ctx3 Opts3 CR T)
    (fun m => .ret (m, none)) rfl (fun _ => rfl)
  have hkvs := skeysapiv3.unwrapUntilError_identity
    ({ k := k3, valueSetWrap := some (fun _ m => .ret (m, none)),
       valueGetUnwrap := some (fun m => .ret (m, none)) } : skeysapiv3.secureKV τ Ctx3 Opts3 CR T)
    (fun m => .ret (m, none)) rfl (fun _ => rfl)
  refine ⟨rfl, _, _, _, rfl, rfl, rfl, rfl, fun _ _ => rfl, fun _ => rfl, ?_, ?_⟩
  · intro rnd st ctx key v opts
    simp only [skeysapiv3.secureKV.Put]
    rcases hP : k3.Put st ctx key v opts with ⟨st1, r, e⟩
    cases e with
    | some err => cases r <;> rfl
    | none =>
      cases r with
      | none => rfl
      | some res => simp only [hprev res]
  · intro st ctx key opts st1 r hG hall
    simp only [skeysapiv3.secureKV.Get, hG, hkvs r.Kvs hall]

/-- C18. Wrap failure is atomic: when the wrap function of a wrapper fails
with the error `e` on the caller's value, the v2 `Set`, `Create`,
`CreateInOrder` and `Update` and the v3 `Put` return a nil response with
exactly `e`, and the store is left in the state it was in: the underlying
operation is not invoked, whatever the store is. -/
theorem wrap_failure_atomic {σ Ctx Opts W τ Ctx3 Opts3 CR T : Type}
    (s2 : skeysapi.secureKeysAPI σ Ctx Opts W) (s3 : skeysapiv3.secureKV τ Ctx3 Opts3 CR T)
    (wrap : Go.RandReader → Go.Str → Go.Outcome (Go.Str × Option Go.Err))
    (h2 : s2.valueSetWrap = some wrap) (h3 : s3.valueSetWrap = some wrap)
    (rnd : Go.RandReader) (value x : Go.Str) (e : Go.Err)
    (hfail : wrap rnd value = .ret (x, some e)) :
    (∀ st ctx key opts, s2.Set rnd st ctx key value opts = .ret (st, none, some e)) ∧
    (∀ st ctx key, s2.Create rnd st ctx key value = .ret (st, none, some e)) ∧
    (∀ st ctx dir opts, s2.CreateInOrder rnd st ctx dir value opts = .ret (st, none, some e)) ∧
    (∀ st ctx key, s2.Update rnd st ctx key value = .ret (st, none, some e)) ∧
    (∀ st ctx key opts, s3.Put rnd st ctx key value opts = .ret (st, none, some e)) := by
  have hw : s2.wrapValue rnd value = .ret (x, some e) := by
    simp only [skeysapi.secureKeysAPI.wrapValue, h2, hfail]
  refine ⟨?_, ?_, ?_, ?_, ?_⟩
  · intro st ctx key opts
    simp only [skeysapi.secureKeysAPI.Set, hw]
  · intro st ctx key
    simp only [skeysapi.secureKeysAPI.Create, hw]
  · intro st ctx dir opts
    simp only [skeysapi.secureKeysAPI.CreateInOrder, hw]
  · intro st ctx key
    simp only [skeysapi.secureKeysAPI.Update, hw]
  · intro st ctx key opts
    simp only [skeysapiv3.secureKV.Put, h3, hfail]

/-- Witness for C18: the AES wrappers over the association-list stores when
the random reader fails, so that `Encrypt` cannot draw an IV. -/
theorem wrap_failure_atomic_witness :
    (Examples.skapi16 Examples.mapStore).valueSetWrap =
      some (skeysapi.GetWrappers Examples.hexCodec Examples.enc16).1 ∧
    (Examples.skv16 Examples.mapKV).valueSetWrap =
      some (skeysapi.GetWrappers Examples.hexCodec Examples.enc16).1 ∧
    (skeysapi.GetWrappers Examples.hexCodec Examples.enc16).1 (.error (.external 5)) Examples.bar =
      .ret ([], some (.external 5)) ∧
    (∀ st ctx key opts, (Examples.skapi16 Examples.mapStore).Set (.error (.external 5)) st ctx key
        Examples.bar opts = .ret (st, none, some (.external 5))) ∧
    (∀ st ctx key, (Examples.skapi16 Examples.mapStore).Create (.error (.external 5)) st ctx key
        Examples.bar = .ret (st, none, some (.external 5))) ∧
    (∀ st ctx dir opts, (Examples.skapi16 Examples.mapStore).CreateInOrder (.error (.external 5))
        st ctx dir Examples.bar opts = .ret (st, none, some (.external 5))) ∧
    (∀ st ctx key, (Examples.skapi16 Examples.mapStore).Update (.error (.external 5)) st ctx key
        Examples.bar = .ret (st, none, some (.external 5))) ∧
    (∀ st ctx key opts, (Examples.skv16 Examples.mapKV).Put (.error (.external 5)) st ctx key
        Examples.bar opts = .ret (st, none, some (.external 5))) :=
  ⟨rfl, rfl, by decide,
    wrap_failure_atomic (Examples.skapi16 Examples.mapStore) (Examples.skv16 Examples.mapKV)
      (skeysapi.GetWrappers Examples.hexCodec Examples.enc16).1 rfl rfl (.error (.external 5))
      Examples.bar [] (.external 5) (by decide)⟩

/-- C19. Store failure is surfaced unchanged: whenever the underlying
operation returns an error `e` (for the value-accepting operations: on the
wrapped value), the v2 `Get`, `Set`, `Delete`, `Create`, `CreateInOrder` and
`Update` and the v3 `Get`, `Put` and `Delete` return a nil response with
exactly `e` and the state the store is left in, whatever response came with
the error and whatever the unwrap function is. -/
theorem store_failure_surfaced {σ Ctx Opts W τ Ctx3 Opts3 CR T : Type}
    (s2 : skeysapi.secureKeysAPI σ Ctx Opts W) (s3 : skeysapiv3.secureKV τ Ctx3 Opts3 CR T) :
    (∀ st ctx key opts st1 r e, s2.k.Get st ctx key opts = (st1, r, some e) →
      s2.Get st ctx key opts = .ret (st1, none, some e)) ∧
    (∀ rnd st ctx key value opts w st1 r e, s2.wrapValue rnd value = .ret (w, none) →
      s2.k.Set st ctx key w opts = (st1, r, some e) →
      s2.Set rnd st ctx key value opts = .ret (st1, none, some e)) ∧
    (∀ st ctx key opts st1 r e, s2.k.Delete st ctx key opts = (st1, r, some e) →
      s2.Delete st ctx key opts = .ret (st1, none, some e)) ∧
    (∀ rnd st ctx key value w st1 r e, s2.wrapValue rnd value = .ret (w, none) →
      s2.k.Create st ctx key w = (st1, r, some e) →
      s2.Create rnd st ctx key value = .ret (st1, none, some e)) ∧
    (∀ rnd st ctx dir value opts w st1 r e, s2.wrapValue rnd value = .ret (w, none) →
      s2.k.CreateInOrder st ctx dir w opts = (st1, r, some e) →
      s2.CreateInOrder rnd st ctx dir value opts = .ret (st1, none, some e)) ∧
    (∀ rnd st ctx key value w st1 r e, s2.wrapValue rnd value = .ret (w, none) →
      s2.k.Update st ctx key w = (st1, r, some e) →
      s2.Update rnd st ctx key value = .ret (st1, none, some e)) ∧
    (∀ st ctx key opts st1 r e, s3.k.Get st ctx key opts = (st1, r, some e) →
      s3.Get st ctx key opts = .ret (st1, none, some e)) ∧
    (∀ rnd st ctx key val opts w st1 r e,
      (match s3.valueSetWrap with
        | none => Go.Outcome.ret (val, none)
        | some wrap => wrap rnd val) = .ret (w, none) →
      s3.k.Put st ctx key w opts = (st1, r, some e) →
      s3.Put rnd st ctx key val opts = .ret (st1, none, some e)) ∧
    (∀ st ctx key opts st1 r e, s3.k.Delete st ctx key opts = (st1, r, some e) →
      s3.Delete st ctx key opts = .ret (st1, none, some e)) := by
  refine ⟨?_, ?_, ?_, ?_, ?_, ?_, ?_, ?_, ?_⟩
  · intro st ctx key opts st1 r e h
    simp only [skeysapi.secureKeysAPI.Get, h, skeysapi.secureKeysAPI.finish]
  · intro rnd st ctx key value opts w st1 r e hw h
    simp only [skeysapi.secureKeysAPI.Set, hw, h, skeysapi.secureKeysAPI.finish]
  · intro st ctx key opts st1 r e h
    simp only [skeysapi.secureKeysAPI.Delete, h, skeysapi.secureKeysAPI.finish]
  · intro rnd st ctx key value w st1 r e hw h
    simp only [skeysapi.secureKeysAPI.Create, hw, h, skeysapi.secureKeysAPI.finish]
  · intro rnd st ctx dir value opts w st1 r e hw h
    simp only [skeysapi.secureKeysAPI.CreateInOrder, hw, h, skeysapi.secureKeysAPI.finish]
  · intro rnd st ctx key value w st1 r e hw h
    simp only [skeysapi.secureKeysAPI.Update, hw, h, skeysapi.secureKeysAPI.finish]
  · intro st ctx key opts st1 r e h
    simp only [skeysapiv3.secureKV.Get, h]
  · intro rnd st ctx key val opts w st1 r e hw h
    simp only [skeysapiv3.secureKV.Put, hw, h]
  · intro st ctx key opts st1 r e h
    simp only [skeysapiv3.secureKV.Delete, h]

/-- Witness for C19: the AES wrappers over the unreachable stores; `"bar"` is
written under `"/foo"` and read. -/
theorem store_failure_surfaced_witness :
    Examples.downStore.Get [] () Examples.foo () = ([], none, some (.external 14)) ∧
    (Examples.skapi16 Examples.downStore).Get [] () Examples.foo () =
      .ret ([], none, some (.external 14)) ∧
    (Examples.skapi16 Examples.downStore).wrapValue (.ok Examples.countingReader) Examples.bar =
      .ret (Examples.hexEncode Examples.barCipher, none) ∧
    Examples.downStore.Set [] () Examples.foo (Examples.hexEncode Examples.barCipher) () =
      ([], none, some (.external 14)) ∧
    (Examples.skapi16 Examples.downStore).Set (.ok Examples.countingReader) [] () Examples.foo
      Examples.bar () = .ret ([], none, some (.external 14)) ∧
    Examples.downKV.Get [] () Examples.foo () = ([], none, some (.external 14)) ∧
    (Examples.skv16 Examples.downKV).Get [] () Examples.foo () =
      .ret ([], none, some (.external 14)) ∧
    Examples.downKV.Put [] () Examples.foo (Examples.hexEncode Examples.barCipher) () =
      ([], none, some (.external 14)) ∧
    (Examples.skv16 Examples.downKV).Put (.ok Examples.countingReader) [] () Examples.foo
      Examples.bar () = .ret ([], none, some (.external 14)) :=
  have h := store_failure_surfaced (Examples.skapi16 Examples.downStore)
    (Examples.skv16 Examples.downKV)
  ⟨rfl, h.1 [] () Examples.foo () [] none (.external 14) rfl,
    by decide,
    rfl,
    h.2.1 (.ok Examples.countingReader) [] () Examples.foo Examples.bar ()
      (Examples.hexEncode Examples.barCipher) [] none (.external 14) (by decide) rfl,
    rfl, h.2.2.2.2.2.2.1 [] () Examples.foo () [] none (.external 14) rfl,
    rfl,
    h.2.2.2.2.2.2.2.1 (.ok Examples.countingReader) [] () Examples.foo Examples.bar ()
      (Examples.hexEncode Examples.barCipher) [] none (.external 14) (by decide) rfl⟩

/-- C20 (what the code does instead). Whenever the underlying `Do` returns an
error `e` with an empty `OpResponse`, the v3 wrapper's `Do` returns that
response with a nil error: the error of the store is dropped, for every op.
When the response that comes with the error carries a get sub-result, its
records are unwrapped all the same. On the unreachable store, `Do` of a get,
a put and a delete op through the AES wrapper all return a nil error. -/
theorem Do_drops_store_error :
    (∀ {τ Ctx Opts CR T : Type} (s : skeysapiv3.secureKV τ Ctx Opts CR T) (st : τ) (ctx : Ctx)
      (op : skeysapiv3.Op Opts) (st1 : τ) (e : Go.Err),
      s.k.Do st ctx op = (st1, { put := none, get := none, del := none }, some e) →
      s.Do st ctx op = .ret (st1, { put := none, get := none, del := none }, none)) ∧
    (∀ {τ Ctx Opts CR T : Type} (s : skeysapiv3.secureKV τ Ctx Opts CR T) (st : τ) (ctx : Ctx)
      (op : skeysapiv3.Op Opts) (st1 : τ) (e : Go.Err) (kvs : List (Option skeysapiv3.KeyValue)),
      s.k.Do st ctx op = (st1, { put := none, get := some { Kvs := kvs }, del := none }, some e) →
      s.Do st ctx op =
        match s.unwrapUntilError kvs with
        | .panic => .panic
        | .ret (kvs1, err) =>
          .ret (st1, { put := none, get := some { Kvs := kvs1 }, del := none }, err)) ∧
    Examples.downKV.Do [] () (.OpGet Examples.foo ()) =
      ([], { put := none, get := none, del := none }, some (.external 14)) ∧
    (Examples.skv16 Examples.downKV).Do [] () (.OpGet Examples.foo ()) =
      .ret ([], { put := none, get := none, del := none }, none) ∧
    (Examples.skv16 Examples.downKV).Do [] () (.OpPut Examples.foo Examples.bar ()) =
      .ret ([], { put := none, get := none, del := none }, none) ∧
    (Examples.skv16 Examples.downKV).Do [] () (.OpDelete Examples.foo ()) =
      .ret ([], { put := none, get := none, del := none }, none) := by
  refine ⟨?_, ?_, rfl, rfl, rfl, rfl⟩
  · intro τ Ctx Opts CR T s st ctx op st1 e h
    simp only [skeysapiv3.secureKV.Do, h]
  · intro τ Ctx Opts CR T s st ctx op st1 e kvs h
    simp only [skeysapiv3.secureKV.Do, h]
    cases s.unwrapUntilError kvs with
    | panic => rfl
    | ret a =>
      obtain ⟨kvs1, err⟩ := a
      cases err <;> rfl

/-! ## Unwrap failures -/

/-- C22 (what the code does instead). When unwrapping the previous record that
comes with a successful v3 `Put` fails with an error `e`, `Put` returns the
response with the record left as it was and a nil error; the same holds for
`Delete` and a previous record in its list, and for the put and delete
sub-results of `Do`. On the store holding `"zz"` (not an encoding) under
`"/foo"`, `Put`, `Delete` and `Do` through the AES wrapper all return a nil
error and hand back `"zz"`. -/
theorem previous_value_unwrap_error_dropped :
    (∀ {τ Ctx Opts CR T : Type} (s : skeysapiv3.secureKV τ Ctx Opts CR T) (rnd : Go.RandReader)
      (st : τ) (ctx : Ctx) (key val w : Go.Str) (opts : Opts) (st1 : τ)
      (kv : skeysapiv3.KeyValue) (e : Go.Err),
      (match s.valueSetWrap with
        | none => Go.Outcome.ret (val, none)
        | some wrap => wrap rnd val) = .ret (w, none) →
      s.k.Put st ctx key w opts = (st1, some { PrevKv := some kv }, none) →
      s.unwrapKeyValue (some kv) = .ret (some kv, some e) →
      s.Put rnd st ctx key val opts = .ret (st1, some { PrevKv := some kv }, none)) ∧
    (∀ {τ Ctx Opts CR T : Type} (s : skeysapiv3.secureKV τ Ctx Opts CR T) (st : τ) (ctx : Ctx)
      (key : Go.Str) (opts : Opts) (st1 : τ) (n : Int) (kv : skeysapiv3.KeyValue) (e : Go.Err),
      s.k.Delete st ctx key opts = (st1, some { Deleted := n, PrevKvs := [some kv] }, none) →
      s.unwrapKeyValue (some kv) = .ret (some kv, some e) →
      s.Delete st ctx key opts =
        .ret (st1, some { Deleted := n, PrevKvs := [some kv] }, none)) ∧
    (∀ {τ Ctx Opts CR T : Type} (s : skeysapiv3.secureKV τ Ctx Opts CR T) (st : τ) (ctx : Ctx)
      (op : skeysapiv3.Op Opts) (st1 : τ) (kv : skeysapiv3.KeyValue) (e : Go.Err),
      s.k.Do st ctx op =
        (st1, { put := some { PrevKv := some kv }, get := none, del := none }, none) →
      s.unwrapKeyValue (some kv) = .ret (some kv, some e) →
      s.Do st ctx op =
        .ret (st1, { put := some { PrevKv := some kv }, get := none, del := none }, none)) ∧
    (∀ {τ Ctx Opts CR T : Type} (s : skeysapiv3.secureKV τ Ctx Opts CR T) (st : τ) (ctx : Ctx)
      (op : skeysapiv3.Op Opts) (st1 : τ) (n : Int) (kv : skeysapiv3.KeyValue) (e : Go.Err),
      s.k.Do st ctx op =
        (st1, { put := none, get := none,
                del := some { Deleted := n, PrevKvs := [some kv] } }, none) →
      s.unwrapKeyValue (some kv) = .ret (some kv, some e) →
      s.Do st ctx op =
        .ret (st1, { put := none, get := none,
                     del := some { Deleted := n, PrevKvs := [some kv] } }, none)) ∧
    (Examples.skv16 Examples.prevKV).unwrapKeyValue
        (some { Key := .mk Examples.foo, Value := .mk Examples.zz }) =
      .ret (some { Key := .mk Examples.foo, Value := .mk Examples.zz }, some (.external 1)) ∧
    (Examples.skv16 Examples.prevKV).Put (.ok Examples.countingReader)
        [(Examples.foo, Examples.zz)] () Examples.foo Examples.bar () =
      .ret ([(Examples.foo, Examples.barStored), (Examples.foo, Examples.zz)],
        some { PrevKv := some { Key := .mk Examples.foo, Value := .mk Examples.zz } }, none) ∧
    (Examples.skv16 Examples.prevKV).Delete [(Examples.foo, Examples.zz)] () Examples.foo () =
      .ret ([], some { Deleted := 1,
                       PrevKvs := [some { Key := .mk Examples.foo, Value := .mk Examples.zz }] },
        none) ∧
    (Examples.skv16 Examples.prevKV).Do [(Examples.foo, Examples.zz)] ()
        (.OpPut Examples.foo Examples.barStored ()) =
      .ret ([(Examples.foo, Examples.barStored), (Examples.foo, Examples.zz)],
        { put := some { PrevKv := some { Key := .mk Examples.foo, Value := .mk Examples.zz } },
          get := none, del := none }, none) ∧
    (Examples.skv16 Examples.prevKV).Do [(Examples.foo, Examples.zz)] ()
        (.OpDelete Examples.foo ()) =
      .ret ([], { put := none, get := none,
                  del := some { Deleted := 1,
                                PrevKvs := [some { Key := .mk Examples.foo,
                                                   Value := .mk Examples.zz }] } }, none) := by
  refine ⟨?_, ?_, ?_, ?_, by decide, by decide, by decide, by decide, by decide⟩
  · intro τ Ctx Opts CR T s rnd st ctx key val w opts st1 kv e hw h hu
    simp only [skeysapiv3.secureKV.Put, hw, h, skeysapiv3.secureKV.unwrapPrevKv, hu]
  · intro τ Ctx Opts CR T s st ctx key opts st1 n kv e h hu
    simp only [skeysapiv3.secureKV.Delete, h, skeysapiv3.secureKV.unwrapIgnoringErrors, hu]
  · intro τ Ctx Opts CR T s st ctx op st1 kv e h hu
    simp only [skeysapiv3.secureKV.Do, h, skeysapiv3.secureKV.unwrapPrevKv, hu]
  · intro τ Ctx Opts CR T s st ctx op st1 n kv e h hu
    simp only [skeysapiv3.secureKV.Do, h, skeysapiv3.secureKV.unwrapIgnoringErrors, hu]

/-! ## Unwrapping of trees and records -/

namespace skeysapi

open Go encconfig

variable {σ Ctx Opts W : Type}

mutual
/-- A successful `unwrapNode` leaves the tree with every non-empty value
unwrapped once and every empty value empty. -/
theorem unwrapNode_unwrapsTo (unwrap : ValueSetUnwrapFunc) :
    ∀ (n n' : NodePtr), unwrapNode unwrap n = .ret (n', none) → UnwrapsTo unwrap n n'
  | .null, n', h => by
    simp only [unwrapNode, Outcome.ret.injEq, Prod.mk.injEq, and_true] at h
    subst h
    exact .null
  | .node key dir value nodes, n', h => by
    simp only [unwrapNode] at h
    split at h
    · cases h
    · simp at h
    · rename_i nodes1 hn
      have ih := unwrapNodes_unwrapsListTo unwrap nodes nodes1 hn
      split at h
      · rename_i hv
        split at h
        · cases h
        · simp at h
        · rename_i val hu
          simp only [Outcome.ret.injEq, Prod.mk.injEq, and_true] at h
          subst h
          exact .value key dir hv hu ih
      · rename_i hv
        simp only [Outcome.ret.injEq, Prod.mk.injEq, and_true] at h
        subst h
        have hv' : value = [] := by simpa using hv
        subst hv'
        exact .empty key dir ih
/-- The same for the loop over the children. -/
theorem unwrapNodes_unwrapsListTo (unwrap : ValueSetUnwrapFunc) :
    ∀ (ns ns' : NodeList), unwrapNodes unwrap ns = .ret (ns', none) → UnwrapsListTo unwrap ns ns'
  | .nil, ns', h => by
    simp only [unwrapNodes, Outcome.ret.injEq, Prod.mk.injEq, and_true] at h
    subst h
    exact .nil
  | .cons nc rest, ns', h => by
    simp only [unwrapNodes] at h
    split at h
    · cases h
    · simp at h
    · rename_i nc1 hc
      split at h
      · cases h
      · rename_i rest1 err hr
        simp only [Outcome.ret.injEq, Prod.mk.injEq] at h
        obtain ⟨h1, h2⟩ := h
        subst h1 h2
        exact .cons (unwrapNode_unwrapsTo unwrap nc nc1 hc)
          (unwrapNodes_unwrapsListTo unwrap rest rest1 hr)
end

mutual
/-- Whatever `unwrapNode` returns, the tree it leaves has the keys, directory
flags and shape of the tree it was given. -/
theorem unwrapNode_eraseValues (unwrap : ValueSetUnwrapFunc) :
    ∀ (n n' : NodePtr) (e : Option Err), unwrapNode unwrap n = .ret (n', e) →
      n'.eraseValues = n.eraseValues
  | .null, n', e, h => by
    simp only [unwrapNode, Outcome.ret.injEq, Prod.mk.injEq] at h
    rw [← h.1]
  | .node key dir value nodes, n', e, h => by
    simp only [unwrapNode] at h
    split at h
    · cases h
    · rename_i nodes1 err hn
      simp only [Outcome.ret.injEq, Prod.mk.injEq] at h
      rw [← h.1]
      simp only [NodePtr.eraseValues, unwrapNodes_eraseValues unwrap nodes nodes1 _ hn]
    · rename_i nodes1 hn
      have ih := unwrapNodes_eraseValues unwrap nodes nodes1 _ hn
      split at h
      · split at h
        · cases h
        · simp only [Outcome.ret.injEq, Prod.mk.injEq] at h
          rw [← h.1]
          simp only [NodePtr.eraseValues, ih]
        · simp only [Outcome.ret.injEq, Prod.mk.injEq] at h
          rw [← h.1]
          simp only [NodePtr.eraseValues, ih]
      · simp only [Outcome.ret.injEq, Prod.mk.injEq] at h
        rw [← h.1]
        simp only [NodePtr.eraseValues, ih]
/-- The same for the loop over the children. -/
theorem unwrapNodes_eraseValues (unwrap : ValueSetUnwrapFunc) :
    ∀ (ns ns' : NodeList) (e : Option Err), unwrapNodes unwrap ns = .ret (ns', e) →
      ns'.eraseValues = ns.eraseValues
  | .nil, ns', e, h => by
    simp only [unwrapNodes, Outcome.ret.injEq, Prod.mk.injEq] at h
    rw [← h.1]
  | .cons nc rest, ns', e, h => by
    simp only [unwrapNodes] at h
    split at h
    · cases h
    · rename_i nc1 err hc
      simp only [Outcome.ret.injEq, Prod.mk.injEq] at h
      rw [← h.1]
      simp only [NodeList.eraseValues, unwrapNode_eraseValues unwrap nc nc1 _ hc]
    · rename_i nc1 hc
      split at h
      · cases h
      · rename_i rest1 err hr
        simp only [Outcome.ret.injEq, Prod.mk.injEq] at h
        rw [← h.1]
        simp only [NodeList.eraseValues, unwrapNode_eraseValues unwrap nc nc1 _ hc,
          unwrapNodes_eraseValues unwrap rest rest1 _ hr]
end

end skeysapi

namespace skeysapi

open Go encconfig

variable {σ Ctx Opts W : Type}

/-- Whatever `unwrapResponse` returns, the response it leaves has the action,
keys, directory flags and shape of the response it was given. -/
theorem unwrapResponse_eraseValues (s : secureKeysAPI σ Ctx Opts W) (r r1 : Option Response)
    (e : Option Err) (h : s.unwrapResponse r = .ret (r1, e)) :
    r1.map (fun x => (x.Action, x.Node.eraseValues, x.PrevNode.eraseValues)) =
      r.map (fun x => (x.Action, x.Node.eraseValues, x.PrevNode.eraseValues)) := by
  unfold secureKeysAPI.unwrapResponse at h
  split at h
  · rename_i hsome
    obtain ⟨unwrap, hs⟩ := Option.isSome_iff_exists.mp hsome
    cases r with
    | none => cases h
    | some r0 =>
      simp only [secureKeysAPI.unwrapNode, hs] at h
      split at h
      · cases h
      · rename_i node err hn
        simp only [Outcome.ret.injEq, Prod.mk.injEq] at h
        rw [← h.1]
        simp only [Option.map_some', unwrapNode_eraseValues unwrap _ _ _ hn]
      · rename_i node hn
        split at h
        · cases h
        · rename_i prev err hp
          simp only [Outcome.ret.injEq, Prod.mk.injEq] at h
          rw [← h.1]
          simp only [Option.map_some', unwrapNode_eraseValues unwrap _ _ _ hn,
            unwrapNode_eraseValues unwrap _ _ _ hp]
        · rename_i prev hp
          simp only [Outcome.ret.injEq, Prod.mk.injEq] at h
          rw [← h.1]
          simp only [Option.map_some', unwrapNode_eraseValues unwrap _ _ _ hn,
            unwrapNode_eraseValues unwrap _ _ _ hp]
  · simp only [Outcome.ret.injEq, Prod.mk.injEq] at h
    rw [← h.1]

/-- The state in which a method leaves the store is the state in which the
store call it is given leaves it. -/
theorem finish_state (s : secureKeysAPI σ Ctx Opts W) (res : σ × Option Response × Option Err)
    (st1 : σ) (r : Option Response) (e : Option Err) (h : s.finish res = .ret (st1, r, e)) :
    st1 = res.1 := by
  obtain ⟨st, r0, e0⟩ := res
  cases e0 with
  | some err =>
    simp only [secureKeysAPI.finish, Outcome.ret.injEq, Prod.mk.injEq] at h
    exact h.1.symm
  | none =>
    simp only [secureKeysAPI.finish] at h
    split at h
    · cases h
    · simp only [Outcome.ret.injEq, Prod.mk.injEq] at h
      exact h.1.symm

/-- A value-accepting method leaves the store as it was (the wrap failed) or
as the store call on the caller's key with the wrapped value leaves it. -/
theorem write_state (s : secureKeysAPI σ Ctx Opts W) (rnd : RandReader) (value : Str) (st : σ)
    (call : Str → σ × Option Response × Option Err) (st1 : σ) (r : Option Response)
    (e : Option Err)
    (h : (match s.wrapValue rnd value with
      | .panic => Outcome.panic
      | .ret (_, some err) => .ret (st, none, some err)
      | .ret (value, none) => s.finish (call value)) = .ret (st1, r, e)) :
    (st1 = st ∧ r = none) ∨
      ∃ w, s.wrapValue rnd value = .ret (w, none) ∧ st1 = (call w).1 := by
  split at h
  · cases h
  · simp only [Outcome.ret.injEq, Prod.mk.injEq] at h
    exact Or.inl ⟨h.1.symm, h.2.1.symm⟩
  · rename_i w hw
    exact Or.inr ⟨w, hw, finish_state s _ st1 r e h⟩

end skeysapi

namespace skeysapiv3

open Go encconfig

variable {σ Ctx Opts CR T : Type}

/-- Whatever `unwrapKeyValue` returns for a record, the record it leaves has
the same key. -/
theorem unwrapKeyValue_key (s : secureKV σ Ctx Opts CR T) (m x : Option KeyValue)
    (e : Option Err) (h : s.unwrapKeyValue m = .ret (x, e)) :
    x.map (fun kv => kv.Key) = m.map (fun kv => kv.Key) ∧ x.isSome := by
  unfold secureKV.unwrapKeyValue at h
  cases m with
  | none => cases h
  | some kv =>
    simp only at h
    split at h
    · split at h
      · cases h
      · split at h
        · cases h
        · simp only [Outcome.ret.injEq, Prod.mk.injEq] at h
          rw [← h.1]; exact ⟨rfl, rfl⟩
        · simp only [Outcome.ret.injEq, Prod.mk.injEq] at h
          rw [← h.1]; exact ⟨rfl, rfl⟩
    · simp only [Outcome.ret.injEq, Prod.mk.injEq] at h
      rw [← h.1]; exact ⟨rfl, rfl⟩

/-- Whatever the loop that stops at the first error returns, the records it
leaves have the keys of the records it was given, in the same number and
order. -/
theorem unwrapUntilError_keys (s : secureKV σ Ctx Opts CR T) :
    ∀ (kvs kvs' : List (Option KeyValue)) (e : Option Err),
      s.unwrapUntilError kvs = .ret (kvs', e) →
      kvs'.map (Option.map fun kv => kv.Key) = kvs.map (Option.map fun kv => kv.Key)
  | [], kvs', e, h => by
    simp only [secureKV.unwrapUntilError, Outcome.ret.injEq, Prod.mk.injEq] at h
    rw [← h.1]
  | kv :: rest, kvs', e, h => by
    simp only [secureKV.unwrapUntilError] at h
    split at h
    · cases h
    · rename_i kv1 err hk
      simp only [Outcome.ret.injEq, Prod.mk.injEq] at h
      rw [← h.1]
      simp only [List.map_cons, (unwrapKeyValue_key s kv kv1 _ hk).1]
    · rename_i kv1 hk
      split at h
      · cases h
      · rename_i rest1 err hr
        simp only [Outcome.ret.injEq, Prod.mk.injEq] at h
        rw [← h.1]
        simp only [List.map_cons, (unwrapKeyValue_key s kv kv1 _ hk).1,
          unwrapUntilError_keys s rest rest1 _ hr]

/-- The same for the loop that drops the errors. -/
theorem unwrapIgnoringErrors_keys (s : secureKV σ Ctx Opts CR T) :
    ∀ (kvs kvs' : List (Option KeyValue)), s.unwrapIgnoringErrors kvs = .ret kvs' →
      kvs'.map (Option.map fun kv => kv.Key) = kvs.map (Option.map fun kv => kv.Key)
  | [], kvs', h => by
    simp only [secureKV.unwrapIgnoringErrors, Outcome.ret.injEq] at h
    rw [← h]
  | kv :: rest, kvs', h => by
    simp only [secureKV.unwrapIgnoringErrors] at h
    split at h
    · cases h
    · rename_i kv1 err hk
      split at h
      · cases h
      · rename_i rest1 hr
        simp only [Outcome.ret.injEq] at h
        rw [← h]
        simp only [List.map_cons, (unwrapKeyValue_key s kv kv1 _ hk).1,
          unwrapIgnoringErrors_keys s rest rest1 hr]

end skeysapiv3

/-- C23. Hierarchical unwrap: when `unwrapResponse` of a wrapper with the
unwrap function `unwrap` succeeds on a response, then in both the node tree
and the previous-node tree of the response it leaves, every node at every depth
that held a non-empty value `v` holds the string `unwrap` returns for `v`
(unwrapped once, not twice), every node that held the empty string still holds
it, and keys, flags and children are in place. -/
theorem unwrapResponse_unwraps_every_node {σ Ctx Opts W : Type}
    (s : skeysapi.secureKeysAPI σ Ctx Opts W) (unwrap : skeysapi.ValueSetUnwrapFunc)
    (hs : s.valueGetUnwrap = some unwrap) (r r' : skeysapi.Response)
    (h : s.unwrapResponse (some r) = .ret (some r', none)) :
    skeysapi.UnwrapsTo unwrap r.Node r'.Node ∧
      skeysapi.UnwrapsTo unwrap r.PrevNode r'.PrevNode ∧ r'.Action = r.Action := by
  simp only [skeysapi.secureKeysAPI.unwrapResponse, hs, Option.isSome_some, if_true,
    skeysapi.secureKeysAPI.unwrapNode] at h
  split at h
  · cases h
  · simp at h
  · rename_i node hn
    split at h
    · cases h
    · simp at h
    · rename_i prev hp
      simp only [Go.Outcome.ret.injEq, Prod.mk.injEq, Option.some.injEq, and_true] at h
      subst h
      exact ⟨skeysapi.unwrapNode_unwrapsTo unwrap _ _ hn,
        skeysapi.unwrapNode_unwrapsTo unwrap _ _ hp, rfl⟩

/-- Witness for C23: a directory with two children and a previous node, all
holding the stored form of `"bar"`, through the AES wrapper. -/
theorem unwrapResponse_unwraps_every_node_witness :
    (Examples.skapi16 Examples.mapStore).valueGetUnwrap =
      some (skeysapi.GetWrappers Examples.hexCodec Examples.enc16).2 ∧
    (Examples.skapi16 Examples.mapStore).unwrapResponse (some Examples.dirResponse) =
      .ret (some Examples.dirResponsePlain, none) ∧
    skeysapi.UnwrapsTo (skeysapi.GetWrappers Examples.hexCodec Examples.enc16).2
      Examples.dirResponse.Node Examples.dirResponsePlain.Node ∧
    skeysapi.UnwrapsTo (skeysapi.GetWrappers Examples.hexCodec Examples.enc16).2
      Examples.dirResponse.PrevNode Examples.dirResponsePlain.PrevNode ∧
    Examples.dirResponsePlain.Action = Examples.dirResponse.Action :=
  ⟨rfl, by rfl,
    unwrapResponse_unwraps_every_node (Examples.skapi16 Examples.mapStore) _ rfl
      Examples.dirResponse Examples.dirResponsePlain (by rfl)⟩

namespace skeysapiv3

open Go encconfig

variable {σ Ctx Opts CR T : Type}

/-- `Put` leaves the store as it was (the wrap failed) or as the store call on
the caller's key with the wrapped value leaves it. -/
theorem Put_state (s : secureKV σ Ctx Opts CR T) (rnd : RandReader) (st : σ) (ctx : Ctx)
    (key val : Str) (opts : Opts) (st1 : σ) (r : Option PutResponse) (e : Option Err)
    (h : s.Put rnd st ctx key val opts = .ret (st1, r, e)) :
    (st1 = st ∧ r = none) ∨
      ∃ w, (match s.valueSetWrap with
          | none => Outcome.ret (val, none)
          | some wrap => wrap rnd val) = .ret (w, none) ∧
        st1 = (s.k.Put st ctx key w opts).1 := by
  unfold secureKV.Put at h
  simp only at h
  split at h
  · cases h
  · simp only [Outcome.ret.injEq, Prod.mk.injEq] at h
    exact Or.inl ⟨h.1.symm, h.2.1.symm⟩
  · rename_i w hw
    refine Or.inr ⟨w, hw, ?_⟩
    rcases hP : s.k.Put st ctx key w opts with ⟨st', r', e'⟩
    rw [hP] at h
    cases e' with
    | some err =>
      cases r' <;>
      · simp only [Outcome.ret.injEq, Prod.mk.injEq] at h
        exact h.1.symm
    | none =>
      cases r' with
      | none => cases h
      | some res =>
        simp only at h
        split at h
        · cases h
        · simp only [Outcome.ret.injEq, Prod.mk.injEq] at h
          exact h.1.symm

theorem Get_state (s : secureKV σ Ctx Opts CR T) (st : σ) (ctx : Ctx) (key : Str) (opts : Opts)
    (st1 : σ) (r : Option GetResponse) (e : Option Err)
    (h : s.Get st ctx key opts = .ret (st1, r, e)) : st1 = (s.k.Get st ctx key opts).1 := by
  unfold secureKV.Get at h
  rcases hG : s.k.Get st ctx key opts with ⟨st', r', e'⟩
  rw [hG] at h
  cases e' with
  | some err =>
    cases r' <;>
    · simp only [Outcome.ret.injEq, Prod.mk.injEq] at h
      exact h.1.symm
  | none =>
    cases r' with
    | none => cases h
    | some res =>
      simp only at h
      split at h
      · cases h
      · simp only [Outcome.ret.injEq, Prod.mk.injEq] at h
        exact h.1.symm

theorem Delete_state (s : secureKV σ Ctx Opts CR T) (st : σ) (ctx : Ctx) (key : Str)
    (opts : Opts) (st1 : σ) (r : Option DeleteResponse) (e : Option Err)
    (h : s.Delete st ctx key opts = .ret (st1, r, e)) :
    st1 = (s.k.Delete st ctx key opts).1 := by
  unfold secureKV.Delete at h
  rcases hG : s.k.Delete st ctx key opts with ⟨st', r', e'⟩
  rw [hG] at h
  cases e' with
  | some err =>
    cases r' <;>
    · simp only [Outcome.ret.injEq, Prod.mk.injEq] at h
      exact h.1.symm
  | none =>
    cases r' with
    | none => cases h
    | some res =>
      simp only at h
      split at h
      · cases h
      · simp only [Outcome.ret.injEq, Prod.mk.injEq] at h
        exact h.1.symm

theorem Do_state (s : secureKV σ Ctx Opts CR T) (st : σ) (ctx : Ctx) (op : Op Opts)
    (st1 : σ) (r : OpResponse) (e : Option Err)
    (h : s.Do st ctx op = .ret (st1, r, e)) : st1 = (s.k.Do st ctx op).1 := by
  unfold secureKV.Do at h
  rcases hD : s.k.Do st ctx op with ⟨st', r', e'⟩
  rw [hD] at h
  simp only at h
  split at h
  · cases h
  · split at h
    · cases h
    · simp only [Outcome.ret.injEq, Prod.mk.injEq] at h
      exact h.1.symm
    · split at h
      · simp only [Outcome.ret.injEq, Prod.mk.injEq] at h
        exact h.1.symm
      · split at h
        · cases h
        · simp only [Outcome.ret.injEq, Prod.mk.injEq] at h
          exact h.1.symm

end skeysapiv3

/-- C24. Keys and structure are untouched. (1) Every method leaves the store in
the state in which the underlying call with the caller's own context, key and
options (and, for a write, the wrapped value) leaves it, or, when the wrap
failed, as it was. (2) Whatever `unwrapResponse` returns, error or not, the
response it leaves has the same action, the same key and directory flag at
every node and the same number and order of children at every node. (3)
Whatever the v3 unwrapping returns, error or not, every record keeps its key
and the records keep their number and order. -/
theorem keys_and_structure_untouched {σ Ctx Opts W τ Ctx3 Opts3 CR T : Type}
    (s2 : skeysapi.secureKeysAPI σ Ctx Opts W) (s3 : skeysapiv3.secureKV τ Ctx3 Opts3 CR T) :
    ((∀ st ctx key opts st1 r e, s2.Get st ctx key opts = .ret (st1, r, e) →
        st1 = (s2.k.Get st ctx key opts).1) ∧
      (∀ rnd st ctx key value opts st1 r e, s2.Set rnd st ctx key value opts = .ret (st1, r, e) →
        (st1 = st ∧ r = none) ∨
          ∃ w, s2.wrapValue rnd value = .ret (w, none) ∧ st1 = (s2.k.Set st ctx key w opts).1) ∧
      (∀ st ctx key opts st1 r e, s2.Delete st ctx key opts = .ret (st1, r, e) →
        st1 = (s2.k.Delete st ctx key opts).1) ∧
      (∀ rnd st ctx key value st1 r e, s2.Create rnd st ctx key value = .ret (st1, r, e) →
        (st1 = st ∧ r = none) ∨
          ∃ w, s2.wrapValue rnd value = .ret (w, none) ∧ st1 = (s2.k.Create st ctx key w).1) ∧
      (∀ rnd st ctx dir value opts st1 r e,
        s2.CreateInOrder rnd st ctx dir value opts = .ret (st1, r, e) →
        (st1 = st ∧ r = none) ∨
          ∃ w, s2.wrapValue rnd value = .ret (w, none) ∧
            st1 = (s2.k.CreateInOrder st ctx dir w opts).1) ∧
      (∀ rnd st ctx key value st1 r e, s2.Update rnd st ctx key value = .ret (st1, r, e) →
        (st1 = st ∧ r = none) ∨
          ∃ w, s2.wrapValue rnd value = .ret (w, none) ∧ st1 = (s2.k.Update st ctx key w).1) ∧
      (∀ st ctx key opts st1 r e, s3.Get st ctx key opts = .ret (st1, r, e) →
        st1 = (s3.k.Get st ctx key opts).1) ∧
      (∀ rnd st ctx key val opts st1 r e, s3.Put rnd st ctx key val opts = .ret (st1, r, e) →
        (st1 = st ∧ r = none) ∨
          ∃ w, (match s3.valueSetWrap with
              | none => Go.Outcome.ret (val, none)
              | some wrap => wrap rnd val) = .ret (w, none) ∧
            st1 = (s3.k.Put st ctx key w opts).1) ∧
      (∀ st ctx key opts st1 r e, s3.Delete st ctx key opts = .ret (st1, r, e) →
        st1 = (s3.k.Delete st ctx key opts).1) ∧
      (∀ st ctx op st1 r e, s3.Do st ctx op = .ret (st1, r, e) →
        st1 = (s3.k.Do st ctx op).1)) ∧
    (∀ r r1 e, s2.unwrapResponse r = .ret (r1, e) →
      r1.map (fun x => (x.Action, x.Node.eraseValues, x.PrevNode.eraseValues)) =
        r.map (fun x => (x.Action, x.Node.eraseValues, x.PrevNode.eraseValues))) ∧
    ((∀ m x e, s3.unwrapKeyValue m = .ret (x, e) →
        x.map (fun kv => kv.Key) = m.map (fun kv => kv.Key) ∧ x.isSome) ∧
      (∀ kvs kvs' e, s3.unwrapUntilError kvs = .ret (kvs', e) →
        kvs'.map (Option.map fun kv => kv.Key) = kvs.map (Option.map fun kv => kv.Key) ∧
          kvs'.length = kvs.length) ∧
      (∀ kvs kvs', s3.unwrapIgnoringErrors kvs = .ret kvs' →
        kvs'.map (Option.map fun kv => kv.Key) = kvs.map (Option.map fun kv => kv.Key) ∧
          kvs'.length = kvs.length)) := by
  refine ⟨⟨?_, ?_, ?_, ?_, ?_, ?_, ?_, ?_, ?_, ?_⟩, ?_, ?_, ?_, ?_⟩
  · intro st ctx key opts st1 r e h
    exact skeysapi.finish_state s2 _ st1 r e h
  · intro rnd st ctx key value opts st1 r e h
    exact skeysapi.write_state s2 rnd value st (fun w => s2.k.Set st ctx key w opts) st1 r e h
  · intro st ctx key opts st1 r e h
    exact skeysapi.finish_state s2 _ st1 r e h
  · intro rnd st ctx key value st1 r e h
    exact skeysapi.write_state s2 rnd value st (fun w => s2.k.Create st ctx key w) st1 r e h
  · intro rnd st ctx dir value opts st1 r e h
    exact skeysapi.write_state s2 rnd value st (fun w => s2.k.CreateInOrder st ctx dir w opts)
      st1 r e h
  · intro rnd st ctx key value st1 r e h
    exact skeysapi.write_state s2 rnd value st (fun w => s2.k.Update st ctx key w) st1 r e h
  · intro st ctx key opts st1 r e h
    exact skeysapiv3.Get_state s3 st ctx key opts st1 r e h
  · intro rnd st ctx key val opts st1 r e h
    exact skeysapiv3.Put_state s3 rnd st ctx key val opts st1 r e h
  · intro st ctx key opts st1 r e h
    exact skeysapiv3.Delete_state s3 st ctx key opts st1 r e h
  · intro st ctx op st1 r e h
    exact skeysapiv3.Do_state s3 st ctx op st1 r e h
  · intro r r1 e h
    exact skeysapi.unwrapResponse_eraseValues s2 r r1 e h
  · intro m x e h
    exact skeysapiv3.unwrapKeyValue_key s3 m x e h
  · intro kvs kvs' e h
    have hk := skeysapiv3.unwrapUntilError_keys s3 kvs kvs' e h
    exact ⟨hk, by simpa using congrArg List.length hk⟩
  · intro kvs kvs' h
    have hk := skeysapiv3.unwrapIgnoringErrors_keys s3 kvs kvs' h
    exact ⟨hk, by simpa using congrArg List.length hk⟩

/-- Witness for C24: `"bar"` is written under `"/foo"` into the empty
association-list store through the AES wrapper: the store holds the encoding
under `"/foo"` itself; and the directory response keeps its shape when it is
unwrapped. -/
theorem keys_and_structure_untouched_witness :
    (Examples.skapi16 Examples.mapStore).Set (.ok Examples.countingReader) [] () Examples.foo
        Examples.bar () =
      .ret ([(Examples.foo, Examples.barStored)],
        some { Action := [], Node := .node Examples.foo false Examples.bar .nil,
               PrevNode := .null }, none) ∧
    (([(Examples.foo, Examples.barStored)] = ([] : List (Go.Str × Go.Str)) ∧
        (some { Action := [], Node := .node Examples.foo false Examples.bar .nil,
                PrevNode := .null } : Option skeysapi.Response) = none) ∨
      ∃ w, (Examples.skapi16 Examples.mapStore).wrapValue (.ok Examples.countingReader)
          Examples.bar = .ret (w, none) ∧
        [(Examples.foo, Examples.barStored)] = (Examples.mapStore.Set [] () Examples.foo w ()).1) ∧
    (Examples.skapi16 Examples.mapStore).unwrapResponse (some Examples.dirResponse) =
      .ret (some Examples.dirResponsePlain, none) ∧
    (some Examples.dirResponsePlain).map
        (fun x => (x.Action, x.Node.eraseValues, x.PrevNode.eraseValues)) =
      (some Examples.dirResponse).map
        (fun x => (x.Action, x.Node.eraseValues, x.PrevNode.eraseValues)) :=
  have h := keys_and_structure_untouched (Examples.skapi16 Examples.mapStore)
    (Examples.skv16 Examples.mapKV)
  ⟨by rfl, h.1.2.1 (.ok Examples.countingReader) [] () Examples.foo Examples.bar () _ _ _ (by rfl),
    by rfl, h.2.1 (some Examples.dirResponse) (some Examples.dirResponsePlain) none (by rfl)⟩

/-! ## What is stored, and malformed encodings -/

namespace Examples

open Go encconfig

theorem length_hexEncode : ∀ b : List Byte, (hexEncode b).length = 2 * b.length
  | [] => rfl
  | _ :: bs => by simp only [hexEncode, List.length_cons, length_hexEncode bs]; omega

theorem hexCodec_expands : hexCodec.Expands := by
  intro b
  show b.length ≤ (hexEncode b).length
  rw [length_hexEncode]; omega

end Examples

/-- C25. Plaintext is never what is stored: over a codec that never shortens
(as base64), for the wrapper of either package built over an AES-CBC cipher
and every value `v` (the empty string included), the wrapper succeeds whenever
the random reader delivers, and whatever string `w` it returns with a nil
error, `w` is longer than `v`, hence different from `v`. -/
theorem stored_value_differs (aes : Go.AES) (b64 : Go.Base64) (hexp : b64.Expands)
    (key : Go.Slice) (e : encconfig.aesCBCEncConfig)
    (he : encconfig.NewAESCBCEncConfig key = (some e, none)) (v : Go.Str) :
    skeysapiv3.GetWrappers b64 (e.toEncConfig aes) = skeysapi.GetWrappers b64 (e.toEncConfig aes) ∧
    (∀ iv, ∃ w, (skeysapi.GetWrappers b64 (e.toEncConfig aes)).1 (.ok iv) v = .ret (w, none)) ∧
    (∀ rnd w, (skeysapi.GetWrappers b64 (e.toEncConfig aes)).1 rnd v = .ret (w, none) →
      v.length < w.length ∧ w ≠ v) := by
  have hk := encconfig.NewCipher_of_len key (encconfig.NewAESCBCEncConfig_some key e he).2
  refine ⟨rfl, ?_, ?_⟩
  · intro iv
    obtain ⟨rfl, _⟩ := encconfig.NewAESCBCEncConfig_some key e he
    have hE := encconfig.aes_Encrypt_eq aes
      { key := .mk key.bytes, blockSize := (Go.BlockSize : Int) } hk rfl iv (Go.Slice.ofStr v)
    exact ⟨_, by simp only [skeysapi.GetWrappers, encconfig.aesCBCEncConfig.toEncConfig, hE]; rfl⟩
  · intro rnd w hw
    simp only [skeysapi.GetWrappers] at hw
    split at hw
    · cases hw
    · simp at hw
    · rename_i c hc
      simp only [Go.Outcome.ret.injEq, Prod.mk.injEq, and_true] at hw
      obtain ⟨f, _, rfl⟩ := encconfig.aes_Encrypt_ret aes key e he rnd (Go.Slice.ofStr v) c hc
      have h1 := hexp (encconfig.cipherOf aes key.bytes ((List.range 16).map f) (Go.Slice.ofStr v))
      rw [encconfig.length_cipherOf, encconfig.length_readIV] at h1
      have h2 : (Go.Slice.ofStr v).len = v.length := rfl
      rw [h2] at h1
      rw [encconfig.Slice_bytes_mk] at hw
      have hlt : v.length < w.length := by
        rw [← hw]
        omega
      exact ⟨hlt, fun heq => by rw [heq] at hlt; exact Nat.lt_irrefl _ hlt⟩

/-- Witness for C25: the hexadecimal codec and the key `"this is a key!!!"`;
`"bar"` is stored as 64 characters. -/
theorem stored_value_differs_witness :
    Examples.hexCodec.Expands ∧
    encconfig.NewAESCBCEncConfig Examples.key16 = (some Examples.cfg16, none) ∧
    (skeysapi.GetWrappers Examples.hexCodec Examples.enc16).1 (.ok Examples.countingReader)
      Examples.bar = .ret (Examples.barStored, none) ∧
    Examples.bar.length < Examples.barStored.length ∧ Examples.barStored ≠ Examples.bar :=
  have h := stored_value_differs Examples.xorAES Examples.hexCodec Examples.hexCodec_expands
    Examples.key16 Examples.cfg16 (by decide) Examples.bar
  have hw : (skeysapi.GetWrappers Examples.hexCodec Examples.enc16).1
      (.ok Examples.countingReader) Examples.bar = .ret (Examples.barStored, none) := by decide
  ⟨Examples.hexCodec_expands, by decide, hw,
    (h.2.2 (.ok Examples.countingReader) Examples.barStored hw).1,
    (h.2.2 (.ok Examples.countingReader) Examples.barStored hw).2⟩

namespace Go

namespace StdEncoding

theorem decodeMap_encodeChar : ∀ n : Fin 64, decodeMap (encodeChar n.val) = some n.val := by
  decide

theorem decodeMap_encodeChar_lt (n : Nat) (h : n < 64) : decodeMap (encodeChar n) = some n :=
  decodeMap_encodeChar ⟨n, h⟩

theorem decodeMap_newline (c : Byte) (h : isNewline c = true) : decodeMap c = none := by
  simp only [isNewline, Bool.or_eq_true, decide_eq_true_eq] at h
  rcases h with rfl | rfl <;> decide

theorem isNewline_pad : isNewline 61 = false := by decide

theorem decodeMap_pad : decodeMap 61 = none := by decide

/-- Four characters of the alphabet at the start of a group decode to three
bytes, and the decoder goes on behind them. -/
theorem decode_group (c0 c1 c2 c3 : Byte) (x y z v : Nat) (rest : Str)
    (h0 : decodeMap c0 = some x) (h1 : decodeMap c1 = some y) (h2 : decodeMap c2 = some z)
    (h3 : decodeMap c3 = some v) :
    decode (c0 :: c1 :: c2 :: c3 :: rest) [] =
      (byte (x * 4 + y / 16) :: byte (y % 16 * 16 + z / 4) :: byte (z % 4 * 64 + v) ::
        (decode rest []).1, (decode rest []).2) := by
  simp only [decode, h0, h1, h2, h3, List.nil_append, List.cons_append]

/-- Decoding undoes encoding. -/
theorem decode_encode : ∀ b : List Byte, decode (EncodeToString b) [] = (b, none)
  | [] => rfl
  | [a] => by
    have ha := a.isLt
    have e0 := decodeMap_encodeChar_lt (a.val / 4) (by omega)
    have e1 := decodeMap_encodeChar_lt (a.val % 4 * 16) (by omega)
    simp only [EncodeToString, decode, e0, e1, decodeMap_pad, isNewline_pad, List.nil_append,
      List.cons_append, List.dropWhile_cons, List.dropWhile_nil, ne_eq, not_true_eq_false,
      if_false, if_true, Bool.false_eq_true]
    have h : a.val / 4 * 4 + a.val % 4 * 16 / 16 = a.val := by omega
    rw [h, encconfig.byte_val_self]
  | [a, b] => by
    have ha := a.isLt
    have hb := b.isLt
    have e0 := decodeMap_encodeChar_lt (a.val / 4) (by omega)
    have e1 := decodeMap_encodeChar_lt (a.val % 4 * 16 + b.val / 16) (by omega)
    have e2 := decodeMap_encodeChar_lt (b.val % 16 * 4) (by omega)
    simp only [EncodeToString, decode, e0, e1, e2, decodeMap_pad, isNewline_pad, List.nil_append,
      List.cons_append, List.dropWhile_nil, ne_eq, not_true_eq_false,
      if_false, if_true, Bool.false_eq_true]
    have h : a.val / 4 * 4 + (a.val % 4 * 16 + b.val / 16) / 16 = a.val := by omega
    have h' : (a.val % 4 * 16 + b.val / 16) % 16 * 16 + b.val % 16 * 4 / 4 = b.val := by omega
    rw [h, h', encconfig.byte_val_self, encconfig.byte_val_self]
  | a :: b :: c :: rest => by
    have ha := a.isLt
    have hb := b.isLt
    have hc := c.isLt
    have e0 := decodeMap_encodeChar_lt (a.val / 4) (by omega)
    have e1 := decodeMap_encodeChar_lt (a.val % 4 * 16 + b.val / 16) (by omega)
    have e2 := decodeMap_encodeChar_lt (b.val % 16 * 4 + c.val / 64) (by omega)
    have e3 := decodeMap_encodeChar_lt (c.val % 64) (by omega)
    rw [EncodeToString, decode_group _ _ _ _ _ _ _ _ _ e0 e1 e2 e3, decode_encode rest]
    have h : a.val / 4 * 4 + (a.val % 4 * 16 + b.val / 16) / 16 = a.val := by omega
    have h' : (a.val % 4 * 16 + b.val / 16) % 16 * 16 + (b.val % 16 * 4 + c.val / 64) / 4 =
        b.val := by omega
    have h'' : (b.val % 16 * 4 + c.val / 64) % 4 * 64 + c.val % 64 = c.val := by omega
    rw [h, h', h'', encconfig.byte_val_self, encconfig.byte_val_self, encconfig.byte_val_self]

/-- A character that is not a line break is still there after the leading
line breaks are dropped. -/
theorem mem_dropWhile_isNewline (c : Byte) (hc : isNewline c = false) :
    ∀ l : Str, c ∈ l → c ∈ l.dropWhile isNewline
  | [], h => by cases h
  | d :: l, h => by
    rw [List.dropWhile_cons]
    split
    · rename_i hd
      rcases List.mem_cons.mp h with rfl | h
      · rw [hc] at hd; cases hd
      · exact mem_dropWhile_isNewline c hc l h
    · exact h

/-- Dropping the leading line breaks does not change the characters that are
not line breaks. -/
theorem filter_dropWhile_isNewline :
    ∀ l : Str, (l.dropWhile isNewline).filter (fun c => !isNewline c) =
      l.filter (fun c => !isNewline c)
  | [] => rfl
  | d :: l => by
    rw [List.dropWhile_cons]
    split
    · rename_i hd
      rw [filter_dropWhile_isNewline l, List.filter_cons_of_neg (by simp [hd])]
    · rfl

/-- The decoder rejects every string with a character that is neither of the
alphabet, nor the padding character, nor a line break. -/
theorem decode_foreign (c : Byte) (h1 : decodeMap c = none) (h2 : c ≠ 61)
    (h3 : isNewline c = false) :
    ∀ (s : Str) (dbuf : List Nat), c ∈ s → (decode s dbuf).2 = some CorruptInputError
  | [], _, h => by cases h
  | d :: rest, dbuf, h => by
    have ih := decode_foreign c h1 h2 h3 rest
    simp only [decode]
    split
    · rename_i v hv
      have hmem : c ∈ rest := by
        rcases List.mem_cons.mp h with rfl | h
        · rw [h1] at hv; cases hv
        · exact h
      split
      · exact ih _ hmem
      · exact ih _ hmem
    · split
      · rename_i hd
        have hmem : c ∈ rest := by
          rcases List.mem_cons.mp h with rfl | h
          · rw [h3] at hd; cases hd
          · exact h
        exact ih _ hmem
      · split
        · rfl
        · rename_i hd
          have hd61 : d = 61 := by simpa using hd
          have hmem : c ∈ rest := by
            rcases List.mem_cons.mp h with rfl | h
            · exact absurd hd61 h2
            · exact h
          have hmem' := mem_dropWhile_isNewline c h3 rest hmem
          split
          · split
            · rfl
            · rename_i d2 rest2 hdrop
              rw [hdrop] at hmem'
              split
              · rfl
              · rename_i hd2
                have hd2' : d2 = 61 := by simpa using hd2
                have hmem2 : c ∈ rest2 := by
                  rcases List.mem_cons.mp hmem' with rfl | h
                  · exact absurd hd2' h2
                  · exact h
                have := mem_dropWhile_isNewline c h3 rest2 hmem2
                simp only [ite_eq_right_iff]
                intro hnil
                rw [hnil] at this
                cases this
          · simp only [ite_eq_right_iff]
            intro hnil
            rw [hnil] at hmem'
            cases hmem'
          · rfl

/-- The decoder rejects every string in which the characters that are not
line breaks do not come in groups of four. -/
theorem decode_groups :
    ∀ (s : Str) (dbuf : List Nat), dbuf.length ≤ 3 →
      (dbuf.length + (s.filter (fun c => !isNewline c)).length) % 4 ≠ 0 →
      (decode s dbuf).2 = some CorruptInputError
  | [], [], _, h => by simp at h
  | [], _ :: _, _, _ => rfl
  | d :: rest, dbuf, hl, h => by
    have ih := decode_groups rest
    simp only [decode]
    split
    · rename_i v hv
      have hd : isNewline d = false := by
        cases hn : isNewline d
        · rfl
        · rw [decodeMap_newline d hn] at hv; cases hv
      rw [List.filter_cons_of_pos (by simp [hd]), List.length_cons] at h
      split
      · apply ih [] (by simp)
        simp only [List.length_cons, List.length_nil] at h ⊢
        omega
      · rename_i hne
        have hl2 : dbuf.length ≤ 2 := by
          by_contra hcon
          have h3 : dbuf.length = 3 := by omega
          match dbuf, h3 with
          | [x, y, z], _ => exact hne x y z rfl
        apply ih (dbuf ++ [v]) (by simp; omega)
        simp only [List.length_append, List.length_cons, List.length_nil]
        omega
    · split
      · rename_i hd
        rw [List.filter_cons_of_neg (by simp [hd])] at h
        exact ih dbuf hl h
      · rename_i hd
        have hd' : isNewline d = false := by simpa using hd
        rw [List.filter_cons_of_pos (by simp [hd']), List.length_cons] at h
        split
        · rfl
        · split
          · split
            · rfl
            · rename_i d2 rest2 hdrop
              split
              · rfl
              · rename_i hd2
                have hd2' : d2 = 61 := by simpa using hd2
                simp only [ite_eq_right_iff]
                intro hnil
                exfalso
                apply h
                have e1 := filter_dropWhile_isNewline rest
                rw [hdrop] at e1
                have e2 := filter_dropWhile_isNewline rest2
                rw [hnil] at e2
                rw [← e1, hd2', List.filter_cons_of_pos (by simp [isNewline_pad]), ← e2]
                simp
          · simp only [ite_eq_right_iff]
            intro hnil
            exfalso
            apply h
            have e1 := filter_dropWhile_isNewline rest
            rw [hnil] at e1
            rw [← e1]
            simp
          · rfl

/-- The decoder rejects every string in which a padding character is followed,
at any distance, by a character other than the padding character and the line
breaks. -/
theorem decode_after_pad (c : Byte) (h2 : c ≠ 61) (h3 : isNewline c = false) :
    ∀ (pre post : Str) (dbuf : List Nat), c ∈ post →
      (decode (pre ++ 61 :: post) dbuf).2 = some CorruptInputError
  | [], post, dbuf, h => by
    have hmem := mem_dropWhile_isNewline c h3 post h
    simp only [List.nil_append, decode, decodeMap_pad, isNewline_pad, Bool.false_eq_true,
      if_false, ne_eq, not_true_eq_false]
    split
    · split
      · rfl
      · rename_i d2 rest2 hdrop
        rw [hdrop] at hmem
        split
        · rfl
        · rename_i hd2
          have hd2' : d2 = 61 := by simpa using hd2
          have hmem2 : c ∈ rest2 := by
            rcases List.mem_cons.mp hmem with rfl | h
            · exact absurd hd2' h2
            · exact h
          have := mem_dropWhile_isNewline c h3 rest2 hmem2
          simp only [ite_eq_right_iff]
          intro hnil
          rw [hnil] at this
          cases this
    · simp only [ite_eq_right_iff]
      intro hnil
      rw [hnil] at hmem
      cases hmem
    · rfl
  | d :: pre, post, dbuf, h => by
    have ih := decode_after_pad c h2 h3 pre post
    have hmem : c ∈ pre ++ 61 :: post := List.mem_append_right _ (List.mem_cons_of_mem _ h)
    have hmem' := mem_dropWhile_isNewline c h3 _ hmem
    simp only [List.cons_append, decode]
    split
    · split
      · exact ih _ h
      · exact ih _ h
    · split
      · exact ih _ h
      · split
        · rfl
        · split
          · split
            · rfl
            · rename_i d2 rest2 hdrop
              have hdrop' : List.dropWhile isNewline (pre ++ 61 :: post) = d2 :: rest2 := hdrop
              rw [hdrop'] at hmem'
              split
              · rfl
              · rename_i hd2
                have hd2' : d2 = 61 := by simpa using hd2
                have hmem2 : c ∈ rest2 := by
                  rcases List.mem_cons.mp hmem' with rfl | h
                  · exact absurd hd2' h2
                  · exact h
                have := mem_dropWhile_isNewline c h3 rest2 hmem2
                simp only [ite_eq_right_iff]
                intro hnil
                rw [hnil] at this
                cases this
          · simp only [ite_eq_right_iff]
            intro hnil
            have hnil' : List.dropWhile isNewline (pre ++ 61 :: post) = [] := hnil
            rw [hnil'] at hmem'
            cases hmem'
          · rfl

/-- A string without line breaks has no leading line breaks to drop. -/
theorem dropWhile_filter_isNewline (l : Str) :
    (l.filter (fun c => !isNewline c)).dropWhile isNewline = l.filter (fun c => !isNewline c) := by
  cases h : l.filter (fun c => !isNewline c) with
  | nil => rfl
  | cons a t =>
    have ha : a ∈ l.filter (fun c => !isNewline c) := by rw [h]; exact List.mem_cons_self _ _
    have := (List.mem_filter.mp ha).2
    rw [List.dropWhile_cons_of_neg (by simpa using this)]

/-- Only line breaks are left exactly when no other character is left. -/
theorem dropWhile_nil_iff_filter (l : Str) :
    l.dropWhile isNewline = [] ↔ l.filter (fun c => !isNewline c) = [] := by
  rw [List.dropWhile_eq_nil_iff, List.filter_eq_nil_iff]
  simp

/-- The first character behind the leading line breaks is the first character
that is not a line break. -/
theorem dropWhile_cons_filter (l : Str) (d : Byte) (t : Str) (h : l.dropWhile isNewline = d :: t) :
    l.filter (fun c => !isNewline c) = d :: t.filter (fun c => !isNewline c) := by
  rw [← filter_dropWhile_isNewline l, h]
  have hd : isNewline d = false := by
    have := List.head_dropWhile_not isNewline l (by rw [h]; simp)
    simpa [h] using this
  rw [List.filter_cons_of_pos (by simp [hd])]

/-- The decoder ignores line breaks: a string decodes as the string without its
line breaks does. -/
theorem decode_filter :
    ∀ (s : Str) (dbuf : List Nat), decode (s.filter (fun c => !isNewline c)) dbuf = decode s dbuf
  | [], _ => rfl
  | d :: rest, dbuf => by
    have ih := decode_filter rest
    cases hd : isNewline d with
    | true =>
      rw [List.filter_cons_of_neg (by simp [hd]), ih]
      simp only [decode, decodeMap_newline d hd, hd, if_true]
    | false =>
      rw [List.filter_cons_of_pos (by simp [hd])]
      simp only [decode, ih, hd, Bool.false_eq_true, if_false, dropWhile_filter_isNewline]
      split
      · rfl
      · split
        · rfl
        · split
          · cases hR : rest.dropWhile isNewline with
            | nil => rw [(dropWhile_nil_iff_filter rest).mp hR]
            | cons d2 rest2 =>
              rw [dropWhile_cons_filter rest d2 rest2 hR]
              simp only [dropWhile_filter_isNewline, dropWhile_nil_iff_filter]
          · simp only [dropWhile_nil_iff_filter, List.filter_filter, Bool.and_self]
          · rfl

/-- Every character of an encoding is of the alphabet or is the padding
character. -/
theorem EncodeToString_chars :
    ∀ (b : List Byte) (c : Byte), c ∈ EncodeToString b → decodeMap c ≠ none ∨ c = 61
  | [], c, h => by cases h
  | [a], c, h => by
    have ha := a.isLt
    simp only [EncodeToString, List.mem_cons, List.mem_singleton, List.mem_nil_iff, or_false] at h
    rcases h with rfl | rfl | rfl | rfl
    · left; rw [decodeMap_encodeChar_lt _ (by omega)]; simp
    · left; rw [decodeMap_encodeChar_lt _ (by omega)]; simp
    · right; rfl
    · right; rfl
  | [a, b], c, h => by
    have ha := a.isLt
    have hb := b.isLt
    simp only [EncodeToString, List.mem_cons, List.mem_singleton, List.mem_nil_iff, or_false] at h
    rcases h with rfl | rfl | rfl | rfl
    · left; rw [decodeMap_encodeChar_lt _ (by omega)]; simp
    · left; rw [decodeMap_encodeChar_lt _ (by omega)]; simp
    · left; rw [decodeMap_encodeChar_lt _ (by omega)]; simp
    · right; rfl
  | a :: b :: d :: rest, c, h => by
    have ha := a.isLt
    have hb := b.isLt
    have hd := d.isLt
    simp only [EncodeToString, List.mem_cons] at h
    rcases h with rfl | rfl | rfl | rfl | h
    · left; rw [decodeMap_encodeChar_lt _ (by omega)]; simp
    · left; rw [decodeMap_encodeChar_lt _ (by omega)]; simp
    · left; rw [decodeMap_encodeChar_lt _ (by omega)]; simp
    · left; rw [decodeMap_encodeChar_lt _ (by omega)]; simp
    · exact EncodeToString_chars rest c h

end StdEncoding

/-- The codec `base64.StdEncoding` decodes what it encodes. -/
theorem StdEncoding_roundTrips : StdEncoding.RoundTrips := StdEncoding.decode_encode

end Go

/-- C26 (counterexample). The stored form of `"bar"` over `base64.StdEncoding`,
`"AAECAwQFBgcICQoLDA0ODxYIGX0pYXgqZCRsY3ghIiM="`, with a line break after its
fourth character is not a valid standard padded encoding: it holds the
character `'\n'`, which is outside the alphabet and is not the padding
character, and it is the encoding of no byte sequence. Yet the decoder accepts
it, the unwrapper of either package calls `Decrypt` (over a cipher whose
`Decrypt` panics the unwrapper panics) and returns `"bar"` with a nil
error. -/
theorem unwrapper_accepts_line_break :
    Examples.barBroken =
      [65, 65, 69, 67, 10, 65, 119, 81, 70, 66, 103, 99, 73, 67, 81, 111, 76, 68, 65, 48, 79, 68,
       120, 89, 73, 71, 88, 48, 112, 89, 88, 103, 113, 90, 67, 82, 115, 89, 51, 103, 104, 73,
       105, 77, 61] ∧
    (10 : Go.Byte) ∈ Examples.barBroken ∧ Go.StdEncoding.decodeMap 10 = none ∧
    (10 : Go.Byte) ≠ 61 ∧
    (∀ b, Go.StdEncoding.EncodeToString b ≠ Examples.barBroken) ∧
    Go.StdEncoding.DecodeString Examples.barBroken = (Examples.barCipher, none) ∧
    (skeysapi.GetWrappers Go.StdEncoding Examples.enc16).2 Examples.barBroken =
      .ret (Examples.bar, none) ∧
    (skeysapiv3.GetWrappers Go.StdEncoding Examples.enc16).2 Examples.barBroken =
      .ret (Examples.bar, none) ∧
    (skeysapi.GetWrappers Go.StdEncoding
      { Encrypt := Examples.enc16.Encrypt, Decrypt := fun _ => .panic }).2 Examples.barBroken =
      .panic ∧
    (skeysapiv3.GetWrappers Go.StdEncoding
      { Encrypt := Examples.enc16.Encrypt, Decrypt := fun _ => .panic }).2 Examples.barBroken =
      .panic := by
  refine ⟨by decide, by decide, by decide, by decide, ?_, by decide, by decide, by decide,
    by decide, by decide⟩
  intro b hb
  have hmem : (10 : Go.Byte) ∈ Go.StdEncoding.EncodeToString b := by rw [hb]; decide
  rcases Go.StdEncoding.EncodeToString_chars b 10 hmem with h | h
  · exact h (by decide)
  · exact absurd h (by decide)

/-- C26 (amended). Unwrap rejects what the decoder rejects. (1) For every codec
and every string `s` for which the decoder reports an error `err`, the
unwrapper of either package returns the empty string with `err`, whatever the
cipher is, also a cipher whose `Decrypt` would panic if it were called:
`Decrypt` is not invoked. (2) `base64.StdEncoding` reports an error, and the
unwrappers over it return the empty string with that error without calling
`Decrypt`, for every string that holds a character that is neither of the
alphabet, nor the padding character `'='`, nor a line break; for every string
whose characters other than line breaks do not number a multiple of four; and
for every string in which a padding character is followed by a character other
than the padding character and line breaks. (3) The line breaks `'\r'` and
`'\n'` are ignored: the unwrappers over `base64.StdEncoding` return for a
string what they return for the string without its line breaks. -/
theorem unwrapper_rejects_malformed (encConf : encconfig.EncConfig) :
    (∀ (b64 : Go.Base64) (s : Go.Str) (decoded : List Go.Byte) (err : Go.Err),
      b64.DecodeString s = (decoded, some err) →
      (skeysapi.GetWrappers b64 encConf).2 s = .ret ([], some err) ∧
      (skeysapiv3.GetWrappers b64 encConf).2 s = .ret ([], some err) ∧
      (skeysapi.GetWrappers b64
        { Encrypt := encConf.Encrypt, Decrypt := fun _ => .panic }).2 s = .ret ([], some err) ∧
      (skeysapiv3.GetWrappers b64
        { Encrypt := encConf.Encrypt, Decrypt := fun _ => .panic }).2 s =
          .ret ([], some err)) ∧
    (∀ s : Go.Str,
      ((∃ c ∈ s, Go.StdEncoding.decodeMap c = none ∧ c ≠ 61 ∧
          Go.StdEncoding.isNewline c = false) ∨
        (s.filter (fun c => !Go.StdEncoding.isNewline c)).length % 4 ≠ 0 ∨
        (∃ pre post, s = pre ++ 61 :: post ∧
          ∃ c ∈ post, c ≠ 61 ∧ Go.StdEncoding.isNewline c = false)) →
      (Go.StdEncoding.DecodeString s).2 = some Go.CorruptInputError ∧
      (skeysapi.GetWrappers Go.StdEncoding encConf).2 s =
        .ret ([], some Go.CorruptInputError) ∧
      (skeysapiv3.GetWrappers Go.StdEncoding encConf).2 s =
        .ret ([], some Go.CorruptInputError) ∧
      (skeysapi.GetWrappers Go.StdEncoding
        { Encrypt := encConf.Encrypt, Decrypt := fun _ => .panic }).2 s =
          .ret ([], some Go.CorruptInputError) ∧
      (skeysapiv3.GetWrappers Go.StdEncoding
        { Encrypt := encConf.Encrypt, Decrypt := fun _ => .panic }).2 s =
          .ret ([], some Go.CorruptInputError)) ∧
    (∀ s : Go.Str,
      (skeysapi.GetWrappers Go.StdEncoding encConf).2 s =
        (skeysapi.GetWrappers Go.StdEncoding encConf).2
          (s.filter (fun c => !Go.StdEncoding.isNewline c)) ∧
      (skeysapiv3.GetWrappers Go.StdEncoding encConf).2 s =
        (skeysapiv3.GetWrappers Go.StdEncoding encConf).2
          (s.filter (fun c => !Go.StdEncoding.isNewline c))) := by
  have gen : ∀ (b64 : Go.Base64) (s : Go.Str) (decoded : List Go.Byte) (err : Go.Err),
      b64.DecodeString s = (decoded, some err) →
      (skeysapi.GetWrappers b64 encConf).2 s = .ret ([], some err) ∧
      (skeysapiv3.GetWrappers b64 encConf).2 s = .ret ([], some err) ∧
      (skeysapi.GetWrappers b64
        { Encrypt := encConf.Encrypt, Decrypt := fun _ => .panic }).2 s = .ret ([], some err) ∧
      (skeysapiv3.GetWrappers b64
        { Encrypt := encConf.Encrypt, Decrypt := fun _ => .panic }).2 s =
          .ret ([], some err) := by
    intro b64 s decoded err h
    refine ⟨?_, ?_, ?_, ?_⟩ <;> simp only [skeysapi.GetWrappers, skeysapiv3.GetWrappers, h]
  refine ⟨gen, ?_, ?_⟩
  · intro s hs
    have hd : (Go.StdEncoding.DecodeString s).2 = some Go.CorruptInputError := by
      show (Go.StdEncoding.decode s []).2 = some Go.CorruptInputError
      rcases hs with ⟨c, hc, h1, h2, h3⟩ | hs | ⟨pre, post, rfl, c, hc, h2, h3⟩
      · exact Go.StdEncoding.decode_foreign c h1 h2 h3 s [] hc
      · exact Go.StdEncoding.decode_groups s [] (by simp) (by simpa using hs)
      · exact Go.StdEncoding.decode_after_pad c h2 h3 pre post [] hc
    exact ⟨hd, gen Go.StdEncoding s (Go.StdEncoding.DecodeString s).1 Go.CorruptInputError
      (Prod.ext rfl hd)⟩
  · intro s
    have hf : Go.StdEncoding.DecodeString (s.filter (fun c => !Go.StdEncoding.isNewline c)) =
        Go.StdEncoding.DecodeString s := Go.StdEncoding.decode_filter s []
    constructor <;> simp only [skeysapi.GetWrappers, skeysapiv3.GetWrappers, hf]

/-- Witness for C26: `"zz"` under the hexadecimal codec; under
`base64.StdEncoding` the strings `"A?"` (a character outside the alphabet),
`"zz"` (two characters, no padding) and `"AA=A"` (a character after the
padding); and the stored form of `"bar"` with a line break in it. -/
theorem unwrapper_rejects_malformed_witness :
    Examples.hexCodec.DecodeString Examples.zz = ([], some (.external 1)) ∧
    (skeysapi.GetWrappers Examples.hexCodec Examples.enc16).2 Examples.zz =
      .ret ([], some (.external 1)) ∧
    (skeysapi.GetWrappers Go.StdEncoding Examples.enc16).2 [65, 63] =
      .ret ([], some Go.CorruptInputError) ∧
    (skeysapi.GetWrappers Go.StdEncoding Examples.enc16).2 Examples.zz =
      .ret ([], some Go.CorruptInputError) ∧
    (skeysapi.GetWrappers Go.StdEncoding Examples.enc16).2 [65, 65, 61, 65] =
      .ret ([], some Go.CorruptInputError) ∧
    (skeysapi.GetWrappers Go.StdEncoding Examples.enc16).2 Examples.barBroken =
      (skeysapi.GetWrappers Go.StdEncoding Examples.enc16).2 Examples.barStored64 :=
  have h := unwrapper_rejects_malformed Examples.enc16
  ⟨by decide,
    (h.1 Examples.hexCodec Examples.zz [] (.external 1) (by decide)).1,
    (h.2.1 [65, 63] (.inl ⟨63, by decide, by decide, by decide, by decide⟩)).2.1,
    (h.2.1 Examples.zz (.inr (.inl (by decide)))).2.1,
    (h.2.1 [65, 65, 61, 65]
      (.inr (.inr ⟨[65, 65], [65], rfl, 65, by decide, by decide, by decide⟩))).2.1,
    (h.2.2 Examples.barBroken).1⟩

/-! ## Ciphers built from equal and from different keys -/

namespace encconfig

open Go

theorem byte_xor_xor_eq_self (a x y : Byte) (h : (a ^^^ x) ^^^ y = a) : x = y := by
  apply Fin.ext
  have h1 : a.val ^^^ x.val < 256 := Nat.xor_lt_two_pow (n := 8) a.isLt x.isLt
  have h2 : (a.val ^^^ x.val) ^^^ y.val < 256 := Nat.xor_lt_two_pow (n := 8) h1 y.isLt
  have h3 : ((a.val ^^^ x.val) % 256 ^^^ y.val) % 256 = a.val := congrArg Fin.val h
  rw [Nat.mod_eq_of_lt h1, Nat.mod_eq_of_lt h2, Nat.xor_assoc] at h3
  have h4 : a.val ^^^ (x.val ^^^ y.val) = a.val ^^^ 0 := by rw [h3, Nat.xor_zero]
  exact Nat.xor_eq_zero.mp (Nat.xor_right_injective h4)

theorem NewOTPEncConfig_of_pos (key : Slice) (h : 0 < key.len) :
    NewOTPEncConfig key = (some { key := .mk key.bytes }, none) := by
  unfold NewOTPEncConfig
  rw [if_neg (by omega)]

theorem NewOTPEncConfig_some (key : Slice) (e : otpEncConfig)
    (h : NewOTPEncConfig key = (some e, none)) :
    e = { key := .mk key.bytes } ∧ 0 < key.len := by
  unfold NewOTPEncConfig at h
  split at h
  · simp at h
  · rename_i hn
    simp only [Prod.mk.injEq, Option.some.injEq, and_true] at h
    exact ⟨h.symm, by omega⟩

end encconfig

/-- C27. Ciphers built from identical keys are interchangeable: for keys
`keyA` and `keyB` holding the same bytes, the ciphers `a` and `b` that one
constructor of the package builds from them (both by `NewAESCBCEncConfig`, over
a block primitive whose decryption inverts its encryption under that key, or
both by `NewOTPEncConfig`) encrypt every plaintext `p` successfully (AES: when
the random reader delivers), and every ciphertext of `p` that one of them
returns is decrypted by the other to the bytes of `p` with a nil error. -/
theorem same_key_ciphers_interchangeable (aes : Go.AES) (keyA keyB : Go.Slice)
    (hkey : keyA.bytes = keyB.bytes) :
    (∀ a b, encconfig.NewAESCBCEncConfig keyA = (some a, none) →
      encconfig.NewAESCBCEncConfig keyB = (some b, none) →
      (∀ blk, aes.decrypt keyA.bytes (aes.encrypt keyA.bytes blk) = blk) →
      ∀ p : Go.Slice,
        (∀ iv, ∃ c, b.Encrypt aes (.ok iv) p = .ret (c, none)) ∧
        (∀ iv, ∃ c, a.Encrypt aes (.ok iv) p = .ret (c, none)) ∧
        (∀ rnd c, b.Encrypt aes rnd p = .ret (c, none) →
          a.Decrypt aes c = .ret (.mk p.bytes, none)) ∧
        (∀ rnd c, a.Encrypt aes rnd p = .ret (c, none) →
          b.Decrypt aes c = .ret (.mk p.bytes, none))) ∧
    (∀ a b, encconfig.NewOTPEncConfig keyA = (some a, none) →
      encconfig.NewOTPEncConfig keyB = (some b, none) →
      ∀ p : Go.Slice,
        (∃ c, b.Encrypt p = .ret (c, none) ∧ a.Decrypt c = .ret (.mk p.bytes, none)) ∧
        (∃ c, a.Encrypt p = .ret (c, none) ∧ b.Decrypt c = .ret (.mk p.bytes, none))) := by
  constructor
  · intro a b ha hb hinv p
    obtain ⟨ea, hlen⟩ := encconfig.NewAESCBCEncConfig_some keyA a ha
    obtain ⟨eb, _⟩ := encconfig.NewAESCBCEncConfig_some keyB b hb
    have hab : b = a := by rw [ea, eb, hkey]
    subst hab
    have hk : Go.NewCipher b.key = none := by
      rw [ea]; exact encconfig.NewCipher_of_len keyA hlen
    have hbs : b.blockSize = (Go.BlockSize : Int) := by rw [ea]
    have hkb : b.key.bytes = keyA.bytes := by rw [ea]; rfl
    have hE : ∀ iv, ∃ c, b.Encrypt aes (.ok iv) p = .ret (c, none) :=
      fun iv => ⟨_, encconfig.aes_Encrypt_eq aes b hk hbs iv p⟩
    have hD : ∀ rnd c, b.Encrypt aes rnd p = .ret (c, none) →
        b.Decrypt aes c = .ret (.mk p.bytes, none) := by
      intro rnd c hc
      obtain ⟨f, _, rfl⟩ := encconfig.aes_Encrypt_ret aes keyA b ha rnd p c hc
      have := encconfig.aes_Decrypt_cipherOf aes b hk hbs (by rw [hkb]; exact hinv)
        ((List.range 16).map f) (encconfig.length_readIV f) p
      rw [hkb] at this
      exact this
    exact ⟨hE, hE, hD, hD⟩
  · intro a b ha hb p
    obtain ⟨ea, hpos⟩ := encconfig.NewOTPEncConfig_some keyA a ha
    obtain ⟨eb, _⟩ := encconfig.NewOTPEncConfig_some keyB b hb
    have hab : b = a := by rw [ea, eb, hkey]
    subst hab
    obtain ⟨e, c, he, hc, hd⟩ := encconfig.otp_round_trip keyA hpos p
    have : e = b := by
      rw [ha] at he
      simp only [Prod.mk.injEq, Option.some.injEq, and_true] at he
      exact he.symm
    subst this
    exact ⟨⟨c, hc, hd⟩, ⟨c, hc, hd⟩⟩

/-- Witness for C27: two separately held copies of the key `"this is a
key!!!"` and of the key `"key"`. -/
theorem same_key_ciphers_interchangeable_witness :
    Examples.key16.bytes = (Go.Slice.mk Examples.key16.bytes).bytes ∧
    ((∀ a b, encconfig.NewAESCBCEncConfig Examples.key16 = (some a, none) →
      encconfig.NewAESCBCEncConfig (.mk Examples.key16.bytes) = (some b, none) →
      (∀ blk, Examples.xorAES.decrypt Examples.key16.bytes
        (Examples.xorAES.encrypt Examples.key16.bytes blk) = blk) →
      ∀ p : Go.Slice,
        (∀ iv, ∃ c, b.Encrypt Examples.xorAES (.ok iv) p = .ret (c, none)) ∧
        (∀ iv, ∃ c, a.Encrypt Examples.xorAES (.ok iv) p = .ret (c, none)) ∧
        (∀ rnd c, b.Encrypt Examples.xorAES rnd p = .ret (c, none) →
          a.Decrypt Examples.xorAES c = .ret (.mk p.bytes, none)) ∧
        (∀ rnd c, a.Encrypt Examples.xorAES rnd p = .ret (c, none) →
          b.Decrypt Examples.xorAES c = .ret (.mk p.bytes, none))) ∧
    (∀ a b, encconfig.NewOTPEncConfig Examples.key16 = (some a, none) →
      encconfig.NewOTPEncConfig (.mk Examples.key16.bytes) = (some b, none) →
      ∀ p : Go.Slice,
        (∃ c, b.Encrypt p = .ret (c, none) ∧ a.Decrypt c = .ret (.mk p.bytes, none)) ∧
        (∃ c, a.Encrypt p = .ret (c, none) ∧ b.Decrypt c = .ret (.mk p.bytes, none)))) ∧
    encconfig.NewAESCBCEncConfig Examples.key16 = (some Examples.cfg16, none) ∧
    encconfig.NewAESCBCEncConfig (.mk Examples.key16.bytes) = (some Examples.cfg16, none) ∧
    Examples.cfg16.Decrypt Examples.xorAES (.mk Examples.barCipher) =
      .ret (.mk Examples.bar, none) :=
  ⟨rfl, same_key_ciphers_interchangeable Examples.xorAES Examples.key16
    (.mk Examples.key16.bytes) rfl, by decide, by decide, by decide⟩

/-- C28. Different OTP keys cannot decrypt each other: for two keys of the
same length `n` whose bytes differ and every plaintext `p` with `len(p) >= n`,
both constructors succeed, the cipher `b` of the second key encrypts `p` to some
`c` with a nil error, and the cipher `a` of the first key decrypts `c` with a
nil error to a value as long as `p` whose bytes are not those of `p`. -/
theorem different_otp_keys (keyA keyB : Go.Slice) (hlen : keyA.len = keyB.len)
    (hne : keyA.bytes ≠ keyB.bytes) (p : Go.Slice) (hp : keyA.len ≤ p.len) :
    ∃ a b c q, encconfig.NewOTPEncConfig keyA = (some a, none) ∧
      encconfig.NewOTPEncConfig keyB = (some b, none) ∧
      b.Encrypt p = .ret (c, none) ∧ a.Decrypt c = .ret (q, none) ∧
      q.len = p.len ∧ q.bytes ≠ p.bytes := by
  have hl : keyA.bytes.length = keyB.bytes.length := by
    simpa [Go.Slice.len] using hlen
  have hpl : keyA.bytes.length ≤ p.bytes.length := by
    simpa [Go.Slice.len] using hp
  have hposA : 0 < keyA.len := by
    rcases Nat.eq_zero_or_pos keyA.bytes.length with h0 | h0
    · exfalso
      apply hne
      have hB0 : keyB.bytes.length = 0 := by omega
      rw [List.length_eq_zero.mp h0, List.length_eq_zero.mp hB0]
    · simpa [Go.Slice.len] using h0
  have hposB : 0 < keyB.len := by rw [← hlen]; exact hposA
  have hneA : keyA.bytes ≠ [] := by
    intro h; simp [Go.Slice.len, h] at hposA
  have hneB : keyB.bytes ≠ [] := by
    intro h; simp [Go.Slice.len, h] at hposB
  obtain ⟨c, hc⟩ := encconfig.otpLoop_total keyB.bytes hneB p.bytes 0
  obtain ⟨q, hq⟩ := encconfig.otpLoop_total keyA.bytes hneA c 0
  have hcl := (encconfig.otpLoop_involutive keyB.bytes p.bytes 0 c hc).2
  have hql := (encconfig.otpLoop_involutive keyA.bytes c 0 q hq).2
  refine ⟨{ key := .mk keyA.bytes }, { key := .mk keyB.bytes }, .mk c, .mk q,
    encconfig.NewOTPEncConfig_of_pos keyA hposA, encconfig.NewOTPEncConfig_of_pos keyB hposB,
    ?_, ?_, ?_, ?_⟩
  · simp only [encconfig.otpEncConfig.Encrypt, encconfig.Slice_bytes_mk, hc]
  · simp only [encconfig.otpEncConfig.Decrypt, encconfig.otpEncConfig.Encrypt,
      encconfig.Slice_bytes_mk, hq]
  · show q.length = p.bytes.length
    rw [hql, hcl]
  · intro heq
    rw [encconfig.Slice_bytes_mk] at heq
    subst heq
    apply hne
    apply List.ext_getElem hl
    intro i hiA hiB
    have hip : i < p.bytes.length := by omega
    have hic : i < c.length := by omega
    obtain ⟨x, kb, hx, hkb, hcx⟩ := encconfig.otpLoop_getElem keyB.bytes p.bytes 0 c hc i hip
    obtain ⟨y, ka, hy, hka, hqy⟩ := encconfig.otpLoop_getElem keyA.bytes c 0 p.bytes hq i hic
    rw [Nat.zero_add, Nat.mod_eq_of_lt hiB, List.getElem?_eq_getElem hiB] at hkb
    rw [Nat.zero_add, Nat.mod_eq_of_lt hiA, List.getElem?_eq_getElem hiA] at hka
    rw [hcx] at hy
    rw [hx] at hqy
    simp only [Option.some.injEq] at hkb hka hy hqy
    rw [hkb, hka]
    subst hy
    exact (encconfig.byte_xor_xor_eq_self x kb ka hqy.symm).symm

/-- Witness for C28: the keys `"key"` and `"kex"`, a five-byte plaintext. -/
theorem different_otp_keys_witness :
    Examples.key3.len = (Go.Slice.mk [107, 101, 120]).len ∧
    Examples.key3.bytes ≠ (Go.Slice.mk [107, 101, 120]).bytes ∧
    Examples.key3.len ≤ (Go.Slice.mk [1, 2, 3, 4, 5]).len ∧
    ∃ a b c q, encconfig.NewOTPEncConfig Examples.key3 = (some a, none) ∧
      encconfig.NewOTPEncConfig (.mk [107, 101, 120]) = (some b, none) ∧
      b.Encrypt (.mk [1, 2, 3, 4, 5]) = .ret (c, none) ∧ a.Decrypt c = .ret (q, none) ∧
      q.len = (Go.Slice.mk [1, 2, 3, 4, 5]).len ∧ q.bytes ≠ (Go.Slice.mk [1, 2, 3, 4, 5]).bytes :=
  ⟨by decide, by decide, by decide,
    different_otp_keys Examples.key3 (.mk [107, 101, 120]) (by decide) (by decide)
      (.mk [1, 2, 3, 4, 5]) (by decide)⟩

/-! ## The byte heap: reads, writes and allocation -/

namespace Go

theorem take_drop_splice_before (old t rest : List Byte) (pos o l : Nat) (h1 : o + l ≤ pos)
    (h2 : pos ≤ old.length) :
    ((old.take pos ++ t ++ rest).drop o).take l = (old.drop o).take l := by
  apply List.ext_getElem?
  intro i
  by_cases hi : i < l
  · have h3 : o + i < (old.take pos).length := by rw [List.length_take]; omega
    rw [List.getElem?_take_of_lt hi, List.getElem?_take_of_lt hi, List.getElem?_drop,
      List.getElem?_drop, List.append_assoc, List.getElem?_append_left h3,
      List.getElem?_take_of_lt (by omega)]
  · rw [List.getElem?_take_eq_none (by omega), List.getElem?_take_eq_none (by omega)]

end Go

namespace Go

theorem take_drop_splice_into (old t rest : List Byte) (o l : Nat) (h : o + l ≤ old.length) :
    ((old.take (o + l) ++ t ++ rest).drop o).take (l + t.length) = (old.drop o).take l ++ t := by
  have h1 : o ≤ (old.take (o + l)).length := by rw [List.length_take]; omega
  have h2 : ((old.take (o + l)).drop o).length = l := by
    rw [List.length_drop, List.length_take]; omega
  rw [List.append_assoc, List.drop_append_of_le_length h1, ← List.append_assoc,
    List.take_append_of_le_length (by rw [List.length_append, h2])]
  have h3 : (old.take (o + l)).drop o = (old.drop o).take l := by
    rw [List.drop_take]; congr 1; omega
  rw [List.take_of_length_le (by rw [List.length_append, h2])]
  rw [h3]

theorem Heap.length_store (h : Heap) (arr pos : Nat) (bs : List Byte) :
    (h.store arr pos bs).length = h.length := by
  simp [Heap.store]

theorem Heap.array_store_ne (h : Heap) (arr pos : Nat) (bs : List Byte) (a : Nat)
    (hne : a ≠ arr) : (h.store arr pos bs).array a = h.array a := by
  simp only [Heap.store, Heap.array, List.getD_eq_getElem?_getD]
  rw [List.getElem?_set_ne (Ne.symm hne)]

theorem Heap.array_store_eq (h : Heap) (arr pos : Nat) (bs : List Byte) (ha : arr < h.length) :
    (h.store arr pos bs).array arr =
      (h.array arr).take pos ++ bs ++ (h.array arr).drop (pos + bs.length) := by
  unfold Heap.store
  generalize (h.array arr).take pos ++ bs ++ (h.array arr).drop (pos + bs.length) = x
  simp only [Heap.array, List.getD_eq_getElem?_getD]
  rw [List.getElem?_set_self ha]
  rfl

theorem Heap.array_append_lt (h : Heap) (x : List Byte) (a : Nat) (ha : a < h.length) :
    Heap.array (h ++ [x]) a = h.array a := by
  simp only [Heap.array, List.getD_eq_getElem?_getD]
  rw [List.getElem?_append_left ha]

theorem Heap.array_append_eq (h : Heap) (x : List Byte) :
    Heap.array (h ++ [x]) h.length = x := by
  simp [Heap.array, List.getD_eq_getElem?_getD]

theorem Heap.array_of_le (h : Heap) (a : Nat) (ha : h.length ≤ a) : h.array a = [] := by
  simp only [Heap.array, List.getD_eq_getElem?_getD]
  rw [List.getElem?_eq_none ha]
  rfl

end Go

namespace Go

theorem Heap.bytes_view (h : Heap) (b : Buf) : (h.view b).bytes = h.read b := by
  cases b <;> rfl

theorem Heap.len_view (h : Heap) (b : Buf) (hv : h.Valid b) : (h.view b).len = b.len := by
  cases b with
  | nil => rfl
  | ref arr off len cap =>
    obtain ⟨_, h1, h2⟩ := hv
    show (((h.array arr).drop off).take len).length = len
    rw [List.length_take, List.length_drop]
    omega

theorem Heap.length_read (h : Heap) (b : Buf) (hv : h.Valid b) : (h.read b).length = b.len := by
  rw [← Heap.bytes_view]
  exact Heap.len_view h b hv

theorem Heap.view_eq_of_read (h g : Heap) (b : Buf) (hr : g.read b = h.read b) :
    g.view b = h.view b := by
  cases b with
  | nil => rfl
  | ref arr off len cap => simp only [Heap.view, hr]

/-- A window keeps its validity and its bytes when its array is unchanged. -/
theorem Heap.valid_read_of_array (h g : Heap) (b : Buf) (hl : h.length ≤ g.length)
    (ha : ∀ arr off len cap, b = .ref arr off len cap → g.array arr = h.array arr)
    (hv : h.Valid b) : g.Valid b ∧ g.read b = h.read b := by
  cases b with
  | nil => exact ⟨trivial, rfl⟩
  | ref arr off len cap =>
    have := ha arr off len cap rfl
    obtain ⟨h1, h2, h3⟩ := hv
    refine ⟨⟨by omega, h2, by rw [this]; exact h3⟩, ?_⟩
    simp only [Heap.read, this]

theorem Heap.Frame.refl (h : Heap) (p : Buf) : h.Frame h p :=
  ⟨Nat.le_refl _, fun _ hv _ => ⟨hv, rfl⟩⟩

theorem Heap.Frame.trans {h g k : Heap} {p : Buf} (h1 : h.Frame g p) (h2 : g.Frame k p) :
    h.Frame k p :=
  ⟨Nat.le_trans h1.1 h2.1, fun b hv ho =>
    ⟨(h2.2 b (h1.2 b hv ho).1 ho).1, (h2.2 b (h1.2 b hv ho).1 ho).2.trans (h1.2 b hv ho).2⟩⟩

theorem Heap.Frame.weaken {h g : Heap} (p : Buf) (h1 : h.Frame g .nil) : h.Frame g p :=
  ⟨h1.1, fun b hv _ => h1.2 b hv (by cases b <;> trivial)⟩

theorem Heap.Frame.alloc (h : Heap) (x : List Byte) : h.Frame (h ++ [x]) .nil := by
  refine ⟨by simp, fun b hv _ => ?_⟩
  apply Heap.valid_read_of_array h (h ++ [x]) b (by simp) _ hv
  intro arr off len cap hb
  subst hb
  exact Heap.array_append_lt h x arr hv.1

/-- A write into an array allocated after `h` is invisible from `h`. -/
theorem Heap.Frame.store_fresh {h g : Heap} {p : Buf} (h1 : h.Frame g p) (a pos : Nat)
    (bs : List Byte) (ha : h.length ≤ a) : h.Frame (g.store a pos bs) p := by
  refine ⟨by rw [Heap.length_store]; exact h1.1, fun b hv ho => ?_⟩
  obtain ⟨hv1, hr1⟩ := h1.2 b hv ho
  have := Heap.valid_read_of_array g (g.store a pos bs) b (by rw [Heap.length_store]) (by
    intro arr off len cap hb
    subst hb
    exact Heap.array_store_ne g a pos bs arr (by have := hv.1; omega)) hv1
  exact ⟨this.1, this.2.trans hr1⟩

/-- A write into the spare capacity of `p` leaves every window outside it. -/
theorem Heap.Frame.store_spare (h : Heap) (arr off len cap : Nat) (t : List Byte)
    (hv : h.Valid (.ref arr off len cap)) (ht : len + t.length ≤ cap) :
    h.Frame (h.store arr (off + len) t) (.ref arr off len cap) := by
  obtain ⟨hv1, hv2, hv3⟩ := hv
  refine ⟨by rw [Heap.length_store], fun b hb ho => ?_⟩
  cases b with
  | nil => exact ⟨trivial, rfl⟩
  | ref a o l c =>
    by_cases hne : a = arr
    · subst hne
      obtain ⟨hb1, hb2, hb3⟩ := hb
      have ho2 : o + l ≤ off + len := by
        rcases ho with ho | ho
        · exact absurd rfl ho
        · exact ho
      have harr := Heap.array_store_eq h a (off + len) t hv1
      refine ⟨⟨by rw [Heap.length_store]; exact hb1, hb2, ?_⟩, ?_⟩
      · rw [harr]
        simp only [List.length_append, List.length_take, List.length_drop]
        omega
      · simp only [Heap.read, harr]
        exact take_drop_splice_before _ _ _ _ _ _ ho2 (by omega)
    · exact Heap.valid_read_of_array h _ _ (by rw [Heap.length_store]) (by
        intro arr2 off2 len2 cap2 hb2
        cases hb2
        exact Heap.array_store_ne h arr (off + len) t a hne) hb

/-- The bytes of a window after an `append` within its capacity. -/
theorem Heap.read_store_spare (h : Heap) (arr off len cap : Nat) (t : List Byte)
    (hv : h.Valid (.ref arr off len cap)) (ht : len + t.length ≤ cap) :
    (h.store arr (off + len) t).Valid (.ref arr off (len + t.length) cap) ∧
    (h.store arr (off + len) t).read (.ref arr off (len + t.length) cap) =
      h.read (.ref arr off len cap) ++ t := by
  obtain ⟨hv1, hv2, hv3⟩ := hv
  have harr := Heap.array_store_eq h arr (off + len) t hv1
  refine ⟨⟨by rw [Heap.length_store]; exact hv1, ht, ?_⟩, ?_⟩
  · rw [harr]
    simp only [List.length_append, List.length_take, List.length_drop]
    omega
  · simp only [Heap.read, harr]
    exact take_drop_splice_into _ _ _ _ _ (by omega)

/-- A freshly allocated array holds what was put there. -/
theorem Heap.read_alloc (h : Heap) (bs : List Byte) :
    (h.alloc bs).1.Valid (h.alloc bs).2 ∧ (h.alloc bs).1.read (h.alloc bs).2 = bs := by
  simp only [Heap.alloc, Heap.Valid, Heap.read, Heap.array_append_eq]
  simp

end Go

/-! ## The ciphers over the heap: what they write and what they return -/

namespace encconfig.mem

open Go

theorem Slice_append_of_ne (s : Slice) (t : List Byte) (ht : t ≠ []) :
    s.append t = .mk (s.bytes ++ t) := by
  cases s with
  | nil =>
    cases t with
    | nil => exact absurd rfl ht
    | cons _ _ => rfl
  | mk bs => cases t <;> rfl

/-- Go `append` of a non-empty list: the result is a non-nil window holding the
old bytes followed by the new ones, and only spare capacity was written. -/
theorem append_spec (h : Heap) (b : Buf) (t : List Byte) (hv : h.Valid b) (ht : t ≠ []) :
    h.Frame (h.append b t).1 b ∧ (h.append b t).1.Valid (h.append b t).2 ∧
    (h.append b t).1.view (h.append b t).2 = .mk (h.read b ++ t) ∧
    (h.append b t).2.len = b.len + t.length := by
  cases b with
  | nil =>
    simp only [Heap.append, if_neg ht]
    refine ⟨Heap.Frame.alloc h t, (Heap.read_alloc h t).1, ?_, ?_⟩
    · have := (Heap.read_alloc h t).2
      simp only [Heap.alloc] at this ⊢
      simp only [Heap.view, this]
      rfl
    · simp [Heap.alloc, Buf.len]
  | ref arr off len cap =>
    by_cases hc : len + t.length ≤ cap
    · simp only [Heap.append, if_pos hc]
      obtain ⟨h1, h2⟩ := Heap.read_store_spare h arr off len cap t hv hc
      exact ⟨Heap.Frame.store_spare h arr off len cap t hv hc, h1, by simp only [Heap.view, h2],
        rfl⟩
    · simp only [Heap.append, if_neg hc]
      refine ⟨Heap.Frame.weaken _ (Heap.Frame.alloc h _), (Heap.read_alloc h _).1, ?_, ?_⟩
      · have := (Heap.read_alloc h (h.read (.ref arr off len cap) ++ t)).2
        simp only [Heap.alloc] at this ⊢
        simp only [Heap.view, this]
      · have := Heap.length_read h _ hv
        simp only [Heap.alloc, Buf.len, List.length_append] at this ⊢
        rw [this]

/-- The padding `pkcs7pad` appends for a message of `n` bytes. -/
theorem padding_ne_nil (n bsize : Nat) (hb : bsize ≠ 0) :
    List.replicate (bsize - n % bsize) (byte (bsize - n % bsize)) ≠ [] := by
  have : n % bsize < bsize := Nat.mod_lt _ (Nat.pos_of_ne_zero hb)
  intro h
  have h2 := congrArg List.length h
  simp only [List.length_replicate, List.length_nil] at h2
  omega

/-- Function `pkcs7pad` over the heap: it returns, it writes only to spare
capacity of `m` and to fresh arrays, and the window it returns holds the value
of `pkcs7pad` on the bytes of `m`. -/
theorem pkcs7pad_heap_spec (h : Heap) (m : Buf) (bsize : Nat) (hv : h.Valid m) (hb : bsize ≠ 0) :
    ∃ h1 m1, pkcs7pad h m bsize = .ret (h1, m1) ∧ h.Frame h1 m ∧ h1.Valid m1 ∧
      encconfig.pkcs7pad (h.view m) bsize = .ret (h1.view m1) ∧
      m1.len = (h1.view m1).len := by
  have hne := padding_ne_nil m.len bsize hb
  have hp : pkcs7pad h m bsize = .ret ((h.alloc (List.replicate (bsize - m.len % bsize)
      (byte (bsize - m.len % bsize)))).1.append m ((h.alloc (List.replicate
      (bsize - m.len % bsize) (byte (bsize - m.len % bsize)))).1.read (h.alloc (List.replicate
      (bsize - m.len % bsize) (byte (bsize - m.len % bsize)))).2)) := by
    simp only [pkcs7pad, if_neg hb]
  have hv2 : encconfig.pkcs7pad (h.view m) bsize = .ret (.mk (h.read m ++ List.replicate
      (bsize - m.len % bsize) (byte (bsize - m.len % bsize)))) := by
    simp only [encconfig.pkcs7pad, if_neg hb, Heap.len_view h m hv]
    rw [Slice_append_of_ne _ _ hne, Heap.bytes_view]
  generalize List.replicate (bsize - m.len % bsize) (byte (bsize - m.len % bsize)) = pad at *
  have hr := Heap.read_alloc h pad
  have hf := Heap.Frame.alloc h pad
  have hm := hf.2 m hv (by cases m <;> trivial)
  rw [hr.2] at hp
  have ha := append_spec (h.alloc pad).1 m pad hm.1 hne
  refine ⟨((h.alloc pad).1.append m pad).1, ((h.alloc pad).1.append m pad).2, hp,
    Heap.Frame.trans (Heap.Frame.weaken m hf) ha.1, ha.2.1, ?_, ?_⟩
  · rw [ha.2.2.1, hv2]
    simp only [Heap.alloc] at hm ⊢
    rw [hm.2]
  · rw [Heap.len_view _ _ ha.2.1]

end encconfig.mem

namespace encconfig.mem

open Go

theorem length_CBCEncrypter_CryptBlocks (E : Block → Block) (iv : Block) (src body : List Byte)
    (h : CBCEncrypter.CryptBlocks E iv src = .ret body) : body.length = src.length := by
  unfold CBCEncrypter.CryptBlocks at h
  split at h
  · cases h
  · rename_i hm
    simp only [Outcome.ret.injEq] at h
    subst h
    rw [length_joinBlocks, length_cbcEncrypt, length_toBlocks]
    simp only [BlockSize, ne_eq, not_not] at hm ⊢
    omega

theorem length_CBCDecrypter_CryptBlocks (D : Block → Block) (iv : Block) (src body : List Byte)
    (h : CBCDecrypter.CryptBlocks D iv src = .ret body) : body.length = src.length := by
  unfold CBCDecrypter.CryptBlocks at h
  split at h
  · cases h
  · rename_i hm
    simp only [Outcome.ret.injEq] at h
    subst h
    rw [length_joinBlocks, length_cbcDecrypt, length_toBlocks]
    simp only [BlockSize, ne_eq, not_not] at hm ⊢
    omega

/-- The window at the start of a fresh array after a write of its first
bytes. -/
theorem read_fresh_start (h : Heap) (z bs : List Byte) (n cap : Nat) (hn : bs.length = n) :
    Heap.read (Heap.store (h ++ [z]) h.length 0 bs) (.ref h.length 0 n cap) = bs := by
  have ha := Heap.array_store_eq (h ++ [z]) h.length 0 bs (by simp)
  rw [Heap.array_append_eq] at ha
  simp only [Heap.read, ha, List.take_zero, List.nil_append, List.drop_zero, Nat.zero_add]
  rw [List.take_append_of_le_length (by omega), List.take_of_length_le (by omega)]

end encconfig.mem

namespace encconfig.mem

open Go

theorem array_fresh_iv_body (h : Heap) (n : Nat) (iv body : List Byte) (hiv : iv.length = 16)
    (hbody : body.length = n) :
    Heap.array (Heap.store (Heap.store (h ++ [List.replicate (16 + n) 0]) h.length 0 iv)
      h.length (0 + 16) body) h.length = iv ++ body := by
  have h1 := Heap.array_store_eq (h ++ [List.replicate (16 + n) 0]) h.length 0 iv (by simp)
  rw [Heap.array_append_eq] at h1
  have h2 := Heap.array_store_eq (Heap.store (h ++ [List.replicate (16 + n) 0]) h.length 0 iv)
    h.length (0 + 16) body (by simp [Heap.length_store])
  rw [h2, h1]
  simp only [List.take_zero, List.nil_append, Nat.zero_add]
  rw [List.take_append_of_le_length (by omega), List.take_of_length_le (by omega),
    List.drop_of_length_le (by simp; omega), List.append_nil]

/-- Method `Encrypt` of the AES-CBC cipher over the heap: whatever it returns,
it wrote only to spare capacity of the plaintext and to arrays it allocated,
and the ciphertext it returns is a well-formed window of a fresh array. -/
theorem Encrypt_frame (aes : AES) (e : aesCBCEncConfig) (rnd : RandReader) (h : Heap) (p : Buf)
    (hv : h.Valid p) (h' : Heap) (c : Buf) (err : Option Err)
    (hE : e.Encrypt aes rnd h p = .ret (h', c, err)) :
    h.Frame h' p ∧ h'.Valid c ∧ ∀ arr off len cap, c = .ref arr off len cap → h.length ≤ arr := by
  by_cases hb : uint16 e.blockSize = 0
  · simp [aesCBCEncConfig.Encrypt, pkcs7pad, hb] at hE
  · obtain ⟨h1, m1, hp, hf, hv1, _, _⟩ := pkcs7pad_heap_spec h p (uint16 e.blockSize) hv hb
    unfold aesCBCEncConfig.Encrypt at hE
    rw [hp] at hE
    simp only [] at hE
    split at hE
    · simp only [Outcome.ret.injEq, Prod.mk.injEq] at hE
      obtain ⟨rfl, rfl, rfl⟩ := hE
      exact ⟨hf, trivial, fun _ _ _ _ hc => by cases hc⟩
    · cases rnd with
      | error er =>
        simp only [readFull, Outcome.ret.injEq, Prod.mk.injEq] at hE
        obtain ⟨rfl, rfl, rfl⟩ := hE
        exact ⟨Heap.Frame.trans hf (Heap.Frame.weaken p (Heap.Frame.alloc h1 _)), trivial,
          fun _ _ _ _ hc => by cases hc⟩
      | ok f =>
        simp only [readFull] at hE
        split at hE
        · cases hE
        · rename_i body hcb
          simp only [Outcome.ret.injEq, Prod.mk.injEq] at hE
          obtain ⟨rfl, rfl, rfl⟩ := hE
          simp only [Heap.make, Heap.write, Buf.sliceTo, Buf.sliceFrom, BlockSize] at hcb ⊢
          have hiv : (List.map f (List.range 16)).length = 16 := by simp
          have hf2 : h1.Frame (Heap.store (h1 ++ [List.replicate (16 + m1.len) 0]) h1.length 0
              (List.map f (List.range 16))) .nil :=
            Heap.Frame.store_fresh (Heap.Frame.alloc h1 _) _ _ _ (Nat.le_refl _)
          have hm1 := hf2.2 m1 hv1 (by cases m1 <;> trivial)
          have hbl := length_CBCEncrypter_CryptBlocks _ _ _ _ hcb
          rw [hm1.2, Heap.length_read h1 m1 hv1] at hbl
          have harr := array_fresh_iv_body h1 m1.len _ body hiv hbl
          refine ⟨?_, ⟨?_, Nat.le_refl _, ?_⟩, ?_⟩
          · exact Heap.Frame.store_fresh (Heap.Frame.trans hf (Heap.Frame.weaken p hf2)) _ _ _ hf.1
          · simp [Heap.length_store]
          · rw [harr]
            simp only [List.length_append, hiv, hbl]
            omega
          · intro arr off len cap hc
            cases hc
            exact hf.1

end encconfig.mem

namespace encconfig.mem

open Go

/-- Method `Encrypt` of the AES-CBC cipher over the heap returns what the
method over slice values returns for the bytes of the key and of the plaintext,
provided the key of the cipher does not lie in the spare capacity of the
plaintext. -/
theorem Encrypt_refines (aes : AES) (e : aesCBCEncConfig) (rnd : RandReader) (h : Heap) (p : Buf)
    (hv : h.Valid p) (hk : h.Valid e.key) (ho : e.key.Outside p) :
    (e.Encrypt aes rnd h p).map Heap.result =
      encconfig.aesCBCEncConfig.Encrypt aes { key := h.view e.key, blockSize := e.blockSize }
        rnd (h.view p) := by
  by_cases hb : uint16 e.blockSize = 0
  · simp [aesCBCEncConfig.Encrypt, encconfig.aesCBCEncConfig.Encrypt, pkcs7pad,
      encconfig.pkcs7pad, hb, Outcome.map]
  · obtain ⟨h1, m1, hp, hf, hv1, hval, hlen⟩ := pkcs7pad_heap_spec h p (uint16 e.blockSize) hv hb
    have hkey := hf.2 e.key hk ho
    have hkv : h1.view e.key = h.view e.key := Heap.view_eq_of_read _ _ _ hkey.2
    unfold aesCBCEncConfig.Encrypt encconfig.aesCBCEncConfig.Encrypt
    rw [hp, hval]
    simp only [hkv]
    cases hnc : NewCipher (h.view e.key) with
    | some er => rfl
    | none =>
      cases rnd with
      | error er => rfl
      | ok f =>
        simp only [readFull, Heap.make, Heap.write, Buf.sliceTo, Buf.sliceFrom, BlockSize]
        have hiv : (List.map f (List.range 16)).length = 16 := by simp
        have hf2 : h1.Frame (Heap.store (h1 ++ [List.replicate (16 + m1.len) 0]) h1.length 0
            (List.map f (List.range 16))) .nil :=
          Heap.Frame.store_fresh (Heap.Frame.alloc h1 _) _ _ _ (Nat.le_refl _)
        have hm1 := hf2.2 m1 hv1 (by cases m1 <;> trivial)
        rw [read_fresh_start h1 _ _ 16 _ hiv, hm1.2, hkey.2, Heap.bytes_view, Heap.bytes_view]
        cases hcb : CBCEncrypter.CryptBlocks (aes.encrypt (h.read e.key))
            (mkBlock (List.map f (List.range 16))) (h1.read m1) with
        | panic => rfl
        | ret body =>
          have hbl := length_CBCEncrypter_CryptBlocks _ _ _ _ hcb
          rw [Heap.length_read h1 m1 hv1] at hbl
          have harr := array_fresh_iv_body h1 m1.len _ body hiv hbl
          simp only [Outcome.map, Heap.result, Heap.view, Heap.read, harr, List.drop_zero]
          rw [List.take_of_length_le (by simp [hbl])]

end encconfig.mem

namespace encconfig.mem

open Go

theorem read_sliceFrom (h : Heap) (m : Buf) (k : Nat) :
    h.read (m.sliceFrom k) = (h.read m).drop k := by
  cases m with
  | nil => simp [Buf.sliceFrom, Heap.read]
  | ref arr off len cap =>
    simp only [Buf.sliceFrom, Heap.read]
    rw [List.drop_take, List.drop_drop]

theorem read_sliceTo (h : Heap) (m : Buf) (k : Nat) (hk : k ≤ m.len) :
    h.read (m.sliceTo k) = (h.read m).take k := by
  cases m with
  | nil => simp [Buf.sliceTo, Heap.read]
  | ref arr off len cap =>
    have hk2 : k ≤ len := hk
    simp only [Buf.sliceTo, Heap.read]
    rw [List.take_take, Nat.min_eq_left hk2]

/-- Function `pkcs7unpad` over the heap returns a window that holds the value
of `pkcs7unpad` on the bytes of `m`, with the same error. -/
theorem pkcs7unpad_refines (h : Heap) (m : Buf) (bsize : Nat) (hv : h.Valid m) :
    (h.view (pkcs7unpad h m bsize).1, (pkcs7unpad h m bsize).2) =
      encconfig.pkcs7unpad (h.view m) bsize := by
  unfold pkcs7unpad encconfig.pkcs7unpad
  simp only [Heap.len_view h m hv, Heap.bytes_view, read_sliceFrom]
  split
  · rfl
  · split
    · rfl
    · split
      · rfl
      · split
        · rfl
        · rename_i h0 _ _ _
          cases m with
          | nil => exact absurd rfl h0
          | ref arr off len cap =>
            have := read_sliceTo h (.ref arr off len cap)
              (len - ((h.read (.ref arr off len cap)).getD (len - 1) 0).val) (Nat.sub_le _ _)
            simp only [Buf.sliceTo, Buf.len] at this ⊢
            simp only [Heap.view, this]

end encconfig.mem

namespace encconfig.mem

open Go

/-- Method `Decrypt` of the AES-CBC cipher over the heap: whatever it returns,
it wrote only to an array it allocated. -/
theorem Decrypt_frame (aes : AES) (e : aesCBCEncConfig) (h : Heap) (c : Buf)
    (h' : Heap) (q : Buf) (err : Option Err)
    (hD : e.Decrypt aes h c = .ret (h', q, err)) : h.Frame h' .nil := by
  unfold aesCBCEncConfig.Decrypt at hD
  split at hD
  · simp only [Outcome.ret.injEq, Prod.mk.injEq] at hD
    obtain ⟨rfl, _⟩ := hD
    exact Heap.Frame.refl _ _
  · simp only [] at hD
    split at hD
    · simp only [Outcome.ret.injEq, Prod.mk.injEq] at hD
      obtain ⟨rfl, _⟩ := hD
      exact Heap.Frame.refl _ _
    · split at hD
      · simp only [Outcome.ret.injEq, Prod.mk.injEq] at hD
        obtain ⟨rfl, _⟩ := hD
        exact Heap.Frame.refl _ _
      · split at hD
        · cases hD
        · have hfr : ∀ body, h.Frame (Heap.write (h.make (c.sliceFrom BlockSize).len
              (c.sliceFrom BlockSize).len).1 (h.make (c.sliceFrom BlockSize).len
              (c.sliceFrom BlockSize).len).2 body) .nil := fun body =>
            Heap.Frame.store_fresh (Heap.Frame.alloc h _) _ _ _ (Nat.le_refl _)
          split at hD <;>
          · simp only [Outcome.ret.injEq, Prod.mk.injEq] at hD
            obtain ⟨rfl, _⟩ := hD
            exact hfr _

/-- Method `Decrypt` of the AES-CBC cipher over the heap returns what the
method over slice values returns for the bytes of the key and of the
ciphertext. -/
theorem Decrypt_refines (aes : AES) (e : aesCBCEncConfig) (h : Heap) (c : Buf)
    (hv : h.Valid c) :
    (e.Decrypt aes h c).map Heap.result =
      encconfig.aesCBCEncConfig.Decrypt aes { key := h.view e.key, blockSize := e.blockSize }
        (h.view c) := by
  unfold aesCBCEncConfig.Decrypt encconfig.aesCBCEncConfig.Decrypt
  simp only []
  cases hnc : NewCipher (h.view e.key) with
  | some er => rfl
  | none =>
    simp only [Heap.len_view h c hv, Heap.bytes_view]
    by_cases hlt : c.len < BlockSize
    · simp only [if_pos hlt]
      rfl
    · simp only [if_neg hlt]
      have h16 : 16 ≤ c.len := by simpa [BlockSize] using hlt
      have hl2 : (c.sliceFrom BlockSize).len = ((h.read c).drop BlockSize).length := by
        rw [List.length_drop, Heap.length_read h c hv]
        cases c with
        | nil => simp [Buf.len, BlockSize] at h16
        | ref arr off len cap => rfl
      rw [hl2]
      by_cases hmod : ((h.read c).drop BlockSize).length % BlockSize ≠ 0
      · simp only [if_pos hmod]
        rfl
      · simp only [if_neg hmod]
        have hc2 := (Heap.Frame.alloc h (List.replicate ((h.read c).drop BlockSize).length 0)).2
          c hv (by cases c <;> trivial)
        simp only [Heap.make, Heap.write]
        rw [read_sliceFrom, hc2.2, read_sliceTo h c BlockSize h16]
        cases hcb : CBCDecrypter.CryptBlocks (aes.decrypt (h.read e.key))
            (mkBlock ((h.read c).take BlockSize)) ((h.read c).drop BlockSize) with
        | panic => rfl
        | ret body =>
          simp only []
          have hbl := length_CBCDecrypter_CryptBlocks _ _ _ _ hcb
          have hrd := read_fresh_start h (List.replicate ((h.read c).drop BlockSize).length 0)
            body ((h.read c).drop BlockSize).length ((h.read c).drop BlockSize).length hbl
          have hvm : Heap.Valid (Heap.store (h ++ [List.replicate
              ((h.read c).drop BlockSize).length 0]) h.length 0 body)
              (.ref h.length 0 ((h.read c).drop BlockSize).length
                ((h.read c).drop BlockSize).length) := by
            refine ⟨by simp [Heap.length_store], Nat.le_refl _, ?_⟩
            rw [Heap.array_store_eq _ _ _ _ (by simp), Heap.array_append_eq]
            simp only [List.take_zero, List.nil_append, List.length_append, List.length_drop,
              List.length_replicate, hbl]
            omega
          have hun := pkcs7unpad_refines _ _ (uint16 e.blockSize) hvm
          simp only [Heap.view, hrd] at hun
          rw [← hun]
          generalize pkcs7unpad _ _ (uint16 e.blockSize) = r
          obtain ⟨r1, r2⟩ := r
          cases r2 <;> rfl

end encconfig.mem

namespace encconfig.mem

open Go

theorem Heap_set_array_self (h : Heap) (a : Nat) (ha : a < h.length) :
    h.set a (h.array a) = h := by
  apply List.ext_getElem?
  intro i
  by_cases hi : i = a
  · subst hi
    rw [List.getElem?_set_self ha]
    simp only [Heap.array, List.getD_eq_getElem?_getD, List.getElem?_eq_getElem ha]
    rfl
  · rw [List.getElem?_set_ne (Ne.symm hi)]

theorem read_store_ne (h : Heap) (a pos : Nat) (bs : List Byte) (b : Buf)
    (hb : ∀ arr off len cap, b = .ref arr off len cap → arr ≠ a) :
    (h.store a pos bs).read b = h.read b := by
  cases b with
  | nil => rfl
  | ref arr off len cap =>
    simp only [Heap.read, Heap.array_store_ne h a pos bs arr (hb arr off len cap rfl)]

/-- The loop of the one-time pad over the heap, `n` rounds from index `i` on with
the output array holding `pre` so far, panics when the loop over slice values
does and otherwise leaves the bytes that loop returns behind `pre`. -/
theorem otpLoop_refines (key m : Buf) (a L : Nat) (kb mb : List Byte)
    (hkl : key.len = kb.length)
    (hka : ∀ arr off len cap, key = .ref arr off len cap → arr ≠ a)
    (hma : ∀ arr off len cap, m = .ref arr off len cap → arr ≠ a) :
    ∀ (n i : Nat) (h : Heap) (pre : List Byte), a < h.length → h.read key = kb → h.read m = mb →
      h.array a = pre ++ List.replicate n 0 → pre.length = i → i + n = mb.length →
      otpLoop key m (.ref a 0 L L) n i h =
        match encconfig.otpLoop kb i (mb.drop i) with
        | .panic => .panic
        | .ret res => .ret (h.set a (pre ++ res))
  | 0, i, h, pre, ha, _, _, harr, _, hin => by
    have hd : mb.drop i = [] := List.drop_of_length_le (by omega)
    rw [hd]
    simp only [otpLoop, encconfig.otpLoop, List.append_nil]
    rw [show pre = h.array a by simpa using harr.symm, Heap_set_array_self h a ha]
  | n + 1, i, h, pre, ha, hk, hm, harr, hpre, hin => by
    have hi : i < mb.length := by omega
    have hd : mb.drop i = mb[i] :: mb.drop (i + 1) := List.drop_eq_getElem_cons hi
    rw [hd]
    simp only [otpLoop, encconfig.otpLoop, hkl, hk, hm]
    by_cases h0 : kb.length = 0
    · simp only [if_pos h0]
    · simp only [if_neg h0, List.getElem?_eq_getElem hi]
      cases hkb : kb[i % kb.length]? with
      | none => rfl
      | some k =>
        simp only [Heap.write, Buf.sliceFrom, Nat.zero_add]
        have harr2 : (h.store a i [mb[i] ^^^ k]).array a =
            (pre ++ [mb[i] ^^^ k]) ++ List.replicate n 0 := by
          rw [Heap.array_store_eq h a i _ ha, harr]
          subst hpre
          simp [List.replicate_succ]
        have ih := otpLoop_refines key m a L kb mb hkl hka hma n (i + 1)
          (h.store a i [mb[i] ^^^ k]) (pre ++ [mb[i] ^^^ k])
          (by rw [Heap.length_store]; exact ha)
          (by rw [read_store_ne h a i _ key hka]; exact hk)
          (by rw [read_store_ne h a i _ m hma]; exact hm)
          harr2 (by simp [hpre]) (by omega)
        rw [ih]
        cases encconfig.otpLoop kb (i + 1) (mb.drop (i + 1)) with
        | panic => rfl
        | ret res =>
          simp only [Heap.store, List.set_set, List.append_assoc, List.singleton_append]

end encconfig.mem

namespace encconfig.mem

open Go

theorem Outcome_map_ret {α β : Type} (f : α → β) (x : Outcome α) (y : β)
    (h : x.map f = .ret y) : ∃ a, x = .ret a ∧ f a = y := by
  cases x with
  | panic => cases h
  | ret a =>
    simp only [Outcome.map, Outcome.ret.injEq] at h
    exact ⟨a, rfl, h⟩

/-- The loop of the one-time pad over the heap writes only to its output
array, within the array. -/
theorem length_read_le (h : Heap) (b : Buf) : (h.read b).length ≤ b.len := by
  cases b with
  | nil => simp [Heap.read, Buf.len]
  | ref arr off len cap =>
    simp only [Heap.read, Buf.len, List.length_take]
    omega

theorem otpLoop_frame (key m : Buf) (a L : Nat) (h0 : Heap) (ha0 : h0.length ≤ a)
    (hL : m.len ≤ L) :
    ∀ (n i : Nat) (g g' : Heap), h0.Frame g .nil → a < g.length → (g.array a).length = L →
      otpLoop key m (.ref a 0 L L) n i g = .ret g' →
      h0.Frame g' .nil ∧ a < g'.length ∧ (g'.array a).length = L
  | 0, _, g, g', hf, ha, hl, hr => by
    simp only [otpLoop, Outcome.ret.injEq] at hr
    subst hr
    exact ⟨hf, ha, hl⟩
  | n + 1, i, g, g', hf, ha, hl, hr => by
    simp only [otpLoop] at hr
    split at hr
    · cases hr
    · split at hr
      · rename_i b k hb hk
        simp only [Heap.write, Buf.sliceFrom, Nat.zero_add] at hr
        refine otpLoop_frame key m a L h0 ha0 hL n (i + 1) _ g' (Heap.Frame.store_fresh hf a i _ ha0)
          (by rw [Heap.length_store]; exact ha) ?_ hr
        rw [Heap.array_store_eq g a i _ ha]
        simp only [List.length_append, List.length_take, List.length_drop, List.length_singleton]
        have h1 := length_read_le g m
        have h2 : i < (g.read m).length := by
          by_contra hc
          rw [List.getElem?_eq_none (by omega)] at hb
          cases hb
        omega
      · cases hr

/-- Method `Encrypt` of the one-time pad over the heap: whatever it returns,
it wrote only to the array it allocated, which holds the returned window. -/
theorem otp_Encrypt_frame (e : otpEncConfig) (h : Heap) (m : Buf) (h' : Heap) (c : Buf)
    (err : Option Err) (hE : e.Encrypt h m = .ret (h', c, err)) :
    h.Frame h' .nil ∧ h'.Valid c ∧ c = .ref h.length 0 m.len m.len := by
  unfold otpEncConfig.Encrypt at hE
  simp only [Heap.make] at hE
  split at hE
  · cases hE
  · rename_i g hg
    simp only [Outcome.ret.injEq, Prod.mk.injEq] at hE
    obtain ⟨rfl, rfl, _⟩ := hE
    obtain ⟨h1, h2, h3⟩ := otpLoop_frame e.key m h.length m.len h (Nat.le_refl _) (Nat.le_refl _)
      m.len 0 _ g (Heap.Frame.alloc h _) (by simp)
      (by rw [Heap.array_append_eq, List.length_replicate]) hg
    exact ⟨h1, ⟨h2, Nat.le_refl _, by omega⟩, rfl⟩

/-- Method `Encrypt` of the one-time pad over the heap, for a non-empty key:
it returns, in a fresh array, the bytes the method over slice values returns. -/
theorem otp_Encrypt_spec (e : otpEncConfig) (h : Heap) (m : Buf) (hk : h.Valid e.key)
    (hv : h.Valid m) (hne : e.key.len ≠ 0) :
    ∃ res, encconfig.otpLoop (h.read e.key) 0 (h.read m) = .ret res ∧
      res.length = m.len ∧
      e.Encrypt h m = .ret (h ++ [res], .ref h.length 0 m.len m.len, none) := by
  have hkl := Heap.length_read h e.key hk
  have hml := Heap.length_read h m hv
  obtain ⟨res, hres⟩ := encconfig.otpLoop_total (h.read e.key)
    (by intro h0; rw [h0] at hkl; exact hne hkl.symm) (h.read m) 0
  have hrl := (encconfig.otpLoop_involutive _ _ _ _ hres).2
  refine ⟨res, hres, by rw [hrl, hml], ?_⟩
  have hfa := Heap.Frame.alloc h (List.replicate m.len 0)
  have hlt : ∀ (b : Buf), h.Valid b → ∀ arr off len cap, b = .ref arr off len cap →
      arr ≠ h.length := by
    intro b hb arr off len cap hbe
    subst hbe
    exact Nat.ne_of_lt hb.1
  have := otpLoop_refines e.key m h.length m.len (h.read e.key) (h.read m) hkl.symm
    (hlt _ hk) (hlt _ hv) m.len 0 (h ++ [List.replicate m.len 0]) [] (by simp)
    (hfa.2 _ hk (by cases e.key <;> trivial)).2 (hfa.2 _ hv (by cases m <;> trivial)).2
    (by rw [Heap.array_append_eq]; rfl) rfl (by omega)
  rw [List.drop_zero, hres] at this
  simp only [otpEncConfig.Encrypt, Heap.make, this, List.nil_append]
  simp

end encconfig.mem

namespace encconfig.mem

open Go

theorem set_append_singleton (h : Heap) (z x : List Byte) :
    (h ++ [z]).set h.length x = h ++ [x] := by
  rw [List.set_append_right _ _ (Nat.le_refl _)]
  simp

/-- The `make` and `copy` of the constructors: a fresh array holding the bytes
of the caller's key. -/
theorem copy_make (h : Heap) (key : Buf) (hv : h.Valid key) :
    (h.make key.len key.len).1.copy (h.make key.len key.len).2 key = h ++ [h.read key] := by
  have hfa := (Heap.Frame.alloc h (List.replicate key.len 0)).2 key hv (by cases key <;> trivial)
  have hl := Heap.length_read h key hv
  show Heap.store (h ++ [List.replicate key.len 0]) h.length 0
    ((Heap.read (h ++ [List.replicate key.len 0]) key).take key.len) = _
  rw [hfa.2, List.take_of_length_le (by omega)]
  unfold Heap.store
  rw [Heap.array_append_eq, hl, List.take_zero, List.nil_append, Nat.zero_add,
    List.drop_of_length_le (by simp), List.append_nil, set_append_singleton]

theorem NewAESCBCEncConfig_eq (h : Heap) (key : Buf) (hv : h.Valid key)
    (hlen : key.len = 16 ∨ key.len = 24 ∨ key.len = 32) :
    NewAESCBCEncConfig h key =
      (h ++ [h.read key],
        some { key := .ref h.length 0 key.len key.len, blockSize := (BlockSize : Int) }, none) := by
  unfold NewAESCBCEncConfig
  simp only [AES_128_KEY_LEN, AES_192_KEY_LEN, AES_256_KEY_LEN]
  rw [if_neg (by omega), copy_make h key hv]
  rfl

theorem NewOTPEncConfig_eq (h : Heap) (key : Buf) (hv : h.Valid key) (hpos : 0 < key.len) :
    NewOTPEncConfig h key =
      (h ++ [h.read key], some { key := .ref h.length 0 key.len key.len }, none) := by
  unfold NewOTPEncConfig
  rw [if_neg (by omega)]
  simp only [copy_make h key hv]
  rfl

/-- The key array of a constructed cipher right after the construction. -/
theorem read_key_fresh (h : Heap) (key : Buf) (hv : h.Valid key) :
    Heap.Valid (h ++ [h.read key]) (.ref h.length 0 key.len key.len) ∧
    Heap.read (h ++ [h.read key]) (.ref h.length 0 key.len key.len) = h.read key := by
  have hl := Heap.length_read h key hv
  have ha := Heap.array_append_eq h (h.read key)
  refine ⟨⟨by simp, Nat.le_refl _, ?_⟩, ?_⟩
  · rw [ha, hl]
    omega
  · show ((Heap.array (h ++ [h.read key]) h.length).drop 0).take key.len = h.read key
    rw [ha, List.drop_zero, List.take_of_length_le (by omega)]

theorem SameExcept_refl (h : Heap) (b : Buf) : h.SameExcept h b :=
  ⟨rfl, fun _ => ⟨rfl, fun _ => rfl⟩⟩

theorem SameExcept_valid {h g : Heap} {k : Buf} (hs : h.SameExcept g k) (b : Buf)
    (hv : h.Valid b) : g.Valid b := by
  cases b with
  | nil => trivial
  | ref arr off len cap =>
    obtain ⟨h1, h2, h3⟩ := hv
    exact ⟨by rw [hs.1]; exact h1, h2, by rw [(hs.2 arr).1]; exact h3⟩

theorem SameExcept_read {h g : Heap} {k : Buf} (hs : h.SameExcept g k) (b : Buf)
    (hb : ∀ arr off len cap, b = .ref arr off len cap → ¬ k.InArray arr) :
    g.read b = h.read b := by
  cases b with
  | nil => rfl
  | ref arr off len cap =>
    simp only [Heap.read, (hs.2 arr).2 (hb arr off len cap rfl)]

/-- A window valid in `h` does not lie in an array allocated after `h`. -/
theorem notInArray_of_valid (h : Heap) (k : Buf) (hk : h.Valid k) (a : Nat) (ha : h.length ≤ a) :
    ¬ k.InArray a := by
  cases k with
  | nil => exact id
  | ref arr off len cap =>
    intro hin
    have h1 : arr = a := hin
    have := hk.1
    omega

theorem NewCipher_view (h : Heap) (k : Buf) (hv : h.Valid k)
    (hlen : k.len = 16 ∨ k.len = 24 ∨ k.len = 32) : NewCipher (h.view k) = none := by
  unfold NewCipher
  rw [if_pos (by rw [Heap.len_view h k hv]; exact hlen)]

/-- Method `Encrypt` of a constructed AES-CBC cipher over the heap, with a random
reader that delivers: it returns, with a nil error and in a fresh array, the
ciphertext of the bytes of the plaintext under the bytes its key array holds. -/
theorem Encrypt_spec (aes : AES) (e : aesCBCEncConfig) (f : Nat → Byte) (h : Heap) (p : Buf)
    (hv : h.Valid p) (hk : h.Valid e.key) (ho : e.key.Outside p)
    (hlen : e.key.len = 16 ∨ e.key.len = 24 ∨ e.key.len = 32)
    (hb : e.blockSize = (BlockSize : Int)) :
    ∃ h1 c, e.Encrypt aes (.ok f) h p = .ret (h1, c, none) ∧
      h1.view c = .mk (cipherOf aes (h.read e.key) ((List.range 16).map f) (h.view p)) ∧
      h.Frame h1 p ∧ h1.Valid c ∧ ∀ arr off len cap, c = .ref arr off len cap → h.length ≤ arr := by
  have hr := Encrypt_refines aes e (.ok f) h p hv hk ho
  rw [encconfig.aes_Encrypt_eq aes _ (NewCipher_view h e.key hk hlen) hb f (h.view p)] at hr
  obtain ⟨⟨h1, c, err⟩, hE, hres⟩ := Outcome_map_ret _ _ _ hr
  simp only [Heap.result, Prod.mk.injEq] at hres
  obtain ⟨hc, rfl⟩ := hres
  obtain ⟨hf, hvc, hfresh⟩ := Encrypt_frame aes e (.ok f) h p hv h1 c none hE
  refine ⟨h1, c, hE, ?_, hf, hvc, hfresh⟩
  rw [hc, Heap.bytes_view]

/-- Method `Decrypt` of a constructed AES-CBC cipher over the heap, on a
ciphertext made under the bytes its key array holds: it returns the plaintext
with a nil error. -/
theorem Decrypt_spec (aes : AES) (e : aesCBCEncConfig) (h : Heap) (c : Buf) (hv : h.Valid c)
    (hk : h.Valid e.key) (hlen : e.key.len = 16 ∨ e.key.len = 24 ∨ e.key.len = 32)
    (hb : e.blockSize = (BlockSize : Int))
    (hinv : ∀ b, aes.decrypt (h.read e.key) (aes.encrypt (h.read e.key) b) = b)
    (iv : List Byte) (hiv : iv.length = 16) (p : Slice)
    (hc : h.view c = .mk (cipherOf aes (h.read e.key) iv p)) :
    ∃ h1 q, e.Decrypt aes h c = .ret (h1, q, none) ∧ h1.read q = p.bytes ∧ h.Frame h1 .nil := by
  have hr := Decrypt_refines aes e h c hv
  rw [hc] at hr
  have hd := encconfig.aes_Decrypt_cipherOf aes
    { key := h.view e.key, blockSize := e.blockSize } (NewCipher_view h e.key hk hlen) hb
    (by simpa only [Heap.bytes_view] using hinv) iv hiv p
  simp only [Heap.bytes_view] at hd
  rw [hd] at hr
  obtain ⟨⟨h1, q, err⟩, hD, hres⟩ := Outcome_map_ret _ _ _ hr
  simp only [Heap.result, Prod.mk.injEq] at hres
  obtain ⟨hq, rfl⟩ := hres
  refine ⟨h1, q, hD, ?_, Decrypt_frame aes e h c h1 q none hD⟩
  rw [← Heap.bytes_view, hq]
  rfl

end encconfig.mem

namespace encconfig.mem

open Go

/-- A write within the backing array of `b` is a mutation of that array only. -/
theorem SameExcept_store (h : Heap) (a pos : Nat) (bs : List Byte) (off len cap : Nat)
    (hpos : pos + bs.length ≤ (h.array a).length) :
    h.SameExcept (h.store a pos bs) (.ref a off len cap) := by
  refine ⟨Heap.length_store h a pos bs, fun x => ?_⟩
  by_cases hx : x = a
  · subst hx
    refine ⟨?_, fun hn => absurd rfl hn⟩
    by_cases hlt : x < h.length
    · rw [Heap.array_store_eq h x pos bs hlt]
      simp only [List.length_append, List.length_take, List.length_drop]
      omega
    · rw [Heap.array_of_le _ _ (by rw [Heap.length_store]; omega),
        Heap.array_of_le _ _ (by omega)]
  · exact ⟨by rw [Heap.array_store_ne h a pos bs x hx], fun _ => Heap.array_store_ne h a pos bs x hx⟩

end encconfig.mem

namespace encconfig.mem

open Go

theorem Outside_self (p : Buf) : p.Outside p := by
  cases p with
  | nil => trivial
  | ref arr off len cap => exact Or.inr (Nat.le_refl _)

theorem Outside_nil_right (b : Buf) : b.Outside .nil := by
  cases b <;> trivial

/-- A window in an array allocated after `h` lies outside every window that is
valid in `h`. -/
theorem Outside_of_fresh (h : Heap) (p : Buf) (hp : h.Valid p) (a off len cap : Nat)
    (ha : h.length ≤ a) : (Buf.ref a off len cap).Outside p := by
  cases p with
  | nil => trivial
  | ref arr o l c =>
    have := hp.1
    exact Or.inl (by omega)

theorem read_append_fresh (h : Heap) (x : List Byte) (n : Nat) (hn : x.length = n) :
    Heap.Valid (h ++ [x]) (.ref h.length 0 n n) ∧
    Heap.read (h ++ [x]) (.ref h.length 0 n n) = x := by
  have ha := Heap.array_append_eq h x
  refine ⟨⟨by simp, Nat.le_refl _, ?_⟩, ?_⟩
  · rw [ha, hn]
    omega
  · show ((Heap.array (h ++ [x]) h.length).drop 0).take n = x
    rw [ha, List.drop_zero, List.take_of_length_le (by omega)]

/-- Method `Decrypt` of the AES-CBC cipher over slice values never panics. -/
theorem aes_Decrypt_returns (aes : AES) (e : encconfig.aesCBCEncConfig) (c : Slice) :
    ∃ r, e.Decrypt aes c = .ret r := by
  unfold encconfig.aesCBCEncConfig.Decrypt
  split
  · exact ⟨_, rfl⟩
  · simp only []
    split
    · exact ⟨_, rfl⟩
    · split
      · exact ⟨_, rfl⟩
      · rename_i hm
        simp only [CBCDecrypter.CryptBlocks, if_neg hm]
        split <;> exact ⟨_, rfl⟩

end encconfig.mem

/-! ## Frame properties: arguments and keys -/

/-- C29. Encrypt and Decrypt never mutate their argument. Over the heap, for a
well-formed caller's buffer `p` and either cipher: whenever `Encrypt` returns,
the bytes at positions `0 .. len-1` of `p` are what they were before the call,
and whenever `Decrypt` of the returned ciphertext `c` returns, the bytes of `p`
are still the same and those of `c` are what they were before that call; the
same holds for `p` passed to `Decrypt` as a ciphertext. The calls do return:
`Encrypt` of a cipher whose key array is well formed, as the constructors make
it, returns (AES: when the random reader delivers), and `Decrypt` of the
ciphertext returns. -/
theorem arguments_not_mutated (aes : Go.AES) (h : Go.Heap) (p : Go.Buf) (hp : h.Valid p) :
    (∀ (e : encconfig.mem.aesCBCEncConfig) rnd h1 c err,
      e.Encrypt aes rnd h p = .ret (h1, c, err) →
        h1.read p = h.read p ∧
        ∀ h2 q err2, e.Decrypt aes h1 c = .ret (h2, q, err2) →
          h2.read p = h.read p ∧ h2.read c = h1.read c) ∧
    (∀ (e : encconfig.mem.aesCBCEncConfig) h2 q err,
      e.Decrypt aes h p = .ret (h2, q, err) → h2.read p = h.read p) ∧
    (∀ (e : encconfig.mem.otpEncConfig) h1 c err,
      e.Encrypt h p = .ret (h1, c, err) →
        h1.read p = h.read p ∧
        ∀ h2 q err2, e.Decrypt h1 c = .ret (h2, q, err2) →
          h2.read p = h.read p ∧ h2.read c = h1.read c) ∧
    (∀ (e : encconfig.mem.otpEncConfig) h2 q err,
      e.Decrypt h p = .ret (h2, q, err) → h2.read p = h.read p) ∧
    (∀ (e : encconfig.mem.aesCBCEncConfig), h.Valid e.key → e.key.Outside p →
      (e.key.len = 16 ∨ e.key.len = 24 ∨ e.key.len = 32) → e.blockSize = (Go.BlockSize : Int) →
      ∀ f, ∃ h1 c, e.Encrypt aes (.ok f) h p = .ret (h1, c, none) ∧
        ∃ h2 q err2, e.Decrypt aes h1 c = .ret (h2, q, err2)) ∧
    (∀ (e : encconfig.mem.otpEncConfig), h.Valid e.key → e.key.len ≠ 0 →
      ∃ h1 c, e.Encrypt h p = .ret (h1, c, none) ∧
        ∃ h2 q, e.Decrypt h1 c = .ret (h2, q, none)) := by
  have hnil : p.Outside .nil := encconfig.mem.Outside_nil_right p
  refine ⟨?_, ?_, ?_, ?_, ?_, ?_⟩
  · intro e rnd h1 c err hE
    obtain ⟨hf, hvc, _⟩ := encconfig.mem.Encrypt_frame aes e rnd h p hp h1 c err hE
    obtain ⟨hp1, hr1⟩ := hf.2 p hp (encconfig.mem.Outside_self p)
    refine ⟨hr1, fun h2 q err2 hD => ?_⟩
    have hf2 := encconfig.mem.Decrypt_frame aes e h1 c h2 q err2 hD
    exact ⟨(hf2.2 p hp1 hnil).2.trans hr1, (hf2.2 c hvc (encconfig.mem.Outside_nil_right c)).2⟩
  · intro e h2 q err hD
    exact ((encconfig.mem.Decrypt_frame aes e h p h2 q err hD).2 p hp hnil).2
  · intro e h1 c err hE
    obtain ⟨hf, hvc, _⟩ := encconfig.mem.otp_Encrypt_frame e h p h1 c err hE
    obtain ⟨hp1, hr1⟩ := hf.2 p hp hnil
    refine ⟨hr1, fun h2 q err2 hD => ?_⟩
    obtain ⟨hf2, _, _⟩ := encconfig.mem.otp_Encrypt_frame e h1 c h2 q err2 hD
    exact ⟨(hf2.2 p hp1 hnil).2.trans hr1, (hf2.2 c hvc (encconfig.mem.Outside_nil_right c)).2⟩
  · intro e h2 q err hD
    exact ((encconfig.mem.otp_Encrypt_frame e h p h2 q err hD).1.2 p hp hnil).2
  · intro e hk ho hlen hb f
    obtain ⟨h1, c, hE, _, _, hvc, _⟩ := encconfig.mem.Encrypt_spec aes e f h p hp hk ho hlen hb
    refine ⟨h1, c, hE, ?_⟩
    have hr := encconfig.mem.Decrypt_refines aes e h1 c hvc
    obtain ⟨r, hr2⟩ := encconfig.mem.aes_Decrypt_returns aes
      { key := h1.view e.key, blockSize := e.blockSize } (h1.view c)
    rw [hr2] at hr
    obtain ⟨⟨h2, q, err2⟩, hD, _⟩ := encconfig.mem.Outcome_map_ret _ _ _ hr
    exact ⟨h2, q, err2, hD⟩
  · intro e hk hne
    obtain ⟨res, _, hl, hE⟩ := encconfig.mem.otp_Encrypt_spec e h p hk hp hne
    refine ⟨_, _, hE, ?_⟩
    have hk1 := ((Go.Heap.Frame.alloc h res).2 e.key hk (encconfig.mem.Outside_nil_right _)).1
    obtain ⟨res2, _, _, hD⟩ := encconfig.mem.otp_Encrypt_spec e (h ++ [res])
      (.ref h.length 0 p.len p.len) hk1 (encconfig.mem.read_append_fresh h res p.len hl).1 hne
    exact ⟨_, _, hD⟩

/-- C30. Key persistence. Over the heap, both constructors put a copy of the
caller's key bytes into a fresh array, and the cipher works from that copy:
however the caller's key array is overwritten after the construction (heap `g`)
and again after `Encrypt` (heap `g2`), the key array of the cipher still holds
the bytes the caller's key held at construction time, `Encrypt` returns the
ciphertext for those key bytes, and `Decrypt` of it returns the plaintext.
For AES the block primitive is one whose decryption inverts its encryption
under that key. -/
theorem key_persistence (aes : Go.AES) (h : Go.Heap) (key p : Go.Buf) (hk : h.Valid key)
    (hp : h.Valid p) :
    ((key.len = 16 ∨ key.len = 24 ∨ key.len = 32) →
      (∀ b, aes.decrypt (h.read key) (aes.encrypt (h.read key) b) = b) →
      ∃ e, encconfig.mem.NewAESCBCEncConfig h key = (h ++ [h.read key], some e, none) ∧
        ¬ key.InArray h.length ∧ e.key.InArray h.length ∧
        ∀ g, Go.Heap.SameExcept (h ++ [h.read key]) g key →
          g.read e.key = h.read key ∧
          ∀ f, ∃ g1 c, e.Encrypt aes (.ok f) g p = .ret (g1, c, none) ∧
            g1.view c = .mk (encconfig.cipherOf aes (h.read key) ((List.range 16).map f) (g.view p)) ∧
            ∀ g2, g1.SameExcept g2 key →
              g2.read e.key = h.read key ∧
              ∃ g3 q, e.Decrypt aes g2 c = .ret (g3, q, none) ∧ g3.read q = g.read p) ∧
    (0 < key.len →
      ∃ e, encconfig.mem.NewOTPEncConfig h key = (h ++ [h.read key], some e, none) ∧
        ¬ key.InArray h.length ∧ e.key.InArray h.length ∧
        ∀ g, Go.Heap.SameExcept (h ++ [h.read key]) g key →
          g.read e.key = h.read key ∧
          ∃ g1 c cbytes, e.Encrypt g p = .ret (g1, c, none) ∧ g1.view c = .mk cbytes ∧
            encconfig.otpLoop (h.read key) 0 (g.read p) = .ret cbytes ∧
            ∀ g2, g1.SameExcept g2 key →
              g2.read e.key = h.read key ∧
              ∃ g3 q, e.Decrypt g2 c = .ret (g3, q, none) ∧ g3.read q = g.read p) := by
  have hfresh := encconfig.mem.read_key_fresh h key hk
  have hnk : ∀ a, h.length ≤ a → ¬ key.InArray a :=
    fun a ha => encconfig.mem.notInArray_of_valid h key hk a ha
  have hnk2 : ∀ arr off len cap, Go.Buf.ref h.length 0 key.len key.len = .ref arr off len cap →
      ¬ key.InArray arr := by
    intro arr off len cap he
    cases he
    exact hnk _ (Nat.le_refl _)
  have hp1 := ((Go.Heap.Frame.alloc h (h.read key)).2 p hp (encconfig.mem.Outside_nil_right p)).1
  have hout := encconfig.mem.Outside_of_fresh h p hp h.length 0 key.len key.len (Nat.le_refl _)
  constructor
  · intro hlen hinv
    refine ⟨_, encconfig.mem.NewAESCBCEncConfig_eq h key hk hlen, hnk _ (Nat.le_refl _), rfl, ?_⟩
    intro g hs
    have hkg := encconfig.mem.SameExcept_valid hs _ hfresh.1
    have hrg := (encconfig.mem.SameExcept_read hs _ hnk2).trans hfresh.2
    have hpg := encconfig.mem.SameExcept_valid hs _ hp1
    refine ⟨hrg, fun f => ?_⟩
    obtain ⟨g1, c, hE, hview, hf, hvc, hcf⟩ := encconfig.mem.Encrypt_spec aes
      { key := .ref h.length 0 key.len key.len, blockSize := (Go.BlockSize : Int) } f g p hpg hkg
      hout hlen rfl
    simp only [hrg] at hview
    refine ⟨g1, c, hE, hview, fun g2 hs2 => ?_⟩
    obtain ⟨hk1, hr1⟩ := hf.2 _ hkg hout
    have hk2 := encconfig.mem.SameExcept_valid hs2 _ hk1
    have hr2 := ((encconfig.mem.SameExcept_read hs2 _ hnk2).trans hr1).trans hrg
    have hc2 := encconfig.mem.SameExcept_valid hs2 _ hvc
    have hg : h.length ≤ g.length := by rw [hs.1]; simp
    have hcr : g2.read c = g1.read c := encconfig.mem.SameExcept_read hs2 c
      (fun arr off len cap hc => hnk arr (Nat.le_trans hg (hcf arr off len cap hc)))
    have hcv : g2.view c = .mk (encconfig.cipherOf aes (g2.read
        (.ref h.length 0 key.len key.len)) ((List.range 16).map f) (g.view p)) := by
      rw [Go.Heap.view_eq_of_read g1 g2 c hcr, hview, hr2]
    obtain ⟨g3, q, hD, hq, _⟩ := encconfig.mem.Decrypt_spec aes
      { key := .ref h.length 0 key.len key.len, blockSize := (Go.BlockSize : Int) } g2 c hc2 hk2
      hlen rfl (by simpa only [hr2] using hinv) ((List.range 16).map f)
      (encconfig.length_readIV f) (g.view p) hcv
    exact ⟨hr2, g3, q, hD, by rw [hq, Go.Heap.bytes_view]⟩
  · intro hpos
    refine ⟨_, encconfig.mem.NewOTPEncConfig_eq h key hk hpos, hnk _ (Nat.le_refl _), rfl, ?_⟩
    intro g hs
    have hkg := encconfig.mem.SameExcept_valid hs _ hfresh.1
    have hrg := (encconfig.mem.SameExcept_read hs _ hnk2).trans hfresh.2
    have hpg := encconfig.mem.SameExcept_valid hs _ hp1
    have hne : (Go.Buf.ref h.length 0 key.len key.len).len ≠ 0 := Nat.ne_of_gt hpos
    obtain ⟨res, hres, hl, hE⟩ := encconfig.mem.otp_Encrypt_spec
      { key := .ref h.length 0 key.len key.len } g p hkg hpg hne
    simp only [hrg] at hres
    have hcf := encconfig.mem.read_append_fresh g res p.len hl
    refine ⟨hrg, _, _, res, hE, by simp only [Go.Heap.view, hcf.2], hres, fun g2 hs2 => ?_⟩
    have hk1 := (Go.Heap.Frame.alloc g res).2 _ hkg (encconfig.mem.Outside_nil_right _)
    have hk2 := encconfig.mem.SameExcept_valid hs2 _ hk1.1
    have hr2 := ((encconfig.mem.SameExcept_read hs2 _ hnk2).trans hk1.2).trans hrg
    have hc2 := encconfig.mem.SameExcept_valid hs2 _ hcf.1
    have hg : h.length ≤ g.length := by rw [hs.1]; simp
    have hcr : g2.read (.ref g.length 0 p.len p.len) = res :=
      (encconfig.mem.SameExcept_read hs2 _ (fun arr off len cap hc => by
        cases hc
        exact hnk _ hg)).trans hcf.2
    obtain ⟨res2, hres2, hl2, hD⟩ := encconfig.mem.otp_Encrypt_spec
      { key := .ref h.length 0 key.len key.len } g2 (.ref g.length 0 p.len p.len) hk2 hc2 hne
    simp only [hr2, hcr] at hres2
    rw [(encconfig.otpLoop_involutive _ _ _ _ hres).1] at hres2
    simp only [Go.Outcome.ret.injEq] at hres2
    refine ⟨hr2, _, _, hD, ?_⟩
    rw [(encconfig.mem.read_append_fresh g2 res2 _ hl2).2, ← hres2]

/-- Witness for C29: the cipher of the key `"this is a key!!!"` encrypts the
three bytes `"bar"` that sit at the start of a 20-byte array; the call leaves
those three bytes alone, and it overwrites the thirteen bytes behind them. -/
theorem arguments_not_mutated_witness :
    Examples.heap1.Valid Examples.barBuf ∧
    Examples.memCfg16.Encrypt Examples.xorAES (.ok Examples.countingReader) Examples.heap1
      Examples.barBuf = .ret (Examples.heap2, Examples.cipherBuf, none) ∧
    Examples.heap2.read Examples.barBuf = Examples.heap1.read Examples.barBuf ∧
    Examples.heap1.read Examples.barBuf = Examples.bar ∧
    Examples.heap2.read Examples.tailBuf ≠ Examples.heap1.read Examples.tailBuf :=
  have hE : Examples.memCfg16.Encrypt Examples.xorAES (.ok Examples.countingReader)
      Examples.heap1 Examples.barBuf = .ret (Examples.heap2, Examples.cipherBuf, none) := by
    decide
  ⟨by decide, hE,
    ((arguments_not_mutated Examples.xorAES Examples.heap1 Examples.barBuf (by decide)).1
      Examples.memCfg16 _ _ _ _ hE).1, by decide, by decide⟩

/-- Witness for C30: the caller builds the cipher from the key `"this is a
key!!!"`, encrypts `"bar"`, zeroes its key array and decrypts: the plaintext
comes back. -/
theorem key_persistence_witness :
    Examples.heap0.Valid Examples.keyBuf ∧ Examples.heap0.Valid Examples.barBuf ∧
    encconfig.mem.NewAESCBCEncConfig Examples.heap0 Examples.keyBuf =
      (Examples.heap1, some Examples.memCfg16, none) ∧
    Examples.memCfg16.Encrypt Examples.xorAES (.ok Examples.countingReader) Examples.heap1
      Examples.barBuf = .ret (Examples.heap2, Examples.cipherBuf, none) ∧
    Examples.heap2Zeroed.read Examples.keyBuf = List.replicate 16 0 ∧
    Examples.heap2Zeroed.read Examples.memCfg16.key = Examples.heap0.read Examples.keyBuf ∧
    ∃ g3 q, Examples.memCfg16.Decrypt Examples.xorAES Examples.heap2Zeroed Examples.cipherBuf =
      .ret (g3, q, none) ∧ g3.read q = Examples.heap1.read Examples.barBuf := by
  have hnew : encconfig.mem.NewAESCBCEncConfig Examples.heap0 Examples.keyBuf =
      (Examples.heap1, some Examples.memCfg16, none) := by decide
  have hE : Examples.memCfg16.Encrypt Examples.xorAES (.ok Examples.countingReader)
      Examples.heap1 Examples.barBuf = .ret (Examples.heap2, Examples.cipherBuf, none) := by
    decide
  obtain ⟨e, he, _, _, hall⟩ := (key_persistence Examples.xorAES Examples.heap0 Examples.keyBuf
    Examples.barBuf (by decide) (by decide)).1 (by decide) (Examples.xorAES_inverts _)
  have hee : e = Examples.memCfg16 := by
    rw [hnew] at he
    simp only [Prod.mk.injEq, Option.some.injEq] at he
    exact he.2.1.symm
  subst hee
  obtain ⟨g1, c, hE2, _, hmut⟩ := (hall Examples.heap1
    (encconfig.mem.SameExcept_refl _ _)).2 Examples.countingReader
  rw [hE] at hE2
  simp only [Go.Outcome.ret.injEq, Prod.mk.injEq, and_true] at hE2
  obtain ⟨rfl, rfl⟩ := hE2
  obtain ⟨hkey, hdec⟩ := hmut Examples.heap2Zeroed
    (encconfig.mem.SameExcept_store Examples.heap2 0 0 (List.replicate 16 0) 0 16 16 (by decide))
  exact ⟨by decide, by decide, hnew, hE, by decide, hkey, hdec⟩

/-! ## Operations built for `Do` and `Txn` -/

/-- C31. `OpPut` and `OpValue` encrypt at op-construction time. For a wrapper
with the wrap function `wrap`, every key `k`, value `v` and options: when
`wrap(v)` returns `w` with a nil error, `OpValue(v)` returns `w` and `OpPut(k, v)`
returns the put operation of the underlying client for the same key `k`, the
value `w` and the same options, both with a nil error; when `wrap(v)` fails with
`e`, `OpValue` returns the empty string with `e` and `OpPut` the zero `Op` with
`e`. `OpGet` and `OpDelete` return the operation of the underlying client for
the same key and options. -/
theorem op_constructors {τ Ctx Opts CR T : Type} (s : skeysapiv3.secureKV τ Ctx Opts CR T)
    (wrap : skeysapiv3.ValueGetWrapFunc) (hs : s.valueSetWrap = some wrap) :
    (∀ rnd k v opts w, wrap rnd v = .ret (w, none) →
      s.OpValue rnd v = .ret (w, none) ∧
      s.OpPut rnd k v opts = .ret (.OpPut k w opts, none)) ∧
    (∀ rnd k v opts x e, wrap rnd v = .ret (x, some e) →
      s.OpValue rnd v = .ret ([], some e) ∧
      s.OpPut rnd k v opts = .ret (.zero, some e)) ∧
    (∀ k opts, s.OpGet k opts = .OpGet k opts) ∧
    (∀ k opts, s.OpDelete k opts = .OpDelete k opts) := by
  refine ⟨?_, ?_, fun _ _ => rfl, fun _ _ => rfl⟩
  · intro rnd k v opts w hw
    simp only [skeysapiv3.secureKV.OpValue, skeysapiv3.secureKV.OpPut, hs, hw, and_self]
  · intro rnd k v opts x e hw
    simp only [skeysapiv3.secureKV.OpValue, skeysapiv3.secureKV.OpPut, hs, hw, and_self]

/-- Witness for C31: the AES wrapper of the key `"this is a key!!!"` builds the
put of `"bar"` under `"/foo"`; over an unreachable random reader it returns the
reader's error. -/
theorem op_constructors_witness :
    (Examples.skv16 Examples.mapKV).valueSetWrap =
      some (skeysapiv3.GetWrappers Examples.hexCodec Examples.enc16).1 ∧
    (Examples.skv16 Examples.mapKV).OpValue (.ok Examples.countingReader) Examples.bar =
      .ret (Examples.barStored, none) ∧
    (Examples.skv16 Examples.mapKV).OpPut (.ok Examples.countingReader) Examples.foo
      Examples.bar () = .ret (.OpPut Examples.foo Examples.barStored (), none) ∧
    (Examples.skv16 Examples.mapKV).OpValue (.error (.external 7)) Examples.bar =
      .ret ([], some (.external 7)) ∧
    (Examples.skv16 Examples.mapKV).OpPut (.error (.external 7)) Examples.foo Examples.bar () =
      .ret (.zero, some (.external 7)) :=
  have h := op_constructors (Examples.skv16 Examples.mapKV)
    (skeysapiv3.GetWrappers Examples.hexCodec Examples.enc16).1 rfl
  ⟨rfl,
    (h.1 (.ok Examples.countingReader) Examples.foo Examples.bar () Examples.barStored
      (by decide)).1,
    (h.1 (.ok Examples.countingReader) Examples.foo Examples.bar () Examples.barStored
      (by decide)).2,
    (h.2.1 (.error (.external 7)) Examples.foo Examples.bar () [] (.external 7) (by decide)).1,
    (h.2.1 (.error (.external 7)) Examples.foo Examples.bar () [] (.external 7) (by decide)).2⟩

namespace skeysapiv3

open Go encconfig

variable {σ Ctx Opts CR T : Type}

theorem unwrapKeyValue_of_unwrapsKv (s : secureKV σ Ctx Opts CR T) (unwrap : ValueSetUnwrapFunc)
    (hs : s.valueGetUnwrap = some unwrap) (kv kv' : Option KeyValue)
    (h : UnwrapsKv unwrap kv kv') : s.unwrapKeyValue kv = .ret (kv', none) := by
  cases h with
  | absent m hm => simp only [secureKV.unwrapKeyValue, hm, ne_eq, not_true_eq_false, if_false]
  | value m v hm hv => simp only [secureKV.unwrapKeyValue, hm, ne_eq, not_false_eq_true, if_true, hs, hv]

theorem unwrapUntilError_of_unwrapsKv (s : secureKV σ Ctx Opts CR T) (unwrap : ValueSetUnwrapFunc)
    (hs : s.valueGetUnwrap = some unwrap) :
    ∀ l : List (Option KeyValue), (∀ kv ∈ l, ∃ kv', UnwrapsKv unwrap kv kv') →
      ∃ l', s.unwrapUntilError l = .ret (l', none) ∧ List.Forall₂ (UnwrapsKv unwrap) l l'
  | [], _ => ⟨[], rfl, List.Forall₂.nil⟩
  | kv :: rest, h => by
    obtain ⟨kv', hkv⟩ := h kv (List.mem_cons_self _ _)
    obtain ⟨rest', hr, hf⟩ := unwrapUntilError_of_unwrapsKv s unwrap hs rest
      (fun x hx => h x (List.mem_cons_of_mem _ hx))
    refine ⟨kv' :: rest', ?_, List.Forall₂.cons hkv hf⟩
    simp only [secureKV.unwrapUntilError, unwrapKeyValue_of_unwrapsKv s unwrap hs kv kv' hkv, hr]

theorem unwrapIgnoringErrors_of_unwrapsKv (s : secureKV σ Ctx Opts CR T)
    (unwrap : ValueSetUnwrapFunc) (hs : s.valueGetUnwrap = some unwrap) :
    ∀ l : List (Option KeyValue), (∀ kv ∈ l, ∃ kv', UnwrapsKv unwrap kv kv') →
      ∃ l', s.unwrapIgnoringErrors l = .ret l' ∧ List.Forall₂ (UnwrapsKv unwrap) l l'
  | [], _ => ⟨[], rfl, List.Forall₂.nil⟩
  | kv :: rest, h => by
    obtain ⟨kv', hkv⟩ := h kv (List.mem_cons_self _ _)
    obtain ⟨rest', hr, hf⟩ := unwrapIgnoringErrors_of_unwrapsKv s unwrap hs rest
      (fun x hx => h x (List.mem_cons_of_mem _ hx))
    refine ⟨kv' :: rest', ?_, List.Forall₂.cons hkv hf⟩
    simp only [secureKV.unwrapIgnoringErrors,
      unwrapKeyValue_of_unwrapsKv s unwrap hs kv kv' hkv, hr]

end skeysapiv3

/-! ## Unwrap failures surfaced with the response -/

namespace skeysapi

open Go encconfig

variable {σ Ctx Opts W : Type}

mutual
/-- A tree whose values are all accepted is unwrapped by `unwrapNode` without
an error. -/
theorem unwrapNode_of_unwrapsTo (unwrap : ValueSetUnwrapFunc) :
    ∀ (n n' : NodePtr), UnwrapsTo unwrap n n' → unwrapNode unwrap n = .ret (n', none)
  | .null, _, h => by cases h; rfl
  | .node key dir value nodes, _, h => by
    cases h with
    | empty _ _ hl =>
      simp [unwrapNode, unwrapNodes_of_unwrapsListTo unwrap nodes _ hl]
    | value _ _ hv hu hl =>
      simp [unwrapNode, unwrapNodes_of_unwrapsListTo unwrap nodes _ hl, hv, hu]
/-- The same for a list of children. -/
theorem unwrapNodes_of_unwrapsListTo (unwrap : ValueSetUnwrapFunc) :
    ∀ (ns ns' : NodeList), UnwrapsListTo unwrap ns ns' → unwrapNodes unwrap ns = .ret (ns', none)
  | .nil, _, h => by cases h; rfl
  | .cons nc rest, _, h => by
    cases h with
    | cons hn hl =>
      simp [unwrapNodes, unwrapNode_of_unwrapsTo unwrap nc _ hn,
        unwrapNodes_of_unwrapsListTo unwrap rest _ hl]
end

mutual
/-- In a tree with a rejected value, `unwrapNode` returns the error of the
first rejected value and leaves the values before it unwrapped. -/
theorem unwrapNode_of_unwrapStops (unwrap : ValueSetUnwrapFunc) :
    ∀ (n n' : NodePtr) (e : Err), UnwrapStops unwrap n n' e →
      unwrapNode unwrap n = .ret (n', some e)
  | .null, _, _, h => by cases h
  | .node key dir value nodes, _, e, h => by
    cases h with
    | child _ _ _ hl =>
      simp [unwrapNode, unwrapNodes_of_unwrapListStops unwrap nodes _ e hl]
    | value _ _ hl hv hu =>
      simp [unwrapNode, unwrapNodes_of_unwrapsListTo unwrap nodes _ hl, hv, hu]
/-- The same for a list of children. -/
theorem unwrapNodes_of_unwrapListStops (unwrap : ValueSetUnwrapFunc) :
    ∀ (ns ns' : NodeList) (e : Err), UnwrapListStops unwrap ns ns' e →
      unwrapNodes unwrap ns = .ret (ns', some e)
  | .nil, _, _, h => by cases h
  | .cons nc rest, _, e, h => by
    cases h with
    | head _ hn =>
      simp [unwrapNodes, unwrapNode_of_unwrapStops unwrap nc _ e hn]
    | tail hn hl =>
      simp [unwrapNodes, unwrapNode_of_unwrapsTo unwrap nc _ hn,
        unwrapNodes_of_unwrapListStops unwrap rest _ e hl]
end

/-- For a response with a rejected value, a method returns, after a successful
store call, the response with the values before the rejected one unwrapped,
and the error of the rejected value. -/
theorem finish_of_unwrapStopsIn (s : secureKeysAPI σ Ctx Opts W) (unwrap : ValueSetUnwrapFunc)
    (hs : s.valueGetUnwrap = some unwrap) (st1 : σ) (r r' : Response) (e : Err)
    (h : UnwrapStopsIn unwrap r r' e) :
    s.finish (st1, some r, none) = .ret (st1, some r', some e) := by
  cases h with
  | node hn =>
    simp [secureKeysAPI.finish, secureKeysAPI.unwrapResponse, secureKeysAPI.unwrapNode, hs,
      unwrapNode_of_unwrapStops unwrap _ _ e hn]
  | prev hn hp =>
    simp [secureKeysAPI.finish, secureKeysAPI.unwrapResponse, secureKeysAPI.unwrapNode, hs,
      unwrapNode_of_unwrapsTo unwrap _ _ hn, unwrapNode_of_unwrapStops unwrap _ _ e hp]

end skeysapi

namespace skeysapiv3

open Go encconfig

variable {σ Ctx Opts CR T : Type}

/-- In a list of records in which `unwrap` accepts the values of the records
`pre` and rejects the value of the record after them, the loop that stops at
the first error returns the error of that record, with the records of `pre`
unwrapped and the rejected record and the records after it as they were. -/
theorem unwrapUntilError_of_rejected (s : secureKV σ Ctx Opts CR T) (unwrap : ValueSetUnwrapFunc)
    (hs : s.valueGetUnwrap = some unwrap) (m : KeyValue) (post : List (Option KeyValue))
    (x : Str) (e : Err) (hv : m.Value ≠ .nil) (hu : unwrap m.Value.toStr = .ret (x, some e)) :
    ∀ (pre pre' : List (Option KeyValue)), List.Forall₂ (UnwrapsKv unwrap) pre pre' →
      s.unwrapUntilError (pre ++ some m :: post) = .ret (pre' ++ some m :: post, some e)
  | [], _, h => by
    cases h
    simp [secureKV.unwrapUntilError, secureKV.unwrapKeyValue, hs, hv, hu]
  | kv :: rest, _, h => by
    cases h with
    | cons hkv hrest =>
      simp [secureKV.unwrapUntilError, unwrapKeyValue_of_unwrapsKv s unwrap hs kv _ hkv,
        unwrapUntilError_of_rejected s unwrap hs m post x e hv hu rest _ hrest]

end skeysapiv3

/-- C21. Unwrap failure surfaces both result and error. Let the store operation
succeed with a response in which some value is rejected by the unwrap function
with the error `e`, every value that comes before it being accepted (v2: a value
of the node tree, children before their parent, or of the previous-node tree
after the whole node tree; v3: the value of a record in the list). Then the v2
`Get`, `Set`, `Delete`, `Create`, `CreateInOrder` and `Update` and the v3 `Get`
return `e` together with a non-nil response: the response of the store, with
the values before the rejected one unwrapped and the rejected value and the
values after it as stored. -/
theorem unwrap_failure_surfaced {σ Ctx Opts W τ Ctx3 Opts3 CR T : Type}
    (s2 : skeysapi.secureKeysAPI σ Ctx Opts W) (s3 : skeysapiv3.secureKV τ Ctx3 Opts3 CR T)
    (unwrap2 : skeysapi.ValueSetUnwrapFunc) (unwrap3 : skeysapiv3.ValueSetUnwrapFunc)
    (h2 : s2.valueGetUnwrap = some unwrap2) (h3 : s3.valueGetUnwrap = some unwrap3) :
    (∀ st ctx key opts st1 r r' e, s2.k.Get st ctx key opts = (st1, some r, none) →
      skeysapi.UnwrapStopsIn unwrap2 r r' e →
      s2.Get st ctx key opts = .ret (st1, some r', some e)) ∧
    (∀ rnd st ctx key value opts w st1 r r' e, s2.wrapValue rnd value = .ret (w, none) →
      s2.k.Set st ctx key w opts = (st1, some r, none) → skeysapi.UnwrapStopsIn unwrap2 r r' e →
      s2.Set rnd st ctx key value opts = .ret (st1, some r', some e)) ∧
    (∀ st ctx key opts st1 r r' e, s2.k.Delete st ctx key opts = (st1, some r, none) →
      skeysapi.UnwrapStopsIn unwrap2 r r' e →
      s2.Delete st ctx key opts = .ret (st1, some r', some e)) ∧
    (∀ rnd st ctx key value w st1 r r' e, s2.wrapValue rnd value = .ret (w, none) →
      s2.k.Create st ctx key w = (st1, some r, none) → skeysapi.UnwrapStopsIn unwrap2 r r' e →
      s2.Create rnd st ctx key value = .ret (st1, some r', some e)) ∧
    (∀ rnd st ctx dir value opts w st1 r r' e, s2.wrapValue rnd value = .ret (w, none) →
      s2.k.CreateInOrder st ctx dir w opts = (st1, some r, none) →
      skeysapi.UnwrapStopsIn unwrap2 r r' e →
      s2.CreateInOrder rnd st ctx dir value opts = .ret (st1, some r', some e)) ∧
    (∀ rnd st ctx key value w st1 r r' e, s2.wrapValue rnd value = .ret (w, none) →
      s2.k.Update st ctx key w = (st1, some r, none) → skeysapi.UnwrapStopsIn unwrap2 r r' e →
      s2.Update rnd st ctx key value = .ret (st1, some r', some e)) ∧
    (∀ st ctx key opts st1 r pre pre' m post x e,
      s3.k.Get st ctx key opts = (st1, some r, none) → r.Kvs = pre ++ some m :: post →
      List.Forall₂ (skeysapiv3.UnwrapsKv unwrap3) pre pre' → m.Value ≠ .nil →
      unwrap3 m.Value.toStr = .ret (x, some e) →
      s3.Get st ctx key opts = .ret (st1, some { Kvs := pre' ++ some m :: post }, some e)) := by
  refine ⟨?_, ?_, ?_, ?_, ?_, ?_, ?_⟩
  · intro st ctx key opts st1 r r' e h hu
    simp only [skeysapi.secureKeysAPI.Get, h]
    exact skeysapi.finish_of_unwrapStopsIn s2 unwrap2 h2 st1 r r' e hu
  · intro rnd st ctx key value opts w st1 r r' e hw h hu
    simp only [skeysapi.secureKeysAPI.Set, hw, h]
    exact skeysapi.finish_of_unwrapStopsIn s2 unwrap2 h2 st1 r r' e hu
  · intro st ctx key opts st1 r r' e h hu
    simp only [skeysapi.secureKeysAPI.Delete, h]
    exact skeysapi.finish_of_unwrapStopsIn s2 unwrap2 h2 st1 r r' e hu
  · intro rnd st ctx key value w st1 r r' e hw h hu
    simp only [skeysapi.secureKeysAPI.Create, hw, h]
    exact skeysapi.finish_of_unwrapStopsIn s2 unwrap2 h2 st1 r r' e hu
  · intro rnd st ctx dir value opts w st1 r r' e hw h hu
    simp only [skeysapi.secureKeysAPI.CreateInOrder, hw, h]
    exact skeysapi.finish_of_unwrapStopsIn s2 unwrap2 h2 st1 r r' e hu
  · intro rnd st ctx key value w st1 r r' e hw h hu
    simp only [skeysapi.secureKeysAPI.Update, hw, h]
    exact skeysapi.finish_of_unwrapStopsIn s2 unwrap2 h2 st1 r r' e hu
  · intro st ctx key opts st1 r pre pre' m post x e h hk hpre hv hu
    simp only [skeysapiv3.secureKV.Get, h, hk,
      skeysapiv3.unwrapUntilError_of_rejected s3 unwrap3 h3 m post x e hv hu pre pre' hpre]

/-- Witness for C21: the stores hold the stored form of `"bar"` under `"/foo"`
and then `"zz"`, which is not an encoding, under `"/foo/2"`. A v2 `Get` of the
directory and a v3 `Get` of the range through the AES wrappers return the error
of the decoder for `"zz"` together with the response in which the first value
reads `"bar"` and the second is still `"zz"`. -/
theorem unwrap_failure_surfaced_witness :
    (Examples.skapi16 Examples.dirStore).valueGetUnwrap =
      some (skeysapi.GetWrappers Examples.hexCodec Examples.enc16).2 ∧
    (Examples.skv16 Examples.rangeKV).valueGetUnwrap =
      some (skeysapiv3.GetWrappers Examples.hexCodec Examples.enc16).2 ∧
    (Examples.skapi16 Examples.dirStore).Get Examples.goodThenBad () Examples.foo () =
      .ret (Examples.goodThenBad,
        some { Action := [],
               Node := .node Examples.foo true []
                 (.cons (.node Examples.foo false Examples.bar .nil)
                   (.cons (.node (Examples.foo ++ [47, 50]) false Examples.zz .nil) .nil)),
               PrevNode := .null },
        some (.external 1)) ∧
    (Examples.skv16 Examples.rangeKV).Get Examples.goodThenBad () Examples.foo () =
      .ret (Examples.goodThenBad,
        some { Kvs := [some { Key := .mk Examples.foo, Value := Go.Slice.ofStr Examples.bar }] ++
                 some { Key := .mk (Examples.foo ++ [47, 50]), Value := .mk Examples.zz } :: [] },
        some (.external 1)) :=
  have h := unwrap_failure_surfaced (Examples.skapi16 Examples.dirStore)
    (Examples.skv16 Examples.rangeKV) _ _ rfl rfl
  ⟨rfl, rfl,
    h.1 Examples.goodThenBad () Examples.foo () _ _ _ (.external 1) rfl
      (.node
        { Action := [],
          Node := .node Examples.foo true [] (Examples.listing Examples.goodThenBad),
          PrevNode := .null }
        (.child _ _ _
          (.tail (.value _ _ (by decide) (by decide : _ = Go.Outcome.ret (Examples.bar, none)) .nil)
            (.head _ (.value _ _ .nil (by decide)
              (by decide : _ = Go.Outcome.ret (([] : Go.Str), some (Go.Err.external 1)))))))),
    h.2.2.2.2.2.2 Examples.goodThenBad () Examples.foo () _
      { Kvs := [some { Key := .mk Examples.foo, Value := .mk Examples.barStored },
                some { Key := .mk (Examples.foo ++ [47, 50]), Value := .mk Examples.zz }] }
      [some { Key := .mk Examples.foo, Value := .mk Examples.barStored }]
      [some { Key := .mk Examples.foo, Value := Go.Slice.ofStr Examples.bar }]
      { Key := .mk (Examples.foo ++ [47, 50]), Value := .mk Examples.zz } [] [] (.external 1)
      rfl rfl
      (.cons (.value { Key := .mk Examples.foo, Value := .mk Examples.barStored } Examples.bar
          (by decide) (by decide)) .nil)
      (by decide) (by decide)⟩

/-- C32. Batched-result unwrap dispatch. Let the underlying `Do` return the
response `r` with a nil error, and let the unwrap function of the wrapper
succeed on every non-nil value of `r`. Then the wrapper's `Do` returns, with a
nil error and the state of the store the underlying call left, a response in
which: a get sub-result that is present has every record's value unwrapped, in
place and in order; a put sub-result that is present has its previous record,
if there is one, unwrapped; a delete sub-result that is present has every
previous record unwrapped, in place and in order, and keeps its count; a
sub-result that is absent is absent (`Option.Rel` relates nil to nil and a
present sub-result to a present one). -/
theorem Do_unwraps_by_sub_result {τ Ctx Opts CR T : Type}
    (s : skeysapiv3.secureKV τ Ctx Opts CR T) (unwrap : skeysapiv3.ValueSetUnwrapFunc)
    (hs : s.valueGetUnwrap = some unwrap) (st : τ) (ctx : Ctx) (op : skeysapiv3.Op Opts)
    (st1 : τ) (r : skeysapiv3.OpResponse) (hdo : s.k.Do st ctx op = (st1, r, none))
    (hput : ∀ p kv, r.put = some p → p.PrevKv = some kv →
      ∃ kv', skeysapiv3.UnwrapsKv unwrap (some kv) kv')
    (hget : ∀ g, r.get = some g → ∀ kv ∈ g.Kvs, ∃ kv', skeysapiv3.UnwrapsKv unwrap kv kv')
    (hdel : ∀ d, r.del = some d → ∀ kv ∈ d.PrevKvs, ∃ kv', skeysapiv3.UnwrapsKv unwrap kv kv') :
    ∃ r', s.Do st ctx op = .ret (st1, r', none) ∧
      Option.Rel (fun p p' => (p.PrevKv = none ∧ p'.PrevKv = none) ∨
        skeysapiv3.UnwrapsKv unwrap p.PrevKv p'.PrevKv) r.put r'.put ∧
      Option.Rel (fun g g' => List.Forall₂ (skeysapiv3.UnwrapsKv unwrap) g.Kvs g'.Kvs)
        r.get r'.get ∧
      Option.Rel (fun d d' => d'.Deleted = d.Deleted ∧
        List.Forall₂ (skeysapiv3.UnwrapsKv unwrap) d.PrevKvs d'.PrevKvs) r.del r'.del := by
  obtain ⟨put, get, del⟩ := r
  have hP : ∀ p, put = some p → ∃ p', s.unwrapPrevKv p = .ret p' ∧
      ((p.PrevKv = none ∧ p'.PrevKv = none) ∨
        skeysapiv3.UnwrapsKv unwrap p.PrevKv p'.PrevKv) := by
    intro p hp
    obtain ⟨prev⟩ := p
    cases prev with
    | none => exact ⟨{ PrevKv := none }, rfl, Or.inl ⟨rfl, rfl⟩⟩
    | some kv =>
      obtain ⟨kv', hkv⟩ := hput { PrevKv := some kv } kv hp rfl
      refine ⟨{ PrevKv := kv' }, ?_, Or.inr hkv⟩
      simp only [skeysapiv3.secureKV.unwrapPrevKv,
        skeysapiv3.unwrapKeyValue_of_unwrapsKv s unwrap hs _ _ hkv]
  have hG : ∀ g, get = some g → ∃ l', s.unwrapUntilError g.Kvs = .ret (l', none) ∧
      List.Forall₂ (skeysapiv3.UnwrapsKv unwrap) g.Kvs l' :=
    fun g hg => skeysapiv3.unwrapUntilError_of_unwrapsKv s unwrap hs g.Kvs (hget g hg)
  have hD : ∀ d, del = some d → ∃ l', s.unwrapIgnoringErrors d.PrevKvs = .ret l' ∧
      List.Forall₂ (skeysapiv3.UnwrapsKv unwrap) d.PrevKvs l' :=
    fun d hd => skeysapiv3.unwrapIgnoringErrors_of_unwrapsKv s unwrap hs d.PrevKvs (hdel d hd)
  clear hput hget hdel
  rcases put with _ | p <;> rcases get with _ | g <;> rcases del with _ | d
  · exact ⟨{ put := none, get := none, del := none },
      by simp only [skeysapiv3.secureKV.Do, hdo],
      Option.Rel.none,
      Option.Rel.none,
      Option.Rel.none⟩
  · obtain ⟨l3, h3, f3⟩ := hD d rfl
    exact ⟨{ put := none, get := none, del := some { Deleted := d.Deleted, PrevKvs := l3 } },
      by simp only [skeysapiv3.secureKV.Do, hdo, h3],
      Option.Rel.none,
      Option.Rel.none,
      Option.Rel.some ⟨rfl, f3⟩⟩
  · obtain ⟨l2, h2, f2⟩ := hG g rfl
    exact ⟨{ put := none, get := some { Kvs := l2 }, del := none },
      by simp only [skeysapiv3.secureKV.Do, hdo, h2],
      Option.Rel.none,
      Option.Rel.some f2,
      Option.Rel.none⟩
  · obtain ⟨l2, h2, f2⟩ := hG g rfl
    obtain ⟨l3, h3, f3⟩ := hD d rfl
    exact ⟨{ put := none, get := some { Kvs := l2 }, del := some { Deleted := d.Deleted, PrevKvs := l3 } },
      by simp only [skeysapiv3.secureKV.Do, hdo, h2, h3],
      Option.Rel.none,
      Option.Rel.some f2,
      Option.Rel.some ⟨rfl, f3⟩⟩
  · obtain ⟨p1, h1, f1⟩ := hP p rfl
    exact ⟨{ put := some p1, get := none, del := none },
      by simp only [skeysapiv3.secureKV.Do, hdo, h1],
      Option.Rel.some f1,
      Option.Rel.none,
      Option.Rel.none⟩
  · obtain ⟨p1, h1, f1⟩ := hP p rfl
    obtain ⟨l3, h3, f3⟩ := hD d rfl
    exact ⟨{ put := some p1, get := none, del := some { Deleted := d.Deleted, PrevKvs := l3 } },
      by simp only [skeysapiv3.secureKV.Do, hdo, h1, h3],
      Option.Rel.some f1,
      Option.Rel.none,
      Option.Rel.some ⟨rfl, f3⟩⟩
  · obtain ⟨p1, h1, f1⟩ := hP p rfl
    obtain ⟨l2, h2, f2⟩ := hG g rfl
    exact ⟨{ put := some p1, get := some { Kvs := l2 }, del := none },
      by simp only [skeysapiv3.secureKV.Do, hdo, h1, h2],
      Option.Rel.some f1,
      Option.Rel.some f2,
      Option.Rel.none⟩
  · obtain ⟨p1, h1, f1⟩ := hP p rfl
    obtain ⟨l2, h2, f2⟩ := hG g rfl
    obtain ⟨l3, h3, f3⟩ := hD d rfl
    exact ⟨{ put := some p1, get := some { Kvs := l2 }, del := some { Deleted := d.Deleted, PrevKvs := l3 } },
      by simp only [skeysapiv3.secureKV.Do, hdo, h1, h2, h3],
      Option.Rel.some f1,
      Option.Rel.some f2,
      Option.Rel.some ⟨rfl, f3⟩⟩

/-- Witness for C32: the store holds the stored form of `"bar"` under `"/foo"`;
`Do(OpGet("/foo"))` through the AES wrapper returns the record with the value
`"bar"`, and no put or delete sub-result. -/
theorem Do_unwraps_by_sub_result_witness :
    (Examples.skv16 Examples.prevKV).valueGetUnwrap =
      some (skeysapiv3.GetWrappers Examples.hexCodec Examples.enc16).2 ∧
    (Examples.skv16 Examples.prevKV).k.Do [(Examples.foo, Examples.barStored)] ()
        (.OpGet Examples.foo ()) =
      ([(Examples.foo, Examples.barStored)],
        { put := none,
          get := some { Kvs := [some { Key := .mk Examples.foo, Value := .mk Examples.barStored }] },
          del := none }, none) ∧
    (∃ r', (Examples.skv16 Examples.prevKV).Do [(Examples.foo, Examples.barStored)] ()
        (.OpGet Examples.foo ()) = .ret ([(Examples.foo, Examples.barStored)], r', none) ∧
      Option.Rel (fun (p p' : skeysapiv3.PutResponse) => (p.PrevKv = none ∧ p'.PrevKv = none) ∨
        skeysapiv3.UnwrapsKv (skeysapiv3.GetWrappers Examples.hexCodec Examples.enc16).2
          p.PrevKv p'.PrevKv) none r'.put ∧
      Option.Rel (fun (g g' : skeysapiv3.GetResponse) => List.Forall₂
        (skeysapiv3.UnwrapsKv (skeysapiv3.GetWrappers Examples.hexCodec Examples.enc16).2)
          g.Kvs g'.Kvs)
        (some { Kvs := [some { Key := .mk Examples.foo, Value := .mk Examples.barStored }] })
        r'.get ∧
      Option.Rel (fun (d d' : skeysapiv3.DeleteResponse) => d'.Deleted = d.Deleted ∧ List.Forall₂
        (skeysapiv3.UnwrapsKv (skeysapiv3.GetWrappers Examples.hexCodec Examples.enc16).2)
          d.PrevKvs d'.PrevKvs) none r'.del) ∧
    (Examples.skv16 Examples.prevKV).Do [(Examples.foo, Examples.barStored)] ()
        (.OpGet Examples.foo ()) =
      .ret ([(Examples.foo, Examples.barStored)],
        { put := none,
          get := some { Kvs := [some { Key := .mk Examples.foo, Value := .mk Examples.bar }] },
          del := none }, none) :=
  ⟨rfl, rfl,
    Do_unwraps_by_sub_result (Examples.skv16 Examples.prevKV)
      (skeysapiv3.GetWrappers Examples.hexCodec Examples.enc16).2 rfl
      [(Examples.foo, Examples.barStored)] () (.OpGet Examples.foo ())
      [(Examples.foo, Examples.barStored)]
      { put := none,
        get := some { Kvs := [some { Key := .mk Examples.foo, Value := .mk Examples.barStored }] },
        del := none } rfl
      (fun _ _ hp _ => by simp at hp)
      (fun g hg kv hkv => by
        simp only [Option.some.injEq] at hg
        subst hg
        simp only [List.mem_singleton] at hkv
        subst hkv
        exact ⟨_, skeysapiv3.UnwrapsKv.value
          { Key := .mk Examples.foo, Value := .mk Examples.barStored } Examples.bar
          (by decide) (by decide)⟩)
      (fun _ hd _ _ => by simp at hd),
    by decide⟩

/-! ## Empty values, padding failures and delegation -/

namespace encconfig

open Go

theorem aes_Decrypt_short (aes : AES) (key : Slice) (e : aesCBCEncConfig)
    (he : NewAESCBCEncConfig key = (some e, none)) (c : Slice) (hc : c.len < 16) :
    e.Decrypt aes c = .ret (.nil, some .ErrAESCipherTooShort) := by
  obtain ⟨rfl, hlen⟩ := NewAESCBCEncConfig_some key e he
  unfold aesCBCEncConfig.Decrypt
  simp only [NewCipher_of_len key hlen, BlockSize_eq, hc, if_true]

end encconfig

/-- C33 (what the code does instead). `unwrapKeyValue` leaves a record whose
value is nil as it is, with a nil error, for every wrapper. A record whose
value is a non-nil slice of length zero is not left alone: `m.Value != nil`
holds, so the unwrap function is called on the empty string, and for the
wrapper of an AES-CBC cipher (over a codec that decodes the empty string to no
bytes) it fails with `ErrAESCipherTooShort`, which `unwrapKeyValue` returns. On
a store holding the empty value under `"/foo"`, `Get` through the v3 wrapper
returns that error, while `Get` through the v2 wrapper returns the node with a
nil error. -/
theorem nonnil_empty_value_is_unwrapped :
    (∀ {τ Ctx Opts CR T : Type} (s : skeysapiv3.secureKV τ Ctx Opts CR T) (k : Go.Slice),
      s.unwrapKeyValue (some { Key := k, Value := .nil }) =
        .ret (some { Key := k, Value := .nil }, none)) ∧
    (∀ {τ Ctx Opts CR T : Type} (aes : Go.AES) (b64 : Go.Base64) (key : Go.Slice)
      (e : encconfig.aesCBCEncConfig) (kv : skeysapiv3.KV τ Ctx Opts CR T)
      (s : skeysapiv3.secureKV τ Ctx Opts CR T) (k : Go.Slice),
      b64.DecodesEmpty → encconfig.NewAESCBCEncConfig key = (some e, none) →
      skeysapiv3.NewSecureKeysAPI b64 kv (some (e.toEncConfig aes)) = (some s, none) →
      (Go.Slice.mk []).len = 0 ∧ Go.Slice.mk [] ≠ Go.Slice.nil ∧
      s.unwrapKeyValue (some { Key := k, Value := .mk [] }) =
        .ret (some { Key := k, Value := .mk [] }, some .ErrAESCipherTooShort)) ∧
    (Examples.skv16 Examples.mapKV).Get [(Examples.foo, [])] () Examples.foo () =
      .ret ([(Examples.foo, [])],
        some { Kvs := [some { Key := .mk Examples.foo, Value := .mk [] }] },
        some .ErrAESCipherTooShort) ∧
    (Examples.skapi16 Examples.mapStore).Get [(Examples.foo, [])] () Examples.foo () =
      .ret ([(Examples.foo, [])],
        some { Action := [], Node := .node Examples.foo false [] .nil, PrevNode := .null },
        none) := by
  refine ⟨?_, ?_, by decide, by rfl⟩
  · intro τ Ctx Opts CR T s k
    simp only [skeysapiv3.secureKV.unwrapKeyValue, ne_eq, not_true_eq_false, if_false]
  · intro τ Ctx Opts CR T aes b64 key e kv s k hdec he hs
    refine ⟨rfl, by simp, ?_⟩
    simp only [skeysapiv3.NewSecureKeysAPI, Prod.mk.injEq, Option.some.injEq, and_true] at hs
    subst hs
    have hd := encconfig.aes_Decrypt_short aes key e he (.mk []) (by decide)
    have hdec2 : b64.DecodeString [] = ([], none) := hdec
    simp only [skeysapiv3.secureKV.unwrapKeyValue, ne_eq, reduceCtorEq, not_false_eq_true,
      if_true, Go.Slice.toStr, Go.Slice.bytes, skeysapiv3.GetWrappers, hdec2,
      encconfig.aesCBCEncConfig.toEncConfig, hd]

/-! ## Goroutines sharing one cipher -/

namespace Go

/-- A window in an array that was not touched is still well formed and holds
the same bytes. -/
theorem Heap.Holds.of_array {h g : Heap} {b : Buf} {bs : List Byte} (hb : h.Holds b bs)
    (hl : h.length ≤ g.length) (ha : ∀ x, b.InArray x → g.array x = h.array x) :
    g.Holds b bs := by
  have := Heap.valid_read_of_array h g b hl (by
    intro arr off len cap e
    subst e
    exact ha arr rfl) hb.1
  exact ⟨this.1, this.2.trans hb.2⟩

/-- The array of a well-formed window is allocated. -/
theorem Heap.lt_of_valid {h : Heap} {b : Buf} (hv : h.Valid b) {x : Nat} (hx : b.InArray x) :
    x < h.length := by
  cases b with
  | nil => cases hx
  | ref arr off len cap =>
    have e : arr = x := hx
    subst e
    exact hv.1

/-- A write inside an array keeps every well-formed window well formed. -/
theorem Heap.valid_store {h : Heap} {b : Buf} (hv : h.Valid b) (a pos : Nat) (bs : List Byte)
    (hpos : pos + bs.length ≤ (h.array a).length) : (h.store a pos bs).Valid b := by
  cases b with
  | nil => trivial
  | ref arr off len cap =>
    obtain ⟨h1, h2, h3⟩ := hv
    refine ⟨by rw [Heap.length_store]; exact h1, h2, ?_⟩
    by_cases hx : arr = a
    · subst hx
      rw [Heap.array_store_eq h arr pos bs h1]
      simp only [List.length_append, List.length_take, List.length_drop]
      omega
    · rw [Heap.array_store_ne h a pos bs arr hx]
      exact h3

/-- The bytes written to the start of a window are the bytes the window holds
afterwards. -/
theorem Heap.read_store_self (h : Heap) (a off cap : Nat) (bs : List Byte) (ha : a < h.length)
    (hpos : off + bs.length ≤ (h.array a).length) :
    (h.store a off bs).read (.ref a off bs.length cap) = bs := by
  simp only [Heap.read, Heap.array_store_eq h a off bs ha]
  have h1 : ((h.array a).take off).length = off := by rw [List.length_take]; omega
  rw [List.append_assoc, List.drop_append_of_le_length (by omega), List.drop_of_length_le (by omega),
    List.nil_append, List.take_left]

/-- What `append` does to the arrays: it frees nothing, it writes to no array
but that of its argument, and the window it returns lies in that array or in a
fresh one. -/
theorem Heap.append_arrays (h : Heap) (b : Buf) (t : List Byte) :
    h.length ≤ (h.append b t).1.length ∧
    (∀ x, x < h.length → ¬ b.InArray x → (h.append b t).1.array x = h.array x) ∧
    (∀ x, (h.append b t).2.InArray x → b.InArray x ∨ h.length ≤ x) := by
  cases b with
  | nil =>
    by_cases ht : t = []
    · subst ht
      exact ⟨Nat.le_refl _, fun _ _ _ => rfl, fun _ hx => Or.inl hx⟩
    · simp only [Heap.append, if_neg ht, Heap.alloc]
      refine ⟨by simp, fun x hx _ => Heap.array_append_lt h t x hx, fun x hx => Or.inr ?_⟩
      have e : h.length = x := hx
      omega
  | ref arr off len cap =>
    by_cases hc : len + t.length ≤ cap
    · simp only [Heap.append, if_pos hc]
      refine ⟨by rw [Heap.length_store], fun x _ hx => ?_, fun x hx => Or.inl hx⟩
      exact Heap.array_store_ne h arr (off + len) t x (fun e => hx e.symm)
    · simp only [Heap.append, if_neg hc, Heap.alloc]
      refine ⟨by simp, fun x hx _ => Heap.array_append_lt h _ x hx, fun x hx => Or.inr ?_⟩
      have e : h.length = x := hx
      omega

end Go

namespace encconfig.mem

open Go

/-- The invariant of a run. Every goroutine `i` has a property `Ok i` of its
state and of the arrays it owns that its own steps keep, that stays true as
long as those arrays are not written, and under which its steps write to no
array it does not own, what it comes to own being freshly allocated; the
property `K` speaks of arrays nobody owns. Then every run returns, and leaves
every goroutine with its property and with the progress the schedule gave
it. -/
theorem run_invariant {W : Type} (step : Nat → Heap → W → Outcome (Heap × W))
    (Ok : Nat → W → Heap → Prop) (Owns : W → Nat → Prop) (K : Heap → Prop) (RO : Nat → Prop)
    (prog : W → Nat) (bound : Nat → Nat)
    (hOk : ∀ i w h g, Ok i w h → h.length ≤ g.length →
      (∀ x, Owns w x → g.array x = h.array x) → Ok i w g)
    (hK : ∀ h g, K h → h.length ≤ g.length → (∀ x, RO x → g.array x = h.array x) → K g)
    (hbound : ∀ i w h, Ok i w h → ∀ x, Owns w x → x < h.length)
    (hRO : ∀ h, K h → ∀ x, RO x → x < h.length)
    (hstep : ∀ n i w h, Ok i w h → K h → (∀ x, RO x → ¬ Owns w x) →
      ∃ g v, step n h w = .ret (g, v) ∧ Ok i v g ∧ h.length ≤ g.length ∧
        (∀ x, x < h.length → ¬ Owns w x → g.array x = h.array x) ∧
        (∀ x, Owns v x → Owns w x ∨ h.length ≤ x) ∧
        prog v = min (prog w + 1) (bound i)) :
    ∀ (sched : List Nat) (n : Nat) (h : Heap) (ws : List W), K h →
      (∀ (i : Nat) w, ws[i]? = some w →
        Ok i w h ∧ (∀ x, RO x → ¬ Owns w x) ∧ prog w ≤ bound i) →
      (∀ (i j : Nat) w v, i ≠ j → ws[i]? = some w → ws[j]? = some v →
        ∀ x, Owns w x → ¬ Owns v x) →
      ∃ g vs, run step sched n h ws = .ret (g, vs) ∧ vs.length = ws.length ∧ K g ∧
        ∀ (i : Nat) w, ws[i]? = some w →
          ∃ v, vs[i]? = some v ∧ Ok i v g ∧ prog v = min (prog w + sched.count i) (bound i)
  | [], n, h, ws, hk, hws, _ => by
    refine ⟨h, ws, rfl, rfl, hk, fun i w hw => ⟨w, hw, (hws i w hw).1, ?_⟩⟩
    have := (hws i w hw).2.2
    simp only [List.count_nil, Nat.add_zero]
    omega
  | k :: rest, n, h, ws, hk, hws, hdis => by
    have ih := run_invariant step Ok Owns K RO prog bound hOk hK hbound hRO hstep rest (n + 1)
    cases hwk : ws[k]? with
    | none =>
      obtain ⟨g, vs, hrun, hlen, hkg, hall⟩ := ih h ws hk hws hdis
      refine ⟨g, vs, by simp only [run, hwk, hrun], hlen, hkg, fun i w hw => ?_⟩
      obtain ⟨v, hv, hok, hp⟩ := hall i w hw
      refine ⟨v, hv, hok, ?_⟩
      have hik : k ≠ i := by
        intro e
        subst e
        rw [hwk] at hw
        cases hw
      rw [List.count_cons_of_ne (Ne.symm hik)]
      exact hp
    | some w =>
      obtain ⟨hokw, hrow, hpw⟩ := hws k w hwk
      obtain ⟨g, v, hs, hokv, hlg, hframe, hown, hprog⟩ := hstep n k w h hokw hk hrow
      have hklt : k < ws.length := (List.getElem?_eq_some_iff.mp hwk).1
      have hkg : K g := hK h g hk hlg (fun x hx =>
        hframe x (hRO h hk x hx) (hrow x hx))
      have hws' : ∀ (i : Nat) u, (ws.set k v)[i]? = some u →
          Ok i u g ∧ (∀ x, RO x → ¬ Owns u x) ∧ prog u ≤ bound i := by
        intro i u hu
        by_cases hik : i = k
        · subst hik
          rw [List.getElem?_set_self hklt] at hu
          cases hu
          refine ⟨hokv, fun x hx ho => ?_, by rw [hprog]; omega⟩
          rcases hown x ho with ho | ho
          · exact hrow x hx ho
          · have := hRO h hk x hx
            omega
        · rw [List.getElem?_set_ne (Ne.symm hik)] at hu
          obtain ⟨hoku, hrou, hpu⟩ := hws i u hu
          refine ⟨hOk i u h g hoku hlg (fun x hx => ?_), hrou, hpu⟩
          exact hframe x (hbound i u h hoku x hx) (fun ho => hdis k i w u (Ne.symm hik) hwk hu x ho hx)
      have hdis' : ∀ (i j : Nat) a b, i ≠ j → (ws.set k v)[i]? = some a →
          (ws.set k v)[j]? = some b → ∀ x, Owns a x → ¬ Owns b x := by
        intro i j a b hij ha hb x hxa hxb
        by_cases hik : i = k
        · subst hik
          rw [List.getElem?_set_self hklt] at ha
          cases ha
          rw [List.getElem?_set_ne hij] at hb
          rcases hown x hxa with ho | ho
          · exact hdis i j w b hij hwk hb x ho hxb
          · have := hbound j b h (hws j b hb).1 x hxb
            omega
        · rw [List.getElem?_set_ne (Ne.symm hik)] at ha
          by_cases hjk : j = k
          · subst hjk
            rw [List.getElem?_set_self hklt] at hb
            cases hb
            rcases hown x hxb with ho | ho
            · exact hdis i j a w hij ha hwk x hxa ho
            · have := hbound i a h (hws i a ha).1 x hxa
              omega
          · rw [List.getElem?_set_ne (Ne.symm hjk)] at hb
            exact hdis i j a b hij ha hb x hxa hxb
      obtain ⟨g2, vs, hrun, hlen, hkg2, hall⟩ := ih g (ws.set k v) hkg hws' hdis'
      refine ⟨g2, vs, by simp only [run, hwk, hs, hrun], by rw [hlen, List.length_set], hkg2,
        fun i u hu => ?_⟩
      by_cases hik : i = k
      · subst hik
        rw [hwk] at hu
        cases hu
        obtain ⟨v2, hv2, hok2, hp2⟩ := hall i v (List.getElem?_set_self hklt)
        refine ⟨v2, hv2, hok2, ?_⟩
        rw [hp2, hprog, List.count_cons_self]
        omega
      · obtain ⟨v2, hv2, hok2, hp2⟩ := hall i u (by rw [List.getElem?_set_ne (Ne.symm hik)]; exact hu)
        refine ⟨v2, hv2, hok2, ?_⟩
        rw [hp2, List.count_cons_of_ne hik]

end encconfig.mem

namespace encconfig.mem

open Go

/-- The window `pkcs7unpad` returns is well formed and lies in the array of its
argument. -/
theorem pkcs7unpad_window (h : Heap) (m : Buf) (bsize : Nat) (hv : h.Valid m) :
    h.Valid (pkcs7unpad h m bsize).1 ∧ ∀ x, (pkcs7unpad h m bsize).1.InArray x → m.InArray x := by
  unfold pkcs7unpad
  simp only
  split
  · exact ⟨trivial, fun _ hx => absurd hx id⟩
  · split
    · exact ⟨trivial, fun _ hx => absurd hx id⟩
    · split
      · exact ⟨trivial, fun _ hx => absurd hx id⟩
      · split
        · exact ⟨trivial, fun _ hx => absurd hx id⟩
        · cases m with
          | nil => exact ⟨trivial, fun _ hx => hx⟩
          | ref arr off len cap =>
            obtain ⟨h1, h2, h3⟩ := hv
            exact ⟨⟨h1, by simp only [Buf.len]; omega, h3⟩, fun _ hx => hx⟩

theorem length_bodyOf (aes : AES) (kb iv P : List Byte) :
    (bodyOf aes kb iv P).length = 16 * (P.length / 16 + 1) := by
  simp only [bodyOf, length_joinBlocks, length_cbcEncrypt, length_toBlocks]

theorem length_padded_mk (P : List Byte) :
    (encconfig.padded (Slice.mk P)).length = 16 * (P.length / 16 + 1) :=
  encconfig.length_padded (Slice.mk P)

theorem padded_mk (P : List Byte) :
    encconfig.padded (Slice.mk P) =
      P ++ List.replicate (16 - P.length % 16) (byte (16 - P.length % 16)) := rfl

end encconfig.mem

namespace encconfig.mem

open Go

/-- One step of a goroutine of `TestAESCBCConcurrency` whose arrays were left
alone: the step returns, the goroutine is in order at the point the step leads
to, no array was written but those the goroutine owns, what it has come to own
is fresh, and it is one step further. -/
theorem stepAes_ok (aes : AES) (e : aesCBCEncConfig) (kb P : List Byte) (p : Buf)
    (iterations : Nat) (hb : uint16 e.blockSize = 16)
    (hlen : e.key.len = 16 ∨ e.key.len = 24 ∨ e.key.len = 32)
    (hinv : ∀ b, aes.decrypt kb (aes.encrypt kb b) = b)
    (f : Nat → Byte) (w : Worker AesPc) (h : Heap)
    (hw : w.OkAes aes kb P p iterations h) (hk : h.Holds e.key kb) :
    ∃ g v, w.stepAes aes e iterations (.ok f) h = .ret (g, v) ∧
      v.OkAes aes kb P p iterations g ∧ h.length ≤ g.length ∧
      (∀ x, x < h.length → ¬ w.OwnsAes x → g.array x = h.array x) ∧
      (∀ x, v.OwnsAes x → w.OwnsAes x ∨ h.length ≤ x) ∧
      v.stepsAes = min (w.stepsAes + 1) (13 * iterations) := by
  obtain ⟨p0, pc, rounds, failed⟩ := w
  obtain ⟨hp0, hf, hp, hpc, hr1, hr2⟩ := hw
  simp only at hp0 hf hr1 hr2 hpc
  subst hp0 hf
  have hplen : p0.len = P.length := by rw [← Heap.length_read h p0 hp.1, hp.2]
  have hnc : NewCipher (h.view e.key) = none := NewCipher_view h e.key hk.1 hlen
  cases pc with
  | loop =>
    by_cases hit : iterations ≤ rounds
    · refine ⟨h, _, by simp only [Worker.stepAes, if_pos hit], ⟨rfl, rfl, hp, hpc, hr1, hr2⟩,
        Nat.le_refl _, fun _ _ _ => rfl, fun x hx => Or.inl hx, ?_⟩
      simp only [Worker.stepsAes, AesPc.index]
      omega
    · have hstep : Worker.stepAes aes e iterations (.ok f) h ⟨p0, .loop, rounds, false⟩ =
          .ret (h ++ [List.replicate (16 - P.length % 16) (byte (16 - P.length % 16))],
            ⟨p0, .padRepeat (.ref h.length 0 (16 - P.length % 16) (16 - P.length % 16)), rounds,
              false⟩) := by
        simp only [Worker.stepAes, if_neg hit, hb, hplen, Heap.alloc, List.length_replicate]
        rfl
      have hal := Heap.read_alloc h (List.replicate (16 - P.length % 16) (byte (16 - P.length % 16)))
      simp only [Heap.alloc, List.length_replicate] at hal
      refine ⟨_, _, hstep, ⟨rfl, rfl, ?_, hal, hr1, fun _ => Nat.lt_of_not_le hit⟩, by simp, ?_, ?_,
        ?_⟩
      · exact hp.of_array (by simp) (fun x hx =>
          Heap.array_append_lt h _ x (Heap.lt_of_valid hp.1 hx))
      · intro x hx _
        exact Heap.array_append_lt h _ x hx
      · intro x hx
        rcases hx with hx | hx
        · exact Or.inl (Or.inl hx)
        · have e1 : h.length = x := hx
          exact Or.inr (by omega)
      · simp only [Worker.stepsAes, AesPc.index]
        omega
  | padRepeat padding =>
    have hlt : rounds < iterations := hr2 (by simp)
    have hpad : h.Holds padding
        (List.replicate (16 - P.length % 16) (byte (16 - P.length % 16))) := hpc
    have hne := padding_ne_nil P.length 16 (by decide)
    have ha := append_spec h p0 _ hp.1 hne
    have hb2 := Heap.append_arrays h p0
      (List.replicate (16 - P.length % 16) (byte (16 - P.length % 16)))
    have hstep : Worker.stepAes aes e iterations (.ok f) h ⟨p0, .padRepeat padding, rounds, false⟩ =
        .ret ((h.append p0 (List.replicate (16 - P.length % 16) (byte (16 - P.length % 16)))).1,
          ⟨p0, .padded (h.append p0 (List.replicate (16 - P.length % 16)
            (byte (16 - P.length % 16)))).2, rounds, false⟩) := by
      simp only [Worker.stepAes, hpad.2]
    refine ⟨_, _, hstep, ⟨rfl, rfl, ?_, ?_, hr1, fun _ => hlt⟩, hb2.1, ?_, ?_, ?_⟩
    · have := ha.1.2 p0 hp.1 (Outside_self p0)
      exact ⟨this.1, this.2.trans hp.2⟩
    · refine ⟨ha.2.1, ?_⟩
      have := congrArg Slice.bytes ha.2.2.1
      rw [Heap.bytes_view] at this
      rw [this, hp.2]
      rfl
    · intro x hx hn
      exact hb2.2.1 x hx (fun hin => hn (Or.inl hin))
    · intro x hx
      rcases hx with hx | hx
      · exact Or.inl (Or.inl hx)
      · rcases hb2.2.2 x hx with h1 | h1
        · exact Or.inl (Or.inl h1)
        · exact Or.inr h1
    · simp only [Worker.stepsAes, AesPc.index]
      omega
  | padded plaintext =>
    have hlt : rounds < iterations := hr2 (by simp)
    have hpt : h.Holds plaintext (encconfig.padded (Slice.mk P)) := hpc
    have hstep : Worker.stepAes aes e iterations (.ok f) h ⟨p0, .padded plaintext, rounds, false⟩ =
        .ret (h, ⟨p0, .encKeyed plaintext kb, rounds, false⟩) := by
      simp only [Worker.stepAes, hnc, hk.2]
    refine ⟨_, _, hstep, ⟨rfl, rfl, hp, ⟨hpt, rfl⟩, hr1, fun _ => hlt⟩, Nat.le_refl _,
      fun _ _ _ => rfl, fun x hx => Or.inl hx, ?_⟩
    simp only [Worker.stepsAes, AesPc.index]
    omega
  | encKeyed plaintext block =>
    have hlt : rounds < iterations := hr2 (by simp)
    obtain ⟨hpt, hbl⟩ : h.Holds plaintext (encconfig.padded (Slice.mk P)) ∧ block = kb := hpc
    have hfr : ∀ x, x < h.length →
        Heap.array (h ++ [List.replicate (BlockSize + plaintext.len) 0]) x = h.array x :=
      fun x hx => Heap.array_append_lt h _ x hx
    have hstep : Worker.stepAes aes e iterations (.ok f) h
          ⟨p0, .encKeyed plaintext block, rounds, false⟩ =
        .ret (h ++ [List.replicate (BlockSize + plaintext.len) 0],
          ⟨p0, .encMade plaintext block
            (.ref h.length 0 (16 + plaintext.len) (16 + plaintext.len)), rounds, false⟩) := by
      simp only [Worker.stepAes, Heap.make]
      rfl
    refine ⟨_, _, hstep, ⟨rfl, rfl, ?_, ⟨?_, hbl, ?_, h.length, rfl, ?_, ?_⟩, hr1, fun _ => hlt⟩,
      by simp, fun x hx _ => hfr x hx, ?_, ?_⟩
    · exact hp.of_array (by simp) (fun x hx => hfr x (Heap.lt_of_valid hp.1 hx))
    · exact hpt.of_array (by simp) (fun x hx => hfr x (Heap.lt_of_valid hpt.1 hx))
    · refine ⟨by simp, Nat.le_refl _, ?_⟩
      rw [Heap.array_append_eq]
      simp [BlockSize]
    · intro hx
      have := Heap.lt_of_valid hpt.1 hx
      omega
    · intro hx
      have := Heap.lt_of_valid hp.1 hx
      omega
    · intro x hx
      rcases hx with hx | hx | hx
      · exact Or.inl (Or.inl hx)
      · exact Or.inl (Or.inr hx)
      · have e1 : h.length = x := hx
        exact Or.inr (by omega)
    · simp only [Worker.stepsAes, AesPc.index]
      omega
  | encMade plaintext block ciphertext =>
    have hlt : rounds < iterations := hr2 (by simp)
    obtain ⟨hpt, hbl, hvc, a, hct, hna, hnp⟩ :
        h.Holds plaintext (encconfig.padded (Slice.mk P)) ∧ block = kb ∧ h.Valid ciphertext ∧
        ∃ a, ciphertext = .ref a 0 (16 + plaintext.len) (16 + plaintext.len) ∧
          ¬ plaintext.InArray a ∧ ¬ p0.InArray a := hpc
    subst hct
    have hstep : Worker.stepAes aes e iterations (.ok f) h
          ⟨p0, .encMade plaintext block (.ref a 0 (16 + plaintext.len) (16 + plaintext.len)),
            rounds, false⟩ =
        .ret (h.store a 0 ((List.range 16).map f),
          ⟨p0, .encIv plaintext block (.ref a 0 (16 + plaintext.len) (16 + plaintext.len)),
            rounds, false⟩) := by
      simp only [Worker.stepAes, readFull, Heap.write, Buf.sliceTo]
      rfl
    have hpos : 0 + ((List.range 16).map f).length ≤ (h.array a).length := by
      have := hvc.2.2
      simp only [List.length_map, List.length_range]
      omega
    have hfr : ∀ x, x ≠ a → (h.store a 0 ((List.range 16).map f)).array x = h.array x :=
      fun x hx => Heap.array_store_ne h a 0 _ x hx
    refine ⟨_, _, hstep, ⟨rfl, rfl, ?_, ⟨?_, hbl, Heap.valid_store hvc a 0 _ hpos, a, rfl, hna,
      hnp⟩, hr1, fun _ => hlt⟩, by rw [Heap.length_store], ?_, fun x hx => Or.inl hx, ?_⟩
    · exact hp.of_array (by rw [Heap.length_store]) (fun x hx => hfr x (fun e => hnp (e ▸ hx)))
    · exact hpt.of_array (by rw [Heap.length_store]) (fun x hx => hfr x (fun e => hna (e ▸ hx)))
    · intro x _ hn
      exact hfr x (fun e => hn (Or.inr (Or.inr e.symm)))
    · simp only [Worker.stepsAes, AesPc.index]
      omega
  | encIv plaintext block ciphertext =>
    have hlt : rounds < iterations := hr2 (by simp)
    obtain ⟨hpt, hbl, hvc, a, hct, hna, hnp⟩ :
        h.Holds plaintext (encconfig.padded (Slice.mk P)) ∧ block = kb ∧ h.Valid ciphertext ∧
        ∃ a, ciphertext = .ref a 0 (16 + plaintext.len) (16 + plaintext.len) ∧
          ¬ plaintext.InArray a ∧ ¬ p0.InArray a := hpc
    have hstep : Worker.stepAes aes e iterations (.ok f) h
          ⟨p0, .encIv plaintext block ciphertext, rounds, false⟩ =
        .ret (h, ⟨p0, .encMode plaintext block ciphertext (h.read (ciphertext.sliceTo 16)),
          rounds, false⟩) := by
      simp only [Worker.stepAes]
      rfl
    refine ⟨_, _, hstep, ⟨rfl, rfl, hp, ⟨hpt, hbl, hvc, rfl, a, hct, hna, hnp⟩, hr1,
      fun _ => hlt⟩, Nat.le_refl _, fun _ _ _ => rfl, fun x hx => Or.inl hx, ?_⟩
    simp only [Worker.stepsAes, AesPc.index]
    omega
  | encMode plaintext block ciphertext iv =>
    have hlt : rounds < iterations := hr2 (by simp)
    obtain ⟨hpt, hbl, hvc, hiv, a, hct, hna, hnp⟩ :
        h.Holds plaintext (encconfig.padded (Slice.mk P)) ∧ block = kb ∧ h.Valid ciphertext ∧
        h.read (ciphertext.sliceTo 16) = iv ∧
        ∃ a, ciphertext = .ref a 0 (16 + plaintext.len) (16 + plaintext.len) ∧
          ¬ plaintext.InArray a ∧ ¬ p0.InArray a := hpc
    subst hct hbl
    have hptl : plaintext.len = 16 * (P.length / 16 + 1) := by
      rw [← Heap.length_read h plaintext hpt.1, hpt.2, length_padded_mk]
    have hcb := encconfig.cbc_encrypt_blocks (aes.encrypt block) (mkBlock iv)
      (encconfig.padded (Slice.mk P)) (P.length / 16 + 1) (length_padded_mk P)
    have hbody : (bodyOf aes block iv P).length = plaintext.len := by
      rw [length_bodyOf, hptl]
    have hstep : Worker.stepAes aes e iterations (.ok f) h
          ⟨p0, .encMode plaintext block (.ref a 0 (16 + plaintext.len) (16 + plaintext.len)) iv,
            rounds, false⟩ =
        .ret (h.store a (0 + 16) (bodyOf aes block iv P),
          ⟨p0, .decrypt (.ref a 0 (16 + plaintext.len) (16 + plaintext.len)), rounds, false⟩) := by
      simp only [Worker.stepAes, hpt.2, hcb, Heap.write, Buf.sliceFrom]
      rfl
    have hv16 : h.Valid (.ref a 0 16 (16 + plaintext.len)) :=
      ⟨hvc.1, by omega, hvc.2.2⟩
    have hivl : iv.length = 16 := by
      rw [← hiv]
      exact Heap.length_read h _ hv16
    have hrs := Heap.read_store_spare h a 0 16 (16 + plaintext.len) (bodyOf aes block iv P) hv16
      (by omega)
    rw [hbody] at hrs
    have hfr : ∀ x, x ≠ a → (h.store a (0 + 16) (bodyOf aes block iv P)).array x = h.array x :=
      fun x hx => Heap.array_store_ne h a _ _ x hx
    refine ⟨_, _, hstep, ⟨rfl, rfl, ?_, ⟨hrs.1, iv, hivl, ?_⟩, hr1, fun _ => hlt⟩,
      by rw [Heap.length_store], ?_, ?_, ?_⟩
    · exact hp.of_array (by rw [Heap.length_store]) (fun x hx => hfr x (fun e => hnp (e ▸ hx)))
    · rw [hrs.2]
      congr 1
    · intro x _ hn
      exact hfr x (fun e => hn (Or.inr (Or.inr e.symm)))
    · intro x hx
      rcases hx with hx | hx
      · exact Or.inl (Or.inl hx)
      · exact Or.inl (Or.inr (Or.inr hx))
    · simp only [Worker.stepsAes, AesPc.index]
      omega
  | decrypt c =>
    have hlt : rounds < iterations := hr2 (by simp)
    obtain ⟨hvc, iv, hivl, hrc⟩ :
        h.Valid c ∧ ∃ iv : List Byte, iv.length = 16 ∧ h.read c = iv ++ bodyOf aes kb iv P := hpc
    have hstep : Worker.stepAes aes e iterations (.ok f) h ⟨p0, .decrypt c, rounds, false⟩ =
        .ret (h, ⟨p0, .decKeyed c kb, rounds, false⟩) := by
      simp only [Worker.stepAes, hnc, hk.2]
    refine ⟨_, _, hstep, ⟨rfl, rfl, hp, ⟨hvc, rfl, iv, hivl, hrc⟩, hr1, fun _ => hlt⟩,
      Nat.le_refl _, fun _ _ _ => rfl, fun x hx => Or.inl hx, ?_⟩
    simp only [Worker.stepsAes, AesPc.index]
    omega
  | decKeyed c block =>
    have hlt : rounds < iterations := hr2 (by simp)
    obtain ⟨hvc, hbl, iv, hivl, hrc⟩ :
        h.Valid c ∧ block = kb ∧
        ∃ iv : List Byte, iv.length = 16 ∧ h.read c = iv ++ bodyOf aes kb iv P := hpc
    have hcl : c.len = 16 + 16 * (P.length / 16 + 1) := by
      rw [← Heap.length_read h c hvc, hrc, List.length_append, hivl, length_bodyOf]
    cases c with
    | nil =>
      have hcl0 : 0 = 16 + 16 * (P.length / 16 + 1) := hcl
      omega
    | ref a off len cap =>
      have hcl2 : len = 16 + 16 * (P.length / 16 + 1) := hcl
      obtain ⟨hv1, hv2, hv3⟩ := hvc
      have hto : h.read (.ref a off 16 cap) = iv := by
        have := read_sliceTo h (.ref a off len cap) 16 (by simp only [Buf.len]; omega)
        simp only [Buf.sliceTo] at this
        rw [this, hrc, ← hivl, List.take_left]
      have hfrom : h.read (.ref a (off + 16) (len - 16) (cap - 16)) = bodyOf aes kb iv P := by
        have := read_sliceFrom h (.ref a off len cap) 16
        simp only [Buf.sliceFrom] at this
        rw [this, hrc, ← hivl, List.drop_left]
      have hstep : Worker.stepAes aes e iterations (.ok f) h
            ⟨p0, .decKeyed (.ref a off len cap) block, rounds, false⟩ =
          .ret (h, ⟨p0, .decMode (.ref a (off + 16) (len - 16) (cap - 16)) block iv, rounds,
            false⟩) := by
        have h1 : ¬ (len < BlockSize) := by simp only [BlockSize]; omega
        have h2 : ¬ ((len - BlockSize) % BlockSize ≠ 0) := by simp only [BlockSize]; omega
        simp only [Worker.stepAes, Buf.len, Buf.sliceFrom, Buf.sliceTo, if_neg h1, if_neg h2]
        rw [show BlockSize = 16 from rfl, hto]
      refine ⟨_, _, hstep, ⟨rfl, rfl, hp, ⟨hbl, hivl, ⟨hv1, by omega, by omega⟩, hfrom⟩, hr1,
        fun _ => hlt⟩, Nat.le_refl _, fun _ _ _ => rfl, fun x hx => Or.inl hx, ?_⟩
      simp only [Worker.stepsAes, AesPc.index]
      omega
  | decMode ciphertext block iv =>
    have hlt : rounds < iterations := hr2 (by simp)
    obtain ⟨hbl, hivl, hct⟩ :
        block = kb ∧ iv.length = 16 ∧ h.Holds ciphertext (bodyOf aes kb iv P) := hpc
    have hfr : ∀ x, x < h.length →
        Heap.array (h ++ [List.replicate ciphertext.len 0]) x = h.array x :=
      fun x hx => Heap.array_append_lt h _ x hx
    have hstep : Worker.stepAes aes e iterations (.ok f) h
          ⟨p0, .decMode ciphertext block iv, rounds, false⟩ =
        .ret (h ++ [List.replicate ciphertext.len 0],
          ⟨p0, .decMade ciphertext block iv (.ref h.length 0 ciphertext.len ciphertext.len),
            rounds, false⟩) := by
      simp only [Worker.stepAes, Heap.make]
    refine ⟨_, _, hstep, ⟨rfl, rfl, ?_, ⟨hbl, hivl, ?_, ?_, h.length, rfl, ?_⟩, hr1,
      fun _ => hlt⟩, by simp, fun x hx _ => hfr x hx, ?_, ?_⟩
    · exact hp.of_array (by simp) (fun x hx => hfr x (Heap.lt_of_valid hp.1 hx))
    · exact hct.of_array (by simp) (fun x hx => hfr x (Heap.lt_of_valid hct.1 hx))
    · refine ⟨by simp, Nat.le_refl _, ?_⟩
      rw [Heap.array_append_eq]
      simp
    · intro hx
      have := Heap.lt_of_valid hp.1 hx
      omega
    · intro x hx
      rcases hx with hx | hx | hx
      · exact Or.inl (Or.inl hx)
      · exact Or.inl (Or.inr hx)
      · have e1 : h.length = x := hx
        exact Or.inr (by omega)
    · simp only [Worker.stepsAes, AesPc.index]
      omega
  | decMade ciphertext block iv plaintext =>
    have hlt : rounds < iterations := hr2 (by simp)
    obtain ⟨hbl, hivl, hct, hvp, a, hpt, hnp⟩ :
        block = kb ∧ iv.length = 16 ∧ h.Holds ciphertext (bodyOf aes kb iv P) ∧
        h.Valid plaintext ∧ ∃ a, plaintext = .ref a 0 ciphertext.len ciphertext.len ∧
          ¬ p0.InArray a := hpc
    subst hpt hbl
    have hcl : ciphertext.len = (encconfig.padded (Slice.mk P)).length := by
      rw [← Heap.length_read h ciphertext hct.1, hct.2, length_bodyOf, length_padded_mk]
    have hrt := encconfig.cbc_roundtrip (aes.encrypt block) (aes.decrypt block) hinv (mkBlock iv)
      (encconfig.padded (Slice.mk P)) (P.length / 16 + 1) (length_padded_mk P)
    have hstep : Worker.stepAes aes e iterations (.ok f) h
          ⟨p0, .decMade ciphertext block iv (.ref a 0 ciphertext.len ciphertext.len), rounds,
            false⟩ =
        .ret (h.store a 0 (encconfig.padded (Slice.mk P)),
          ⟨p0, .decCrypted (.ref a 0 ciphertext.len ciphertext.len), rounds, false⟩) := by
      simp only [Worker.stepAes, hct.2, bodyOf, hrt, Heap.write]
    have hpos : 0 + (encconfig.padded (Slice.mk P)).length ≤ (h.array a).length := by
      have := hvp.2.2
      omega
    have hfr : ∀ x, x ≠ a →
        (h.store a 0 (encconfig.padded (Slice.mk P))).array x = h.array x :=
      fun x hx => Heap.array_store_ne h a 0 _ x hx
    refine ⟨_, _, hstep, ⟨rfl, rfl, ?_, ⟨Heap.valid_store hvp a 0 _ hpos, ?_⟩, hr1,
      fun _ => hlt⟩, by rw [Heap.length_store], ?_, ?_, ?_⟩
    · exact hp.of_array (by rw [Heap.length_store]) (fun x hx => hfr x (fun e => hnp (e ▸ hx)))
    · rw [hcl]
      exact Heap.read_store_self h a 0 _ _ hvp.1 hpos
    · intro x _ hn
      exact hfr x (fun e => hn (Or.inr (Or.inr e.symm)))
    · intro x hx
      rcases hx with hx | hx
      · exact Or.inl (Or.inl hx)
      · exact Or.inl (Or.inr (Or.inr hx))
    · simp only [Worker.stepsAes, AesPc.index]
      omega
  | decCrypted plaintext =>
    have hlt : rounds < iterations := hr2 (by simp)
    have hpt : h.Holds plaintext (encconfig.padded (Slice.mk P)) := hpc
    have hview : h.view plaintext = .mk (encconfig.padded (Slice.mk P)) := by
      cases plaintext with
      | nil =>
        have := hpt.2
        have hl := congrArg List.length this
        rw [length_padded_mk] at hl
        simp [Heap.read] at hl
      | ref a off len cap => simp only [Heap.view, hpt.2]
    have hnp := encconfig.numPad_bounds P.length 16 (by decide)
    have hun := encconfig.pkcs7unpad_append_replicate P (16 - P.length % 16) 16 hnp.1 (by omega)
      hnp.2
    have href := pkcs7unpad_refines h plaintext 16 hpt.1
    rw [hview, padded_mk, hun] at href
    have hwin := pkcs7unpad_window h plaintext 16 hpt.1
    rcases hres : pkcs7unpad h plaintext 16 with ⟨res, err⟩
    rw [hres] at href hwin
    simp only [Prod.mk.injEq] at href
    obtain ⟨hrv, rfl⟩ := href
    have hrr : h.read res = P := by
      have := congrArg Slice.bytes hrv
      rwa [Heap.bytes_view] at this
    have hstep : Worker.stepAes aes e iterations (.ok f) h
          ⟨p0, .decCrypted plaintext, rounds, false⟩ =
        .ret (h, ⟨p0, .compare res, rounds, false⟩) := by
      simp only [Worker.stepAes, hb, hres]
    refine ⟨_, _, hstep, ⟨rfl, rfl, hp, ⟨hwin.1, hrr⟩, hr1, fun _ => hlt⟩,
      Nat.le_refl _, fun _ _ _ => rfl, ?_, ?_⟩
    · intro x hx
      rcases hx with hx | hx
      · exact Or.inl (Or.inl hx)
      · exact Or.inl (Or.inr (hwin.2 x hx))
    · simp only [Worker.stepsAes, AesPc.index]
      omega
  | compare pres =>
    have hlt : rounds < iterations := hr2 (by simp)
    have hpr : h.Holds pres P := hpc
    have hstep : Worker.stepAes aes e iterations (.ok f) h ⟨p0, .compare pres, rounds, false⟩ =
        .ret (h, ⟨p0, .loop, rounds + 1, false⟩) := by
      simp only [Worker.stepAes, hpr.2, hp.2, if_true]
    refine ⟨_, _, hstep, ⟨rfl, rfl, hp, trivial, hlt, fun hn => absurd rfl hn⟩,
      Nat.le_refl _, fun _ _ _ => rfl, ?_, ?_⟩
    · intro x hx
      rcases hx with hx | hx
      · exact Or.inl (Or.inl hx)
      · cases hx
    · simp only [Worker.stepsAes, AesPc.index]
      omega

end encconfig.mem

namespace Go

/-- A write of one byte inside a window changes that byte of the window. -/
theorem Heap.read_store_byte (h : Heap) (a off len cap i : Nat) (x : Byte)
    (hv : h.Valid (.ref a off len cap)) (hi : i < len) :
    (h.store a (off + i) [x]).read (.ref a off len cap) = (h.read (.ref a off len cap)).set i x := by
  obtain ⟨h1, h2, h3⟩ := hv
  simp only [Heap.read, Heap.array_store_eq h a (off + i) [x] h1]
  apply List.ext_getElem?
  intro j
  by_cases hj : j < len
  · rw [List.getElem?_take_of_lt hj, List.getElem?_drop]
    by_cases hji : j = i
    · subst hji
      rw [List.getElem?_set_self (by rw [List.length_take, List.length_drop]; omega)]
      rw [List.append_assoc, List.getElem?_append_right (by rw [List.length_take]; omega)]
      rw [List.length_take, Nat.min_eq_left (by omega)]
      simp
    · rw [List.getElem?_set_ne (Ne.symm hji), List.getElem?_take_of_lt hj, List.getElem?_drop]
      by_cases hlt : j < i
      · rw [List.append_assoc, List.getElem?_append_left (by rw [List.length_take]; omega),
          List.getElem?_take_of_lt (by omega)]
      · rw [List.getElem?_append_right (by
          simp only [List.length_append, List.length_take, List.length_singleton]; omega)]
        simp only [List.length_append, List.length_take, List.length_singleton,
          List.getElem?_drop]
        congr 1
        omega
  · rw [List.getElem?_take_eq_none (by omega)]
    rw [List.getElem?_eq_none]
    rw [List.length_set, List.length_take]
    omega

end Go

namespace encconfig.mem

open Go

/-- One round of the loop of the one-time pad writes one byte of the output:
the byte of the input xored with the byte of the key. -/
theorem otpRound_eq (e : otpEncConfig) (kb M : List Byte) (h : Heap) (m : Buf)
    (a off len cap i : Nat) (hk : h.Holds e.key kb) (hkne : e.key.len ≠ 0)
    (hm : h.read m = M) (hi : i < M.length) :
    otpRound e h m (.ref a off len cap) i =
      .ret (h.store a (off + i) [M.getD i 0 ^^^ kb.getD (i % kb.length) 0]) := by
  have hkl : e.key.len = kb.length := by rw [← Heap.length_read h e.key hk.1, hk.2]
  have hmod : i % kb.length < kb.length := Nat.mod_lt _ (by omega)
  have hk0 : ¬ kb.length = 0 := by omega
  simp only [otpRound, hm, hk.2, hkl, if_neg hk0, List.getElem?_eq_getElem hi,
    List.getElem?_eq_getElem hmod, Heap.write, Buf.sliceFrom,
    List.getD_eq_getElem?_getD, Option.getD_some]

theorem getD_set_self (l : List Byte) (i : Nat) (x : Byte) (hi : i < l.length) :
    (l.set i x).getD i 0 = x := by
  simp [List.getD_eq_getElem?_getD, List.getElem?_set_self hi]

theorem getD_set_ne (l : List Byte) (i j : Nat) (x : Byte) (hij : i ≠ j) :
    (l.set i x).getD j 0 = l.getD j 0 := by
  simp [List.getD_eq_getElem?_getD, List.getElem?_set_ne hij]

theorem eq_of_getD (l r : List Byte) (hl : l.length = r.length)
    (h : ∀ j, j < r.length → l.getD j 0 = r.getD j 0) : l = r := by
  apply List.ext_getElem hl
  intro j h1 h2
  have := h j h2
  simpa [List.getD_eq_getElem?_getD, List.getElem?_eq_getElem h1,
    List.getElem?_eq_getElem h2] using this

/-- One step of a goroutine of `TestOTPConcurrency` whose arrays were left
alone, its plaintext and the key of the cipher holding their bytes: the step
returns, the
goroutine is in order at the point the step leads to, no array was written but
those the goroutine owns, what it has come to own is fresh, and it is one step
further. -/
theorem stepOtp_ok (e : otpEncConfig) (kb P : List Byte) (p : Buf) (iterations : Nat)
    (hkne : e.key.len ≠ 0) (w : Worker OtpPc) (h : Heap)
    (hw : w.OkOtp kb P p iterations h) (hk : h.Holds e.key kb) (hp : h.Holds p P) :
    ∃ g v, w.stepOtp e iterations h = .ret (g, v) ∧
      v.OkOtp kb P p iterations g ∧ h.length ≤ g.length ∧
      (∀ x, x < h.length → ¬ w.OwnsOtp x → g.array x = h.array x) ∧
      (∀ x, v.OwnsOtp x → w.OwnsOtp x ∨ h.length ≤ x) ∧
      v.stepsOtp = min (w.stepsOtp + 1) ((2 * P.length + 5) * iterations) := by
  obtain ⟨p0, pc, rounds, failed⟩ := w
  obtain ⟨hp0, hf, hpl, hpc, hr1, hr2⟩ := hw
  simp only at hp0 hf hr1 hr2 hpc
  subst hp0 hf
  have hmul : ∀ r, r < iterations →
      (2 * P.length + 5) * r + (2 * P.length + 5) ≤ (2 * P.length + 5) * iterations := by
    intro r hr
    have := Nat.mul_le_mul_left (2 * P.length + 5) (Nat.succ_le_of_lt hr)
    rwa [Nat.mul_succ] at this
  cases pc with
  | loop =>
    by_cases hit : iterations ≤ rounds
    · have hstep : Worker.stepOtp e iterations h ⟨p0, .loop, rounds, false⟩ =
          .ret (h, ⟨p0, .loop, rounds, false⟩) := by
        simp only [Worker.stepOtp, hit, or_true, if_true]
      refine ⟨_, _, hstep, ⟨rfl, rfl, hpl, hpc, hr1, hr2⟩, Nat.le_refl _, fun _ _ _ => rfl,
        fun x hx => Or.inl hx, ?_⟩
      have e1 : rounds = iterations := by omega
      subst e1
      simp only [Worker.stepsOtp, OtpPc.index, hpl]
      omega
    · have hlt : rounds < iterations := by omega
      have hstep : Worker.stepOtp e iterations h ⟨p0, .loop, rounds, false⟩ =
          .ret (h ++ [List.replicate P.length 0],
            ⟨p0, .encLoop (.ref h.length 0 P.length P.length) 0, rounds, false⟩) := by
        simp only [Worker.stepOtp, hit, Bool.false_eq_true, or_self, if_false, Heap.make, hpl]
      refine ⟨_, _, hstep, ⟨rfl, rfl, hpl, ⟨?_, rfl, by simp, Nat.zero_le _, fun j hj => by omega⟩,
        hr1, fun _ => hlt⟩, by simp, fun x hx _ => Heap.array_append_lt h _ x hx, ?_, ?_⟩
      · refine ⟨by simp, Nat.le_refl _, ?_⟩
        rw [Heap.array_append_eq]
        simp
      · intro x hx
        have e1 : h.length = x := hx
        exact Or.inr (by omega)
      · have := hmul rounds hlt
        simp only [Worker.stepsOtp, OtpPc.index, hpl]
        omega
  | encLoop out i =>
    have hlt : rounds < iterations := hr2 (by simp)
    obtain ⟨hvo, hol, hon, hil, hget⟩ :
        h.Valid out ∧ out.len = P.length ∧ out ≠ .nil ∧ i ≤ P.length ∧
        ∀ j, j < i → (h.read out).getD j 0 = P.getD j 0 ^^^ kb.getD (j % kb.length) 0 := hpc
    cases out with
    | nil => exact absurd rfl hon
    | ref a off len cap =>
      have hol2 : len = P.length := hol
      subst hol2
      by_cases hi : i < P.length
      · have hrd := otpRound_eq e kb P h p0 a off P.length cap i hk hkne hp.2 hi
        have hstep : Worker.stepOtp e iterations h
              ⟨p0, .encLoop (.ref a off P.length cap) i, rounds, false⟩ =
            .ret (h.store a (off + i) [P.getD i 0 ^^^ kb.getD (i % kb.length) 0],
              ⟨p0, .encLoop (.ref a off P.length cap) (i + 1), rounds, false⟩) := by
          simp only [Worker.stepOtp, hpl, if_pos hi, hrd]
        have hpos : off + i + [P.getD i 0 ^^^ kb.getD (i % kb.length) 0].length ≤
            (h.array a).length := by
          have := hvo.2.2
          have := hvo.2.1
          simp only [List.length_singleton]
          omega
        have hrb := Heap.read_store_byte h a off P.length cap i
          (P.getD i 0 ^^^ kb.getD (i % kb.length) 0) hvo hi
        have hrl := Heap.length_read h _ hvo
        refine ⟨_, _, hstep, ⟨rfl, rfl, hpl, ⟨Heap.valid_store hvo a _ _ hpos, rfl, hon, hi, ?_⟩,
          hr1, fun _ => hlt⟩, by rw [Heap.length_store], ?_, fun x hx => Or.inl hx, ?_⟩
        · intro j hj
          rw [hrb]
          by_cases hji : j = i
          · subst hji
            rw [getD_set_self _ _ _ (by rw [hrl]; exact hi)]
          · rw [getD_set_ne _ _ _ _ (Ne.symm hji)]
            exact hget j (by omega)
        · intro x _ hn
          exact Heap.array_store_ne h a _ _ x (fun e1 => hn e1.symm)
        · have := hmul rounds hlt
          simp only [Worker.stepsOtp, OtpPc.index, hpl]
          omega
      · have hstep : Worker.stepOtp e iterations h
              ⟨p0, .encLoop (.ref a off P.length cap) i, rounds, false⟩ =
            .ret (h, ⟨p0, .decrypt (.ref a off P.length cap), rounds, false⟩) := by
          simp only [Worker.stepOtp, hpl, if_neg hi]
        refine ⟨_, _, hstep, ⟨rfl, rfl, hpl, ⟨hvo, rfl, fun j hj => hget j (by omega)⟩, hr1,
          fun _ => hlt⟩, Nat.le_refl _, fun _ _ _ => rfl, fun x hx => Or.inl hx, ?_⟩
        have := hmul rounds hlt
        simp only [Worker.stepsOtp, OtpPc.index, hpl]
        omega
  | decrypt c =>
    have hlt : rounds < iterations := hr2 (by simp)
    obtain ⟨hvc, hcl, hget⟩ :
        h.Valid c ∧ c.len = P.length ∧
        ∀ j, j < P.length → (h.read c).getD j 0 = P.getD j 0 ^^^ kb.getD (j % kb.length) 0 := hpc
    have hfr : ∀ x, x < h.length → Heap.array (h ++ [List.replicate P.length 0]) x = h.array x :=
      fun x hx => Heap.array_append_lt h _ x hx
    have hstep : Worker.stepOtp e iterations h ⟨p0, .decrypt c, rounds, false⟩ =
        .ret (h ++ [List.replicate P.length 0],
          ⟨p0, .decLoop c (.ref h.length 0 P.length P.length) 0, rounds, false⟩) := by
      simp only [Worker.stepOtp, Heap.make, hcl]
    have hc2 := Heap.valid_read_of_array h (h ++ [List.replicate P.length 0]) c (by simp) (by
      intro arr off len cap e1
      subst e1
      exact hfr arr hvc.1) hvc
    refine ⟨_, _, hstep, ⟨rfl, rfl, hpl, ⟨⟨hc2.1, hcl, fun j hj => by rw [hc2.2]; exact hget j hj⟩,
      ?_, rfl, by simp, Nat.zero_le _, ?_, fun j hj => by omega⟩, hr1, fun _ => hlt⟩, by simp,
      fun x hx _ => hfr x hx, ?_, ?_⟩
    · refine ⟨by simp, Nat.le_refl _, ?_⟩
      rw [Heap.array_append_eq]
      simp
    · intro x hx hm
      have e1 : h.length = x := hx
      have := Heap.lt_of_valid hvc hm
      omega
    · intro x hx
      rcases hx with hx | hx
      · exact Or.inl hx
      · have e1 : h.length = x := hx
        exact Or.inr (by omega)
    · have := hmul rounds hlt
      simp only [Worker.stepsOtp, OtpPc.index, hpl]
      omega
  | decLoop m out i =>
    have hlt : rounds < iterations := hr2 (by simp)
    obtain ⟨⟨hvm, hml, hmget⟩, hvo, hol, hon, hil, hdis, hget⟩ :
        (h.Valid m ∧ m.len = P.length ∧
          ∀ j, j < P.length → (h.read m).getD j 0 = P.getD j 0 ^^^ kb.getD (j % kb.length) 0) ∧
        h.Valid out ∧ out.len = P.length ∧ out ≠ .nil ∧ i ≤ P.length ∧
        (∀ x, out.InArray x → ¬ m.InArray x) ∧
        ∀ j, j < i → (h.read out).getD j 0 = P.getD j 0 := hpc
    cases out with
    | nil => exact absurd rfl hon
    | ref a off len cap =>
      have hol2 : len = P.length := hol
      subst hol2
      have hrl := Heap.length_read h _ hvo
      have hmrl : (h.read m).length = P.length := by rw [Heap.length_read h m hvm, hml]
      by_cases hi : i < P.length
      · have hrd := otpRound_eq e kb (h.read m) h m a off P.length cap i hk hkne rfl
          (by rw [hmrl]; exact hi)
        have hx : (h.read m).getD i 0 ^^^ kb.getD (i % kb.length) 0 = P.getD i 0 := by
          rw [hmget i hi]
          exact byte_xor_cancel _ _
        rw [hx] at hrd
        have hstep : Worker.stepOtp e iterations h
              ⟨p0, .decLoop m (.ref a off P.length cap) i, rounds, false⟩ =
            .ret (h.store a (off + i) [P.getD i 0],
              ⟨p0, .decLoop m (.ref a off P.length cap) (i + 1), rounds, false⟩) := by
          simp only [Worker.stepOtp, hml, if_pos hi, hrd]
        have hpos : off + i + [P.getD i 0].length ≤ (h.array a).length := by
          have := hvo.2.2
          have := hvo.2.1
          simp only [List.length_singleton]
          omega
        have hrb := Heap.read_store_byte h a off P.length cap i (P.getD i 0) hvo hi
        have hm2 := Heap.valid_read_of_array h (h.store a (off + i) [P.getD i 0]) m
          (by rw [Heap.length_store]) (by
            intro arr off2 len2 cap2 e1
            subst e1
            exact Heap.array_store_ne h a _ _ arr (fun e2 => hdis a rfl e2)) hvm
        refine ⟨_, _, hstep, ⟨rfl, rfl, hpl, ⟨⟨hm2.1, hml, fun j hj => by
            rw [hm2.2]; exact hmget j hj⟩, Heap.valid_store hvo a _ _ hpos, rfl, hon, hi, hdis, ?_⟩,
          hr1, fun _ => hlt⟩, by rw [Heap.length_store], ?_, fun x hx => Or.inl hx, ?_⟩
        · intro j hj
          rw [hrb]
          by_cases hji : j = i
          · subst hji
            rw [getD_set_self _ _ _ (by rw [hrl]; exact hi)]
          · rw [getD_set_ne _ _ _ _ (Ne.symm hji)]
            exact hget j (by omega)
        · intro x _ hn
          exact Heap.array_store_ne h a _ _ x (fun e1 => hn (Or.inr e1.symm))
        · have := hmul rounds hlt
          simp only [Worker.stepsOtp, OtpPc.index, hpl]
          omega
      · have hstep : Worker.stepOtp e iterations h
              ⟨p0, .decLoop m (.ref a off P.length cap) i, rounds, false⟩ =
            .ret (h, ⟨p0, .compare (.ref a off P.length cap), rounds, false⟩) := by
          simp only [Worker.stepOtp, hml, if_neg hi]
        refine ⟨_, _, hstep, ⟨rfl, rfl, hpl, ⟨hvo, ?_⟩, hr1, fun _ => hlt⟩, Nat.le_refl _,
          fun _ _ _ => rfl, fun x hx => Or.inl (Or.inr hx), ?_⟩
        · exact eq_of_getD _ _ hrl (fun j hj => hget j (by omega))
        · have := hmul rounds hlt
          have e1 : i = P.length := by omega
          subst e1
          simp only [Worker.stepsOtp, OtpPc.index, hpl]
          omega
  | compare pres =>
    have hlt : rounds < iterations := hr2 (by simp)
    have hpr : h.Holds pres P := hpc
    have hstep : Worker.stepOtp e iterations h ⟨p0, .compare pres, rounds, false⟩ =
        .ret (h, ⟨p0, .loop, rounds + 1, false⟩) := by
      simp only [Worker.stepOtp, hpr.2, hp.2, if_true]
    refine ⟨_, _, hstep, ⟨rfl, rfl, hpl, trivial, hlt, fun hn => absurd rfl hn⟩,
      Nat.le_refl _, fun _ _ _ => rfl, (fun x hx => by cases hx), ?_⟩
    have := hmul rounds hlt
    simp only [Worker.stepsOtp, OtpPc.index, hpl, Nat.mul_succ]
    omega

end encconfig.mem

namespace encconfig.mem

open Go

/-- A well-formed window stays well formed when its array is unchanged. -/
theorem valid_of_array {h g : Heap} {b : Buf} (hv : h.Valid b) (hl : h.length ≤ g.length)
    (ha : ∀ x, b.InArray x → g.array x = h.array x) : g.Valid b :=
  (Heap.Holds.of_array (show h.Holds b (h.read b) from ⟨hv, rfl⟩) hl ha).1

theorem read_of_array {h g : Heap} {b : Buf} (hv : h.Valid b) (hl : h.length ≤ g.length)
    (ha : ∀ x, b.InArray x → g.array x = h.array x) : g.read b = h.read b :=
  (Heap.Holds.of_array (show h.Holds b (h.read b) from ⟨hv, rfl⟩) hl ha).2

/-- What holds of a goroutine of `TestAESCBCConcurrency` stays true as long as
the arrays it owns are not written. -/
theorem OkAes_stable (aes : AES) (kb P : List Byte) (p : Buf) (iterations : Nat)
    (w : Worker AesPc) (h g : Heap) (hw : w.OkAes aes kb P p iterations h)
    (hl : h.length ≤ g.length) (ha : ∀ x, w.OwnsAes x → g.array x = h.array x) :
    w.OkAes aes kb P p iterations g := by
  obtain ⟨p0, pc, rounds, failed⟩ := w
  obtain ⟨hp0, hf, hp, hpc, hr1, hr2⟩ := hw
  simp only at hp0 hf hr1 hr2 hpc
  subst hp0 hf
  refine ⟨rfl, rfl, hp.of_array hl (fun x hx => ha x (Or.inl hx)), ?_, hr1, hr2⟩
  have hown : ∀ x, pc.Owns x → g.array x = h.array x := fun x hx => ha x (Or.inr hx)
  cases pc with
  | loop => trivial
  | padRepeat padding => exact Heap.Holds.of_array hpc hl hown
  | padded plaintext => exact Heap.Holds.of_array hpc hl hown
  | encKeyed plaintext block => exact ⟨Heap.Holds.of_array hpc.1 hl hown, hpc.2⟩
  | encMade plaintext block ciphertext =>
    obtain ⟨h1, h2, h3, h4⟩ := hpc
    exact ⟨h1.of_array hl (fun x hx => hown x (Or.inl hx)), h2,
      valid_of_array h3 hl (fun x hx => hown x (Or.inr hx)), h4⟩
  | encIv plaintext block ciphertext =>
    obtain ⟨h1, h2, h3, h4⟩ := hpc
    exact ⟨h1.of_array hl (fun x hx => hown x (Or.inl hx)), h2,
      valid_of_array h3 hl (fun x hx => hown x (Or.inr hx)), h4⟩
  | encMode plaintext block ciphertext iv =>
    obtain ⟨h1, h2, h3, h4, h5⟩ := hpc
    refine ⟨h1.of_array hl (fun x hx => hown x (Or.inl hx)), h2,
      valid_of_array h3 hl (fun x hx => hown x (Or.inr hx)), ?_, h5⟩
    obtain ⟨a, rfl, _, _⟩ := h5
    have hv16 : h.Valid (.ref a 0 16 (16 + plaintext.len)) := ⟨h3.1, by omega, h3.2.2⟩
    rw [← h4]
    exact read_of_array hv16 hl (fun x hx => hown x (Or.inr hx))
  | decrypt c =>
    obtain ⟨h1, iv, h2, h3⟩ := hpc
    exact ⟨valid_of_array h1 hl hown, iv, h2, by rw [read_of_array h1 hl hown]; exact h3⟩
  | decKeyed c block =>
    obtain ⟨h1, hb, iv, h2, h3⟩ := hpc
    exact ⟨valid_of_array h1 hl hown, hb, iv, h2, by rw [read_of_array h1 hl hown]; exact h3⟩
  | decMode ciphertext block iv =>
    obtain ⟨h1, h2, h3⟩ := hpc
    exact ⟨h1, h2, h3.of_array hl hown⟩
  | decMade ciphertext block iv plaintext =>
    obtain ⟨h1, h2, h3, h4, h5⟩ := hpc
    exact ⟨h1, h2, h3.of_array hl (fun x hx => hown x (Or.inl hx)),
      valid_of_array h4 hl (fun x hx => hown x (Or.inr hx)), h5⟩
  | decCrypted plaintext => exact Heap.Holds.of_array hpc hl hown
  | compare pres => exact Heap.Holds.of_array hpc hl hown

/-- The arrays a goroutine of `TestAESCBCConcurrency` owns are allocated. -/
theorem OwnsAes_lt (aes : AES) (kb P : List Byte) (p : Buf) (iterations : Nat)
    (w : Worker AesPc) (h : Heap) (hw : w.OkAes aes kb P p iterations h) (x : Nat)
    (hx : w.OwnsAes x) : x < h.length := by
  obtain ⟨p0, pc, rounds, failed⟩ := w
  obtain ⟨hp0, hf, hp, hpc, hr1, hr2⟩ := hw
  simp only at hp0 hf hr1 hr2 hpc
  subst hp0 hf
  rcases hx with hx | hx
  · exact Heap.lt_of_valid hp.1 hx
  · cases pc with
    | loop => cases hx
    | padRepeat padding => exact Heap.lt_of_valid hpc.1 hx
    | padded plaintext => exact Heap.lt_of_valid hpc.1 hx
    | encKeyed plaintext block => exact Heap.lt_of_valid hpc.1.1 hx
    | encMade plaintext block ciphertext =>
      rcases hx with hx | hx
      · exact Heap.lt_of_valid hpc.1.1 hx
      · exact Heap.lt_of_valid hpc.2.2.1 hx
    | encIv plaintext block ciphertext =>
      rcases hx with hx | hx
      · exact Heap.lt_of_valid hpc.1.1 hx
      · exact Heap.lt_of_valid hpc.2.2.1 hx
    | encMode plaintext block ciphertext iv =>
      rcases hx with hx | hx
      · exact Heap.lt_of_valid hpc.1.1 hx
      · exact Heap.lt_of_valid hpc.2.2.1 hx
    | decrypt c => exact Heap.lt_of_valid hpc.1 hx
    | decKeyed c block => exact Heap.lt_of_valid hpc.1 hx
    | decMode ciphertext block iv => exact Heap.lt_of_valid hpc.2.2.1 hx
    | decMade ciphertext block iv plaintext =>
      rcases hx with hx | hx
      · exact Heap.lt_of_valid hpc.2.2.1.1 hx
      · exact Heap.lt_of_valid hpc.2.2.2.1 hx
    | decCrypted plaintext => exact Heap.lt_of_valid hpc.1 hx
    | compare pres => exact Heap.lt_of_valid hpc.1 hx

/-- What holds of a goroutine of `TestOTPConcurrency` stays true as long as
the arrays it owns are not written. -/
theorem OkOtp_stable (kb P : List Byte) (p : Buf) (iterations : Nat)
    (w : Worker OtpPc) (h g : Heap) (hw : w.OkOtp kb P p iterations h)
    (hl : h.length ≤ g.length) (ha : ∀ x, w.OwnsOtp x → g.array x = h.array x) :
    w.OkOtp kb P p iterations g := by
  obtain ⟨p0, pc, rounds, failed⟩ := w
  obtain ⟨hp0, hf, hpl, hpc, hr1, hr2⟩ := hw
  simp only at hp0 hf hr1 hr2 hpc
  subst hp0 hf
  refine ⟨rfl, rfl, hpl, ?_, hr1, hr2⟩
  cases pc with
  | loop => trivial
  | encLoop out i =>
    obtain ⟨h1, h2, h3, h4, h5⟩ := hpc
    have hown : ∀ x, out.InArray x → g.array x = h.array x := fun x hx => ha x hx
    exact ⟨valid_of_array h1 hl hown, h2, h3, h4,
      fun j hj => by rw [read_of_array h1 hl hown]; exact h5 j hj⟩
  | decrypt c =>
    obtain ⟨h1, h2, h3⟩ := hpc
    have hown : ∀ x, c.InArray x → g.array x = h.array x := fun x hx => ha x hx
    exact ⟨valid_of_array h1 hl hown, h2,
      fun j hj => by rw [read_of_array h1 hl hown]; exact h3 j hj⟩
  | decLoop m out i =>
    obtain ⟨⟨m1, m2, m3⟩, h1, h2, h3, h4, h5, h6⟩ := hpc
    have hm : ∀ x, m.InArray x → g.array x = h.array x := fun x hx => ha x (Or.inl hx)
    have hown : ∀ x, out.InArray x → g.array x = h.array x := fun x hx => ha x (Or.inr hx)
    exact ⟨⟨valid_of_array m1 hl hm, m2, fun j hj => by rw [read_of_array m1 hl hm]; exact m3 j hj⟩,
      valid_of_array h1 hl hown, h2, h3, h4, h5,
      fun j hj => by rw [read_of_array h1 hl hown]; exact h6 j hj⟩
  | compare pres =>
    have hown : ∀ x, pres.InArray x → g.array x = h.array x := fun x hx => ha x hx
    exact Heap.Holds.of_array hpc hl hown

/-- The arrays a goroutine of `TestOTPConcurrency` owns are allocated. -/
theorem OwnsOtp_lt (kb P : List Byte) (p : Buf) (iterations : Nat)
    (w : Worker OtpPc) (h : Heap) (hw : w.OkOtp kb P p iterations h) (x : Nat)
    (hx : w.OwnsOtp x) : x < h.length := by
  obtain ⟨p0, pc, rounds, failed⟩ := w
  obtain ⟨hp0, hf, hpl, hpc, hr1, hr2⟩ := hw
  simp only at hp0 hf hr1 hr2 hpc
  cases pc with
  | loop => cases hx
  | encLoop out i => exact Heap.lt_of_valid hpc.1 hx
  | decrypt c => exact Heap.lt_of_valid hpc.1 hx
  | decLoop m out i =>
    rcases hx with hx | hx
    · exact Heap.lt_of_valid hpc.1.1 hx
    · exact Heap.lt_of_valid hpc.2.1 hx
  | compare pres => exact Heap.lt_of_valid hpc.1 hx

end encconfig.mem

namespace encconfig.mem

open Go

/-- Goroutines of `TestAESCBCConcurrency` whose plaintexts lie in pairwise
different arrays, none of them the array of the key: every run returns and
leaves every goroutine in order, with the steps the schedule gave it. -/
theorem run_aes (aes : AES) (e : aesCBCEncConfig) (h0 : Heap) (ps : List Buf)
    (hps : ∀ p ∈ ps, h0.Valid p) (iterations : Nat) (f : Nat → Nat → Byte) (sched : List Nat)
    (hk : h0.Valid e.key) (hlen : e.key.len = 16 ∨ e.key.len = 24 ∨ e.key.len = 32)
    (hb : e.blockSize = (BlockSize : Int))
    (hinv : ∀ b, aes.decrypt (h0.read e.key) (aes.encrypt (h0.read e.key) b) = b)
    (hkey : ∀ p ∈ ps, ∀ x, p.InArray x → ¬ e.key.InArray x)
    (hsep : ∀ (i j : Nat) p q, i ≠ j → ps[i]? = some p → ps[j]? = some q →
      ∀ x, p.InArray x → ¬ q.InArray x) :
    ∃ h ws, run (fun n h w => Worker.stepAes aes e iterations (.ok (f n)) h w) sched 0 h0
        (ps.map Worker.startAes) = .ret (h, ws) ∧
      ws.length = ps.length ∧ h.Holds e.key (h0.read e.key) ∧
      ∀ (i : Nat) p, ps[i]? = some p →
        ∃ w, ws[i]? = some w ∧ w.OkAes aes (h0.read e.key) (h0.read p) p iterations h ∧
          w.stepsAes = min (sched.count i) (13 * iterations) := by
  have hb16 : uint16 e.blockSize = 16 := by rw [hb]; exact encconfig.uint16_blockSize
  have hmain := run_invariant
    (fun n h w => Worker.stepAes aes e iterations (.ok (f n)) h w)
    (fun i w h => ∃ p, ps[i]? = some p ∧ w.OkAes aes (h0.read e.key) (h0.read p) p iterations h)
    Worker.OwnsAes (fun h => h.Holds e.key (h0.read e.key)) (fun x => e.key.InArray x)
    Worker.stepsAes (fun _ => 13 * iterations)
    (fun i w h g ⟨p, hp, hw⟩ hl ha =>
      ⟨p, hp, OkAes_stable aes _ _ p iterations w h g hw hl ha⟩)
    (fun h g hkh hl ha => hkh.of_array hl ha)
    (fun i w h ⟨p, _, hw⟩ x hx => OwnsAes_lt aes _ _ p iterations w h hw x hx)
    (fun h hkh x hx => Heap.lt_of_valid hkh.1 hx)
    (fun n i w h ⟨p, hp, hw⟩ hkh _ => by
      obtain ⟨g, v, h1, h2, h3⟩ :=
        stepAes_ok aes e (h0.read e.key) (h0.read p) p iterations hb16 hlen hinv (f n) w h hw hkh
      exact ⟨g, v, h1, ⟨p, hp, h2⟩, h3⟩)
    sched 0 h0 (ps.map Worker.startAes) ⟨hk, rfl⟩
    (by
      intro i w hw
      rw [List.getElem?_map] at hw
      cases hpi : ps[i]? with
      | none => rw [hpi] at hw; cases hw
      | some p =>
        rw [hpi] at hw
        simp only [Option.map_some', Option.some.injEq] at hw
        subst hw
        have hmem : p ∈ ps := List.getElem?_mem hpi
        refine ⟨⟨p, hpi, rfl, rfl, ⟨hps p hmem, rfl⟩, trivial, Nat.zero_le _,
          fun hn => absurd rfl hn⟩, ?_, ?_⟩
        · intro x hx ho
          rcases ho with ho | ho
          · exact hkey p hmem x ho hx
          · exact ho
        · simp [Worker.stepsAes, Worker.startAes, AesPc.index])
    (by
      intro i j w v hij hw hv x hxw hxv
      rw [List.getElem?_map] at hw hv
      cases hpi : ps[i]? with
      | none => rw [hpi] at hw; cases hw
      | some p =>
        cases hpj : ps[j]? with
        | none => rw [hpj] at hv; cases hv
        | some q =>
          rw [hpi] at hw
          rw [hpj] at hv
          simp only [Option.map_some', Option.some.injEq] at hw hv
          subst hw hv
          rcases hxw with hxw | hxw
          · rcases hxv with hxv | hxv
            · exact hsep i j p q hij hpi hpj x hxw hxv
            · exact hxv
          · exact hxw)
  obtain ⟨g, vs, hrun, hlen2, hkg, hall⟩ := hmain
  refine ⟨g, vs, hrun, by rw [hlen2, List.length_map], hkg, fun i p hp => ?_⟩
  obtain ⟨v, hv, ⟨q, hq, hok⟩, hprog⟩ :=
    hall i (Worker.startAes p) (by rw [List.getElem?_map, hp]; rfl)
  rw [hp] at hq
  cases hq
  refine ⟨v, hv, hok, ?_⟩
  rw [hprog]
  simp [Worker.stepsAes, Worker.startAes, AesPc.index]

/-- Goroutines of `TestOTPConcurrency`, wherever their plaintexts lie: every
run returns and leaves every goroutine in order, with the steps the schedule
gave it, and every plaintext and the key as they were. -/
theorem run_otp (e : otpEncConfig) (h0 : Heap) (ps : List Buf)
    (hps : ∀ p ∈ ps, h0.Valid p) (iterations : Nat) (sched : List Nat)
    (hk : h0.Valid e.key) (hkne : e.key.len ≠ 0) :
    ∃ h ws, run (fun _ h w => Worker.stepOtp e iterations h w) sched 0 h0
        (ps.map Worker.startOtp) = .ret (h, ws) ∧
      ws.length = ps.length ∧ h.Holds e.key (h0.read e.key) ∧
      (∀ p ∈ ps, h.Holds p (h0.read p)) ∧
      ∀ (i : Nat) p, ps[i]? = some p →
        ∃ w, ws[i]? = some w ∧ w.OkOtp (h0.read e.key) (h0.read p) p iterations h ∧
          w.stepsOtp = min (sched.count i) ((2 * p.len + 5) * iterations) := by
  have hmain := run_invariant
    (fun _ h w => Worker.stepOtp e iterations h w)
    (fun i w h => ∃ p, ps[i]? = some p ∧ w.OkOtp (h0.read e.key) (h0.read p) p iterations h)
    Worker.OwnsOtp
    (fun h => h.Holds e.key (h0.read e.key) ∧ ∀ p ∈ ps, h.Holds p (h0.read p))
    (fun x => e.key.InArray x ∨ ∃ p ∈ ps, p.InArray x)
    Worker.stepsOtp (fun i => (2 * ((ps[i]?).getD .nil).len + 5) * iterations)
    (fun i w h g ⟨p, hp, hw⟩ hl ha =>
      ⟨p, hp, OkOtp_stable _ _ p iterations w h g hw hl ha⟩)
    (fun h g hkh hl ha => ⟨hkh.1.of_array hl (fun x hx => ha x (Or.inl hx)),
      fun p hp => (hkh.2 p hp).of_array hl (fun x hx => ha x (Or.inr ⟨p, hp, hx⟩))⟩)
    (fun i w h ⟨p, _, hw⟩ x hx => OwnsOtp_lt _ _ p iterations w h hw x hx)
    (fun h hkh x hx => by
      rcases hx with hx | ⟨p, hp, hx⟩
      · exact Heap.lt_of_valid hkh.1.1 hx
      · exact Heap.lt_of_valid (hkh.2 p hp).1 hx)
    (fun n i w h ⟨p, hp, hw⟩ hkh _ => by
      have hmem : p ∈ ps := List.getElem?_mem hp
      have hpl : (h0.read p).length = p.len := Heap.length_read h0 p (hps p hmem)
      obtain ⟨g, v, h1, h2, h3, h4, h5, h6⟩ :=
        stepOtp_ok e (h0.read e.key) (h0.read p) p iterations hkne w h hw hkh.1 (hkh.2 p hmem)
      refine ⟨g, v, h1, ⟨p, hp, h2⟩, h3, h4, h5, ?_⟩
      rw [h6]
      simp only [hp, hpl, Option.getD_some])
    sched 0 h0 (ps.map Worker.startOtp) ⟨⟨hk, rfl⟩, fun p hp => ⟨hps p hp, rfl⟩⟩
    (by
      intro i w hw
      rw [List.getElem?_map] at hw
      cases hpi : ps[i]? with
      | none => rw [hpi] at hw; cases hw
      | some p =>
        rw [hpi] at hw
        simp only [Option.map_some', Option.some.injEq] at hw
        subst hw
        have hmem : p ∈ ps := List.getElem?_mem hpi
        refine ⟨⟨p, hpi, rfl, rfl, (Heap.length_read h0 p (hps p hmem)).symm, trivial,
          Nat.zero_le _, fun hn => absurd rfl hn⟩, fun x _ ho => ho, ?_⟩
        simp [Worker.stepsOtp, Worker.startOtp, OtpPc.index])
    (by
      intro i j w v hij hw hv x hxw hxv
      rw [List.getElem?_map] at hw
      cases hpi : ps[i]? with
      | none => rw [hpi] at hw; cases hw
      | some p =>
        rw [hpi] at hw
        simp only [Option.map_some', Option.some.injEq] at hw
        subst hw
        exact hxw)
  obtain ⟨g, vs, hrun, hlen2, hkg, hall⟩ := hmain
  refine ⟨g, vs, hrun, by rw [hlen2, List.length_map], hkg.1, hkg.2, fun i p hp => ?_⟩
  obtain ⟨v, hv, ⟨q, hq, hok⟩, hprog⟩ :=
    hall i (Worker.startOtp p) (by rw [List.getElem?_map, hp]; rfl)
  rw [hp] at hq
  cases hq
  refine ⟨v, hv, hok, ?_⟩
  rw [hprog]
  simp [hp, Worker.stepsOtp, Worker.startOtp, OtpPc.index]

end encconfig.mem

namespace encconfig.mem

open Go

/-- A run of one goroutine alone, step by step. -/
theorem run_alone {W : Type} (step : Nat → Heap → W → Outcome (Heap × W)) (k n : Nat) (h : Heap)
    (w : W) :
    run step (List.replicate (k + 1) 0) n h [w] =
      match step n h w with
      | .panic => .panic
      | .ret (h1, w1) => run step (List.replicate k 0) (n + 1) h1 [w1] := by
  rfl

theorem run_alone_zero {W : Type} (step : Nat → Heap → W → Outcome (Heap × W)) (n : Nat)
    (h : Heap) (w : W) : run step (List.replicate 0 0) n h [w] = .ret (h, [w]) := rfl

/-- The steps of a goroutine of `TestAESCBCConcurrency` from the head of its
loop through the return of `Encrypt`, run without another goroutine in
between, are the method `Encrypt` over the heap: the same heap, the same slice
returned, a panic where `Encrypt` panics; an error is reported. -/
theorem stepAes_Encrypt (aes : AES) (e : aesCBCEncConfig) (iterations : Nat) (rnd : RandReader)
    (h : Heap) (p : Buf) (rounds : Nat) (failed : Bool) (hr : rounds < iterations) :
    ∃ k, k ≤ 7 ∧
      run (fun _ h w => Worker.stepAes aes e iterations rnd h w) (List.replicate k 0) 0 h
          [⟨p, .loop, rounds, failed⟩] =
        match e.Encrypt aes rnd h p with
        | .panic => .panic
        | .ret (h1, c, err) => .ret (h1, [⟨p, .decrypt c, rounds, failed || err.isSome⟩]) := by
  have hit : ¬ iterations ≤ rounds := by omega
  unfold aesCBCEncConfig.Encrypt pkcs7pad
  by_cases hb : uint16 e.blockSize = 0
  · refine ⟨1, by omega, ?_⟩
    simp only [run_alone, run_alone_zero, Worker.stepAes, if_neg hit, hb, if_true]
  · simp only [if_neg hb]
    generalize hpad : h.alloc (List.replicate (uint16 e.blockSize - p.len % uint16 e.blockSize)
        (byte (uint16 e.blockSize - p.len % uint16 e.blockSize))) = pad
    generalize hm1 : pad.1.append p (pad.1.read pad.2) = m1
    cases hnc : NewCipher (m1.1.view e.key) with
    | some err =>
      refine ⟨3, by omega, ?_⟩
      simp only [run_alone, run_alone_zero, Worker.stepAes, if_neg hit, if_neg hb, hpad, hm1, hnc,
        Option.isSome_some, Bool.or_true]
    | none =>
      cases hrf : readFull rnd BlockSize with
      | error err =>
        refine ⟨5, by omega, ?_⟩
        simp only [run_alone, run_alone_zero, Worker.stepAes, if_neg hit, if_neg hb, hpad, hm1,
          hnc, hrf, Option.isSome_some, Bool.or_true]
      | ok ivBytes =>
        refine ⟨7, by omega, ?_⟩
        simp only [run_alone, run_alone_zero, Worker.stepAes, if_neg hit, if_neg hb, hpad, hm1,
          hnc, hrf]
        generalize CBCEncrypter.CryptBlocks _ _ _ = cb
        cases cb <;> simp

/-- The steps of a goroutine of `TestAESCBCConcurrency` from the call of
`Decrypt` through its return, run without another goroutine in between, are
the method `Decrypt` over the heap. -/
theorem stepAes_Decrypt (aes : AES) (e : aesCBCEncConfig) (iterations : Nat) (rnd : RandReader)
    (h : Heap) (p c : Buf) (rounds : Nat) (failed : Bool) :
    ∃ k, k ≤ 5 ∧
      run (fun _ h w => Worker.stepAes aes e iterations rnd h w) (List.replicate k 0) 0 h
          [⟨p, .decrypt c, rounds, failed⟩] =
        match e.Decrypt aes h c with
        | .panic => .panic
        | .ret (h1, pres, err) => .ret (h1, [⟨p, .compare pres, rounds, failed || err.isSome⟩]) := by
  unfold aesCBCEncConfig.Decrypt
  cases hnc : NewCipher (h.view e.key) with
  | some err =>
    refine ⟨1, by omega, ?_⟩
    simp only [run_alone, run_alone_zero, Worker.stepAes, hnc, Option.isSome_some, Bool.or_true]
  | none =>
    by_cases h1 : c.len < BlockSize
    · refine ⟨2, by omega, ?_⟩
      simp only [run_alone, run_alone_zero, Worker.stepAes, hnc, if_pos h1, Option.isSome_some,
        Bool.or_true]
    · by_cases h2 : (c.sliceFrom BlockSize).len % BlockSize ≠ 0
      · refine ⟨2, by omega, ?_⟩
        simp only [run_alone, run_alone_zero, Worker.stepAes, hnc, if_neg h1, if_pos h2,
          Option.isSome_some, Bool.or_true]
      · refine ⟨5, by omega, ?_⟩
        simp only [run_alone, run_alone_zero, Worker.stepAes, hnc, if_neg h1, if_neg h2]
        generalize CBCDecrypter.CryptBlocks _ _ _ = cb
        cases cb with
        | panic => rfl
        | ret body =>
          simp only
          generalize pkcs7unpad _ _ _ = un
          obtain ⟨res, err⟩ := un
          cases err <;> simp

/-- The rounds of the loop of the one-time pad, run step by step without
another goroutine in between, are the loop `otpLoop` over the heap. -/
theorem stepOtp_encLoop (e : otpEncConfig) (iterations : Nat) (p out : Buf) (rounds : Nat)
    (failed : Bool) :
    ∀ (n i k : Nat) (h : Heap), i + n = p.len →
      run (fun _ h w => Worker.stepOtp e iterations h w) (List.replicate n 0) k h
          [⟨p, .encLoop out i, rounds, failed⟩] =
        match otpLoop e.key p out n i h with
        | .panic => .panic
        | .ret h1 => .ret (h1, [⟨p, .encLoop out (i + n), rounds, failed⟩])
  | 0, i, k, h, _ => rfl
  | n + 1, i, k, h, hin => by
    have hi : i < p.len := by omega
    have ih := stepOtp_encLoop e iterations p out rounds failed n (i + 1) (k + 1)
    have hs : Worker.stepOtp e iterations h ⟨p, .encLoop out i, rounds, failed⟩ =
        match otpRound e h p out i with
        | .panic => .panic
        | .ret h1 => .ret (h1, ⟨p, .encLoop out (i + 1), rounds, failed⟩) := by
      simp only [Worker.stepOtp, if_pos hi]
    rw [run_alone]
    simp only [hs, otpRound, otpLoop]
    by_cases hk : e.key.len = 0
    · simp only [if_pos hk]
    · simp only [if_neg hk]
      cases hb : (h.read p)[i]? with
      | none => rfl
      | some b =>
        cases hx : (h.read e.key)[i % e.key.len]? with
        | none => rfl
        | some x =>
          simp only
          rw [ih _ (by omega), Nat.add_assoc, Nat.add_comm 1 n]

/-- The same for the loop of the `Encrypt` that `Decrypt` calls. -/
theorem stepOtp_decLoop (e : otpEncConfig) (iterations : Nat) (p m out : Buf) (rounds : Nat)
    (failed : Bool) :
    ∀ (n i k : Nat) (h : Heap), i + n = m.len →
      run (fun _ h w => Worker.stepOtp e iterations h w) (List.replicate n 0) k h
          [⟨p, .decLoop m out i, rounds, failed⟩] =
        match otpLoop e.key m out n i h with
        | .panic => .panic
        | .ret h1 => .ret (h1, [⟨p, .decLoop m out (i + n), rounds, failed⟩])
  | 0, i, k, h, _ => rfl
  | n + 1, i, k, h, hin => by
    have hi : i < m.len := by omega
    have ih := stepOtp_decLoop e iterations p m out rounds failed n (i + 1) (k + 1)
    have hs : Worker.stepOtp e iterations h ⟨p, .decLoop m out i, rounds, failed⟩ =
        match otpRound e h m out i with
        | .panic => .panic
        | .ret h1 => .ret (h1, ⟨p, .decLoop m out (i + 1), rounds, failed⟩) := by
      simp only [Worker.stepOtp, if_pos hi]
    rw [run_alone]
    simp only [hs, otpRound, otpLoop]
    by_cases hk : e.key.len = 0
    · simp only [if_pos hk]
    · simp only [if_neg hk]
      cases hb : (h.read m)[i]? with
      | none => rfl
      | some b =>
        cases hx : (h.read e.key)[i % e.key.len]? with
        | none => rfl
        | some x =>
          simp only
          rw [ih _ (by omega), Nat.add_assoc, Nat.add_comm 1 n]

/-- A run under a schedule in two parts is the run under the first part
followed by the run under the second. -/
theorem run_append {W : Type} (step : Nat → Heap → W → Outcome (Heap × W)) :
    ∀ (s1 s2 : List Nat) (n : Nat) (h : Heap) (ws : List W),
      run step (s1 ++ s2) n h ws =
        match run step s1 n h ws with
        | .panic => .panic
        | .ret (h1, ws1) => run step s2 (n + s1.length) h1 ws1
  | [], s2, n, h, ws => rfl
  | i :: s1, s2, n, h, ws => by
    have ih := run_append step s1 s2 (n + 1)
    have e1 : n + (s1.length + 1) = n + 1 + s1.length := by omega
    simp only [List.cons_append, run, List.length_cons, List.append_eq, e1]
    cases ws[i]? with
    | none =>
      simp only
      rw [ih]
    | some w =>
      simp only
      cases step n h w with
      | panic => rfl
      | ret r =>
        obtain ⟨h1, w1⟩ := r
        simp only
        rw [ih]

/-- The steps of a goroutine of `TestOTPConcurrency` from the head of its loop
through the return of `Encrypt`, one for `make`, one for every byte and one to
return, run without another goroutine in between, are the method `Encrypt` over
the heap. -/
theorem stepOtp_Encrypt (e : otpEncConfig) (iterations : Nat) (h : Heap) (p : Buf)
    (rounds : Nat) (hr : rounds < iterations) :
    run (fun _ h w => Worker.stepOtp e iterations h w) (List.replicate (p.len + 2) 0) 0 h
        [⟨p, .loop, rounds, false⟩] =
      match e.Encrypt h p with
      | .panic => .panic
      | .ret (h1, c, _) => .ret (h1, [⟨p, .decrypt c, rounds, false⟩]) := by
  have hit : ¬ (false = true ∨ iterations ≤ rounds) := by simp; omega
  have hsplit : List.replicate (p.len + 2) 0 = [0] ++ (List.replicate p.len 0 ++ [0]) := by
    rw [show p.len + 2 = 1 + (p.len + 1) by omega, List.replicate_add, List.replicate_add]
    rfl
  have h1 : Worker.stepOtp e iterations h ⟨p, .loop, rounds, false⟩ =
      .ret ((h.make p.len p.len).1, ⟨p, .encLoop (h.make p.len p.len).2 0, rounds, false⟩) := by
    simp only [Worker.stepOtp, if_neg hit]
  have h2 : ∀ g, Worker.stepOtp e iterations g
        ⟨p, .encLoop (h.make p.len p.len).2 (0 + p.len), rounds, false⟩ =
      .ret (g, ⟨p, .decrypt (h.make p.len p.len).2, rounds, false⟩) := by
    intro g
    simp only [Worker.stepOtp, Nat.zero_add, Nat.lt_irrefl, if_false]
  have e1 : run (fun _ h w => Worker.stepOtp e iterations h w) [0] 0 h
      [⟨p, .loop, rounds, false⟩] =
      .ret ((h.make p.len p.len).1, [⟨p, .encLoop (h.make p.len p.len).2 0, rounds, false⟩]) := by
    simp only [run, List.getElem?_cons_zero, h1, List.set_cons_zero]
  have e2 := stepOtp_encLoop e iterations p (h.make p.len p.len).2 rounds false p.len 0
    (0 + [0].length) (h.make p.len p.len).1 (Nat.zero_add _)
  have e3 : ∀ g k, run (fun _ h w => Worker.stepOtp e iterations h w) [0] k g
      [⟨p, .encLoop (h.make p.len p.len).2 (0 + p.len), rounds, false⟩] =
      .ret (g, [⟨p, .decrypt (h.make p.len p.len).2, rounds, false⟩]) := by
    intro g k
    simp only [run, List.getElem?_cons_zero, h2, List.set_cons_zero]
  rw [hsplit, run_append, e1]
  simp only
  rw [run_append, e2]
  simp only [otpEncConfig.Encrypt]
  cases otpLoop e.key p (h.make p.len p.len).2 p.len 0 (h.make p.len p.len).1 with
  | panic => rfl
  | ret g => simp only [e3]

/-- The steps of a goroutine of `TestOTPConcurrency` from the call of `Decrypt`
through its return, run without another goroutine in between, are the method
`Decrypt` over the heap. -/
theorem stepOtp_Decrypt (e : otpEncConfig) (iterations : Nat) (h : Heap) (p c : Buf)
    (rounds : Nat) :
    run (fun _ h w => Worker.stepOtp e iterations h w) (List.replicate (c.len + 2) 0) 0 h
        [⟨p, .decrypt c, rounds, false⟩] =
      match e.Decrypt h c with
      | .panic => .panic
      | .ret (h1, pres, _) => .ret (h1, [⟨p, .compare pres, rounds, false⟩]) := by
  have hsplit : List.replicate (c.len + 2) 0 = [0] ++ (List.replicate c.len 0 ++ [0]) := by
    rw [show c.len + 2 = 1 + (c.len + 1) by omega, List.replicate_add, List.replicate_add]
    rfl
  have h1 : Worker.stepOtp e iterations h ⟨p, .decrypt c, rounds, false⟩ =
      .ret ((h.make c.len c.len).1, ⟨p, .decLoop c (h.make c.len c.len).2 0, rounds, false⟩) := by
    simp only [Worker.stepOtp]
  have h2 : ∀ g, Worker.stepOtp e iterations g
        ⟨p, .decLoop c (h.make c.len c.len).2 (0 + c.len), rounds, false⟩ =
      .ret (g, ⟨p, .compare (h.make c.len c.len).2, rounds, false⟩) := by
    intro g
    simp only [Worker.stepOtp, Nat.zero_add, Nat.lt_irrefl, if_false]
  have e1 : run (fun _ h w => Worker.stepOtp e iterations h w) [0] 0 h
      [⟨p, .decrypt c, rounds, false⟩] =
      .ret ((h.make c.len c.len).1,
        [⟨p, .decLoop c (h.make c.len c.len).2 0, rounds, false⟩]) := by
    simp only [run, List.getElem?_cons_zero, h1, List.set_cons_zero]
  have e2 := stepOtp_decLoop e iterations p c (h.make c.len c.len).2 rounds false c.len 0
    (0 + [0].length) (h.make c.len c.len).1 (Nat.zero_add _)
  have e3 : ∀ g k, run (fun _ h w => Worker.stepOtp e iterations h w) [0] k g
      [⟨p, .decLoop c (h.make c.len c.len).2 (0 + c.len), rounds, false⟩] =
      .ret (g, [⟨p, .compare (h.make c.len c.len).2, rounds, false⟩]) := by
    intro g k
    simp only [run, List.getElem?_cons_zero, h2, List.set_cons_zero]
  rw [hsplit, run_append, e1]
  simp only
  rw [run_append, e2]
  simp only [otpEncConfig.Decrypt, otpEncConfig.Encrypt]
  cases otpLoop e.key c (h.make c.len c.len).2 c.len 0 (h.make c.len c.len).1 with
  | panic => rfl
  | ret g => simp only [e3]

end encconfig.mem

namespace encconfig.mem

open Go

theorem Apart_iff (b p : Buf) : b.Apart p ↔ ∀ x, b.InArray x → ¬ p.InArray x := by
  cases b with
  | nil => exact ⟨fun _ _ hx => absurd hx id, fun _ => trivial⟩
  | ref a o l c =>
    cases p with
    | nil => exact ⟨fun _ _ _ hx => hx, fun _ => trivial⟩
    | ref a' o' l' c' =>
      constructor
      · intro h x h1 h2
        have e1 : a = x := h1
        have e2 : a' = x := h2
        exact h (e1.trans e2.symm)
      · intro h e1
        exact h a rfl e1.symm

theorem Apart_symm {b p : Buf} (h : b.Apart p) : p.Apart b := by
  rw [Apart_iff] at h ⊢
  exact fun x h1 h2 => h x h2 h1

/-- Windows that lie pairwise in different arrays, by their positions in the
list. -/
theorem Apart_of_pairwise (ps : List Buf) (hsep : ps.Pairwise Buf.Apart) (i j : Nat) (p q : Buf)
    (hij : i ≠ j) (hp : ps[i]? = some p) (hq : ps[j]? = some q) : p.Apart q := by
  obtain ⟨hi, rfl⟩ := List.getElem?_eq_some_iff.mp hp
  obtain ⟨hj, rfl⟩ := List.getElem?_eq_some_iff.mp hq
  rw [List.pairwise_iff_getElem] at hsep
  rcases Nat.lt_or_gt_of_ne hij with h | h
  · exact hsep i j hi hj h
  · exact Apart_symm (hsep j i hj hi h)

theorem AesPc.index_le (pc : AesPc) : pc.index ≤ 12 := by
  cases pc <;> simp [AesPc.index]

/-- A goroutine of `TestAESCBCConcurrency` that is in order and has made all
the steps of its round trips has completed them all. -/
theorem OkAes_done (aes : AES) (kb P : List Byte) (p : Buf) (iterations : Nat)
    (w : Worker AesPc) (h : Heap) (hw : w.OkAes aes kb P p iterations h)
    (hs : w.stepsAes = 13 * iterations) : w.rounds = iterations ∧ w.pc = .loop := by
  obtain ⟨_, _, _, _, hr1, hr2⟩ := hw
  have hi := AesPc.index_le w.pc
  simp only [Worker.stepsAes] at hs
  by_cases hpc : w.pc = .loop
  · rw [hpc] at hs
    simp only [AesPc.index] at hs
    exact ⟨by omega, hpc⟩
  · have := hr2 hpc
    omega

/-- The same for a goroutine of `TestOTPConcurrency`. -/
theorem OkOtp_done (kb P : List Byte) (p : Buf) (iterations : Nat)
    (w : Worker OtpPc) (h : Heap) (hw : w.OkOtp kb P p iterations h)
    (hs : w.stepsOtp = (2 * p.len + 5) * iterations) : w.rounds = iterations ∧ w.pc = .loop := by
  obtain ⟨p0, pc, rounds, failed⟩ := w
  obtain ⟨hp0, _, hpl, hpc, hr1, hr2⟩ := hw
  simp only at hp0 hr1 hr2 hpc
  subst hp0
  simp only [Worker.stepsOtp] at hs
  have hmul : rounds < iterations →
      (2 * p0.len + 5) * rounds + (2 * p0.len + 5) ≤ (2 * p0.len + 5) * iterations := by
    intro hr
    have := Nat.mul_le_mul_left (2 * p0.len + 5) (Nat.succ_le_of_lt hr)
    rwa [Nat.mul_succ] at this
  cases pc with
  | loop =>
    simp only [OtpPc.index, Nat.add_zero] at hs
    refine ⟨?_, rfl⟩
    exact Nat.eq_of_mul_eq_mul_left (by omega) hs
  | encLoop out i =>
    have := hmul (hr2 (by simp))
    have := hpc.2.2.2.1
    simp only [OtpPc.index] at hs
    omega
  | decrypt c =>
    have := hmul (hr2 (by simp))
    simp only [OtpPc.index] at hs
    omega
  | decLoop m out i =>
    have := hmul (hr2 (by simp))
    have := hpc.2.2.2.2.1
    simp only [OtpPc.index] at hs
    omega
  | compare pres =>
    have := hmul (hr2 (by simp))
    simp only [OtpPc.index] at hs
    omega

end encconfig.mem

/-- C34 (counterexample). Two goroutines share the cipher of the key `"this is
a key!!!"`; their plaintexts are the windows `buf[0:16]` (capacity 48) and
`buf[8:16]` (capacity 40) of one array. When the second goroutine runs the
`append` of its `pkcs7pad` between the `append` of the first and its
`CryptBlocks`, it overwrites padding of the first: the `Decrypt` of the first
goroutine returns nil and the goroutine reports that its plaintext does not
match. Run call after call, the same goroutines complete their round trips
without an error. -/
theorem shared_array_round_trip_fails :
    Examples.heap3.Valid Examples.bufA ∧ Examples.heap3.Valid Examples.bufB ∧
    Examples.heap3.Valid Examples.memCfg0.key ∧
    Examples.outcomeOf (encconfig.mem.run
      (fun _ h w => encconfig.mem.Worker.stepAes Examples.xorAES Examples.memCfg0 1
        (.ok Examples.countingReader) h w)
      (Examples.raceSchedule.take 14) 0 Examples.heap3
      [encconfig.mem.Worker.startAes Examples.bufA,
       encconfig.mem.Worker.startAes Examples.bufB]) =
      .ret [(.compare .nil, 0, false), (.padded (.ref 1 8 16 40), 0, false)] ∧
    Examples.outcomeOf (encconfig.mem.run
      (fun _ h w => encconfig.mem.Worker.stepAes Examples.xorAES Examples.memCfg0 1
        (.ok Examples.countingReader) h w)
      Examples.raceSchedule 0 Examples.heap3
      [encconfig.mem.Worker.startAes Examples.bufA,
       encconfig.mem.Worker.startAes Examples.bufB]) =
      .ret [(.loop, 1, true), (.padded (.ref 1 8 16 40), 0, false)] ∧
    Examples.outcomeOf (encconfig.mem.run
      (fun _ h w => encconfig.mem.Worker.stepAes Examples.xorAES Examples.memCfg0 1
        (.ok Examples.countingReader) h w)
      Examples.callSchedule 0 Examples.heap3
      [encconfig.mem.Worker.startAes Examples.bufA,
       encconfig.mem.Worker.startAes Examples.bufB]) =
      .ret [(.loop, 1, false), (.loop, 1, false)] := by
  refine ⟨by decide, by decide, by decide, ?_, ?_, ?_⟩
  · set_option maxRecDepth 100000 in decide
  · set_option maxRecDepth 100000 in decide
  · set_option maxRecDepth 100000 in decide

/-- C34 (amended). One cipher shared by many goroutines. Goroutines hold
well-formed plaintexts `ps` in a heap `h0` and run the loop of `enc_test`
(`Encrypt`, `Decrypt`, `bytes.Compare`, `iterations` times) on one cipher, their
steps interleaved in the order of an arbitrary schedule, one step for every
access to the heap. For an AES-CBC cipher with a key of 16, 24 or 32 bytes, over
a block primitive that inverts and a random reader that delivers, when the
plaintexts lie in pairwise different backing arrays, none of them the array of
the key; and for a one-time pad with a non-empty key, wherever the plaintexts
lie: the run returns (no panic); no goroutine has reported an error or a
plaintext that does not match; every plaintext and the key of the cipher hold
the bytes they held at the start; every goroutine has made exactly the steps
the schedule gave it, up to the steps of its `iterations` round trips, and has
completed all its round trips when the schedule gave it that many; and a
goroutine about to compare holds in `pres` the bytes of its own plaintext. -/
theorem shared_cipher_round_trips (aes : Go.AES) (h0 : Go.Heap) (ps : List Go.Buf)
    (hps : ∀ p ∈ ps, h0.Valid p) (iterations : Nat) (f : Nat → Nat → Go.Byte)
    (sched : List Nat) :
    (∀ e : encconfig.mem.aesCBCEncConfig, h0.Valid e.key →
      (e.key.len = 16 ∨ e.key.len = 24 ∨ e.key.len = 32) → e.blockSize = (Go.BlockSize : Int) →
      (∀ b, aes.decrypt (h0.read e.key) (aes.encrypt (h0.read e.key) b) = b) →
      (∀ p ∈ ps, p.Apart e.key) → ps.Pairwise Go.Buf.Apart →
      ∃ h ws, encconfig.mem.run
          (fun n h w => encconfig.mem.Worker.stepAes aes e iterations (.ok (f n)) h w)
          sched 0 h0 (ps.map encconfig.mem.Worker.startAes) = .ret (h, ws) ∧
        ws.length = ps.length ∧ h.read e.key = h0.read e.key ∧
        ∀ (i : Nat) p, ps[i]? = some p →
          ∃ w, ws[i]? = some w ∧ w.p = p ∧ w.failed = false ∧ h.read p = h0.read p ∧
            w.stepsAes = min (sched.count i) (13 * iterations) ∧
            (13 * iterations ≤ sched.count i → w.rounds = iterations ∧ w.pc = .loop) ∧
            ∀ pres, w.pc = .compare pres → h.read pres = h0.read p) ∧
    (∀ e : encconfig.mem.otpEncConfig, h0.Valid e.key → e.key.len ≠ 0 →
      ∃ h ws, encconfig.mem.run
          (fun _ h w => encconfig.mem.Worker.stepOtp e iterations h w)
          sched 0 h0 (ps.map encconfig.mem.Worker.startOtp) = .ret (h, ws) ∧
        ws.length = ps.length ∧ h.read e.key = h0.read e.key ∧
        ∀ (i : Nat) p, ps[i]? = some p →
          ∃ w, ws[i]? = some w ∧ w.p = p ∧ w.failed = false ∧ h.read p = h0.read p ∧
            w.stepsOtp = min (sched.count i) ((2 * p.len + 5) * iterations) ∧
            ((2 * p.len + 5) * iterations ≤ sched.count i →
              w.rounds = iterations ∧ w.pc = .loop) ∧
            ∀ pres, w.pc = .compare pres → h.read pres = h0.read p) := by
  constructor
  · intro e hk hlen hb hinv hkey hsep
    obtain ⟨h, ws, hrun, hl, hkh, hall⟩ := encconfig.mem.run_aes aes e h0 ps hps iterations f
      sched hk hlen hb hinv
      (fun p hp => (encconfig.mem.Apart_iff p e.key).mp (hkey p hp))
      (fun i j p q hij hp hq =>
        (encconfig.mem.Apart_iff p q).mp (encconfig.mem.Apart_of_pairwise ps hsep i j p q hij hp hq))
    refine ⟨h, ws, hrun, hl, hkh.2, fun i p hp => ?_⟩
    obtain ⟨w, hw, hok, hst⟩ := hall i p hp
    refine ⟨w, hw, hok.1, hok.2.1, hok.2.2.1.2, hst, fun hc => ?_, fun pres hpc => ?_⟩
    · exact encconfig.mem.OkAes_done aes _ _ p iterations w h hok (by rw [hst]; omega)
    · have := hok.2.2.2.1
      rw [hpc] at this
      exact this.2
  · intro e hk hkne
    obtain ⟨h, ws, hrun, hl, hkh, hph, hall⟩ := encconfig.mem.run_otp e h0 ps hps iterations
      sched hk hkne
    refine ⟨h, ws, hrun, hl, hkh.2, fun i p hp => ?_⟩
    obtain ⟨w, hw, hok, hst⟩ := hall i p hp
    refine ⟨w, hw, hok.1, hok.2.1, (hph p (List.getElem?_mem hp)).2, hst, fun hc => ?_,
      fun pres hpc => ?_⟩
    · exact encconfig.mem.OkOtp_done _ _ p iterations w h hok (by rw [hst]; omega)
    · have := hok.2.2.2.1
      rw [hpc] at this
      exact this.2

/-- Witness for C34: two goroutines share the cipher of the key `"this is a
key!!!"`; the plaintext of the first has spare capacity, so that `append` pads
it in place, the plaintext of the second lies in another array. Under the
schedule of the counterexample both are in order, and goroutine 0 has completed
its round trip. For the one-time pad the two goroutines of the counterexample,
whose plaintexts share an array, are in order as well. -/
theorem shared_cipher_round_trips_witness :
    (∀ p ∈ [Examples.bufA, Examples.bufC], Examples.heap3.Valid p) ∧
    (∀ p ∈ [Examples.bufA, Examples.bufC], p.Apart Examples.memCfg0.key) ∧
    [Examples.bufA, Examples.bufC].Pairwise Go.Buf.Apart ∧
    Examples.outcomeOf (encconfig.mem.run
      (fun _ h w => encconfig.mem.Worker.stepAes Examples.xorAES Examples.memCfg0 1
        (.ok Examples.countingReader) h w)
      Examples.raceSchedule 0 Examples.heap3
      ([Examples.bufA, Examples.bufC].map encconfig.mem.Worker.startAes)) =
      .ret [(.loop, 1, false), (.padded (.ref 5 0 32 32), 0, false)] ∧
    (∃ h ws, encconfig.mem.run
        (fun _ h w => encconfig.mem.Worker.stepAes Examples.xorAES Examples.memCfg0 1
          (.ok Examples.countingReader) h w)
        Examples.raceSchedule 0 Examples.heap3
        ([Examples.bufA, Examples.bufC].map encconfig.mem.Worker.startAes) = .ret (h, ws) ∧
      ws.length = [Examples.bufA, Examples.bufC].length ∧
      h.read Examples.memCfg0.key = Examples.heap3.read Examples.memCfg0.key ∧
      ∀ (i : Nat) p, [Examples.bufA, Examples.bufC][i]? = some p →
        ∃ w, ws[i]? = some w ∧ w.p = p ∧ w.failed = false ∧
          h.read p = Examples.heap3.read p ∧
          w.stepsAes = min (Examples.raceSchedule.count i) (13 * 1) ∧
          (13 * 1 ≤ Examples.raceSchedule.count i → w.rounds = 1 ∧ w.pc = .loop) ∧
          ∀ pres, w.pc = .compare pres → h.read pres = Examples.heap3.read p) ∧
    (∀ p ∈ [Examples.bufA, Examples.bufB], Examples.heap3.Valid p) ∧
    ∃ h ws, encconfig.mem.run
        (fun _ h w => encconfig.mem.Worker.stepOtp Examples.memOtp0 1 h w)
        Examples.raceSchedule 0 Examples.heap3
        ([Examples.bufA, Examples.bufB].map encconfig.mem.Worker.startOtp) = .ret (h, ws) ∧
      ws.length = [Examples.bufA, Examples.bufB].length ∧
      h.read Examples.memOtp0.key = Examples.heap3.read Examples.memOtp0.key ∧
      ∀ (i : Nat) p, [Examples.bufA, Examples.bufB][i]? = some p →
        ∃ w, ws[i]? = some w ∧ w.p = p ∧ w.failed = false ∧
          h.read p = Examples.heap3.read p ∧
          w.stepsOtp = min (Examples.raceSchedule.count i) ((2 * p.len + 5) * 1) ∧
          ((2 * p.len + 5) * 1 ≤ Examples.raceSchedule.count i →
            w.rounds = 1 ∧ w.pc = .loop) ∧
          ∀ pres, w.pc = .compare pres → h.read pres = Examples.heap3.read p :=
  ⟨by decide, by decide, by decide, by set_option maxRecDepth 100000 in decide,
    (shared_cipher_round_trips Examples.xorAES Examples.heap3 [Examples.bufA, Examples.bufC]
      (by decide) 1 (fun _ => Examples.countingReader) Examples.raceSchedule).1 Examples.memCfg0
      (by decide) (by decide) rfl (fun b => Examples.xorAES_inverts _ b) (by decide)
      (by decide),
    by decide,
    (shared_cipher_round_trips Examples.xorAES Examples.heap3 [Examples.bufA, Examples.bufB]
      (by decide) 1 (fun _ => Examples.countingReader) Examples.raceSchedule).2 Examples.memOtp0
      (by decide) (by decide)⟩

/-- C35. Reference behaviour on a padding failure. For a cipher built by
`NewAESCBCEncConfig` and every input of at least 16 bytes whose length is a
multiple of 16: when `pkcs7unpad` rejects the CBC-decrypted body (the body is
empty, or it does not end in a valid padding), `Decrypt` returns a nil
plaintext with a nil error; and for every string that the codec decodes to
such an input, the unwrapper of both packages returns the empty string with a
nil error. -/
theorem padding_failure_returns_nil_nil (aes : Go.AES) (b64 : Go.Base64) (key : Go.Slice)
    (e : encconfig.aesCBCEncConfig) (he : encconfig.NewAESCBCEncConfig key = (some e, none))
    (c : List Go.Byte) (h16 : 16 ≤ c.length) (hmod : (c.length - 16) % 16 = 0)
    (x : Go.Slice) (err : Go.Err)
    (hpad : encconfig.pkcs7unpad
      (.mk (Go.joinBlocks (Go.cbcDecrypt (aes.decrypt key.bytes) (Go.mkBlock (c.take 16))
        (Go.toBlocks ((c.length - 16) / 16) (c.drop 16))))) 16 = (x, some err)) :
    e.Decrypt aes (.mk c) = .ret (.nil, none) ∧
    ∀ s, b64.DecodeString s = (c, none) →
      (skeysapiv3.GetWrappers b64 (e.toEncConfig aes)).2 s = .ret ([], none) ∧
      (skeysapi.GetWrappers b64 (e.toEncConfig aes)).2 s = .ret ([], none) := by
  obtain ⟨rfl, hlen⟩ := encconfig.NewAESCBCEncConfig_some key e he
  have hk := encconfig.NewCipher_of_len key hlen
  have hD : encconfig.aesCBCEncConfig.Decrypt aes
      { key := .mk key.bytes, blockSize := (Go.BlockSize : Int) } (.mk c) = .ret (.nil, none) := by
    unfold encconfig.aesCBCEncConfig.Decrypt
    have hl : ¬ ((Go.Slice.mk c).len < Go.BlockSize) := by
      simp only [encconfig.Slice_len_mk, encconfig.BlockSize_eq]; omega
    have hm : ¬ ((c.drop Go.BlockSize).length % Go.BlockSize ≠ 0) := by
      simp only [encconfig.BlockSize_eq, List.length_drop, ne_eq, not_not]; exact hmod
    have hcb := encconfig.cbc_decrypt_blocks (aes.decrypt key.bytes) (Go.mkBlock (c.take 16))
      (c.drop 16) ((c.length - 16) / 16) (by rw [List.length_drop]; omega)
    simp only [hk, hl, if_false, encconfig.Slice_bytes_mk, hm]
    have hu16 : Go.uint16 ((16 : Nat) : Int) = 16 := by decide
    simp only [encconfig.BlockSize_eq, hcb, hu16, hpad]
  refine ⟨hD, fun s hs => ?_⟩
  rw [skeysapiv3.GetWrappers_eq]
  refine ⟨?_, ?_⟩ <;>
    simp only [skeysapi.GetWrappers, hs, encconfig.aesCBCEncConfig.toEncConfig, hD] <;> rfl

/-- Witness for C35: 32 zero bytes under the key `"this is a key!!!"`; with the
stand-in block primitive the decrypted body ends in the byte 33, which is no
padding. -/
theorem padding_failure_returns_nil_nil_witness :
    encconfig.NewAESCBCEncConfig Examples.key16 = (some Examples.cfg16, none) ∧
    16 ≤ (List.replicate 32 (0 : Go.Byte)).length ∧
    ((List.replicate 32 (0 : Go.Byte)).length - 16) % 16 = 0 ∧
    encconfig.pkcs7unpad
      (.mk (Go.joinBlocks (Go.cbcDecrypt (Examples.xorAES.decrypt Examples.key16.bytes)
        (Go.mkBlock ((List.replicate 32 (0 : Go.Byte)).take 16))
        (Go.toBlocks (((List.replicate 32 (0 : Go.Byte)).length - 16) / 16)
          ((List.replicate 32 (0 : Go.Byte)).drop 16))))) 16 =
      (.nil, some .ErrPKCS7PaddingInvalid) ∧
    Examples.cfg16.Decrypt Examples.xorAES (.mk (List.replicate 32 0)) = .ret (.nil, none) ∧
    ∀ s, Examples.hexCodec.DecodeString s = (List.replicate 32 0, none) →
      (skeysapiv3.GetWrappers Examples.hexCodec (Examples.cfg16.toEncConfig Examples.xorAES)).2 s =
        .ret ([], none) ∧
      (skeysapi.GetWrappers Examples.hexCodec (Examples.cfg16.toEncConfig Examples.xorAES)).2 s =
        .ret ([], none) :=
  have h := padding_failure_returns_nil_nil Examples.xorAES Examples.hexCodec Examples.key16
    Examples.cfg16 (by decide) (List.replicate 32 0) (by decide) (by decide) .nil
    .ErrPKCS7PaddingInvalid (by decide)
  ⟨by decide, by decide, by decide, by decide, h.1, h.2⟩

/-- C36. Transactions, compaction and watchers are pure delegation. For every
store `k` and whatever the wrap and unwrap functions of the wrapper are (also
functions that would panic if called): the v3 wrapper's `Txn(ctx)` is the
transaction `k.Txn(ctx)`, its `Compact(ctx, rev, opts)` returns the state,
response and error of `k.Compact(ctx, rev, opts)`, and the v2 wrapper's
`Watcher(key, opts)` is `k.Watcher(key, opts)`. -/
theorem txn_compact_watcher_delegate {σ Ctx Opts W τ Ctx3 Opts3 CR T : Type}
    (k2 : skeysapi.KeysAPI σ Ctx Opts W) (wrap2 : Option skeysapi.ValueGetWrapFunc)
    (unwrap2 : Option skeysapi.ValueSetUnwrapFunc)
    (k3 : skeysapiv3.KV τ Ctx3 Opts3 CR T) (wrap3 : Option skeysapiv3.ValueGetWrapFunc)
    (unwrap3 : Option skeysapiv3.ValueSetUnwrapFunc) :
    (∀ ctx, skeysapiv3.secureKV.Txn
        { k := k3, valueSetWrap := wrap3, valueGetUnwrap := unwrap3 } ctx = k3.Txn ctx) ∧
    (∀ st ctx rev opts, skeysapiv3.secureKV.Compact
        { k := k3, valueSetWrap := wrap3, valueGetUnwrap := unwrap3 } st ctx rev opts =
      k3.Compact st ctx rev opts) ∧
    (∀ key opts, skeysapi.secureKeysAPI.Watcher
        { k := k2, valueSetWrap := wrap2, valueGetUnwrap := unwrap2 } key opts =
      k2.Watcher key opts) ∧
    skeysapiv3.secureKV.Txn
        { k := k3, valueSetWrap := some (fun _ _ => .panic),
          valueGetUnwrap := some (fun _ => .panic) } = k3.Txn ∧
    skeysapiv3.secureKV.Compact
        { k := k3, valueSetWrap := some (fun _ _ => .panic),
          valueGetUnwrap := some (fun _ => .panic) } = k3.Compact ∧
    skeysapi.secureKeysAPI.Watcher
        { k := k2, valueSetWrap := some (fun _ _ => .panic),
          valueGetUnwrap := some (fun _ => .panic) } = k2.Watcher :=
  ⟨fun _ => rfl, fun _ _ _ _ => rfl, fun _ _ => rfl, rfl, rfl, rfl⟩

/-- C37. For every cipher returned by a successful `NewAESCBCEncConfig`: the
key it holds has 16, 24 or 32 bytes, so `aes.NewCipher` accepts it, and its
block size is 16. `Encrypt` never panics; it returns a ciphertext with a nil
error when the random reader delivers, and otherwise nil with the error of the
reader. `Decrypt` never panics; it returns `ErrAESCipherTooShort` for an input
shorter than 16 bytes, `ErrAESCipherBlockSizeNotMultiple` for a longer input
whose length is not a multiple of 16, and a nil error in every other case. -/
theorem key_setup_error_unreachable (aes : Go.AES) (key : Go.Slice)
    (e : encconfig.aesCBCEncConfig)
    (he : encconfig.NewAESCBCEncConfig key = (some e, none)) :
    Go.NewCipher e.key = none ∧ (e.key.len = 16 ∨ e.key.len = 24 ∨ e.key.len = 32) ∧
    e.blockSize = 16 ∧
    (∀ rnd p, (∃ f c, rnd = .ok f ∧ e.Encrypt aes rnd p = .ret (c, none)) ∨
      (∃ err, rnd = .error err ∧ e.Encrypt aes rnd p = .ret (.nil, some err))) ∧
    (∀ c, (c.len < 16 ∧ e.Decrypt aes c = .ret (.nil, some .ErrAESCipherTooShort)) ∨
      (16 ≤ c.len ∧ (c.len - 16) % 16 ≠ 0 ∧
        e.Decrypt aes c = .ret (.nil, some .ErrAESCipherBlockSizeNotMultiple)) ∨
      (16 ≤ c.len ∧ (c.len - 16) % 16 = 0 ∧ ∃ q, e.Decrypt aes c = .ret (q, none))) := by
  obtain ⟨rfl, hlen⟩ := encconfig.NewAESCBCEncConfig_some key e he
  have hk := encconfig.NewCipher_of_len key hlen
  refine ⟨hk, hlen, rfl, ?_, ?_⟩
  · intro rnd p
    cases rnd with
    | ok f => exact Or.inl ⟨f, _, rfl, encconfig.aes_Encrypt_eq aes _ hk rfl f p⟩
    | error err => exact Or.inr ⟨err, rfl, encconfig.aes_Encrypt_read_error aes _ hk rfl err p⟩
  · intro c
    unfold encconfig.aesCBCEncConfig.Decrypt
    simp only [hk, encconfig.BlockSize_eq, List.length_drop]
    by_cases h1 : c.len < 16
    · exact Or.inl ⟨h1, by simp only [h1, if_true]⟩
    · have h16 : 16 ≤ c.len := by omega
      have hl : c.bytes.length = c.len := rfl
      by_cases h2 : (c.len - 16) % 16 ≠ 0
      · refine Or.inr (Or.inl ⟨h16, h2, ?_⟩)
        simp only [h1, if_false, hl, h2, ne_eq, not_false_eq_true, if_true]
      · refine Or.inr (Or.inr ⟨h16, by omega, ?_⟩)
        have hcb := encconfig.cbc_decrypt_blocks (aes.decrypt key.bytes)
          (Go.mkBlock (c.bytes.take 16)) (c.bytes.drop 16) ((c.len - 16) / 16)
          (by rw [List.length_drop, hl]; omega)
        simp only [h1, if_false, hl, h2, encconfig.Slice_bytes_mk, hcb]
        split <;> exact ⟨_, rfl⟩

/-- Witness for C37: the cipher of the key `"this is a key!!!"`. -/
theorem key_setup_error_unreachable_witness :
    encconfig.NewAESCBCEncConfig Examples.key16 = (some Examples.cfg16, none) ∧
    Go.NewCipher Examples.cfg16.key = none ∧
    (∀ rnd p, (∃ f c, rnd = .ok f ∧ Examples.cfg16.Encrypt Examples.xorAES rnd p = .ret (c, none)) ∨
      (∃ err, rnd = .error err ∧
        Examples.cfg16.Encrypt Examples.xorAES rnd p = .ret (.nil, some err))) :=
  have h := key_setup_error_unreachable Examples.xorAES Examples.key16 Examples.cfg16 (by decide)
  ⟨by decide, h.1, h.2.2.2.1⟩

/-! ## The padding helpers -/

/-- C38 as stated fails at block size 256: the padding of the empty message is
256 bytes of value `byte(256) = 0`, and `pkcs7unpad` rejects a last byte 0 with
`ErrPKCS7PaddingInvalid`. At block size 300 the round trip returns, without an
error, 256 bytes instead of the empty message. -/
theorem pkcs7_round_trip_fails_at_256 :
    encconfig.pkcs7pad (.mk []) 256 = .ret (.mk (List.replicate 256 0)) ∧
    encconfig.pkcs7unpad (.mk (List.replicate 256 0)) 256 =
      (.nil, some .ErrPKCS7PaddingInvalid) ∧
    encconfig.pkcs7pad (.mk []) 300 = .ret (.mk (List.replicate 300 44)) ∧
    encconfig.pkcs7unpad (.mk (List.replicate 300 44)) 300 =
      (.mk (List.replicate 256 44), none) := by
  have hl0 : (Go.Slice.mk (List.replicate 256 (0 : Go.Byte))).bytes.getLast? = some 0 := by
    rw [encconfig.Slice_bytes_mk, List.getLast?_replicate]; rfl
  have hl44 : (Go.Slice.mk (List.replicate 300 (44 : Go.Byte))).bytes.getLast? = some 44 := by
    rw [encconfig.Slice_bytes_mk, List.getLast?_replicate]; rfl
  refine ⟨?_, ?_, ?_, ?_⟩
  · rw [encconfig.pkcs7pad_eq _ 256 (by decide)]; rfl
  · rw [encconfig.pkcs7unpad_of_last _ 256 0 hl0]
    rfl
  · rw [encconfig.pkcs7pad_eq _ 300 (by decide)]; rfl
  · rw [encconfig.pkcs7unpad_of_last _ 300 44 hl44]
    have hlen : (Go.Slice.mk (List.replicate 300 (44 : Go.Byte))).len = 300 := by
      rw [encconfig.Slice_len_mk, List.length_replicate]
    have hv : (44 : Go.Byte).val = 44 := rfl
    rw [hlen, hv, encconfig.Slice_bytes_mk, List.drop_replicate, List.take_replicate,
      List.any_replicate]
    rfl

/-- C38, amended. For every message `m` and every non-zero block size `b` for
which the padding count `b - len(m) mod b` is at most 255, in particular for
every block size from 1 to 255, `pkcs7pad(m, b)` returns and `pkcs7unpad` of
its result at block size `b` succeeds and returns the bytes of `m`. -/
theorem pkcs7_round_trip (m : Go.Slice) (b : Nat) (hb : 1 ≤ b)
    (h : b ≤ 255 ∨ b - m.len % b ≤ 255) :
    ∃ x, encconfig.pkcs7pad m b = .ret x ∧ encconfig.pkcs7unpad x b = (.mk m.bytes, none) := by
  have hn := encconfig.numPad_bounds m.len b hb
  have h255 : b - m.len % b < 256 := by
    rcases h with h | h <;> omega
  exact ⟨_, encconfig.pkcs7pad_eq m b hb,
    encconfig.pkcs7unpad_append_replicate m.bytes (b - m.len % b) b hn.1 h255 hn.2⟩

/-- Witness for C38, amended: `"bar"` at block size 255. -/
theorem pkcs7_round_trip_witness :
    1 ≤ 255 ∧ (255 ≤ 255 ∨ 255 - (Go.Slice.mk Examples.bar).len % 255 ≤ 255) ∧
    ∃ x, encconfig.pkcs7pad (.mk Examples.bar) 255 = .ret x ∧
      encconfig.pkcs7unpad x 255 = (.mk (Go.Slice.mk Examples.bar).bytes, none) :=
  ⟨by decide, Or.inl (by decide),
    pkcs7_round_trip (.mk Examples.bar) 255 (by decide) (Or.inl (by decide))⟩

namespace encconfig

open Go

/-- What a successful `pkcs7unpad` says about its input: the last byte `n` is
between 1 and the block size, the input ends in `n` bytes of value `n`, and the
result is the input without them. -/
theorem pkcs7unpad_ok (m x : Slice) (b : Nat) (h : pkcs7unpad m b = (x, none)) :
    ∃ n : Nat, 1 ≤ n ∧ n ≤ m.len ∧ n ≤ b ∧ n < 256 ∧
      x = .mk (m.bytes.take (m.len - n)) ∧
      m.bytes.drop (m.len - n) = List.replicate n (byte n) := by
  cases hl : m.bytes.getLast? with
  | none =>
    have h0 : m.len = 0 := by
      have : m.bytes = [] := List.getLast?_eq_none_iff.mp hl
      simp [Slice.len, this]
    unfold pkcs7unpad at h
    simp [h0] at h
  | some last =>
    rw [pkcs7unpad_of_last m b last hl] at h
    split at h
    · simp at h
    · rename_i h0
      split at h
      · simp at h
      · rename_i h1
        split at h
        · simp at h
        · rename_i h2
          simp only [Prod.mk.injEq, and_true] at h
          refine ⟨last.val, by omega, by omega, by omega, last.isLt, h.symm, ?_⟩
          rw [byte_val_self]
          rw [List.eq_replicate_iff]
          constructor
          · rw [List.length_drop]
            show m.len - (m.len - last.val) = last.val
            omega
          · intro k hk
            by_contra hne
            apply h2
            rw [List.any_eq_true]
            exact ⟨k, hk, by simpa using hne⟩

end encconfig

/-- C39. Padding is canonical on block-aligned input. At block size 16, for
every `m` whose length is a multiple of 16: when `pkcs7unpad(m, 16)` succeeds
with the result `x`, `pkcs7pad(x, 16)` returns `m`. Hence two block-aligned
inputs on which `pkcs7unpad` succeeds with results holding the same bytes are
equal. -/
theorem pkcs7pad_of_pkcs7unpad (m : Go.Slice) (hm : m.len % 16 = 0) (x : Go.Slice)
    (hx : encconfig.pkcs7unpad m 16 = (x, none)) :
    encconfig.pkcs7pad x 16 = .ret m ∧
    ∀ m2 x2 : Go.Slice, m2.len % 16 = 0 → encconfig.pkcs7unpad m2 16 = (x2, none) →
      x2.bytes = x.bytes → m2 = m := by
  have key : ∀ (m x : Go.Slice), m.len % 16 = 0 → encconfig.pkcs7unpad m 16 = (x, none) →
      encconfig.pkcs7pad x 16 = .ret (.mk m.bytes) ∧ m = .mk m.bytes := by
    intro m x hm hx
    obtain ⟨n, h1, h2, h3, _, rfl, hdrop⟩ := encconfig.pkcs7unpad_ok m x 16 hx
    have hml : m.bytes.length = m.len := rfl
    have hlen : (Go.Slice.mk (m.bytes.take (m.len - n))).len = m.len - n := by
      rw [encconfig.Slice_len_mk, List.length_take, hml]
      omega
    have hn : 16 - (m.len - n) % 16 = n := by omega
    constructor
    · rw [encconfig.pkcs7pad_eq _ 16 (by decide), hlen, hn, encconfig.Slice_bytes_mk, ← hdrop,
        List.take_append_drop]
    · cases m with
      | nil => simp [Go.Slice.len, Go.Slice.bytes] at h2; omega
      | mk bs => rfl
  obtain ⟨hp, hmk⟩ := key m x hm hx
  refine ⟨by rw [hp, ← hmk], fun m2 x2 hm2 hx2 hb => ?_⟩
  obtain ⟨hp2, hmk2⟩ := key m2 x2 hm2 hx2
  have e1 : encconfig.pkcs7pad x2 16 = encconfig.pkcs7pad x 16 := by
    rw [encconfig.pkcs7pad_eq _ 16 (by decide), encconfig.pkcs7pad_eq _ 16 (by decide)]
    simp only [Go.Slice.len, hb]
  rw [hp2, hp] at e1
  simp only [Go.Outcome.ret.injEq] at e1
  rw [hmk2, hmk, e1]

/-- Witness for C39: `"bar"` followed by thirteen bytes of value 13. -/
theorem pkcs7pad_of_pkcs7unpad_witness :
    (Go.Slice.mk (Examples.bar ++ List.replicate 13 13)).len % 16 = 0 ∧
    encconfig.pkcs7unpad (.mk (Examples.bar ++ List.replicate 13 13)) 16 =
      (.mk Examples.bar, none) ∧
    encconfig.pkcs7pad (.mk Examples.bar) 16 =
      .ret (.mk (Examples.bar ++ List.replicate 13 13)) :=
  ⟨by decide, by decide,
    (pkcs7pad_of_pkcs7unpad (.mk (Examples.bar ++ List.replicate 13 13)) (by decide)
      (.mk Examples.bar) (by decide)).1⟩
